import Mathlib

/-!
Verification of `pqsort.c` and `sds.c` (redis-1.0-annotation).

Shallow embedding of the partial quicksort `pqsort` / `_pqsort` of `src/pqsort.c`
and of `sdssplitlen` of `src/sds.c`, with the properties established about them.

Memory model for `pqsort.c`.

The buffer `a` of `n` elements of `es` bytes each is a map from element index to
element value (`Nat → α`).  A `char *` pointing at an element of the buffer is
the index of that element; byte quantities (`r`, `lrange`, `rrange`, `_l`, `_r`)
are kept in bytes, i.e. scaled by `es`, exactly where the source compares them.
The comparator reads the two elements it is pointed at and returns an `Int`.
`swaptype` only selects how the bytes of two elements are exchanged and has no
counterpart here.
-/

namespace Pqsort

variable {α : Type}

/-- The `swap(a, b)` of `pqsort.c`: exchange the elements at indices `i` and `j`. -/
def swap (m : Nat → α) (i j : Nat) : Nat → α :=
  fun k => if k = i then m j else if k = j then m i else m k

/-- The `vecswap(a, b, n)` of `pqsort.c` (through `swapfunc`): exchange the `cnt`
elements starting at `a` with the `cnt` elements starting at `b`, front to back;
nothing happens when `cnt = 0`. -/
def vecswap (m : Nat → α) (a b : Nat) : Nat → (Nat → α)
  | 0 => m
  | cnt + 1 => vecswap (swap m a b) (a + 1) (b + 1) cnt

/-- The `med3` of `pqsort.c`: the position, among `a`, `b`, `c`, of the median of
the three elements found there. -/
def med3 (cmp : α → α → Int) (m : Nat → α) (a b c : Nat) : Nat :=
  if cmp (m a) (m b) < 0 then
    (if cmp (m b) (m c) < 0 then b else (if cmp (m a) (m c) < 0 then c else a))
  else
    (if cmp (m b) (m c) > 0 then b else (if cmp (m a) (m c) < 0 then a else c))

/-- Inner loop of the insertion sort of `_pqsort`:
`for (pl = pm; pl > a && cmp(pl - es, pl) > 0; pl -= es) swap(pl, pl - es);`
by recursion on the position `pl`. -/
def insertInner (cmp : α → α → Int) (a : Nat) : Nat → (Nat → α) → (Nat → α)
  | 0, m => m
  | pl + 1, m =>
    if pl + 1 > a ∧ cmp (m pl) (m (pl + 1)) > 0 then
      insertInner cmp a pl (swap m (pl + 1) pl)
    else m

/-- Outer loop of the insertion sort of `_pqsort`:
`for (pm = a + es; pm < a + n * es; pm += es) <inner loop>`; the first argument
bounds the number of iterations still to run. -/
def insertOuter (cmp : α → α → Int) (a n : Nat) : Nat → Nat → (Nat → α) → (Nat → α)
  | 0, _, m => m
  | fuel + 1, pm, m =>
    if pm < a + n then insertOuter cmp a n fuel (pm + 1) (insertInner cmp a pm m)
    else m

/-- The insertion sort of `_pqsort` on the window of `n` elements starting at `a`
(the loop runs at most `n` times). -/
def insertionSort (cmp : α → α → Int) (a n : Nat) (m : Nat → α) : Nat → α :=
  insertOuter cmp a n n (a + 1) m

/-- The local variables of the partition loop of `_pqsort`. -/
structure PState (α : Type) where
  m : Nat → α
  pa : Nat
  pb : Nat
  pc : Nat
  pd : Nat
  swap_cnt : Nat

/-- First inner loop of the partition:
`while (pb <= pc && (cmp_result = cmp(pb, a)) <= 0) { ... pb += es; }`;
the first argument bounds the number of iterations still to run. -/
def scanUp (cmp : α → α → Int) (a : Nat) : Nat → PState α → PState α
  | 0, s => s
  | fuel + 1, s =>
    if s.pb ≤ s.pc ∧ cmp (s.m s.pb) (s.m a) ≤ 0 then
      if cmp (s.m s.pb) (s.m a) = 0 then
        scanUp cmp a fuel
          { s with swap_cnt := 1, m := swap s.m s.pa s.pb, pa := s.pa + 1, pb := s.pb + 1 }
      else
        scanUp cmp a fuel { s with pb := s.pb + 1 }
    else s

/-- Second inner loop of the partition:
`while (pb <= pc && (cmp_result = cmp(pc, a)) >= 0) { ... pc -= es; }`. -/
def scanDown (cmp : α → α → Int) (a : Nat) : Nat → PState α → PState α
  | 0, s => s
  | fuel + 1, s =>
    if s.pb ≤ s.pc ∧ cmp (s.m s.pc) (s.m a) ≥ 0 then
      if cmp (s.m s.pc) (s.m a) = 0 then
        scanDown cmp a fuel
          { s with swap_cnt := 1, m := swap s.m s.pc s.pd, pd := s.pd - 1, pc := s.pc - 1 }
      else
        scanDown cmp a fuel { s with pc := s.pc - 1 }
    else s

/-- The `for (;;)` partition loop of `_pqsort`: scan up, scan down, stop when the
cursors have crossed, otherwise exchange and step both cursors. -/
def partitionLoop (cmp : α → α → Int) (a : Nat) : Nat → PState α → PState α
  | 0, s => s
  | fuel + 1, s =>
    let s1 := scanUp cmp a (s.pc + 1 - s.pb) s
    let s2 := scanDown cmp a (s1.pc + 1 - s1.pb) s1
    if s2.pb > s2.pc then s2
    else
      partitionLoop cmp a fuel
        { s2 with m := swap s2.m s2.pb s2.pc, swap_cnt := 1, pb := s2.pb + 1, pc := s2.pc - 1 }

/-- Pivot selection of `_pqsort`: the middle element for `n = 7`, the median of
first, middle and last for `7 < n ≤ 40`, the median of three medians for
`n > 40`. -/
def choosePivot (cmp : α → α → Int) (m : Nat → α) (a n : Nat) : Nat :=
  let pm := a + n / 2
  if n > 7 then
    let pl := a
    let pn := a + (n - 1)
    if n > 40 then
      let d := n / 8
      let pl := med3 cmp m pl (pl + d) (pl + 2 * d)
      let pm := med3 cmp m (pm - d) pm (pm + d)
      let pn := med3 cmp m (pn - 2 * d) (pn - d) pn
      med3 cmp m pl pm pn
    else med3 cmp m pl pm pn
  else pm

/-- The range test guarding both the recursive call and the `goto loop`:
`!((lrange < _l && rrange < _l) || (lrange > _r && rrange > _r))`. -/
def overlaps (lrange rrange l r : Int) : Bool :=
  !((lrange < l && rrange < l) || (lrange > r && rrange > r))

/-- The partition phase of `_pqsort` on the window of `n` elements at `a`:
`swap(a, pm)`, `pa = pb = a + es`, `pc = pd = a + (n - 1) * es`, then the
`for (;;)` loop (which runs fewer than `n` times). -/
def partition (cmp : α → α → Int) (m : Nat → α) (a n : Nat) : PState α :=
  partitionLoop cmp a n
    { m := swap m a (choosePivot cmp m a n), pa := a + 1, pb := a + 1,
      pc := a + (n - 1), pd := a + (n - 1), swap_cnt := 0 }

/-- The two block moves after the partition loop:
`r = min(pa - a, pb - pa); vecswap(a, pb - r, r);`
`r = min(pd - pc, pn - pd - es); vecswap(pb, pn - r, r);` with `pn = a + n * es`. -/
def gather (s : PState α) (a n : Nat) : Nat → α :=
  let pn := a + n
  let r := min (s.pa - a) (s.pb - s.pa)
  let m := vecswap s.m a (s.pb - r) r
  let r := min (s.pd - s.pc) (pn - s.pd - 1)
  vecswap m s.pb (pn - r) r

/-- The `_pqsort` of `pqsort.c` on the window of `n` elements at `a`.  The first
argument bounds the nesting of recursive calls and `goto loop` jumps; `none`
means the bound was reached before the function returned.  Elements are moved
whole, so the definition follows the calls with an element size `es > 0`; with
`es = 0` all elements of the C buffer share one address and `swapfunc` gets the
count 0 (see `swapcodeLoop`). -/
def _pqsort (cmp : α → α → Int) (es : Nat) :
    Nat → (Nat → α) → Nat → Nat → Int → Int → Option (Nat → α)
  | 0, _, _, _, _, _ => none
  | fuel + 1, m, a, n, lrange, rrange =>
    if n < 7 then some (insertionSort cmp a n m)
    else
      let s := partition cmp m a n
      if s.swap_cnt = 0 then some (insertionSort cmp a n s.m)
      else
        let pn := a + n
        let m := gather s a n
        let r := (s.pb - s.pa) * es
        let left : Option (Nat → α) :=
          if r > es then
            if overlaps lrange rrange (a * es : Nat) ((a * es + r : Nat) - 1) then
              _pqsort cmp es fuel m a (r / es) lrange rrange
            else some m
          else some m
        match left with
        | none => none
        | some m =>
          let r := (s.pd - s.pc) * es
          if r > es then
            let a := (pn * es - r) / es
            let n := r / es
            if overlaps lrange rrange (a * es : Nat) ((a * es + r : Nat) - 1) then
              _pqsort cmp es fuel m a n lrange rrange
            else some m
          else some m

/-- The `pqsort` of `pqsort.c`: the buffer is loaded at index `0`, the element
range `[lrange, rrange]` is turned into the byte range
`[lrange * es, (rrange + 1) * es - 1]`, and `_pqsort` runs on the first `n`
elements, with a nesting bound of `n + 1` (each nested window is smaller than
the one before, so the bound is not reached).  The result is the buffer read
back; an index at or beyond the end of the list reads as `default`.  The two
products are not reduced: the definition follows the calls in which they are in
the range of `size_t`. -/
def pqsort [Inhabited α] (cmp : α → α → Int) (a : List α) (n es lrange rrange : Nat) :
    Option (List α) :=
  (_pqsort cmp es (n + 1) (fun i => a.getD i default) 0 n
      ((lrange * es : Nat) : Int) (((rrange + 1) * es : Nat) - 1)).map
    (fun m => (List.range a.length).map m)

/-- Three-way comparison of natural numbers, as a C comparator would return it. -/
def natCmp (x y : Nat) : Int := (x : Int) - (y : Int)

/-- Comparison of pairs by first component only. -/
def keyCmp (x y : Nat × Nat) : Int := (x.1 : Int) - (y.1 : Int)

/-- A comparator is a strict weak ordering when swapping its arguments swaps the
sign of a strict result and "not greater" is transitive. -/
structure IsStrictWeak (cmp : α → α → Int) : Prop where
  antisymm : ∀ x y, cmp x y < 0 ↔ 0 < cmp y x
  trans : ∀ x y z, cmp x y ≤ 0 → cmp y z ≤ 0 → cmp x z ≤ 0

/-- Memory `m'` is memory `m` with the elements of the window `[s, e)` rearranged
and everything else untouched. -/
def WindowPerm (s e : Nat) (m m' : Nat → α) : Prop :=
  ∃ σ : Equiv.Perm Nat, (∀ k, k < s ∨ e ≤ k → σ k = k) ∧ ∀ k, m' k = m (σ k)

/-- The element at index `i` is in its sorted place within the window `[s, e)`:
nothing before it in the window is greater, nothing after it is smaller. -/
def InPlace (cmp : α → α → Int) (m : Nat → α) (s e i : Nat) : Prop :=
  (∀ j, s ≤ j → j < i → cmp (m j) (m i) ≤ 0) ∧ (∀ j, i < j → j < e → cmp (m i) (m j) ≤ 0)

/-- Neighbouring elements of the window `[s, e)` are in order. -/
def AdjSorted (cmp : α → α → Int) (m : Nat → α) (s e : Nat) : Prop :=
  ∀ k, s ≤ k → k + 1 < e → cmp (m k) (m (k + 1)) ≤ 0

/-- A list is sorted for `cmp`: no element is greater than a later one. -/
def SortedBy (cmp : α → α → Int) (l : List α) : Prop :=
  l.Pairwise (fun x y => cmp x y ≤ 0)

/-- The invariant of the partition loop on the window of `n` elements at `a`,
with `m0` the memory at loop entry: the cursors are ordered, the memory is a
rearrangement of `m0` that leaves the pivot at `a`, and the four zones hold
what the comparisons against the pivot have found. -/
structure PartInv (cmp : α → α → Int) (a n : Nat) (m0 : Nat → α) (s : PState α) : Prop where
  h_pa : a + 1 ≤ s.pa
  h_ab : s.pa ≤ s.pb
  h_bc : s.pb ≤ s.pc + 1
  h_cd : s.pc ≤ s.pd
  h_dn : s.pd + 1 ≤ a + n
  perm : WindowPerm (a + 1) (a + n) m0 s.m
  eqL : ∀ k, a + 1 ≤ k → k < s.pa → cmp (s.m k) (s.m a) = 0
  lt : ∀ k, s.pa ≤ k → k < s.pb → cmp (s.m k) (s.m a) < 0
  gt : ∀ k, s.pc < k → k ≤ s.pd → 0 < cmp (s.m k) (s.m a)
  eqR : ∀ k, s.pd < k → k < a + n → cmp (s.m k) (s.m a) = 0

/-- On the indices `lo … hi` the list `out` holds what any sorted rearrangement of `a`
holds there: an equivalent element, and the very same element when equivalent
elements are identical. -/
def AgreesWithSorted (cmp : α → α → Int) (a out : List α) (lo hi : Nat) : Prop :=
  ∀ s : List α, s.Perm a → SortedBy cmp s →
    ∀ i (_ : i < out.length) (_ : i < s.length), lo ≤ i → i ≤ hi →
      cmp (out[i]) (s[i]) = 0 ∧ ((∀ x y, cmp x y = 0 → x = y) → out[i] = s[i])

/-- Everything before index `lo` is at most, and everything after index `hi` is at
least, every element held at the indices `lo … hi`. -/
def PartitionedAround (cmp : α → α → Int) (out : List α) (lo hi : Nat) : Prop :=
  ∀ i j (_ : i < out.length) (_ : j < out.length), lo ≤ j → j ≤ hi →
    (i < lo → cmp (out[i]) (out[j]) ≤ 0) ∧ (hi < i → 0 ≤ cmp (out[i]) (out[j]))

/-- The buffer `[3, 1, 4, 1, 5, 9, 2, 6]`, loaded at index 0. -/
def eightDigits : Nat → Nat := fun i => [3, 1, 4, 1, 5, 9, 2, 6].getD i 0

/-- The buffer `[1, 0, 0, 5, 0, 0, 3]`, loaded at index 0. -/
def sevenMixed : Nat → Nat := fun i => [1, 0, 0, 5, 0, 0, 3].getD i 0

/-- The buffer `[0, 1, 2, 4, 5, 6, 7, 8]`, loaded at index 0. -/
def eightOrdered : Nat → Nat := fun i => [0, 1, 2, 4, 5, 6, 7, 8].getD i 0

/-- The `med3` of `pqsort.c` together with the number of calls of `cmp` it makes: a
conditional expression evaluates its condition and then only the branch chosen. -/
def med3Counted (cmp : α → α → Int) (m : Nat → α) (a b c : Nat) : Nat × Nat :=
  if cmp (m a) (m b) < 0 then
    (if cmp (m b) (m c) < 0 then (b, 2) else (if cmp (m a) (m c) < 0 then (c, 3) else (a, 3)))
  else
    (if cmp (m b) (m c) > 0 then (b, 2) else (if cmp (m a) (m c) < 0 then (a, 3) else (c, 3)))

/-- The `_pqsort` of `pqsort.c` once more, returning besides the buffer the deepest
nesting of recursive calls reached below this activation: the call on the less-than
zone is a recursive call and adds one level, the `goto loop` on the greater-than
zone stays in the same activation. -/
def _pqsortDepth (cmp : α → α → Int) (es : Nat) :
    Nat → (Nat → α) → Nat → Nat → Int → Int → Option ((Nat → α) × Nat)
  | 0, _, _, _, _, _ => none
  | fuel + 1, m, a, n, lrange, rrange =>
    if n < 7 then some (insertionSort cmp a n m, 0)
    else
      let s := partition cmp m a n
      if s.swap_cnt = 0 then some (insertionSort cmp a n s.m, 0)
      else
        let pn := a + n
        let m := gather s a n
        let r := (s.pb - s.pa) * es
        let left : Option ((Nat → α) × Nat) :=
          if r > es then
            if overlaps lrange rrange (a * es : Nat) ((a * es + r : Nat) - 1) then
              (_pqsortDepth cmp es fuel m a (r / es) lrange rrange).map
                (fun p => (p.1, p.2 + 1))
            else some (m, 0)
          else some (m, 0)
        match left with
        | none => none
        | some (m, dl) =>
          let r := (s.pd - s.pc) * es
          if r > es then
            let a := (pn * es - r) / es
            let n := r / es
            if overlaps lrange rrange (a * es : Nat) ((a * es + r : Nat) - 1) then
              (_pqsortDepth cmp es fuel m a n lrange rrange).map (fun p => (p.1, max dl p.2))
            else some (m, dl)
          else some (m, dl)

/-- The deepest nesting of recursive `_pqsort` calls during a call of `pqsort`, with
the arguments of `pqsort`. -/
def pqsortDepth [Inhabited α] (cmp : α → α → Int) (a : List α) (n es lrange rrange : Nat) :
    Option Nat :=
  (_pqsortDepth cmp es (n + 1) (fun i => a.getD i default) 0 n
      ((lrange * es : Nat) : Int) (((rrange + 1) * es : Nat) - 1)).map Prod.snd

/-- One more layer around the window contents `C` of `N - 4` elements, all below `V`:
the pivot value `V` at the front, three greater values at the sample positions
`N / 8`, `N - 1 - N / 8` and `N - 1`, and the elements of `C` placed so that the
partition pass of the window of `N` elements leaves `C` as its less-than zone. -/
def deepStep (C : Nat → Nat) (N V : Nat) : Nat → Nat := fun i =>
  if i = 0 then V
  else if i = N / 8 ∨ i = N - 1 - N / 8 ∨ i = N - 1 then V + 1
  else if i = N - 4 then C 0
  else if i = N - 2 then C (N / 8)
  else if i = N - 3 then C (N - 1 - N / 8)
  else C i

/-- A buffer of `37 + 4 * j` elements on which `_pqsort` nests `j` recursive calls. -/
def deepBuffer : Nat → Nat → Nat
  | 0 => fun _ => 0
  | j + 1 => deepStep (deepBuffer j) (41 + 4 * j) (2 * j + 1)

/-- The array holding the first `37 + 4 * j` elements of `deepBuffer j`. -/
def deepArray (j : Nat) : List Nat := (List.range (37 + 4 * j)).map (deepBuffer j)

/-- What `_pqsort` does with the comparator and with the swap routines: a call of
`cmp` on the elements at two indices, the inline exchange of two `long`s that
`swap` makes when `swaptype` is 0, and a call `swapfunc(a, b, bytes, swaptype)` on
the elements at two indices. -/
inductive Event where
  | compare (i j : Nat)
  | swapLong (i j : Nat)
  | swapfunc (i j bytes swaptype : Nat)
deriving DecidableEq

/-- The `SWAPINIT(a, es)` of `pqsort.c`, with `W` for `sizeof(long)` and `addr` for
the address `(char *)a - (char *)0`. -/
def swapInit (W addr es : Nat) : Nat :=
  if addr % W ≠ 0 ∨ es % W ≠ 0 then 2 else if es = W then 0 else 1

/-- What a `swap(a, b)` does: the inline exchange when `swaptype == 0`, the call
`swapfunc(a, b, es, swaptype)` otherwise. -/
def swapEvent (es st i j : Nat) : Event :=
  if st = 0 then .swapLong i j else .swapfunc i j es st

/-- What a `vecswap(a, b, n)` does: `if ((n) > 0) swapfunc(a, b, n, swaptype)`. -/
def vecswapEvents (st i j bytes : Nat) : List Event :=
  if bytes > 0 then [.swapfunc i j bytes st] else []

/-- The calls of `cmp` that `med3` makes, in order. -/
def med3Log (cmp : α → α → Int) (m : Nat → α) (a b c : Nat) : List Event :=
  if cmp (m a) (m b) < 0 then
    (if cmp (m b) (m c) < 0 then [.compare a b, .compare b c]
     else [.compare a b, .compare b c, .compare a c])
  else
    (if cmp (m b) (m c) > 0 then [.compare a b, .compare b c]
     else [.compare a b, .compare b c, .compare a c])

/-- The calls of `cmp` of the pivot selection of `_pqsort`. -/
def choosePivotLog (cmp : α → α → Int) (m : Nat → α) (a n : Nat) : List Event :=
  let pm := a + n / 2
  if n > 7 then
    let pl := a
    let pn := a + (n - 1)
    if n > 40 then
      let d := n / 8
      med3Log cmp m pl (pl + d) (pl + 2 * d) ++ med3Log cmp m (pm - d) pm (pm + d) ++
        med3Log cmp m (pn - 2 * d) (pn - d) pn ++
        med3Log cmp m (med3 cmp m pl (pl + d) (pl + 2 * d)) (med3 cmp m (pm - d) pm (pm + d))
          (med3 cmp m (pn - 2 * d) (pn - d) pn)
    else med3Log cmp m pl pm pn
  else []

/-- The events of the inner loop of the insertion sort, `insertInner`: `cmp` is
called only when `pl > a`. -/
def insertInnerLog (cmp : α → α → Int) (es st a : Nat) : Nat → (Nat → α) → List Event
  | 0, _ => []
  | pl + 1, m =>
    if pl + 1 > a then
      Event.compare pl (pl + 1) ::
        (if cmp (m pl) (m (pl + 1)) > 0 then
          swapEvent es st (pl + 1) pl :: insertInnerLog cmp es st a pl (swap m (pl + 1) pl)
        else [])
    else []

/-- The events of the outer loop of the insertion sort, `insertOuter`. -/
def insertOuterLog (cmp : α → α → Int) (es st a n : Nat) : Nat → Nat → (Nat → α) → List Event
  | 0, _, _ => []
  | fuel + 1, pm, m =>
    if pm < a + n then
      insertInnerLog cmp es st a pm m ++
        insertOuterLog cmp es st a n fuel (pm + 1) (insertInner cmp a pm m)
    else []

/-- The events of the insertion sort of `_pqsort`. -/
def insertionSortLog (cmp : α → α → Int) (es st a n : Nat) (m : Nat → α) : List Event :=
  insertOuterLog cmp es st a n n (a + 1) m

/-- The events of the first inner loop of the partition, `scanUp`: `cmp` is called
only when `pb <= pc`. -/
def scanUpLog (cmp : α → α → Int) (es st a : Nat) : Nat → PState α → List Event
  | 0, _ => []
  | fuel + 1, s =>
    if s.pb ≤ s.pc then
      Event.compare s.pb a ::
        (if cmp (s.m s.pb) (s.m a) ≤ 0 then
          if cmp (s.m s.pb) (s.m a) = 0 then
            swapEvent es st s.pa s.pb ::
              scanUpLog cmp es st a fuel
                { s with swap_cnt := 1, m := swap s.m s.pa s.pb, pa := s.pa + 1, pb := s.pb + 1 }
          else scanUpLog cmp es st a fuel { s with pb := s.pb + 1 }
        else [])
    else []

/-- The events of the second inner loop of the partition, `scanDown`. -/
def scanDownLog (cmp : α → α → Int) (es st a : Nat) : Nat → PState α → List Event
  | 0, _ => []
  | fuel + 1, s =>
    if s.pb ≤ s.pc then
      Event.compare s.pc a ::
        (if cmp (s.m s.pc) (s.m a) ≥ 0 then
          if cmp (s.m s.pc) (s.m a) = 0 then
            swapEvent es st s.pc s.pd ::
              scanDownLog cmp es st a fuel
                { s with swap_cnt := 1, m := swap s.m s.pc s.pd, pd := s.pd - 1, pc := s.pc - 1 }
          else scanDownLog cmp es st a fuel { s with pc := s.pc - 1 }
        else [])
    else []

/-- The events of the `for (;;)` loop of the partition, `partitionLoop`. -/
def partitionLoopLog (cmp : α → α → Int) (es st a : Nat) : Nat → PState α → List Event
  | 0, _ => []
  | fuel + 1, s =>
    let s1 := scanUp cmp a (s.pc + 1 - s.pb) s
    let s2 := scanDown cmp a (s1.pc + 1 - s1.pb) s1
    scanUpLog cmp es st a (s.pc + 1 - s.pb) s ++
      (scanDownLog cmp es st a (s1.pc + 1 - s1.pb) s1 ++
        (if s2.pb > s2.pc then []
         else
          swapEvent es st s2.pb s2.pc ::
            partitionLoopLog cmp es st a fuel
              { s2 with m := swap s2.m s2.pb s2.pc, swap_cnt := 1, pb := s2.pb + 1,
                        pc := s2.pc - 1 }))

/-- The events of the partition phase, `partition`: the pivot selection, the
`swap(a, pm)`, the loop. -/
def partitionLog (cmp : α → α → Int) (es st : Nat) (m : Nat → α) (a n : Nat) : List Event :=
  choosePivotLog cmp m a n ++
    (swapEvent es st a (choosePivot cmp m a n) ::
      partitionLoopLog cmp es st a n
        { m := swap m a (choosePivot cmp m a n), pa := a + 1, pb := a + 1,
          pc := a + (n - 1), pd := a + (n - 1), swap_cnt := 0 })

/-- The events of the two block moves, `gather`; the byte counts are `r` elements of
`es` bytes. -/
def gatherLog (es st : Nat) (s : PState α) (a n : Nat) : List Event :=
  let pn := a + n
  let r := min (s.pa - a) (s.pb - s.pa)
  let r2 := min (s.pd - s.pc) (pn - s.pd - 1)
  vecswapEvents st a (s.pb - r) (r * es) ++ vecswapEvents st s.pb (pn - r2) (r2 * es)

/-- The `_pqsort` of `pqsort.c` once more, returning besides the buffer the events of
the call in order; `W` is `sizeof(long)` and `base` the address of the element
of index 0, from which `SWAPINIT` is computed for each window. -/
def _pqsortTrace (cmp : α → α → Int) (W base es : Nat) :
    Nat → (Nat → α) → Nat → Nat → Int → Int → Option ((Nat → α) × List Event)
  | 0, _, _, _, _, _ => none
  | fuel + 1, m, a, n, lrange, rrange =>
    let st := swapInit W (base + a * es) es
    if n < 7 then some (insertionSort cmp a n m, insertionSortLog cmp es st a n m)
    else
      let s := partition cmp m a n
      let plog := partitionLog cmp es st m a n
      if s.swap_cnt = 0 then
        some (insertionSort cmp a n s.m, plog ++ insertionSortLog cmp es st a n s.m)
      else
        let pn := a + n
        let m := gather s a n
        let glog := plog ++ gatherLog es st s a n
        let r := (s.pb - s.pa) * es
        let left : Option ((Nat → α) × List Event) :=
          if r > es then
            if overlaps lrange rrange (a * es : Nat) ((a * es + r : Nat) - 1) then
              (_pqsortTrace cmp W base es fuel m a (r / es) lrange rrange).map
                (fun p => (p.1, glog ++ p.2))
            else some (m, glog)
          else some (m, glog)
        match left with
        | none => none
        | some (m, log) =>
          let r := (s.pd - s.pc) * es
          if r > es then
            let a := (pn * es - r) / es
            let n := r / es
            if overlaps lrange rrange (a * es : Nat) ((a * es + r : Nat) - 1) then
              (_pqsortTrace cmp W base es fuel m a n lrange rrange).map
                (fun p => (p.1, log ++ p.2))
            else some (m, log)
          else some (m, log)

/-- The events of a call of `pqsort`, with the arguments of `pqsort`. -/
def pqsortTrace [Inhabited α] (cmp : α → α → Int) (W base : Nat) (a : List α)
    (n es lrange rrange : Nat) : Option (List Event) :=
  (_pqsortTrace cmp W base es (n + 1) (fun i => a.getD i default) 0 n
      ((lrange * es : Nat) : Int) (((rrange + 1) * es : Nat) - 1)).map Prod.snd

/-- Whether an event is a call of the comparator. -/
def Event.isCompare : Event → Bool
  | .compare _ _ => true
  | _ => false

/-- The number of comparator calls among the events. -/
def compares (log : List Event) : Nat := log.countP Event.isCompare

/-- The event stays inside the window of `n` elements of `es` bytes at index `a`: the
elements compared or exchanged are elements of the window, and the two blocks of
`bytes` bytes handed to `swapfunc` lie between its first and its last byte. -/
def Event.InWindow (es a n : Nat) : Event → Prop
  | .compare i j => a ≤ i ∧ i < a + n ∧ a ≤ j ∧ j < a + n
  | .swapLong i j => a ≤ i ∧ i < a + n ∧ a ≤ j ∧ j < a + n
  | .swapfunc i j bytes _ =>
    a ≤ i ∧ i * es + bytes ≤ (a + n) * es ∧ a ≤ j ∧ j * es + bytes ≤ (a + n) * es

/-- The byte count of a `swapfunc` call suits the loop of `swapcode`: it is at least
1, a multiple of the element size, and a multiple of `sizeof(long)` when the call
exchanges `long`s. -/
def Event.CountOk (W es : Nat) : Event → Prop
  | .swapfunc _ _ bytes st => 1 ≤ bytes ∧ es ∣ bytes ∧ (st ≤ 1 → W ∣ bytes)
  | _ => True

/-- The `do { ... } while (--i > 0)` of `swapcode`, entered with the counter `i`: the
number of times the body runs.  The counter is a `size_t` of `w` bits, so `--i`
wraps from 0 to `2 ^ w - 1`; the first argument bounds the number of iterations. -/
def swapcodeLoop (w : Nat) : Nat → Nat → Option Nat
  | 0, _ => none
  | fuel + 1, i =>
    if (i + 2 ^ w - 1) % 2 ^ w > 0 then
      (swapcodeLoop w fuel ((i + 2 ^ w - 1) % 2 ^ w)).map (fun k => k + 1)
    else some 1

/-- The `swapcode(TYPE, parmi, parmj, n)` of `pqsort.c`, with `unit` for
`sizeof(TYPE)`: `i = n / sizeof(TYPE)`, then the loop. -/
def swapcode (w unit n fuel : Nat) : Option Nat := swapcodeLoop w fuel (n / unit)

/-- The `swapfunc(a, b, n, swaptype)` of `pqsort.c`: the number of times the body of
its loop runs, on `long`s when `swaptype <= 1` and on `char`s otherwise. -/
def swapfunc (w W n swaptype fuel : Nat) : Option Nat :=
  if swaptype ≤ 1 then swapcode w W n fuel else swapcode w 1 n fuel

end Pqsort

/-!
Model of `sdssplitlen` (`sds.c`).

A `char *` is the list of the bytes found from the pointed position on, so `s + j`
is `s.drop j`.  `len` and `seplen` are C `int`s and are kept as `Int`; the indices
`start` and `j` never go below zero and are natural numbers.  `sds.c` defines
`SDS_ABORT_ON_OOM`, so an allocation that returns is a successful one: `zmalloc`,
`zrealloc` and `sdsnewlen` are taken to succeed, and the growth of the `tokens`
array (`slots`) is not represented.
-/

namespace Sds

variable {β : Type} [DecidableEq β]

/-- The bytes of the string built by `sdsnewlen(init, initlen)` for a non-NULL
`init`: the first `initlen` bytes found at `init`. -/
def sdsnewlen (init : List β) (initlen : Nat) : List β := init.take initlen

/-- The test `memcmp(p, q, n) == 0`: the first `n` bytes at `p` and at `q` agree. -/
def memcmpEq (p q : List β) (n : Nat) : Bool := decide (p.take n = q.take n)

/-- The local variables of `sdssplitlen` that the loop updates, besides `j`. -/
structure SplitState (β : Type) where
  tokens : List (List β)
  elements : Nat
  start : Nat

/-- The `for (j = 0; j < (len-(seplen-1)); j++)` loop of `sdssplitlen`, entered at
index `j`; the first argument bounds the number of iterations still to run. -/
def splitLoop (s : List β) (len : Int) (sep : List β) (seplen : Int) :
    Nat → SplitState β → Nat → SplitState β
  | 0, st, _ => st
  | fuel + 1, st, j =>
    if (j : Int) < len - (seplen - 1) then
      if (seplen = 1 ∧ (s.drop j).head? = sep.head?) ∨
          memcmpEq (s.drop j) sep seplen.toNat = true then
        splitLoop s len sep seplen fuel
          { tokens := st.tokens ++ [sdsnewlen (s.drop st.start) (j - st.start)],
            elements := st.elements + 1,
            start := j + seplen.toNat }
          (j + seplen.toNat - 1 + 1)
      else splitLoop s len sep seplen fuel st (j + 1)
    else st

/-- The `sdssplitlen` of `sds.c`: `none` is the `NULL` result, `some (tokens, count)`
the returned array together with the value stored in `*count`. -/
def sdssplitlen (s : List β) (len : Int) (sep : List β) (seplen : Int) :
    Option (List (List β) × Nat) :=
  if seplen < 1 ∨ len < 0 then none
  else
    let st := splitLoop s len sep seplen len.toNat { tokens := [], elements := 0, start := 0 } 0
    some (st.tokens ++ [sdsnewlen (s.drop st.start) (len.toNat - st.start)], st.elements + 1)

/-- Reference scan, from the words of the claim: the number of occurrences of `sep`
met when reading the list from left to right, where reading resumes right after
an occurrence (`skip` is the number of bytes of the last occurrence still to
pass over). -/
def countSep (sep : List β) : Nat → List β → Nat
  | _, [] => 0
  | skip + 1, _ :: rest => countSep sep skip rest
  | 0, c :: rest =>
    if (c :: rest).take sep.length = sep then 1 + countSep sep (sep.length - 1) rest
    else countSep sep 0 rest

/-- Reference join, from the words of the claim: the tokens in order with `sep`
between consecutive tokens. -/
def joinWith (sep : List β) : List (List β) → List β
  | [] => []
  | [t] => t
  | t :: t' :: ts => t ++ sep ++ joinWith sep (t' :: ts)

/-!
Model of the sds header functions `sdsMakeRoomFor`, `sdscatlen`, `sdstrim` and
`sdsrange` (`sds.c`).

An sds string is its header.  Bytes are natural numbers, `0` is the NUL byte.
The `long` fields and the `size_t` and `long` locals are integers: the model
follows executions in which no value leaves the range of its C type and in which
`len` and `free` are not negative where the code converts them to `size_t`.  The
one conversion to a narrower type, `(signed)len` in `sdsrange`, is `toSigned`.
`buf` is the whole byte array behind the header, of `len + free + 1` bytes in a
well-formed string.  `SDS_ABORT_ON_OOM` is defined, so `zrealloc` is taken to
succeed; the bytes it adds are arbitrary (`junk`).
-/

/-- Modelled from the spec: the `struct sdshdr` that `sds.h` declares (the header
file is not among the sources), with the fields `sds.c` reads and writes:
`long len`, `long free` and the byte array `buf`. -/
structure Sdshdr where
  len : Int
  free : Int
  buf : List Nat
deriving DecidableEq

/-- The bytes of the string: the first `len` bytes of `buf`. -/
def Sdshdr.content (sh : Sdshdr) : List Nat := sh.buf.take sh.len.toNat

/-- A well-formed sds string: `len` and `free` are not negative, `buf` has
`len + free + 1` bytes and the byte at index `len` is NUL. -/
def Sdshdr.WellFormed (sh : Sdshdr) : Prop :=
  0 ≤ sh.len ∧ 0 ≤ sh.free ∧ (sh.buf.length : Int) = sh.len + sh.free + 1 ∧
    sh.buf[sh.len.toNat]? = some 0

instance (sh : Sdshdr) : Decidable sh.WellFormed :=
  inferInstanceAs (Decidable (0 ≤ sh.len ∧ 0 ≤ sh.free ∧
    (sh.buf.length : Int) = sh.len + sh.free + 1 ∧ sh.buf[sh.len.toNat]? = some 0))

/-- The `memmove(buf + dst, buf + src, n)` of C inside one array. -/
def memmove (buf : List Nat) (dst src n : Nat) : List Nat :=
  buf.take dst ++ ((buf.drop src).take n ++ buf.drop (dst + n))

/-- The `memcpy(buf + dst, t, n)` of C from another block `t`. -/
def memcpy (buf : List Nat) (dst : Nat) (t : List Nat) (n : Nat) : List Nat :=
  buf.take dst ++ (t.take n ++ buf.drop (dst + n))

/-- The byte array after `zrealloc` to `size` bytes: the old bytes as far as they
fit, then arbitrary bytes. -/
def reallocBuf (junk : Nat → Nat) (buf : List Nat) (size : Nat) : List Nat :=
  (List.range size).map (fun i => buf.getD i (junk i))

/-- The `sdsMakeRoomFor` of `sds.c`. -/
def sdsMakeRoomFor (junk : Nat → Nat) (sh : Sdshdr) (addlen : Int) : Sdshdr :=
  let free := sh.free
  if free ≥ addlen then sh
  else
    let len := sh.len
    let newlen := (len + addlen) * 2
    { len := sh.len, free := newlen - len, buf := reallocBuf junk sh.buf (newlen + 1).toNat }

/-- The `sdscatlen` of `sds.c`. -/
def sdscatlen (junk : Nat → Nat) (sh : Sdshdr) (t : List Nat) (len : Int) : Sdshdr :=
  let curlen := sh.len
  let sh := sdsMakeRoomFor junk sh len
  let buf := memcpy sh.buf curlen.toNat t len.toNat
  { len := curlen + len, free := sh.free - len, buf := buf.set (curlen + len).toNat 0 }

/-- The `sdscpylen` of `sds.c`.  `memcpy` and the store of the terminator are those
of the model also where the array is too short for them, which C leaves
undefined. -/
def sdscpylen (junk : Nat → Nat) (sh : Sdshdr) (t : List Nat) (len : Int) : Sdshdr :=
  let totlen := sh.free + sh.len
  let sh1 := if totlen < len then sdsMakeRoomFor junk sh (len - totlen) else sh
  let totlen := if totlen < len then sh1.free + sh1.len else totlen
  let buf := memcpy sh1.buf 0 t len.toNat
  { len := len, free := totlen - len, buf := buf.set len.toNat 0 }

/-- The test `strchr(cset, c) != NULL` for the NUL-terminated string whose bytes
before the terminator are `cset`: `strchr` also finds the terminator. -/
def strchr (cset : List Nat) (c : Nat) : Bool := decide (c ∈ cset) || decide (c = 0)

/-- First loop of `sdstrim`: `while(sp <= end && strchr(cset, *sp)) sp++;`; the
first argument bounds the number of iterations still to run. -/
def trimFront (cset buf : List Nat) (end_ : Int) : Nat → Int → Int
  | 0, sp => sp
  | fuel + 1, sp =>
    if sp ≤ end_ ∧ strchr cset (buf.getD sp.toNat 0) = true then
      trimFront cset buf end_ fuel (sp + 1)
    else sp

/-- Second loop of `sdstrim`: `while(ep > start && strchr(cset, *ep)) ep--;`. -/
def trimBack (cset buf : List Nat) (start : Int) : Nat → Int → Int
  | 0, ep => ep
  | fuel + 1, ep =>
    if ep > start ∧ strchr cset (buf.getD ep.toNat 0) = true then
      trimBack cset buf start fuel (ep - 1)
    else ep

/-- The `sdstrim` of `sds.c`; pointers into `buf` are offsets from `buf`. -/
def sdstrim (sh : Sdshdr) (cset : List Nat) : Sdshdr :=
  let start : Int := 0
  let end_ : Int := sh.len - 1
  let sp := trimFront cset sh.buf end_ sh.len.toNat start
  let ep := trimBack cset sh.buf start sh.len.toNat end_
  let len := if sp > ep then 0 else (ep - sp) + 1
  let buf := if sp ≠ 0 then memmove sh.buf 0 sp.toNat len.toNat else sh.buf
  { len := len, free := sh.free + (sh.len - len), buf := buf.set len.toNat 0 }

/-- The conversion `(signed)len` of a `size_t` to `int`, an integer of 32 bits: the
value is reduced modulo `2 ^ 32` into the range from `-2 ^ 31` to `2 ^ 31 - 1`. -/
def toSigned (x : Int) : Int := (x + 2147483648) % 4294967296 - 2147483648

/-- The tail of `sdsrange`, from `/* move the content */` on. -/
def sdsrangeMove (sh : Sdshdr) (start newlen : Int) : Sdshdr :=
  let buf := if start ≠ 0 then memmove sh.buf 0 start.toNat newlen.toNat else sh.buf
  { len := newlen, free := sh.free + (sh.len - newlen), buf := buf.set newlen.toNat 0 }

/-- The `sdsrange` of `sds.c`. -/
def sdsrange (sh : Sdshdr) (start end_ : Int) : Sdshdr :=
  let len := sh.len
  if len = 0 then sh
  else
    let start := if start < 0 then (if len + start < 0 then 0 else len + start) else start
    let end_ := if end_ < 0 then (if len + end_ < 0 then 0 else len + end_) else end_
    let newlen := if start > end_ then 0 else (end_ - start) + 1
    if newlen ≠ 0 then
      let start := if start ≥ toSigned len then len - 1 else start
      let end_ := if end_ ≥ toSigned len then len - 1 else end_
      let newlen := if start > end_ then 0 else (end_ - start) + 1
      sdsrangeMove sh start newlen
    else
      sdsrangeMove sh 0 newlen

/-- The header built by `sdsnewlen(init, initlen)` for a non-NULL `init`:
`len = initlen`, `free = 0`, the bytes and the terminator. -/
def sdsnewlenHdr (init : List Nat) (initlen : Nat) : Sdshdr :=
  { len := initlen, free := 0, buf := init.take initlen ++ [0] }

/-- Reference trimming, from the words of the claim: the list without its longest
prefix and its longest suffix made only of elements that satisfy `p`. -/
def trimBoth (p : Nat → Bool) (l : List Nat) : List Nat :=
  ((l.dropWhile p).reverse.dropWhile p).reverse

/-- Reference substring, from the words of the claim: the elements at the indices
`i … j` inclusive, none when `i > j`. -/
def substring (l : List Nat) (i j : Nat) : List Nat :=
  if i > j then [] else (l.drop i).take (j - i + 1)

/-- Reference index shift, from the words of the claim: a negative index `i` of a
string of length `len` stands for `len + i`. -/
def shiftIndex (len i : Int) : Int := if i < 0 then len + i else i

/-- A string of `n + 1` bytes: `n` bytes `a` and one byte `b`, with no free byte. -/
def longString (n : Nat) : Sdshdr :=
  { len := (n : Int) + 1, free := 0, buf := List.replicate n 97 ++ [98, 0] }

/-- The string `sdsnewlen("0123456789", 10)`, of length 10. -/
def tenDigits : Sdshdr := sdsnewlenHdr [48, 49, 50, 51, 52, 53, 54, 55, 56, 57] 10

end Sds

/-!
Model of the allocator wrappers of `zmalloc.c`, in the build without
`HAVE_MALLOC_SIZE` (the macro comes from `config.h`, which is not among the
sources; with it the counter follows `malloc_size` and not the requested sizes).

The state is the counter `used_memory` and the live blocks, each with the address
handed to the caller and the `size_t` header stored in front of it.  What `malloc`
and `realloc` answer is an argument of the call: `none` is `NULL`.  `used_memory`,
the sizes and the headers are `size_t` values, of `W = sizeof(size_t)` bytes: the
sums and differences the code computes on them are reduced modulo `2 ^ (8 * W)`.
-/

namespace Zmalloc

/-- The static `used_memory` and the headers of the live blocks, by address. -/
structure State where
  used_memory : Nat
  blocks : List (Nat × Nat)
deriving DecidableEq

/-- The number of values of a `size_t` of `W` bytes. -/
def sizeRange (W : Nat) : Nat := 2 ^ (8 * W)

/-- The header `*((size_t*)realptr)` of the block at `ptr`, `0` when there is none. -/
def header (st : State) (ptr : Nat) : Nat := (st.blocks.lookup ptr).getD 0

/-- The argument `size+sizeof(size_t)` that `zmalloc` and `zrealloc` hand to `malloc`
and `realloc`, a `size_t`. -/
def request (W size : Nat) : Nat := (size + W) % sizeRange W

/-- The `zmalloc` of `zmalloc.c`; `W` is `sizeof(size_t)` and `res` what
`malloc(size+sizeof(size_t))` answers. -/
def zmalloc (W : Nat) (st : State) (size : Nat) (res : Option Nat) : State × Option Nat :=
  match res with
  | none => (st, none)
  | some p =>
    ({ used_memory := (st.used_memory + (size + W) % sizeRange W) % sizeRange W,
       blocks := (p, size) :: st.blocks }, some p)

/-- The `zrealloc` of `zmalloc.c`; `res` is what `realloc` (or `malloc`, for a NULL
`ptr`) answers. -/
def zrealloc (W : Nat) (st : State) (ptr : Option Nat) (size : Nat) (res : Option Nat) :
    State × Option Nat :=
  match ptr with
  | none => zmalloc W st size res
  | some p =>
    let oldsize := header st p
    match res with
    | none => (st, none)
    | some q =>
      ({ used_memory :=
           ((st.used_memory + sizeRange W - oldsize % sizeRange W) % sizeRange W + size)
             % sizeRange W,
         blocks := (q, size) :: st.blocks.filter (fun b => b.1 ≠ p) }, some q)

/-- The `zfree` of `zmalloc.c`. -/
def zfree (W : Nat) (st : State) (ptr : Option Nat) : State :=
  match ptr with
  | none => st
  | some p =>
    let oldsize := header st p
    { used_memory :=
        (st.used_memory + sizeRange W - (oldsize + W) % sizeRange W) % sizeRange W,
      blocks := st.blocks.filter (fun b => b.1 ≠ p) }

/-- The `zmalloc_used_memory` of `zmalloc.c`. -/
def zmalloc_used_memory (st : State) : Nat := st.used_memory

/-- A call of one of the three functions, with what the C library answers. -/
inductive Call where
  | malloc (size : Nat) (res : Option Nat)
  | realloc (ptr : Option Nat) (size : Nat) (res : Option Nat)
  | free (ptr : Option Nat)

/-- The state after a call. -/
def step (W : Nat) (st : State) : Call → State
  | .malloc size res => (zmalloc W st size res).1
  | .realloc ptr size res => (zrealloc W st ptr size res).1
  | .free ptr => zfree W st ptr

/-- The state after a sequence of calls. -/
def run (W : Nat) : State → List Call → State
  | st, [] => st
  | st, c :: cs => run W (step W st c) cs

/-- The address is that of a live block. -/
def Live (st : State) (p : Nat) : Prop := p ∈ st.blocks.map Prod.fst

/-- A call the C library allows in this state: a size is a `size_t`, a pointer passed
in is NULL or a live block, and an address answered by the library is not that of
another live block. -/
def Call.Allowed (W : Nat) (st : State) : Call → Prop
  | .malloc size res => size < sizeRange W ∧ ∀ q, res = some q → ¬ Live st q
  | .realloc ptr size res =>
    size < sizeRange W ∧
    (∀ p, ptr = some p → Live st p) ∧ (∀ q, res = some q → ptr = some q ∨ ¬ Live st q)
  | .free ptr => ∀ p, ptr = some p → Live st p

/-- Every call of the sequence is allowed in the state it is made in. -/
def AllowedRun (W : Nat) : State → List Call → Prop
  | _, [] => True
  | st, c :: cs => c.Allowed W st ∧ AllowedRun W (step W st c) cs

/-- The sum over the live blocks of the requested size plus `sizeof(size_t)`. -/
def outstanding (W : Nat) (st : State) : Nat := (st.blocks.map (fun b => b.2 + W)).sum

/-- The state of a program that has not allocated yet. -/
def initial : State := { used_memory := 0, blocks := [] }

end Zmalloc

/-!
Model of the doubly linked list of `adlist.c` / `adlist.h`.

A node pointer is an address (a natural number), `NULL` is `none`, and the heap
maps the address of every allocated node to its three fields.  A value is the
`void *` the node stores, of an arbitrary type `V`.  What the allocator answers
is an argument of the call (`none` for `NULL`).  The heap also records, in
order, the values handed to the list's `free` method.  The counter `len` is a
natural number (lists stay shorter than `UINT_MAX`); writing through a dangling
or `NULL` pointer, undefined in C, changes nothing here, and reading through one
reads `NULL`.  The private iterator `iter` of `struct list`, which only
`listRewind`, `listRewindTail` and `listYield` use, is not represented.
-/

namespace Adlist

variable {V : Type}

/-- The `listNode` of `adlist.h`. -/
structure listNode (V : Type) where
  prev : Option Nat
  next : Option Nat
  value : V

/-- The `listIter` of `adlist.h`. -/
structure listIter where
  next : Option Nat
  direction : Int
deriving DecidableEq

/-- The `list` of `adlist.h`; a method is `none` when the pointer is `NULL`, a `dup`
method answers `none` for `NULL`, a `match` method answers an `int`. -/
structure list (V : Type) where
  head : Option Nat
  tail : Option Nat
  dup : Option (V → Option V)
  free : Option (V → Unit)
  matchFn : Option (V → V → Int)
  len : Nat

/-- The allocated nodes, and the values handed to a `free` method so far. -/
structure Heap (V : Type) where
  node : Nat → Option (listNode V)
  freed : List V

/-- The direction `AL_START_HEAD` of `adlist.h`. -/
def AL_START_HEAD : Int := 0

/-- The direction `AL_START_TAIL` of `adlist.h`. -/
def AL_START_TAIL : Int := 1

/-- The assignment `x->prev = v`. -/
def setPrev (h : Heap V) (x : Nat) (v : Option Nat) : Heap V :=
  { h with node := fun k => if k = x then (h.node x).map (fun n => { n with prev := v })
                            else h.node k }

/-- The assignment `x->next = v`. -/
def setNext (h : Heap V) (x : Nat) (v : Option Nat) : Heap V :=
  { h with node := fun k => if k = x then (h.node x).map (fun n => { n with next := v })
                            else h.node k }

/-- A freshly allocated node at `x` with all three fields assigned. -/
def newNode (h : Heap V) (x : Nat) (n : listNode V) : Heap V :=
  { h with node := fun k => if k = x then some n else h.node k }

/-- The effect of `zfree(x)` on the heap. -/
def freeNode (h : Heap V) (x : Nat) : Heap V :=
  { h with node := fun k => if k = x then none else h.node k }

/-- The call `if (list->free) list->free(value)`. -/
def callFree (h : Heap V) (l : list V) (value : V) : Heap V :=
  if l.free.isSome then { h with freed := h.freed ++ [value] } else h

/-- The `listCreate` of `adlist.c`; `ok` tells whether `zmalloc` succeeds. -/
def listCreate (ok : Bool) : Option (list V) :=
  if ok then some { head := none, tail := none, len := 0, dup := none, free := none,
                    matchFn := none }
  else none

/-- The `listAddNodeHead` of `adlist.c`; `res` is what `zmalloc` answers and the
last component tells whether the list (and not `NULL`) is returned. -/
def listAddNodeHead (h : Heap V) (l : list V) (value : V) (res : Option Nat) :
    Heap V × list V × Bool :=
  match res with
  | none => (h, l, false)
  | some node =>
    if l.len = 0 then
      (newNode h node { value := value, prev := none, next := none },
        { l with head := some node, tail := some node, len := l.len + 1 }, true)
    else
      let h1 := newNode h node { value := value, prev := none, next := l.head }
      let h2 := match l.head with
        | some hd => setPrev h1 hd (some node)
        | none => h1
      (h2, { l with head := some node, len := l.len + 1 }, true)

/-- The `listAddNodeTail` of `adlist.c`. -/
def listAddNodeTail (h : Heap V) (l : list V) (value : V) (res : Option Nat) :
    Heap V × list V × Bool :=
  match res with
  | none => (h, l, false)
  | some node =>
    if l.len = 0 then
      (newNode h node { value := value, prev := none, next := none },
        { l with head := some node, tail := some node, len := l.len + 1 }, true)
    else
      let h1 := newNode h node { value := value, prev := l.tail, next := none }
      let h2 := match l.tail with
        | some tl => setNext h1 tl (some node)
        | none => h1
      (h2, { l with tail := some node, len := l.len + 1 }, true)

/-- The `listDelNode` of `adlist.c`. -/
def listDelNode (h : Heap V) (l : list V) (node : Nat) : Heap V × list V :=
  match h.node node with
  | none => (h, l)
  | some n =>
    let s1 : Heap V × list V := match n.prev with
      | some p => (setNext h p n.next, l)
      | none => (h, { l with head := n.next })
    let s2 : Heap V × list V := match n.next with
      | some q => (setPrev s1.1 q n.prev, s1.2)
      | none => (s1.1, { s1.2 with tail := n.prev })
    (freeNode (callFree s2.1 l n.value) node, { s2.2 with len := s2.2.len - 1 })

/-- The `listGetIterator` of `adlist.c`; `ok` tells whether `zmalloc` succeeds. -/
def listGetIterator (l : list V) (direction : Int) (ok : Bool) : Option listIter :=
  if ok then
    some { next := if direction = AL_START_HEAD then l.head else l.tail, direction := direction }
  else none

/-- The `listNext` of `adlist.c`: the node returned and the iterator after the call. -/
def listNext (h : Heap V) (iter : listIter) : Option Nat × listIter :=
  match iter.next with
  | none => (none, iter)
  | some current =>
    (some current,
      { iter with next := if iter.direction = AL_START_HEAD
                          then (h.node current).bind (fun n => n.next)
                          else (h.node current).bind (fun n => n.prev) })

/-- The loops `while(index-- && n) n = n->prev;` and `... n = n->next;` of
`listIndex`, by recursion on `index`. -/
def walk (h : Heap V) (field : listNode V → Option Nat) : Nat → Option Nat → Option Nat
  | 0, n => n
  | _ + 1, none => none
  | index + 1, some x => walk h field index ((h.node x).bind field)

/-- The `listIndex` of `adlist.c`. -/
def listIndex (h : Heap V) (l : list V) (index : Int) : Option Nat :=
  if index < 0 then walk h (fun n => n.prev) ((-index) - 1).toNat l.tail
  else walk h (fun n => n.next) index.toNat l.head

/-- The test of the loop body of `listSearchKey`: the `match` method when there is
one, pointer equality otherwise. -/
def keyMatches [DecidableEq V] (l : list V) (value key : V) : Bool :=
  match l.matchFn with
  | some f => decide (f value key ≠ 0)
  | none => decide (key = value)

/-- The loop of `listSearchKey`; the first argument bounds the number of iterations
still to run, and `none` means that the bound was reached or that a node pointer
was dangling. -/
def searchLoop [DecidableEq V] (h : Heap V) (l : list V) (key : V) :
    Nat → listIter → Option (Option Nat)
  | 0, _ => none
  | fuel + 1, iter =>
    match listNext h iter with
    | (none, _) => some none
    | (some node, iter') =>
      match h.node node with
      | none => none
      | some n => if keyMatches l n.value key then some (some node)
                  else searchLoop h l key fuel iter'

/-- The `listSearchKey` of `adlist.c`; `okIter` tells whether the iterator is
allocated.  The outer `none` means the call does not return: the iterator is not
tested against `NULL` before use. -/
def listSearchKey [DecidableEq V] (h : Heap V) (l : list V) (key : V) (okIter : Bool) :
    Option (Option Nat) :=
  match listGetIterator l AL_START_HEAD okIter with
  | none => none
  | some iter => searchLoop h l key (l.len + 1) iter

/-- The loop of `listRelease`: `while(len--) { next = current->next; ... }`. -/
def releaseLoop (h : Heap V) (l : list V) : Nat → Option Nat → Heap V
  | 0, _ => h
  | _ + 1, none => h
  | len + 1, some current =>
    match h.node current with
    | none => h
    | some n => releaseLoop (freeNode (callFree h l n.value) current) l len n.next

/-- The `listRelease` of `adlist.c`. -/
def listRelease (h : Heap V) (l : list V) : Heap V := releaseLoop h l l.len l.head

/-- What a call of `listDup` comes to: a heap and the copy, a heap and `NULL`, or no
return at all. -/
inductive DupResult (V : Type) where
  | copy (h : Heap V) (l : list V)
  | null (h : Heap V)
  | fault

/-- The loop of `listDup`; `k` counts the node allocations made so far and
`alloc k` is what `zmalloc` answers to the next one. -/
def dupLoop (alloc : Nat → Option Nat) :
    Nat → Heap V → list V → listIter → Nat → DupResult V
  | 0, _, _, _, _ => .fault
  | fuel + 1, h, copy, iter, k =>
    match listNext h iter with
    | (none, _) => .copy h copy
    | (some node, iter') =>
      match h.node node with
      | none => .fault
      | some n =>
        let value : Option V := match copy.dup with
          | some d => d n.value
          | none => some n.value
        match value with
        | none => .null (listRelease h copy)
        | some v =>
          match listAddNodeTail h copy v (alloc k) with
          | (h', copy', true) => dupLoop alloc fuel h' copy' iter' (k + 1)
          | (_, _, false) => .null (listRelease h copy)

/-- The `listDup` of `adlist.c`; `okList` and `okIter` tell whether the list and the
iterator are allocated. -/
def listDup (h : Heap V) (orig : list V) (okList okIter : Bool) (alloc : Nat → Option Nat) :
    DupResult V :=
  match (listCreate okList : Option (list V)) with
  | none => .null h
  | some copy =>
    let copy := { copy with dup := orig.dup, free := orig.free, matchFn := orig.matchFn }
    match listGetIterator orig AL_START_HEAD okIter with
    | none => .fault
    | some iter => dupLoop alloc (orig.len + 1) h copy iter 0

/-- The traversal of the claim: call `listNext`, delete the node it returns with
`listDelNode`, and go on until `listNext` returns `NULL`; the nodes returned are
collected in order.  `none` means the bound on the number of calls was reached. -/
def drain (h : Heap V) (l : list V) : Nat → listIter → List Nat → Option (List Nat × Heap V × list V)
  | 0, _, _ => none
  | fuel + 1, iter, acc =>
    match listNext h iter with
    | (none, _) => some (acc, h, l)
    | (some node, iter') =>
      let r := listDelNode h l node
      drain r.1 r.2 fuel iter' (acc ++ [node])

/-- The list `l` in the heap `h` is the doubly linked chain of the nodes at the
addresses `nodes`, in this order: the addresses are distinct, `len` is their
number, `head` and `tail` are the first and the last, and each node's `prev` and
`next` are its neighbours. -/
structure WellFormed (h : Heap V) (l : list V) (nodes : List Nat) : Prop where
  nodup : nodes.Nodup
  len : l.len = nodes.length
  head : l.head = nodes.head?
  tail : l.tail = nodes.getLast?
  links : ∀ i x, nodes[i]? = some x → ∃ n, h.node x = some n ∧
    n.prev = (if i = 0 then none else nodes[i - 1]?) ∧ n.next = nodes[i + 1]?

/-- The values stored in the nodes at the given addresses. -/
def valuesOf (h : Heap V) (nodes : List Nat) : List (Option V) :=
  nodes.map (fun x => (h.node x).map (fun n => n.value))

/-- Reference result of `listIndex`, from the words of the claim. -/
def indexSpec (nodes : List Nat) (index : Int) : Option Nat :=
  if 0 ≤ index ∧ index < nodes.length then nodes[index.toNat]?
  else if -(nodes.length : Int) ≤ index ∧ index < 0 then nodes[((nodes.length : Int) + index).toNat]?
  else none

/-- The matching of the claim, in its words: the value of the node at `x` matches the
key when the `match` method answers non-zero on the two, or, without a method, when
the two pointers are equal. -/
def Matches (h : Heap V) (l : list V) (key : V) (x : Nat) : Prop :=
  ∃ n, h.node x = some n ∧
    match l.matchFn with
    | some f => f n.value key ≠ 0
    | none => key = n.value

/-- A successful call of one of the three functions that change a list: the value and
the address `zmalloc` answers for an insertion, the node for a deletion. -/
inductive ListCall (V : Type) where
  | addHead (value : V) (node : Nat)
  | addTail (value : V) (node : Nat)
  | del (node : Nat)

/-- The heap and the list header after one call. -/
def applyCall (s : Heap V × list V) : ListCall V → Heap V × list V
  | .addHead value p => ((listAddNodeHead s.1 s.2 value (some p)).1,
      (listAddNodeHead s.1 s.2 value (some p)).2.1)
  | .addTail value p => ((listAddNodeTail s.1 s.2 value (some p)).1,
      (listAddNodeTail s.1 s.2 value (some p)).2.1)
  | .del x => listDelNode s.1 s.2 x

/-- The heap and the list header after a sequence of calls. -/
def runCalls : Heap V × list V → List (ListCall V) → Heap V × list V
  | s, [] => s
  | s, c :: cs => runCalls (applyCall s c) cs

/-- The sequence of nodes a call is to leave, in the words of the claim: an insertion
puts the new node first or last, a deletion removes the node and keeps the order of
the others. -/
def nodesAfter (nodes : List Nat) : ListCall V → List Nat
  | .addHead _ p => p :: nodes
  | .addTail _ p => nodes ++ [p]
  | .del x => nodes.filter (fun y => decide (y ≠ x))

/-- The sequence of nodes a sequence of calls is to leave. -/
def nodesAfterAll : List Nat → List (ListCall V) → List Nat
  | nodes, [] => nodes
  | nodes, c :: cs => nodesAfterAll (nodesAfter nodes c) cs

/-- The call is one the claim speaks of: a new node is at a fresh address, a deleted
node is a node of the list. -/
def ListCall.Allowed (nodes : List Nat) : ListCall V → Prop
  | .addHead _ p => p ∉ nodes
  | .addTail _ p => p ∉ nodes
  | .del x => x ∈ nodes

/-- Every call of the sequence is allowed when it is made. -/
def AllowedCalls : List Nat → List (ListCall V) → Prop
  | _, [] => True
  | nodes, c :: cs => c.Allowed nodes ∧ AllowedCalls (nodesAfter nodes c) cs

/-- The nodes reached from `start` by following one of the two links until `NULL`,
at most as many as the first argument says. -/
def chain (h : Heap V) (field : listNode V → Option Nat) : Nat → Option Nat → List Nat
  | 0, _ => []
  | _ + 1, none => []
  | fuel + 1, some x => x :: chain h field fuel ((h.node x).bind field)

/-- The heap in which nothing is allocated yet. -/
def emptyHeap : Heap V := { node := fun _ => none, freed := [] }

/-- The list `listCreate` returns, with values of type `Nat`. -/
def emptyList : list Nat :=
  { head := none, tail := none, len := 0, dup := none, free := none, matchFn := none }

/-- Four calls: 10 at the tail in node 1, 20 at the head in node 2, 30 at the tail in
node 3, then node 1 deleted. -/
def fourCalls : List (ListCall Nat) := [.addTail 10 1, .addHead 20 2, .addTail 30 3, .del 1]

/-- The heap and the list after the four calls, made on the list `listCreate` returns. -/
def fourState : Heap Nat × list Nat := runCalls (emptyHeap, emptyList) fourCalls

/-- A three-node list with the values 10, 20, 30 at the addresses 1, 2, 3. -/
def threeHeap : Heap Nat :=
  { node := fun k =>
      if k = 1 then some { prev := none, next := some 2, value := 10 }
      else if k = 2 then some { prev := some 1, next := some 3, value := 20 }
      else if k = 3 then some { prev := some 2, next := none, value := 30 }
      else none,
    freed := [] }

/-- The list header of `threeHeap`. -/
def threeList : list Nat :=
  { head := some 1, tail := some 3, dup := none, free := none, matchFn := none, len := 3 }

end Adlist

/-! Properties of `pqsort`. -/

namespace Pqsort

variable {α : Type}

/-! ### Strict weak orderings -/

theorem IsStrictWeak.cmp_self {cmp : α → α → Int} (hc : IsStrictWeak cmp) (x : α) : cmp x x = 0 := by
  have h := hc.antisymm x x
  omega

theorem IsStrictWeak.flip {cmp : α → α → Int} (hc : IsStrictWeak cmp) {x y : α}
    (h : 0 ≤ cmp x y) : cmp y x ≤ 0 := by
  have h1 := hc.antisymm x y
  have h2 := hc.antisymm y x
  omega

theorem IsStrictWeak.symm_eq {cmp : α → α → Int} (hc : IsStrictWeak cmp) {x y : α}
    (h : cmp x y = 0) : cmp y x = 0 := by
  have h1 := hc.antisymm x y
  have h2 := hc.antisymm y x
  omega

theorem IsStrictWeak.not_le {cmp : α → α → Int} (hc : IsStrictWeak cmp) {x y : α}
    (h : 0 < cmp x y) : cmp y x < 0 := (hc.antisymm y x).2 h

theorem IsStrictWeak.lt_of_lt_of_le {cmp : α → α → Int} (hc : IsStrictWeak cmp) {x y z : α}
    (h1 : cmp x y < 0) (h2 : cmp y z ≤ 0) : cmp x z < 0 := by
  by_contra h
  have h3 : cmp z x ≤ 0 := hc.flip (by omega)
  have h4 := hc.trans y z x h2 h3
  have h5 := hc.antisymm x y
  omega

theorem IsStrictWeak.lt_of_le_of_lt {cmp : α → α → Int} (hc : IsStrictWeak cmp) {x y z : α}
    (h1 : cmp x y ≤ 0) (h2 : cmp y z < 0) : cmp x z < 0 := by
  by_contra h
  have h3 : cmp z x ≤ 0 := hc.flip (by omega)
  have h4 := hc.trans z x y h3 h1
  have h5 := hc.antisymm y z
  omega

theorem natCmp_strictWeak : IsStrictWeak natCmp where
  antisymm := by intro x y; unfold natCmp; omega
  trans := by intro x y z; unfold natCmp; omega

theorem keyCmp_strictWeak : IsStrictWeak keyCmp where
  antisymm := by intro x y; unfold keyCmp; omega
  trans := by intro x y z; unfold keyCmp; omega

/-! ### Swaps and window permutations -/

@[simp] theorem swap_self (m : Nat → α) (i : Nat) : swap m i i = m := by
  funext k; unfold swap; split <;> simp_all

theorem swap_apply (m : Nat → α) (i j k : Nat) :
    swap m i j k = if k = i then m j else if k = j then m i else m k := rfl

theorem swap_of_ne (m : Nat → α) {i j k : Nat} (h1 : k ≠ i) (h2 : k ≠ j) : swap m i j k = m k := by
  simp [swap, h1, h2]

@[simp] theorem swap_left (m : Nat → α) (i j : Nat) : swap m i j i = m j := by simp [swap]

@[simp] theorem swap_right (m : Nat → α) (i j : Nat) : swap m i j j = m i := by
  unfold swap; split <;> simp_all

theorem WindowPerm.refl (s e : Nat) (m : Nat → α) : WindowPerm s e m m :=
  ⟨1, fun _ _ => rfl, fun _ => rfl⟩

theorem WindowPerm.trans {s e : Nat} {m1 m2 m3 : Nat → α}
    (h1 : WindowPerm s e m1 m2) (h2 : WindowPerm s e m2 m3) : WindowPerm s e m1 m3 := by
  obtain ⟨σ1, hf1, he1⟩ := h1
  obtain ⟨σ2, hf2, he2⟩ := h2
  refine ⟨σ2.trans σ1, ?_, ?_⟩
  · intro k hk
    simp only [Equiv.trans_apply]
    rw [hf2 k hk, hf1 k hk]
  · intro k
    simp only [Equiv.trans_apply]
    rw [he2, he1]

theorem WindowPerm.mono {s e s' e' : Nat} {m m' : Nat → α} (hs : s' ≤ s) (he : e ≤ e')
    (h : WindowPerm s e m m') : WindowPerm s' e' m m' := by
  obtain ⟨σ, hf, hm⟩ := h
  exact ⟨σ, fun k hk => hf k (by omega), hm⟩

theorem WindowPerm.outside {s e : Nat} {m m' : Nat → α} (h : WindowPerm s e m m')
    {k : Nat} (hk : k < s ∨ e ≤ k) : m' k = m k := by
  obtain ⟨σ, hf, hm⟩ := h
  rw [hm, hf k hk]

theorem WindowPerm.swap (s e : Nat) (m : Nat → α) {i j : Nat}
    (hi : s ≤ i ∧ i < e) (hj : s ≤ j ∧ j < e) : WindowPerm s e m (swap m i j) := by
  refine ⟨Equiv.swap i j, ?_, ?_⟩
  · intro k hk
    exact Equiv.swap_apply_of_ne_of_ne (by omega) (by omega)
  · intro k
    by_cases h1 : k = i
    · subst h1; simp
    · by_cases h2 : k = j
      · subst h2; simp
      · rw [swap_of_ne m h1 h2, Equiv.swap_apply_of_ne_of_ne h1 h2]

/-- A window permutation maps the window into itself. -/
theorem perm_maps_window {s e : Nat} {σ : Equiv.Perm Nat} (hf : ∀ k, k < s ∨ e ≤ k → σ k = k)
    {k : Nat} (hk : s ≤ k ∧ k < e) : s ≤ σ k ∧ σ k < e := by
  by_contra h
  have h1 : σ (σ k) = σ k := hf (σ k) (by omega)
  have h2 : σ k = k := σ.injective h1
  omega

/-- A property of all the elements of the window survives a window permutation. -/
theorem WindowPerm.forall_window {s e : Nat} {m m' : Nat → α} (h : WindowPerm s e m m')
    {P : α → Prop} (hP : ∀ k, s ≤ k → k < e → P (m k)) : ∀ k, s ≤ k → k < e → P (m' k) := by
  obtain ⟨σ, hf, hm⟩ := h
  intro k h1 h2
  rw [hm]
  have := perm_maps_window hf (k := k) ⟨h1, h2⟩
  exact hP _ this.1 this.2

/-- A window permutation permutes the list of the window's elements. -/
theorem WindowPerm.list_perm {s e : Nat} {m m' : Nat → α} (h : WindowPerm s e m m') :
    ((List.range' s (e - s)).map m').Perm ((List.range' s (e - s)).map m) := by
  obtain ⟨σ, hf, hm⟩ := h
  have h1 : (List.range' s (e - s)).map m' = ((List.range' s (e - s)).map σ).map m := by
    rw [List.map_map]
    exact List.map_congr_left (fun k _ => hm k)
  rw [h1]
  apply List.Perm.map
  rw [List.perm_ext_iff_of_nodup ((List.nodup_range' s (e - s)).map σ.injective)
    (List.nodup_range' s (e - s))]
  intro x
  simp only [List.mem_map, List.mem_range'_1]
  constructor
  · rintro ⟨k, hk, rfl⟩
    have := perm_maps_window hf (k := k) ⟨hk.1, by omega⟩
    omega
  · intro hx
    refine ⟨σ.symm x, ?_, by simp⟩
    have hf' : ∀ k, k < s ∨ e ≤ k → σ.symm k = k := by
      intro k hk
      rw [Equiv.symm_apply_eq, hf k hk]
    have := perm_maps_window hf' (k := x) ⟨hx.1, by omega⟩
    omega

/-! ### vecswap -/

theorem vecswap_windowPerm (s e : Nat) : ∀ (cnt : Nat) (m : Nat → α) (a b : Nat),
    s ≤ a → a + cnt ≤ e → s ≤ b → b + cnt ≤ e → WindowPerm s e m (vecswap m a b cnt) := by
  intro cnt
  induction cnt with
  | zero => intro m a b _ _ _ _; exact WindowPerm.refl s e m
  | succ cnt ih =>
    intro m a b h1 h2 h3 h4
    unfold vecswap
    exact (WindowPerm.swap s e m ⟨h1, by omega⟩ ⟨h3, by omega⟩).trans
      (ih (swap m a b) (a + 1) (b + 1) (by omega) (by omega) (by omega) (by omega))

theorem vecswap_apply : ∀ (cnt : Nat) (m : Nat → α) (a b : Nat), a + cnt ≤ b → ∀ k,
    vecswap m a b cnt k =
      if a ≤ k ∧ k < a + cnt then m (b + (k - a))
      else if b ≤ k ∧ k < b + cnt then m (a + (k - b)) else m k := by
  intro cnt
  induction cnt with
  | zero =>
    intro m a b _ k
    have h1 : ¬ (a ≤ k ∧ k < a + 0) := by omega
    have h2 : ¬ (b ≤ k ∧ k < b + 0) := by omega
    simp only [vecswap, h1, h2, if_false]
  | succ cnt ih =>
    intro m a b hab k
    unfold vecswap
    rw [ih (swap m a b) (a + 1) (b + 1) (by omega) k]
    by_cases c1 : a + 1 ≤ k ∧ k < a + 1 + cnt
    · have c2 : a ≤ k ∧ k < a + (cnt + 1) := by omega
      rw [if_pos c1, if_pos c2, swap_of_ne m (by omega) (by omega)]
      congr 1; omega
    · rw [if_neg c1]
      by_cases c3 : b + 1 ≤ k ∧ k < b + 1 + cnt
      · have c4 : ¬ (a ≤ k ∧ k < a + (cnt + 1)) := by omega
        have c5 : b ≤ k ∧ k < b + (cnt + 1) := by omega
        rw [if_pos c3, if_neg c4, if_pos c5, swap_of_ne m (by omega) (by omega)]
        congr 1; omega
      · rw [if_neg c3]
        by_cases c6 : k = a
        · subst c6
          have c7 : k ≤ k ∧ k < k + (cnt + 1) := by omega
          rw [if_pos c7, swap_left]
          congr 1; omega
        · by_cases c8 : k = b
          · subst c8
            have c9 : ¬ (a ≤ k ∧ k < a + (cnt + 1)) := by omega
            have c10 : k ≤ k ∧ k < k + (cnt + 1) := by omega
            rw [if_neg c9, if_pos c10, swap_right]
            congr 1; omega
          · have c11 : ¬ (a ≤ k ∧ k < a + (cnt + 1)) := by omega
            have c12 : ¬ (b ≤ k ∧ k < b + (cnt + 1)) := by omega
            rw [if_neg c11, if_neg c12, swap_of_ne m c6 c8]

/-! ### Insertion sort -/

theorem insertInner_windowPerm (cmp : α → α → Int) (a : Nat) : ∀ (pl : Nat) (m : Nat → α),
    WindowPerm a (pl + 1) m (insertInner cmp a pl m) := by
  intro pl
  induction pl with
  | zero => intro m; exact WindowPerm.refl _ _ m
  | succ pl ih =>
    intro m
    unfold insertInner
    split
    · rename_i h
      exact (WindowPerm.swap a (pl + 1 + 1) m ⟨by omega, by omega⟩ ⟨by omega, by omega⟩).trans
        ((ih _).mono (Nat.le_refl a) (by omega))
    · exact WindowPerm.refl _ _ m

theorem insertOuter_windowPerm (cmp : α → α → Int) (a n : Nat) :
    ∀ (fuel pm : Nat) (m : Nat → α), WindowPerm a (a + n) m (insertOuter cmp a n fuel pm m) := by
  intro fuel
  induction fuel with
  | zero => intro pm m; exact WindowPerm.refl _ _ m
  | succ fuel ih =>
    intro pm m
    unfold insertOuter
    split
    · exact ((insertInner_windowPerm cmp a pm m).mono (Nat.le_refl a) (by omega)).trans (ih _ _)
    · exact WindowPerm.refl _ _ m

theorem insertionSort_windowPerm (cmp : α → α → Int) (a n : Nat) (m : Nat → α) :
    WindowPerm a (a + n) m (insertionSort cmp a n m) :=
  insertOuter_windowPerm cmp a n n (a + 1) m

theorem insertInner_sorted {cmp : α → α → Int} (hc : IsStrictWeak cmp) (a pm : Nat) :
    ∀ (pl : Nat) (m : Nat → α), a ≤ pl → pl ≤ pm →
      (∀ k, a ≤ k → k + 1 ≤ pm → k + 1 ≠ pl → cmp (m k) (m (k + 1)) ≤ 0) →
      (a < pl → pl < pm → cmp (m (pl - 1)) (m (pl + 1)) ≤ 0) →
      AdjSorted cmp (insertInner cmp a pl m) a (pm + 1) := by
  intro pl
  induction pl with
  | zero =>
    intro m _ _ hole _ k hk1 hk2
    exact hole k hk1 (by omega) (by omega)
  | succ pl ih =>
    intro m h1 h2 hole bridge
    unfold insertInner
    split
    · rename_i hcond
      apply ih _ (by omega) (by omega)
      · intro k hk1 hk2 hk3
        by_cases e1 : k = pl
        · subst e1
          rw [swap_right, swap_left]
          exact hc.flip (by omega)
        · by_cases e2 : k = pl + 1
          · subst e2
            rw [swap_left, swap_of_ne m (by omega) (by omega)]
            exact bridge (by omega) (by omega)
          · rw [swap_of_ne m e2 e1, swap_of_ne m (by omega) (by omega)]
            exact hole k hk1 hk2 (by omega)
      · intro g1 g2
        rw [swap_of_ne m (by omega) (by omega), swap_left]
        have := hole (pl - 1) (by omega) (by omega) (by omega)
        rwa [show pl - 1 + 1 = pl by omega] at this
    · rename_i hcond
      intro k hk1 hk2
      by_cases e1 : k = pl
      · subst e1
        have : ¬ (0 < cmp (m k) (m (k + 1))) := fun h => hcond ⟨by omega, h⟩
        omega
      · exact hole k hk1 (by omega) (by omega)

theorem insertOuter_sorted {cmp : α → α → Int} (hc : IsStrictWeak cmp) (a n : Nat) :
    ∀ (fuel pm : Nat) (m : Nat → α), a ≤ pm → a + n ≤ pm + fuel → AdjSorted cmp m a pm →
      AdjSorted cmp (insertOuter cmp a n fuel pm m) a (a + n) := by
  intro fuel
  induction fuel with
  | zero =>
    intro pm m _ h2 hs k hk1 hk2
    exact hs k hk1 (by omega)
  | succ fuel ih =>
    intro pm m h1 h2 hs
    unfold insertOuter
    split
    · apply ih _ _ (by omega) (by omega)
      apply insertInner_sorted hc a pm pm m h1 (Nat.le_refl _)
      · intro k hk1 hk2 hk3
        exact hs k hk1 (by omega)
      · intro _ h; omega
    · intro k hk1 hk2
      exact hs k hk1 (by omega)

theorem insertionSort_sorted {cmp : α → α → Int} (hc : IsStrictWeak cmp) (a n : Nat)
    (m : Nat → α) : AdjSorted cmp (insertionSort cmp a n m) a (a + n) := by
  apply insertOuter_sorted hc a n n (a + 1) m (by omega) (by omega)
  intro k hk1 hk2
  omega

theorem AdjSorted.le_add {cmp : α → α → Int} (hc : IsStrictWeak cmp) {m : Nat → α} {s e : Nat}
    (h : AdjSorted cmp m s e) : ∀ d i, s ≤ i → i + d < e → cmp (m i) (m (i + d)) ≤ 0 := by
  intro d
  induction d with
  | zero => intro i _ _; rw [Nat.add_zero, hc.cmp_self]
  | succ d ih =>
    intro i h1 h2
    have h3 := ih i h1 (by omega)
    have h4 := h (i + d) (by omega) (by omega)
    exact hc.trans _ _ _ h3 h4

theorem AdjSorted.inPlace {cmp : α → α → Int} (hc : IsStrictWeak cmp) {m : Nat → α} {s e : Nat}
    (h : AdjSorted cmp m s e) {i : Nat} (hs : s ≤ i) (hi : i < e) : InPlace cmp m s e i := by
  constructor
  · intro j h1 h2
    have := h.le_add hc (i - j) j h1 (by omega)
    rwa [show j + (i - j) = i by omega] at this
  · intro j h1 h2
    have := h.le_add hc (j - i) i hs (by omega)
    rwa [show i + (j - i) = j by omega] at this

/-! ### The partition loop -/

theorem scanUp_spec (cmp : α → α → Int) (a n : Nat) (m0 : Nat → α) :
    ∀ (fuel : Nat) (s : PState α), PartInv cmp a n m0 s → s.pc + 1 ≤ s.pb + fuel →
      PartInv cmp a n m0 (scanUp cmp a fuel s) ∧
      (scanUp cmp a fuel s).pc = s.pc ∧ (scanUp cmp a fuel s).pd = s.pd ∧
      ((scanUp cmp a fuel s).pb ≤ (scanUp cmp a fuel s).pc →
        0 < cmp ((scanUp cmp a fuel s).m (scanUp cmp a fuel s).pb) ((scanUp cmp a fuel s).m a)) := by
  intro fuel
  induction fuel with
  | zero =>
    intro s hs hf
    refine ⟨hs, rfl, rfl, ?_⟩
    intro h
    simp only [scanUp] at h
    omega
  | succ fuel ih =>
    intro s hs hf
    unfold scanUp
    split
    · rename_i hcond
      obtain ⟨hbc, hle⟩ := hcond
      have hpa := hs.h_pa
      have hab := hs.h_ab
      have hcd := hs.h_cd
      have hdn := hs.h_dn
      split
      · rename_i heq
        have hinv : PartInv cmp a n m0
            { s with swap_cnt := 1, m := swap s.m s.pa s.pb, pa := s.pa + 1, pb := s.pb + 1 } := by
          have hpiv : swap s.m s.pa s.pb a = s.m a := swap_of_ne _ (by omega) (by omega)
          refine ⟨by simp; omega, by simp; omega, by simp; omega, hcd, hdn, ?_, ?_, ?_, ?_, ?_⟩
          · exact hs.perm.trans (WindowPerm.swap _ _ _ ⟨by omega, by omega⟩ ⟨by omega, by omega⟩)
          · intro k h1 h2
            simp only at h2 ⊢
            rw [hpiv]
            by_cases e : k = s.pa
            · subst e; rw [swap_left]; exact heq
            · rw [swap_of_ne _ e (by omega)]; exact hs.eqL k h1 (by omega)
          · intro k h1 h2
            simp only at h1 h2 ⊢
            rw [hpiv]
            by_cases e : k = s.pb
            · subst e; rw [swap_right]; exact hs.lt _ (Nat.le_refl _) (by omega)
            · rw [swap_of_ne _ (by omega) e]; exact hs.lt k (by omega) (by omega)
          · intro k h1 h2
            simp only at h1 h2 ⊢
            rw [hpiv, swap_of_ne _ (by omega) (by omega)]
            exact hs.gt k h1 h2
          · intro k h1 h2
            simp only at h1 h2 ⊢
            rw [hpiv, swap_of_ne _ (by omega) (by omega)]
            exact hs.eqR k h1 h2
        have := ih _ hinv (by simp; omega)
        simpa using this
      · rename_i hne
        have hinv : PartInv cmp a n m0 { s with pb := s.pb + 1 } := by
          refine ⟨hpa, by simp; omega, by simp; omega, hcd, hdn, hs.perm, hs.eqL, ?_, hs.gt, hs.eqR⟩
          intro k h1 h2
          simp only at h1 h2 ⊢
          by_cases e : k = s.pb
          · subst e; omega
          · exact hs.lt k h1 (by omega)
        have := ih _ hinv (by simp; omega)
        simpa using this
    · rename_i hcond
      refine ⟨hs, rfl, rfl, ?_⟩
      intro h
      by_contra h'
      exact hcond ⟨h, by omega⟩

theorem scanDown_spec (cmp : α → α → Int) (a n : Nat) (m0 : Nat → α) :
    ∀ (fuel : Nat) (s : PState α), PartInv cmp a n m0 s → s.pc + 1 ≤ s.pb + fuel →
      (s.pb ≤ s.pc → 0 < cmp (s.m s.pb) (s.m a)) →
      PartInv cmp a n m0 (scanDown cmp a fuel s) ∧
      (scanDown cmp a fuel s).pb = s.pb ∧ (scanDown cmp a fuel s).pa = s.pa ∧
      ((scanDown cmp a fuel s).pb ≤ (scanDown cmp a fuel s).pc →
        0 < cmp ((scanDown cmp a fuel s).m (scanDown cmp a fuel s).pb) ((scanDown cmp a fuel s).m a) ∧
        cmp ((scanDown cmp a fuel s).m (scanDown cmp a fuel s).pc) ((scanDown cmp a fuel s).m a) < 0) := by
  intro fuel
  induction fuel with
  | zero =>
    intro s hs hf _
    refine ⟨hs, rfl, rfl, ?_⟩
    intro h
    simp only [scanDown] at h
    omega
  | succ fuel ih =>
    intro s hs hf hx
    unfold scanDown
    split
    · rename_i hcond
      obtain ⟨hbc, hge⟩ := hcond
      have hpa := hs.h_pa
      have hab := hs.h_ab
      have hcd := hs.h_cd
      have hdn := hs.h_dn
      have hxb := hx hbc
      split
      · rename_i heq
        have hne : s.pb ≠ s.pc := by
          intro e; rw [e] at hxb; omega
        have hinv : PartInv cmp a n m0
            { s with swap_cnt := 1, m := swap s.m s.pc s.pd, pd := s.pd - 1, pc := s.pc - 1 } := by
          have hpiv : swap s.m s.pc s.pd a = s.m a := swap_of_ne _ (by omega) (by omega)
          refine ⟨hpa, hab, by simp; omega, by simp; omega, by simp; omega, ?_, ?_, ?_, ?_, ?_⟩
          · exact hs.perm.trans (WindowPerm.swap _ _ _ ⟨by omega, by omega⟩ ⟨by omega, by omega⟩)
          · intro k h1 h2
            simp only at h2 ⊢
            rw [hpiv, swap_of_ne _ (by omega) (by omega)]
            exact hs.eqL k h1 h2
          · intro k h1 h2
            simp only at h1 h2 ⊢
            rw [hpiv, swap_of_ne _ (by omega) (by omega)]
            exact hs.lt k h1 h2
          · intro k h1 h2
            simp only at h1 h2 ⊢
            rw [hpiv]
            by_cases e : k = s.pc
            · subst e; rw [swap_left]; exact hs.gt _ (by omega) (Nat.le_refl _)
            · rw [swap_of_ne _ e (by omega)]; exact hs.gt k (by omega) (by omega)
          · intro k h1 h2
            simp only at h1 h2 ⊢
            rw [hpiv]
            by_cases e : k = s.pd
            · subst e; rw [swap_right]; exact heq
            · rw [swap_of_ne _ (by omega) e]; exact hs.eqR k (by omega) h2
        have := ih _ hinv (by simp; omega) (by
          intro _
          simp only
          rw [swap_of_ne _ (by omega) (by omega), swap_of_ne _ (by omega) (by omega)]
          exact hxb)
        simpa using this
      · rename_i hne
        have hinv : PartInv cmp a n m0 { s with pc := s.pc - 1 } := by
          refine ⟨hpa, hab, by simp; omega, by simp; omega, hdn, hs.perm, hs.eqL, hs.lt, ?_, hs.eqR⟩
          intro k h1 h2
          simp only at h1 h2 ⊢
          by_cases e : k = s.pc
          · subst e; omega
          · exact hs.gt k (by omega) h2
        have := ih _ hinv (by simp; omega) (by
          intro h
          simp only at h ⊢
          exact hxb)
        simpa using this
    · rename_i hcond
      refine ⟨hs, rfl, rfl, ?_⟩
      intro h
      refine ⟨hx h, ?_⟩
      by_contra h'
      exact hcond ⟨h, by omega⟩

theorem scanUp_pb_le (cmp : α → α → Int) (a : Nat) :
    ∀ (fuel : Nat) (s : PState α), s.pb ≤ (scanUp cmp a fuel s).pb := by
  intro fuel
  induction fuel with
  | zero => intro s; exact Nat.le_refl _
  | succ fuel ih =>
    intro s
    unfold scanUp
    split
    · split
      · exact Nat.le_trans (by simp) (ih _)
      · exact Nat.le_trans (by simp) (ih _)
    · exact Nat.le_refl _

theorem scanDown_pc_le (cmp : α → α → Int) (a : Nat) :
    ∀ (fuel : Nat) (s : PState α), (scanDown cmp a fuel s).pc ≤ s.pc := by
  intro fuel
  induction fuel with
  | zero => intro s; exact Nat.le_refl _
  | succ fuel ih =>
    intro s
    unfold scanDown
    split
    · split
      · exact Nat.le_trans (ih _) (by simp)
      · exact Nat.le_trans (ih _) (by simp)
    · exact Nat.le_refl _

theorem partitionLoop_spec (cmp : α → α → Int) (a n : Nat) (m0 : Nat → α) :
    ∀ (fuel : Nat) (s : PState α), PartInv cmp a n m0 s → s.pc + 1 < s.pb + fuel →
      PartInv cmp a n m0 (partitionLoop cmp a fuel s) ∧
      (partitionLoop cmp a fuel s).pb = (partitionLoop cmp a fuel s).pc + 1 := by
  intro fuel
  induction fuel with
  | zero =>
    intro s hs hf
    have := hs.h_bc
    omega
  | succ fuel ih =>
    intro s hs hf
    unfold partitionLoop
    dsimp only
    obtain ⟨i1, c1, d1, x1⟩ := scanUp_spec cmp a n m0 (s.pc + 1 - s.pb) s hs (by omega)
    have b1 := scanUp_pb_le cmp a (s.pc + 1 - s.pb) s
    generalize scanUp cmp a (s.pc + 1 - s.pb) s = s1 at i1 c1 d1 x1 b1 ⊢
    obtain ⟨i2, b2, a2, x2⟩ := scanDown_spec cmp a n m0 (s1.pc + 1 - s1.pb) s1 i1 (by omega) x1
    have c2 := scanDown_pc_le cmp a (s1.pc + 1 - s1.pb) s1
    generalize scanDown cmp a (s1.pc + 1 - s1.pb) s1 = s2 at i2 b2 a2 x2 c2 ⊢
    split
    · rename_i hgt
      have := i2.h_bc
      exact ⟨i2, by omega⟩
    · rename_i hle
      obtain ⟨xb, xc⟩ := x2 (by omega)
      have hne : s2.pb ≠ s2.pc := by
        intro e; rw [e] at xb; omega
      have hpa := i2.h_pa
      have hab := i2.h_ab
      have hcd := i2.h_cd
      have hdn := i2.h_dn
      have hpiv : swap s2.m s2.pb s2.pc a = s2.m a := swap_of_ne _ (by omega) (by omega)
      apply ih
      · refine ⟨hpa, by simp; omega, by simp; omega, by simp; omega, hdn, ?_, ?_, ?_, ?_, ?_⟩
        · exact i2.perm.trans (WindowPerm.swap _ _ _ ⟨by omega, by omega⟩ ⟨by omega, by omega⟩)
        · intro k h1 h2
          simp only at h2 ⊢
          rw [hpiv, swap_of_ne _ (by omega) (by omega)]
          exact i2.eqL k h1 h2
        · intro k h1 h2
          simp only at h1 h2 ⊢
          rw [hpiv]
          by_cases e : k = s2.pb
          · subst e; rw [swap_left]; exact xc
          · rw [swap_of_ne _ e (by omega)]; exact i2.lt k h1 (by omega)
        · intro k h1 h2
          simp only at h1 h2 ⊢
          rw [hpiv]
          by_cases e : k = s2.pc
          · subst e; rw [swap_right]; exact xb
          · rw [swap_of_ne _ (by omega) e]; exact i2.gt k (by omega) h2
        · intro k h1 h2
          simp only at h1 h2 ⊢
          rw [hpiv, swap_of_ne _ (by omega) (by omega)]
          exact i2.eqR k h1 h2
      · simp only
        omega

/-- The partition phase on a window of at least one element: the invariant holds
at exit with the cursors just crossed. -/
theorem partition_spec (cmp : α → α → Int) (m : Nat → α) (a n : Nat) (hn : 1 ≤ n) :
    PartInv cmp a n (swap m a (choosePivot cmp m a n)) (partition cmp m a n) ∧
    (partition cmp m a n).pb = (partition cmp m a n).pc + 1 := by
  unfold partition
  apply partitionLoop_spec
  · refine ⟨by dsimp only; omega, by dsimp only; omega, by dsimp only; omega,
      by dsimp only; omega, by dsimp only; omega, WindowPerm.refl _ _ _, ?_, ?_, ?_, ?_⟩
    · intro k h1 h2; simp only at h2; omega
    · intro k h1 h2; simp only at h1 h2; omega
    · intro k h1 h2; simp only at h1 h2; omega
    · intro k h1 h2; simp only at h1; omega
  · simp only
    omega

/-! ### Gathering the pivot-equal elements in the middle -/

theorem gather_windowPerm (cmp : α → α → Int) (a n : Nat) (m0 : Nat → α) (s : PState α)
    (hs : PartInv cmp a n m0 s) (hx : s.pb = s.pc + 1) :
    WindowPerm a (a + n) s.m (gather s a n) := by
  have hpa := hs.h_pa
  have hab := hs.h_ab
  have hcd := hs.h_cd
  have hdn := hs.h_dn
  unfold gather
  dsimp only
  exact (vecswap_windowPerm a (a + n) _ s.m a _ (Nat.le_refl a) (by omega) (by omega)
      (by omega)).trans
    (vecswap_windowPerm a (a + n) _ _ s.pb _ (by omega) (by omega) (by omega) (by omega))

/-- Exchanging the shorter of two adjacent blocks `[a, p)` and `[p, b)` with the
far end of the other one puts the second block's elements first. -/
theorem vecswap_blocks (m : Nat → α) (a p b r : Nat) (hap : a ≤ p) (hpb : p ≤ b)
    (hr : r = min (p - a) (b - p)) (P Q : α → Prop)
    (hP : ∀ k, a ≤ k → k < p → P (m k)) (hQ : ∀ k, p ≤ k → k < b → Q (m k)) :
    (∀ k, a ≤ k → k < a + (b - p) → Q (vecswap m a (b - r) r k)) ∧
    (∀ k, a + (b - p) ≤ k → k < b → P (vecswap m a (b - r) r k)) ∧
    (∀ k, k < a ∨ b ≤ k → vecswap m a (b - r) r k = m k) := by
  have hr1 : r ≤ p - a := by rw [hr]; exact Nat.min_le_left _ _
  have hr2 : r ≤ b - p := by rw [hr]; exact Nat.min_le_right _ _
  have hr3 : r = p - a ∨ r = b - p := by
    rcases Nat.le_total (p - a) (b - p) with h | h
    · left; rw [hr, Nat.min_eq_left h]
    · right; rw [hr, Nat.min_eq_right h]
  refine ⟨?_, ?_, ?_⟩
  · intro k h1 h2
    rw [vecswap_apply _ _ _ _ (by omega)]
    split_ifs with c1 c2
    · exact hQ _ (by omega) (by omega)
    · exfalso; omega
    · exact hQ _ (by omega) (by omega)
  · intro k h1 h2
    rw [vecswap_apply _ _ _ _ (by omega)]
    split_ifs with c1 c2
    · exfalso; omega
    · exact hP _ (by omega) (by omega)
    · exact hP _ (by omega) (by omega)
  · intro k hk
    rw [vecswap_apply _ _ _ _ (by omega)]
    split_ifs with c1 c2
    · exfalso; omega
    · exfalso; omega
    · rfl

/-- After the two block moves the window reads: elements below the pivot, elements
equal to it, elements above it. -/
theorem gather_zones (cmp : α → α → Int) (a n : Nat) (m0 : Nat → α) (s : PState α)
    (hs : PartInv cmp a n m0 s) (hx : s.pb = s.pc + 1) (hrefl : cmp (s.m a) (s.m a) = 0) :
    (∀ k, a ≤ k → k < a + (s.pb - s.pa) → cmp (gather s a n k) (s.m a) < 0) ∧
    (∀ k, a + (s.pb - s.pa) ≤ k → k + (s.pd - s.pc) < a + n →
      cmp (gather s a n k) (s.m a) = 0) ∧
    (∀ k, a + n ≤ k + (s.pd - s.pc) → k < a + n → 0 < cmp (gather s a n k) (s.m a)) := by
  have hpa := hs.h_pa
  have hab := hs.h_ab
  have hcd := hs.h_cd
  have hdn := hs.h_dn
  have heqL : ∀ k, a ≤ k → k < s.pa → cmp (s.m k) (s.m a) = 0 := by
    intro k h1 h2
    by_cases e : k = a
    · rw [e]; exact hrefl
    · exact hs.eqL k (by omega) h2
  obtain ⟨f1, f2, f3⟩ := vecswap_blocks s.m a s.pa s.pb (min (s.pa - a) (s.pb - s.pa))
    (by omega) hab rfl (fun x => cmp x (s.m a) = 0) (fun x => cmp x (s.m a) < 0) heqL hs.lt
  generalize hm1 : vecswap s.m a (s.pb - min (s.pa - a) (s.pb - s.pa))
    (min (s.pa - a) (s.pb - s.pa)) = m1 at f1 f2 f3
  have hr2 : min (s.pd - s.pc) (a + n - s.pd - 1) = min (s.pd + 1 - s.pb) (a + n - (s.pd + 1)) := by
    congr 1; omega
  obtain ⟨g1, g2, g3⟩ := vecswap_blocks m1 s.pb (s.pd + 1) (a + n)
    (min (s.pd - s.pc) (a + n - s.pd - 1)) (by omega) (by omega) hr2
    (fun x => 0 < cmp x (s.m a)) (fun x => cmp x (s.m a) = 0)
    (by intro k h1 h2; rw [f3 k (by omega)]; exact hs.gt k (by omega) (by omega))
    (by intro k h1 h2; rw [f3 k (by omega)]; exact hs.eqR k (by omega) h2)
  have hg : gather s a n = vecswap m1 s.pb (a + n - min (s.pd - s.pc) (a + n - s.pd - 1))
      (min (s.pd - s.pc) (a + n - s.pd - 1)) := by
    unfold gather
    dsimp only
    rw [hm1]
  rw [hg]
  refine ⟨?_, ?_, ?_⟩
  · intro k h1 h2
    by_cases c : k < s.pb
    · rw [g3 k (by omega)]
      exact f1 k h1 h2
    · exfalso; omega
  · intro k h1 h2
    by_cases c : k < s.pb
    · rw [g3 k (by omega)]
      exact f2 k h1 c
    · exact g1 k (by omega) (by omega)
  · intro k h1 h2
    exact g2 k (by omega) h2

/-! ### Pivot selection -/

theorem med3_mem (cmp : α → α → Int) (m : Nat → α) (a b c : Nat) :
    med3 cmp m a b c = a ∨ med3 cmp m a b c = b ∨ med3 cmp m a b c = c := by
  unfold med3
  split_ifs <;> simp

theorem med3_bounds (cmp : α → α → Int) (m : Nat → α) {a b c lo hi : Nat}
    (ha : lo ≤ a ∧ a < hi) (hb : lo ≤ b ∧ b < hi) (hc : lo ≤ c ∧ c < hi) :
    lo ≤ med3 cmp m a b c ∧ med3 cmp m a b c < hi := by
  rcases med3_mem cmp m a b c with h | h | h <;> rw [h] <;> assumption

theorem choosePivot_bounds (cmp : α → α → Int) (m : Nat → α) (a n : Nat) (hn : 1 ≤ n) :
    a ≤ choosePivot cmp m a n ∧ choosePivot cmp m a n < a + n := by
  unfold choosePivot
  dsimp only
  split_ifs with h1 h2
  · apply med3_bounds
    · apply med3_bounds <;> omega
    · apply med3_bounds <;> omega
    · apply med3_bounds <;> omega
  · apply med3_bounds <;> omega
  · omega

/-! ### `_pqsort` returns, and only rearranges its window -/

theorem partition_windowPerm (cmp : α → α → Int) (m : Nat → α) (a n : Nat) (hn : 1 ≤ n) :
    WindowPerm a (a + n) m (partition cmp m a n).m := by
  have hp := choosePivot_bounds cmp m a n hn
  exact (WindowPerm.swap a (a + n) m ⟨Nat.le_refl a, by omega⟩ hp).trans
    ((partition_spec cmp m a n hn).1.perm.mono (by omega) (Nat.le_refl _))

/-- The windows `_pqsort` goes on with are smaller than the one it was given. -/
theorem partition_sizes (cmp : α → α → Int) (m : Nat → α) (a n : Nat) (hn : 1 ≤ n) :
    (partition cmp m a n).pb - (partition cmp m a n).pa ≤ n - 1 ∧
    (partition cmp m a n).pd - (partition cmp m a n).pc ≤ n - 1 := by
  obtain ⟨hs, hx⟩ := partition_spec cmp m a n hn
  have hpa := hs.h_pa
  have hab := hs.h_ab
  have hcd := hs.h_cd
  have hdn := hs.h_dn
  omega

theorem _pqsort_some (cmp : α → α → Int) (es : Nat) :
    ∀ (fuel : Nat) (m : Nat → α) (a n : Nat) (lrange rrange : Int), n < fuel →
      ∃ m', _pqsort cmp es fuel m a n lrange rrange = some m' ∧ WindowPerm a (a + n) m m' := by
  intro fuel
  induction fuel with
  | zero => intro m a n _ _ h; omega
  | succ fuel ih =>
    intro m a n lrange rrange hfuel
    rw [_pqsort]
    split
    · exact ⟨_, rfl, insertionSort_windowPerm cmp a n m⟩
    · rename_i hn7
      have hn : 1 ≤ n := by omega
      obtain ⟨hs, hx⟩ := partition_spec cmp m a n hn
      have hpm := partition_windowPerm cmp m a n hn
      have hsz := partition_sizes cmp m a n hn
      have hg := gather_windowPerm cmp a n _ _ hs hx
      have hpa := hs.h_pa
      have hab := hs.h_ab
      have hcd := hs.h_cd
      have hdn := hs.h_dn
      generalize partition cmp m a n = s at hs hx hpm hsz hg hpa hab hcd hdn ⊢
      dsimp only
      split
      · exact ⟨_, rfl, hpm.trans (insertionSort_windowPerm cmp a n s.m)⟩
      · have hL : ∃ m2, (if (s.pb - s.pa) * es > es then
              if overlaps lrange rrange (a * es : Nat) (((a * es + (s.pb - s.pa) * es : Nat) : Int) - 1) then
                _pqsort cmp es fuel (gather s a n) a ((s.pb - s.pa) * es / es) lrange rrange
              else some (gather s a n)
            else some (gather s a n)) = some m2 ∧ WindowPerm a (a + n) (gather s a n) m2 := by
          split
          · rename_i hr
            have hes : 0 < es := by
              rcases Nat.eq_zero_or_pos es with h | h
              · rw [h] at hr; simp at hr
              · exact h
            rw [Nat.mul_div_cancel _ hes]
            split
            · obtain ⟨m2, e2, p2⟩ := ih (gather s a n) a (s.pb - s.pa) lrange rrange (by omega)
              exact ⟨m2, e2, p2.mono (Nat.le_refl a) (by omega)⟩
            · exact ⟨_, rfl, WindowPerm.refl _ _ _⟩
          · exact ⟨_, rfl, WindowPerm.refl _ _ _⟩
        obtain ⟨m2, e2, p2⟩ := hL
        rw [e2]
        dsimp only
        have hR : ∃ m3, (if (s.pd - s.pc) * es > es then
              if overlaps lrange rrange ((((a + n) * es - (s.pd - s.pc) * es) / es * es : Nat) : Int)
                  (((((a + n) * es - (s.pd - s.pc) * es) / es * es + (s.pd - s.pc) * es : Nat) : Int) - 1) then
                _pqsort cmp es fuel m2 (((a + n) * es - (s.pd - s.pc) * es) / es)
                  ((s.pd - s.pc) * es / es) lrange rrange
              else some m2
            else some m2) = some m3 ∧ WindowPerm a (a + n) m2 m3 := by
          split
          · rename_i hr
            have hes : 0 < es := by
              rcases Nat.eq_zero_or_pos es with h | h
              · rw [h] at hr; simp at hr
              · exact h
            rw [← Nat.sub_mul, Nat.mul_div_cancel _ hes, Nat.mul_div_cancel _ hes]
            split
            · obtain ⟨m3, e3, p3⟩ := ih m2 (a + n - (s.pd - s.pc)) (s.pd - s.pc) lrange rrange
                (by omega)
              exact ⟨m3, e3, p3.mono (by omega) (by omega)⟩
            · exact ⟨_, rfl, WindowPerm.refl _ _ _⟩
          · exact ⟨_, rfl, WindowPerm.refl _ _ _⟩
        obtain ⟨m3, e3, p3⟩ := hR
        exact ⟨m3, e3, hpm.trans (hg.trans (p2.trans p3))⟩

/-! ### The range test -/

/-- For a positive element size the byte-range test of `_pqsort` says that the
window of `cnt` elements at `a` meets the element range `[lo, hi]`. -/
theorem overlaps_iff {es : Nat} (hes : 0 < es) {lo hi : Nat} (hlh : lo ≤ hi) (a cnt : Nat) :
    overlaps ((lo * es : Nat) : Int) ((((hi + 1) * es : Nat) : Int) - 1)
      ((a * es : Nat) : Int) (((a * es + cnt * es : Nat) : Int) - 1) = true ↔
    a ≤ hi ∧ lo < a + cnt := by
  have h1 : lo * es < a * es ↔ lo < a := Nat.mul_lt_mul_right hes
  have h2 : (hi + 1) * es ≤ a * es ↔ hi + 1 ≤ a := mul_le_mul_iff_of_pos_right hes
  have h3 : (a + cnt) * es ≤ lo * es ↔ a + cnt ≤ lo := mul_le_mul_iff_of_pos_right hes
  have h4 : (a + cnt) * es < (hi + 1) * es ↔ a + cnt < hi + 1 := Nat.mul_lt_mul_right hes
  have h5 : (a + cnt) * es = a * es + cnt * es := Nat.add_mul _ _ _
  have h6 : lo * es ≤ hi * es := Nat.mul_le_mul_right es hlh
  have h7 : (hi + 1) * es = hi * es + es := by rw [Nat.add_mul, Nat.one_mul]
  unfold overlaps
  simp only [Bool.not_eq_true', Bool.or_eq_false_iff, Bool.and_eq_false_imp, decide_eq_true_eq,
    decide_eq_false_iff_not]
  constructor
  · rintro ⟨g1, g2⟩
    constructor
    · by_contra hcon
      have : lo < a := by omega
      have := g1 (by omega)
      omega
    · by_contra hcon
      have := g2 (by omega)
      omega
  · rintro ⟨g1, g2⟩
    constructor
    · intro _; omega
    · intro _; omega

/-! ### One pass of `_pqsort` -/

/-- What `_pqsort` does on a window of at least seven elements that the partition
loop had to rearrange: gather, then sort the two outer zones where they hold
more than one element and meet the range. -/
theorem _pqsort_step (cmp : α → α → Int) {es : Nat} (hes : 0 < es) (fuel : Nat) (m : Nat → α)
    (a n : Nat) (lrange rrange : Int) (hn7 : ¬ n < 7)
    (hsc : ¬ (partition cmp m a n).swap_cnt = 0) :
    _pqsort cmp es (fuel + 1) m a n lrange rrange =
      (if 1 < (partition cmp m a n).pb - (partition cmp m a n).pa ∧
          overlaps lrange rrange ((a * es : Nat) : Int)
            (((a * es + ((partition cmp m a n).pb - (partition cmp m a n).pa) * es : Nat) : Int) - 1)
            = true then
          _pqsort cmp es fuel (gather (partition cmp m a n) a n) a
            ((partition cmp m a n).pb - (partition cmp m a n).pa) lrange rrange
        else some (gather (partition cmp m a n) a n)).bind
      (fun m2 =>
        if 1 < (partition cmp m a n).pd - (partition cmp m a n).pc ∧
          overlaps lrange rrange
            (((a + n - ((partition cmp m a n).pd - (partition cmp m a n).pc)) * es : Nat) : Int)
            ((((a + n - ((partition cmp m a n).pd - (partition cmp m a n).pc)) * es +
              ((partition cmp m a n).pd - (partition cmp m a n).pc) * es : Nat) : Int) - 1) = true then
          _pqsort cmp es fuel m2 (a + n - ((partition cmp m a n).pd - (partition cmp m a n).pc))
            ((partition cmp m a n).pd - (partition cmp m a n).pc) lrange rrange
        else some m2) := by
  rw [_pqsort, if_neg hn7]
  generalize partition cmp m a n = s at hsc ⊢
  dsimp only
  rw [if_neg hsc]
  have e1 : ∀ c : Nat, c * es > es ↔ 1 < c := by
    intro c
    constructor
    · intro h
      by_contra hc
      have : c * es ≤ 1 * es := Nat.mul_le_mul_right es (by omega)
      omega
    · intro h
      have : 2 * es ≤ c * es := Nat.mul_le_mul_right es (by omega)
      omega
  simp only [e1, ← Nat.sub_mul, Nat.mul_div_cancel _ hes]
  by_cases h1 : 1 < s.pb - s.pa
  · by_cases h2 : overlaps lrange rrange ((a * es : Nat) : Int)
        (((a * es + (s.pb - s.pa) * es : Nat) : Int) - 1) = true
    · simp only [h1, h2, if_true, and_self]
      cases _pqsort cmp es fuel (gather s a n) a (s.pb - s.pa) lrange rrange with
      | none => rfl
      | some m2 =>
        simp only [Option.some_bind]
        split_ifs <;> first | rfl | (exfalso; tauto)
    · simp only [h1, h2, if_true, and_false, if_false, Option.some_bind]
      split_ifs <;> first | rfl | (exfalso; tauto)
  · simp only [h1, if_false, false_and, Option.some_bind]
    split_ifs <;> first | rfl | (exfalso; tauto)

/-! ### Partial-sort correctness of `_pqsort` -/

theorem IsStrictWeak.le_via {cmp : α → α → Int} (hc : IsStrictWeak cmp) {x y pv : α}
    (h1 : cmp x pv ≤ 0) (h2 : 0 ≤ cmp y pv) : cmp x y ≤ 0 :=
  hc.trans x pv y h1 (hc.flip h2)

/-- Every index of the window that lies in the element range `[lo, hi]` ends up
holding an element that is in its sorted place within the window. -/
theorem _pqsort_inPlace {cmp : α → α → Int} (hc : IsStrictWeak cmp) {es : Nat} (hes : 0 < es)
    {lo hi : Nat} (hlh : lo ≤ hi) :
    ∀ (fuel : Nat) (m : Nat → α) (a n : Nat) (m' : Nat → α), n < fuel →
      _pqsort cmp es fuel m a n ((lo * es : Nat) : Int) ((((hi + 1) * es : Nat) : Int) - 1)
        = some m' →
      ∀ i, a ≤ i → i < a + n → lo ≤ i → i ≤ hi → InPlace cmp m' a (a + n) i := by
  intro fuel
  induction fuel with
  | zero => intro m a n m' hf h; simp [_pqsort] at h
  | succ fuel ih =>
    intro m a n m' hf h i hi1 hi2 hi3 hi4
    by_cases hn7 : n < 7
    · rw [_pqsort, if_pos hn7] at h
      cases h
      exact (insertionSort_sorted hc a n m).inPlace hc hi1 hi2
    by_cases hsc : (partition cmp m a n).swap_cnt = 0
    · rw [_pqsort, if_neg hn7] at h
      dsimp only at h
      rw [if_pos hsc] at h
      cases h
      exact (insertionSort_sorted hc a n _).inPlace hc hi1 hi2
    rw [_pqsort_step cmp hes fuel m a n _ _ hn7 hsc] at h
    have hn : 1 ≤ n := by omega
    obtain ⟨hs, hx⟩ := partition_spec cmp m a n hn
    obtain ⟨z1, z2, z3⟩ := gather_zones cmp a n _ _ hs hx (hc.cmp_self _)
    have hpa := hs.h_pa
    have hab := hs.h_ab
    have hcd := hs.h_cd
    have hdn := hs.h_dn
    generalize partition cmp m a n = s at hs hx z1 z2 z3 hpa hab hcd hdn h
    generalize hpv : s.m a = pv at z1 z2 z3
    generalize hm1 : gather s a n = m1 at z1 z2 z3 h
    generalize hnL : s.pb - s.pa = nL at z1 z2 z3 h
    generalize hnG : s.pd - s.pc = nG at z1 z2 z3 h
    have hsum : nL + nG + 1 ≤ n := by omega
    simp only [overlaps_iff hes hlh] at h
    -- the left zone
    have hL : ∃ m2, (if 1 < nL ∧ a ≤ hi ∧ lo < a + nL then
          _pqsort cmp es fuel m1 a nL ((lo * es : Nat) : Int) ((((hi + 1) * es : Nat) : Int) - 1)
        else some m1) = some m2 ∧ WindowPerm a (a + nL) m1 m2 ∧
        (1 < nL → ∀ i, a ≤ i → i < a + nL → lo ≤ i → i ≤ hi → InPlace cmp m2 a (a + nL) i) := by
      split
      · obtain ⟨m2, e2, p2⟩ := _pqsort_some cmp es fuel m1 a nL
          ((lo * es : Nat) : Int) ((((hi + 1) * es : Nat) : Int) - 1) (by omega)
        exact ⟨m2, e2, p2, fun _ => ih m1 a nL m2 (by omega) e2⟩
      · rename_i hg
        refine ⟨m1, rfl, WindowPerm.refl _ _ _, ?_⟩
        intro g1 i h1 h2 h3 h4
        exact absurd ⟨g1, by omega, by omega⟩ hg
    obtain ⟨m2, e2, p2, ip2⟩ := hL
    rw [e2] at h
    simp only [Option.some_bind] at h
    -- the right zone
    have hR : WindowPerm (a + n - nG) (a + n) m2 m' ∧
        (1 < nG → ∀ i, a + n - nG ≤ i → i < a + n → lo ≤ i → i ≤ hi →
          InPlace cmp m' (a + n - nG) (a + n) i) := by
      split at h
      · obtain ⟨m3, e3, p3⟩ := _pqsort_some cmp es fuel m2 (a + n - nG) nG
          ((lo * es : Nat) : Int) ((((hi + 1) * es : Nat) : Int) - 1) (by omega)
        rw [e3] at h
        cases h
        rw [show a + n - nG + nG = a + n by omega] at p3
        refine ⟨p3, fun _ => ?_⟩
        have := ih m2 (a + n - nG) nG m' (by omega) e3
        rwa [show a + n - nG + nG = a + n by omega] at this
      · rename_i hg
        cases h
        refine ⟨WindowPerm.refl _ _ _, ?_⟩
        intro g1 i h1 h2 h3 h4
        exact absurd ⟨g1, by omega, by omega⟩ hg
    obtain ⟨p3, ip3⟩ := hR
    -- the three zones in the final memory
    have y1 : ∀ k, a ≤ k → k < a + nL → cmp (m' k) pv < 0 := by
      intro k h1 h2
      rw [p3.outside (by omega)]
      exact p2.forall_window (P := fun x => cmp x pv < 0) z1 k h1 h2
    have y2 : ∀ k, a + nL ≤ k → k + nG < a + n → cmp (m' k) pv = 0 := by
      intro k h1 h2
      rw [p3.outside (by omega), p2.outside (by omega)]
      exact z2 k h1 h2
    have y3 : ∀ k, a + n - nG ≤ k → k < a + n → 0 < cmp (m' k) pv := by
      apply p3.forall_window (P := fun x => 0 < cmp x pv)
      intro k h1 h2
      rw [p2.outside (by omega)]
      exact z3 k (by omega) h2
    have w1 : ∀ k, a ≤ k → k + nG < a + n → cmp (m' k) pv ≤ 0 := by
      intro k h1 h2
      by_cases c : k < a + nL
      · exact Int.le_of_lt (y1 k h1 c)
      · exact Int.le_of_eq (y2 k (by omega) h2)
    have w2 : ∀ k, a + nL ≤ k → k < a + n → 0 ≤ cmp (m' k) pv := by
      intro k h1 h2
      by_cases c : k + nG < a + n
      · exact Int.le_of_eq (y2 k h1 c).symm
      · exact Int.le_of_lt (y3 k (by omega) h2)
    have hin2 : ∀ k, k < a + nL → m' k = m2 k := fun k hk => p3.outside (by omega)
    constructor
    · intro j hj1 hj2
      by_cases cL : i < a + nL
      · -- both in the left zone
        have := (ip2 (by omega) i hi1 cL hi3 hi4).1 j hj1 hj2
        rwa [← hin2 j (by omega), ← hin2 i cL] at this
      · by_cases cG : j + nG < a + n
        · exact hc.le_via (w1 j hj1 cG) (w2 i (by omega) hi2)
        · -- both in the right zone
          exact (ip3 (by omega) i (by omega) hi2 hi3 hi4).1 j (by omega) hj2
    · intro j hj1 hj2
      by_cases cG : i + nG < a + n
      · by_cases cL : j < a + nL
        · have := (ip2 (by omega) i hi1 (by omega) hi3 hi4).2 j hj1 cL
          rwa [← hin2 j cL, ← hin2 i (by omega)] at this
        · exact hc.le_via (w1 i hi1 cG) (w2 j (by omega) hj2)
      · exact (ip3 (by omega) i (by omega) hi2 hi3 hi4).2 j hj1 hj2

/-! ### Order statistics -/

theorem SortedBy.getElem_le {cmp : α → α → Int} (hc : IsStrictWeak cmp) {s : List α}
    (hs : SortedBy cmp s) {i j : Nat} (hij : i ≤ j) (hj : j < s.length) :
    cmp (s[i]) (s[j]) ≤ 0 := by
  rcases Nat.eq_or_lt_of_le hij with e | l
  · subst e; rw [hc.cmp_self]
  · exact (List.pairwise_iff_getElem.1 hs) i j (by omega) hj l

/-- An element `x` that is at least everything up to index `i` and at most
everything from index `i` on, in a rearrangement of a sorted list, is equivalent
to the element the sorted list has at index `i`. -/
theorem rank_core {cmp : α → α → Int} (hc : IsStrictWeak cmp) {out s : List α}
    (hp : out.Perm s) (hs : SortedBy cmp s) (x : α) {i : Nat} (hi : i < s.length)
    (hL : ∀ j (hj : j < out.length), j ≤ i → cmp (out[j]) x ≤ 0)
    (hR : ∀ j (hj : j < out.length), i ≤ j → cmp x (out[j]) ≤ 0) :
    cmp x (s[i]) = 0 := by
  have hlen := hp.length_eq
  have part1 : ¬ cmp (s[i]) x < 0 := by
    intro hlt
    have c1 := hp.countP_eq (fun y => decide (cmp y x < 0))
    have c2 : List.countP (fun y => decide (cmp y x < 0)) (s.take (i + 1)) = i + 1 := by
      have h1 : List.countP (fun y => decide (cmp y x < 0)) (s.take (i + 1))
          = (s.take (i + 1)).length := by
        rw [List.countP_eq_length]
        intro y hy
        obtain ⟨j, hj, rfl⟩ := List.mem_take_iff_getElem.1 hy
        simp only [decide_eq_true_eq]
        exact hc.lt_of_le_of_lt (hs.getElem_le hc (by omega) hi) hlt
      rw [h1, List.length_take]; omega
    have c3 : List.countP (fun y => decide (cmp y x < 0)) (out.drop i) = 0 := by
      rw [List.countP_eq_zero]
      intro y hy
      obtain ⟨j, hj, rfl⟩ := List.mem_drop_iff_getElem.1 hy
      simp only [decide_eq_true_eq]
      intro hneg
      have h1 := hR (i + j) (by omega) (by omega)
      have h2 := (hc.antisymm _ _).1 hneg
      omega
    have c4 : List.countP (fun y => decide (cmp y x < 0)) out ≤ i := by
      conv_lhs => rw [← List.take_append_drop i out]
      rw [List.countP_append, c3, Nat.add_zero]
      exact Nat.le_trans (List.countP_le_length _) (by rw [List.length_take]; omega)
    have c5 : i + 1 ≤ List.countP (fun y => decide (cmp y x < 0)) s := by
      conv_rhs => rw [← List.take_append_drop (i + 1) s]
      rw [List.countP_append, c2]
      omega
    omega
  have part2 : ¬ 0 < cmp (s[i]) x := by
    intro hgt
    have hlt : cmp x (s[i]) < 0 := hc.not_le hgt
    have c1 := hp.countP_eq (fun y => decide (0 < cmp y x))
    have c2 : List.countP (fun y => decide (0 < cmp y x)) (s.drop i) = s.length - i := by
      have h1 : List.countP (fun y => decide (0 < cmp y x)) (s.drop i) = (s.drop i).length := by
        rw [List.countP_eq_length]
        intro y hy
        obtain ⟨j, hj, rfl⟩ := List.mem_drop_iff_getElem.1 hy
        simp only [decide_eq_true_eq]
        have h1 : cmp (s[i]) (s[i + j]) ≤ 0 := hs.getElem_le hc (by omega) (by omega)
        have h2 := hc.lt_of_lt_of_le hlt h1
        exact (hc.antisymm _ _).1 h2
      rw [h1, List.length_drop]
    have c3 : List.countP (fun y => decide (0 < cmp y x)) (out.take (i + 1)) = 0 := by
      rw [List.countP_eq_zero]
      intro y hy
      obtain ⟨j, hj, rfl⟩ := List.mem_take_iff_getElem.1 hy
      simp only [decide_eq_true_eq]
      intro hpos
      have := hL j (by omega) (by omega)
      omega
    have c4 : List.countP (fun y => decide (0 < cmp y x)) out ≤ out.length - (i + 1) := by
      conv_lhs => rw [← List.take_append_drop (i + 1) out]
      rw [List.countP_append, c3, Nat.zero_add]
      exact Nat.le_trans (List.countP_le_length _) (by rw [List.length_drop])
    have c5 : s.length - i ≤ List.countP (fun y => decide (0 < cmp y x)) s := by
      conv_rhs => rw [← List.take_append_drop i s]
      rw [List.countP_append, c2]
      omega
    omega
  have h0 : cmp (s[i]) x = 0 := by omega
  exact hc.symm_eq h0

/-! ### Loading a buffer and reading it back -/

theorem load_read [Inhabited α] (a : List α) :
    (List.range a.length).map (fun i => a.getD i default) = a := by
  apply List.ext_getElem
  · simp
  · intro i h1 h2
    simp only [List.getElem_map, List.getElem_range]
    exact List.getD_eq_getElem _ _ h2

/-- Rearranging the first `n` elements of a loaded buffer rearranges the buffer. -/
theorem WindowPerm.read_perm [Inhabited α] {a : List α} {n : Nat} (hn : n ≤ a.length)
    {m' : Nat → α} (h : WindowPerm 0 (0 + n) (fun i => a.getD i default) m') :
    ((List.range a.length).map m').Perm a := by
  have h1 := (h.mono (Nat.le_refl 0) (show 0 + n ≤ a.length by omega)).list_perm
  rw [Nat.sub_zero, ← List.range_eq_range'] at h1
  rwa [load_read] at h1

/-! ### `pqsort` on a buffer -/

/-- For every comparator, `pqsort` on a buffer of at least `n` elements returns a
rearrangement of the buffer. -/
theorem pqsort_returns [Inhabited α] (cmp : α → α → Int) (a : List α) (n es lo hi : Nat)
    (hn : n ≤ a.length) :
    ∃ out, pqsort cmp a n es lo hi = some out ∧ out.Perm a ∧ out.length = a.length := by
  obtain ⟨m', e, p⟩ := _pqsort_some cmp es (n + 1) (fun i => a.getD i default) 0 n
    ((lo * es : Nat) : Int) ((((hi + 1) * es : Nat) : Int) - 1) (Nat.lt_succ_self n)
  refine ⟨(List.range a.length).map m', ?_, p.read_perm hn, by simp⟩
  unfold pqsort
  rw [e]
  rfl

/-- For a strict weak ordering and a range `lo ≤ hi`, `pqsort` on the whole buffer
returns a rearrangement in which every index of the range holds an element that
is in its sorted place. -/
theorem pqsort_run [Inhabited α] {cmp : α → α → Int} (hc : IsStrictWeak cmp) {es : Nat}
    (hes : 0 < es) (a : List α) {lo hi : Nat} (hlh : lo ≤ hi) :
    ∃ out, pqsort cmp a a.length es lo hi = some out ∧ out.Perm a ∧ out.length = a.length ∧
      ∀ i (hi1 : i < out.length), lo ≤ i → i ≤ hi →
        (∀ j (hj : j < out.length), j ≤ i → cmp (out[j]) (out[i]) ≤ 0) ∧
        (∀ j (hj : j < out.length), i ≤ j → cmp (out[i]) (out[j]) ≤ 0) := by
  obtain ⟨m', e, p⟩ := _pqsort_some cmp es (a.length + 1) (fun i => a.getD i default) 0 a.length
    ((lo * es : Nat) : Int) ((((hi + 1) * es : Nat) : Int) - 1) (Nat.lt_succ_self _)
  have hin := _pqsort_inPlace hc hes hlh _ _ _ _ _ (Nat.lt_succ_self _) e
  refine ⟨(List.range a.length).map m', ?_, p.read_perm (Nat.le_refl _), by simp, ?_⟩
  · unfold pqsort
    rw [e]
    rfl
  · intro i hi1 h1 h2
    have hi1' : i < a.length := by simpa using hi1
    obtain ⟨q1, q2⟩ := hin i (Nat.zero_le _) (by omega) h1 h2
    constructor
    · intro j hj hji
      simp only [List.getElem_map, List.getElem_range]
      rcases Nat.eq_or_lt_of_le hji with e | l
      · subst e; rw [hc.cmp_self]
      · exact q1 j (Nat.zero_le _) l
    · intro j hj hij
      have hj' : j < a.length := by simpa using hj
      simp only [List.getElem_map, List.getElem_range]
      rcases Nat.eq_or_lt_of_le hij with e | l
      · subst e; rw [hc.cmp_self]
      · exact q2 j l (by omega)

/-- Equivalence for a strict weak ordering is transitive through a common element. -/
theorem IsStrictWeak.equiv_via {cmp : α → α → Int} (hc : IsStrictWeak cmp) {x y z : α}
    (h1 : cmp x z = 0) (h2 : cmp y z = 0) : cmp x y = 0 := by
  have a1 : cmp x y ≤ 0 := hc.le_via (Int.le_of_eq h1) (Int.le_of_eq h2.symm)
  have a2 : cmp y x ≤ 0 := hc.le_via (Int.le_of_eq h2) (Int.le_of_eq h1.symm)
  have a3 := hc.antisymm x y
  omega

/-- A list whose every index holds an element in its sorted place is sorted. -/
theorem sortedBy_of_inPlace {cmp : α → α → Int} {out : List α}
    (h : ∀ i (hi1 : i < out.length), ∀ j (hj : j < out.length), i ≤ j →
      cmp (out[i]) (out[j]) ≤ 0) : SortedBy cmp out := by
  unfold SortedBy
  rw [List.pairwise_iff_getElem]
  intro i j hi hj hij
  exact h i hi j hj (Nat.le_of_lt hij)

/-- Two sorted rearrangements of the same list agree index by index when
equivalent elements are identical. -/
theorem eq_of_pointwise {out s : List α} (hlen : out.length = s.length)
    (h : ∀ i (h1 : i < out.length) (h2 : i < s.length), out[i] = s[i]) : out = s :=
  List.ext_getElem hlen (fun i h1 h2 => h i h1 h2)

/-! ### The bounds on iterations and nesting are never reached -/

/-- The outer insertion-sort loop leaves through its own test: running it with a
larger bound changes nothing. -/
theorem insertOuter_fuel (cmp : α → α → Int) (a n : Nat) :
    ∀ (fuel pm : Nat) (m : Nat → α), a + n ≤ pm + fuel →
      insertOuter cmp a n (fuel + 1) pm m = insertOuter cmp a n fuel pm m := by
  intro fuel
  induction fuel with
  | zero =>
    intro pm m h
    have : ¬ pm < a + n := by omega
    simp [insertOuter, this]
  | succ fuel ih =>
    intro pm m h
    conv_lhs => rw [insertOuter]
    conv_rhs => rw [insertOuter]
    split
    · exact ih _ _ (by omega)
    · rfl

theorem _pqsort_fuel (cmp : α → α → Int) {es : Nat} (hes : 0 < es) :
    ∀ (fuel : Nat) (m : Nat → α) (a n : Nat) (lrange rrange : Int), n < fuel →
      _pqsort cmp es (fuel + 1) m a n lrange rrange = _pqsort cmp es fuel m a n lrange rrange := by
  intro fuel
  induction fuel with
  | zero => intro m a n _ _ h; omega
  | succ fuel ih =>
    intro m a n lrange rrange hf
    by_cases hn7 : n < 7
    · rw [_pqsort, if_pos hn7, _pqsort, if_pos hn7]
    by_cases hsc : (partition cmp m a n).swap_cnt = 0
    · rw [_pqsort, if_neg hn7, _pqsort, if_neg hn7]
      dsimp only
      rw [if_pos hsc, if_pos hsc]
    rw [_pqsort_step cmp hes (fuel + 1) m a n _ _ hn7 hsc,
      _pqsort_step cmp hes fuel m a n _ _ hn7 hsc]
    have hsz := partition_sizes cmp m a n (by omega)
    rw [ih _ _ _ _ _ (by omega)]
    congr 1
    funext m2
    rw [ih _ _ _ _ _ (by omega)]

/-- Once the bound exceeds the window size, the result of `_pqsort` is a value and
does not depend on the bound. -/
theorem _pqsort_total (cmp : α → α → Int) {es : Nat} (hes : 0 < es) (m : Nat → α) (a n : Nat)
    (lrange rrange : Int) :
    ∃ m', ∀ fuel, n < fuel → _pqsort cmp es fuel m a n lrange rrange = some m' := by
  obtain ⟨m', e, _⟩ := _pqsort_some cmp es (n + 1) m a n lrange rrange (Nat.lt_succ_self n)
  refine ⟨m', ?_⟩
  intro fuel
  induction fuel with
  | zero => intro h; omega
  | succ fuel ih =>
    intro h
    rcases Nat.eq_or_lt_of_le (Nat.le_of_lt_succ h) with e1 | l
    · rw [← e1]; exact e
    · rw [_pqsort_fuel cmp hes fuel m a n lrange rrange l]
      exact ih l

/-! ### The properties of `pqsort` -/

/-- C1: for a strict weak ordering and a range `0 ≤ lo ≤ hi < n`, `pqsort` returns a
buffer of the same length in which every index of `[lo, hi]` holds the element
that any sorted rearrangement of the input holds at that index, up to
equivalence, and exactly when equivalent elements are identical. -/
theorem pqsort_range_sorted [Inhabited α] {cmp : α → α → Int} (hc : IsStrictWeak cmp)
    {es : Nat} (hes : 0 < es) (a : List α) {lo hi : Nat} (hlh : lo ≤ hi) (_hhi : hi < a.length) :
    ∃ out, pqsort cmp a a.length es lo hi = some out ∧ out.length = a.length ∧
      AgreesWithSorted cmp a out lo hi := by
  obtain ⟨out, e, p, hlen, hin⟩ := pqsort_run hc hes a hlh
  refine ⟨out, e, hlen, ?_⟩
  intro s hs hsorted i h1 h2 h3 h4
  have key : cmp (out[i]) (s[i]) = 0 :=
    rank_core hc (p.trans hs.symm) hsorted (out[i]) h2 (hin i h1 h3 h4).1 (hin i h1 h3 h4).2
  exact ⟨key, fun hid => hid _ _ key⟩

/-- The instance of C1 given in the specification: `[5,3,8,1,9,2]` with
`lo = hi = 2` ends with `3`, the element of rank 2, at index 2. -/
theorem pqsort_range_sorted_witness :
    IsStrictWeak natCmp ∧ 0 < 4 ∧ 2 ≤ 2 ∧ 2 < [5, 3, 8, 1, 9, 2].length ∧
    (∃ out, pqsort natCmp [5, 3, 8, 1, 9, 2] [5, 3, 8, 1, 9, 2].length 4 2 2 = some out ∧
      out.length = [5, 3, 8, 1, 9, 2].length ∧
      AgreesWithSorted natCmp [5, 3, 8, 1, 9, 2] out 2 2) ∧
    (pqsort natCmp [5, 3, 8, 1, 9, 2] 6 4 2 2).map (fun out => out.getD 2 0) = some 3 :=
  ⟨natCmp_strictWeak, by decide, by decide, by decide,
    pqsort_range_sorted natCmp_strictWeak (by decide) [5, 3, 8, 1, 9, 2] (by decide) (by decide),
    by decide⟩

/-- C2: for a strict weak ordering and a range `0 ≤ lo ≤ hi < n`, after `pqsort`
every element before `lo` is at most, and every element after `hi` is at least,
every element held in `[lo, hi]`. -/
theorem pqsort_partitioned [Inhabited α] {cmp : α → α → Int} (hc : IsStrictWeak cmp)
    {es : Nat} (hes : 0 < es) (a : List α) {lo hi : Nat} (hlh : lo ≤ hi) (_hhi : hi < a.length) :
    ∃ out, pqsort cmp a a.length es lo hi = some out ∧ PartitionedAround cmp out lo hi := by
  obtain ⟨out, e, _, _, hin⟩ := pqsort_run hc hes a hlh
  refine ⟨out, e, ?_⟩
  intro i j hi1 hj1 h1 h2
  obtain ⟨q1, q2⟩ := hin j hj1 h1 h2
  constructor
  · intro h
    exact q1 i hi1 (by omega)
  · intro h
    have h3 := q2 i hi1 (by omega)
    have h4 := hc.antisymm (out[i]) (out[j])
    omega

theorem pqsort_partitioned_witness :
    IsStrictWeak natCmp ∧ 0 < 4 ∧ 3 ≤ 5 ∧ 5 < [9, 8, 7, 6, 5, 4, 3, 2, 1, 0].length ∧
    ∃ out, pqsort natCmp [9, 8, 7, 6, 5, 4, 3, 2, 1, 0] [9, 8, 7, 6, 5, 4, 3, 2, 1, 0].length 4 3 5
        = some out ∧ PartitionedAround natCmp out 3 5 :=
  ⟨natCmp_strictWeak, by decide, by decide, by decide,
    pqsort_partitioned natCmp_strictWeak (by decide) [9, 8, 7, 6, 5, 4, 3, 2, 1, 0] (by decide)
      (by decide)⟩

/-- C3: for a strict weak ordering and a buffer of `n ≥ 1` elements, `pqsort` with
the range `[0, n - 1]` returns a sorted rearrangement of the input, which agrees
index by index with every sorted rearrangement of the input up to equivalence,
and is equal to it when equivalent elements are identical. -/
theorem pqsort_full_sorts [Inhabited α] {cmp : α → α → Int} (hc : IsStrictWeak cmp)
    {es : Nat} (hes : 0 < es) (a : List α) (_hn : 1 ≤ a.length) :
    ∃ out, pqsort cmp a a.length es 0 (a.length - 1) = some out ∧
      SortedBy cmp out ∧ out.Perm a ∧
      ∀ s : List α, s.Perm a → SortedBy cmp s →
        (∀ i (_ : i < out.length) (_ : i < s.length), cmp (out[i]) (s[i]) = 0) ∧
        ((∀ x y, cmp x y = 0 → x = y) → out = s) := by
  obtain ⟨out, e, p, hlen, hin⟩ := pqsort_run hc hes a (Nat.zero_le (a.length - 1))
  refine ⟨out, e, ?_, p, ?_⟩
  · apply sortedBy_of_inPlace
    intro i hi1 j hj hij
    exact (hin i hi1 (Nat.zero_le _) (by omega)).2 j hj hij
  · intro s hs hsorted
    have key : ∀ i (h1 : i < out.length) (h2 : i < s.length), cmp (out[i]) (s[i]) = 0 := by
      intro i h1 h2
      have := hin i h1 (Nat.zero_le _) (by omega)
      exact rank_core hc (p.trans hs.symm) hsorted (out[i]) h2 this.1 this.2
    refine ⟨key, fun hid => ?_⟩
    exact eq_of_pointwise (p.trans hs.symm).length_eq (fun i h1 h2 => hid _ _ (key i h1 h2))

/-- The instance of C3 given in the specification: the reverse-sorted
`[6,5,4,3,2,1]` becomes `[1,2,3,4,5,6]`. -/
theorem pqsort_full_sorts_witness :
    IsStrictWeak natCmp ∧ 0 < 4 ∧ 1 ≤ [6, 5, 4, 3, 2, 1].length ∧
    (∃ out, pqsort natCmp [6, 5, 4, 3, 2, 1] [6, 5, 4, 3, 2, 1].length 4 0
        ([6, 5, 4, 3, 2, 1].length - 1) = some out ∧
      SortedBy natCmp out ∧ out.Perm [6, 5, 4, 3, 2, 1] ∧
      ∀ s : List Nat, s.Perm [6, 5, 4, 3, 2, 1] → SortedBy natCmp s →
        (∀ i (_ : i < out.length) (_ : i < s.length), natCmp (out[i]) (s[i]) = 0) ∧
        ((∀ x y, natCmp x y = 0 → x = y) → out = s)) ∧
    pqsort natCmp [6, 5, 4, 3, 2, 1] 6 4 0 5 = some [1, 2, 3, 4, 5, 6] :=
  ⟨natCmp_strictWeak, by decide, by decide,
    pqsort_full_sorts natCmp_strictWeak (by decide) [6, 5, 4, 3, 2, 1] (by decide), by decide⟩

/-- C4: for every comparator, every range, every element size `es > 0` and every
element count `n` that the buffer can hold, `pqsort` returns a buffer that is a
rearrangement of the input, of the same length. -/
theorem pqsort_only_reorders [Inhabited α] (cmp : α → α → Int) (a : List α) (n es lo hi : Nat)
    (_hes : 0 < es) (hn : n ≤ a.length) :
    ∃ out, pqsort cmp a n es lo hi = some out ∧ out.Perm a ∧ out.length = a.length :=
  pqsort_returns cmp a n es lo hi hn

/-- An instance of C4 with a comparator that is not a strict weak ordering (it
always answers "greater") and a range with `lo > hi`. -/
theorem pqsort_only_reorders_witness :
    0 < 4 ∧ 8 ≤ [3, 1, 4, 1, 5, 9, 2, 6].length ∧
    ∃ out, pqsort (fun _ _ => (1 : Int)) [3, 1, 4, 1, 5, 9, 2, 6] 8 4 5 2 = some out ∧
      out.Perm [3, 1, 4, 1, 5, 9, 2, 6] ∧ out.length = [3, 1, 4, 1, 5, 9, 2, 6].length :=
  ⟨by decide, by decide,
    pqsort_only_reorders (fun _ _ => (1 : Int)) [3, 1, 4, 1, 5, 9, 2, 6] 8 4 5 2 (by decide)
      (by decide)⟩

/-- For a strict weak ordering every buffer has a sorted rearrangement. -/
theorem exists_sorted_perm [Inhabited α] {cmp : α → α → Int} (hc : IsStrictWeak cmp)
    (a : List α) : ∃ s : List α, s.Perm a ∧ SortedBy cmp s := by
  obtain ⟨out, _, p, _, hin⟩ := pqsort_run hc (Nat.one_pos) a (Nat.zero_le (a.length - 1))
  refine ⟨out, p, sortedBy_of_inPlace ?_⟩
  intro i hi1 j hj hij
  exact (hin i hi1 (Nat.zero_le _) (by omega)).2 j hj hij

/-- The negation of C5 at two concrete inputs.  On `[7,6,5,4,3,2,1]` with
`lo = hi = 0` one application gives `[1,2,3,4,7,5,6]` and a second one gives
`[1,2,3,4,5,6,7]`, which differs at index 4, outside the range.  On seven pairs
with the same key, compared by key, with the full range, one application
exchanges the pairs at indices 0 and 3 and a second one exchanges them back, so
the two results differ at index 0, inside the range. -/
theorem pqsort_twice_differs :
    (IsStrictWeak natCmp ∧ (0 : Nat) ≤ 0 ∧ 0 < [7, 6, 5, 4, 3, 2, 1].length ∧
      pqsort natCmp [7, 6, 5, 4, 3, 2, 1] 7 4 0 0 = some [1, 2, 3, 4, 7, 5, 6] ∧
      pqsort natCmp [1, 2, 3, 4, 7, 5, 6] 7 4 0 0 = some [1, 2, 3, 4, 5, 6, 7] ∧
      ¬ ((pqsort natCmp [7, 6, 5, 4, 3, 2, 1] 7 4 0 0).bind (fun out => pqsort natCmp out 7 4 0 0)
          = pqsort natCmp [7, 6, 5, 4, 3, 2, 1] 7 4 0 0)) ∧
    (IsStrictWeak keyCmp ∧
      pqsort keyCmp [(1, 0), (1, 1), (1, 2), (1, 3), (1, 4), (1, 5), (1, 6)] 7 8 0 6
        = some [(1, 3), (1, 1), (1, 2), (1, 0), (1, 4), (1, 5), (1, 6)] ∧
      pqsort keyCmp [(1, 3), (1, 1), (1, 2), (1, 0), (1, 4), (1, 5), (1, 6)] 7 8 0 6
        = some [(1, 0), (1, 1), (1, 2), (1, 3), (1, 4), (1, 5), (1, 6)]) :=
  ⟨⟨natCmp_strictWeak, by decide, by decide, by decide, by decide, by decide⟩,
    ⟨keyCmp_strictWeak, by decide, by decide⟩⟩

/-- C5, amended: for a strict weak ordering and a range `0 ≤ lo ≤ hi < n`, a second
`pqsort` with the same range returns a rearrangement of the result of the first
that holds, at every index of `[lo, hi]`, an element equivalent to the one the
first left there, and the same element when equivalent elements are identical. -/
theorem pqsort_twice_range [Inhabited α] {cmp : α → α → Int} (hc : IsStrictWeak cmp)
    {es : Nat} (hes : 0 < es) (a : List α) {lo hi : Nat} (hlh : lo ≤ hi) (_hhi : hi < a.length) :
    ∃ out1 out2, pqsort cmp a a.length es lo hi = some out1 ∧
      pqsort cmp out1 out1.length es lo hi = some out2 ∧
      out2.Perm out1 ∧ out2.length = out1.length ∧
      ∀ i (_ : i < out2.length) (_ : i < out1.length), lo ≤ i → i ≤ hi →
        cmp (out2[i]) (out1[i]) = 0 ∧ ((∀ x y, cmp x y = 0 → x = y) → out2[i] = out1[i]) := by
  obtain ⟨out1, e1, p1, hlen1, hin1⟩ := pqsort_run hc hes a hlh
  obtain ⟨out2, e2, p2, hlen2, hin2⟩ := pqsort_run hc hes out1 hlh
  obtain ⟨s, hs, hsorted⟩ := exists_sorted_perm hc a
  refine ⟨out1, out2, e1, e2, p2, hlen2, ?_⟩
  intro i h2 h1 h3 h4
  have hs' : i < s.length := by rw [hs.length_eq, ← hlen1]; exact h1
  have k1 : cmp (out1[i]) (s[i]) = 0 :=
    rank_core hc (p1.trans hs.symm) hsorted (out1[i]) hs' (hin1 i h1 h3 h4).1 (hin1 i h1 h3 h4).2
  have k2 : cmp (out2[i]) (s[i]) = 0 :=
    rank_core hc ((p2.trans p1).trans hs.symm) hsorted (out2[i]) hs' (hin2 i h2 h3 h4).1
      (hin2 i h2 h3 h4).2
  have key := hc.equiv_via k2 k1
  exact ⟨key, fun hid => hid _ _ key⟩

theorem pqsort_twice_range_witness :
    IsStrictWeak natCmp ∧ 0 < 4 ∧ 0 ≤ 0 ∧ 0 < [7, 6, 5, 4, 3, 2, 1].length ∧
    ∃ out1 out2, pqsort natCmp [7, 6, 5, 4, 3, 2, 1] [7, 6, 5, 4, 3, 2, 1].length 4 0 0
        = some out1 ∧
      pqsort natCmp out1 out1.length 4 0 0 = some out2 ∧
      out2.Perm out1 ∧ out2.length = out1.length ∧
      ∀ i (_ : i < out2.length) (_ : i < out1.length), 0 ≤ i → i ≤ 0 →
        natCmp (out2[i]) (out1[i]) = 0 ∧
        ((∀ x y, natCmp x y = 0 → x = y) → out2[i] = out1[i]) :=
  ⟨natCmp_strictWeak, by decide, by decide, by decide,
    pqsort_twice_range natCmp_strictWeak (by decide) [7, 6, 5, 4, 3, 2, 1] (by decide) (by decide)⟩

/-- The negation of C6 at a concrete input: seven pairs with the same key,
compared by key, are sorted, and `pqsort` with the full range moves the pair at
index 3 to the front and the pair at index 0 to index 3. -/
theorem pqsort_sorted_changes :
    IsStrictWeak keyCmp ∧
    List.Chain' (fun x y => keyCmp x y ≤ 0)
      [(1, 0), (1, 1), (1, 2), (1, 3), (1, 4), (1, 5), (1, 6)] ∧
    pqsort keyCmp [(1, 0), (1, 1), (1, 2), (1, 3), (1, 4), (1, 5), (1, 6)] 7 8 0 6
      = some [(1, 3), (1, 1), (1, 2), (1, 0), (1, 4), (1, 5), (1, 6)] ∧
    pqsort keyCmp [(1, 0), (1, 1), (1, 2), (1, 3), (1, 4), (1, 5), (1, 6)] 7 8 0 6
      ≠ some [(1, 0), (1, 1), (1, 2), (1, 3), (1, 4), (1, 5), (1, 6)] :=
  ⟨keyCmp_strictWeak, by simp [keyCmp], by decide, by decide⟩

/-- C6, amended: for a strict weak ordering and a buffer of `n ≥ 1` elements in
which each element is at most its successor, `pqsort` with the range `[0, n - 1]`
returns a rearrangement that holds at every index an element equivalent to the
one that was there, and returns the buffer unchanged when equivalent elements
are identical. -/
theorem pqsort_sorted_fixed [Inhabited α] {cmp : α → α → Int} (hc : IsStrictWeak cmp)
    {es : Nat} (hes : 0 < es) (a : List α) (_hn : 1 ≤ a.length)
    (hsorted : List.Chain' (fun x y => cmp x y ≤ 0) a) :
    ∃ out, pqsort cmp a a.length es 0 (a.length - 1) = some out ∧ out.Perm a ∧
      (∀ i (_ : i < out.length) (_ : i < a.length), cmp (out[i]) (a[i]) = 0) ∧
      ((∀ x y, cmp x y = 0 → x = y) → out = a) := by
  have hs : SortedBy cmp a := by
    haveI : IsTrans α (fun x y => cmp x y ≤ 0) := ⟨hc.trans⟩
    exact List.chain'_iff_pairwise.1 hsorted
  obtain ⟨out, e, p, hlen, hin⟩ := pqsort_run hc hes a (Nat.zero_le (a.length - 1))
  have key : ∀ i (h1 : i < out.length) (h2 : i < a.length), cmp (out[i]) (a[i]) = 0 := by
    intro i h1 h2
    have := hin i h1 (Nat.zero_le _) (by omega)
    exact rank_core hc p hs (out[i]) h2 this.1 this.2
  exact ⟨out, e, p, key, fun hid => eq_of_pointwise hlen (fun i h1 h2 => hid _ _ (key i h1 h2))⟩

theorem pqsort_sorted_fixed_witness :
    IsStrictWeak natCmp ∧ 0 < 4 ∧ 1 ≤ [1, 2, 2, 3, 5, 8, 8, 9].length ∧
    List.Chain' (fun x y => natCmp x y ≤ 0) [1, 2, 2, 3, 5, 8, 8, 9] ∧
    ∃ out, pqsort natCmp [1, 2, 2, 3, 5, 8, 8, 9] [1, 2, 2, 3, 5, 8, 8, 9].length 4 0
        ([1, 2, 2, 3, 5, 8, 8, 9].length - 1) = some out ∧
      out.Perm [1, 2, 2, 3, 5, 8, 8, 9] ∧
      (∀ i (_ : i < out.length) (_ : i < [1, 2, 2, 3, 5, 8, 8, 9].length),
        natCmp (out[i]) ([1, 2, 2, 3, 5, 8, 8, 9][i]) = 0) ∧
      ((∀ x y, natCmp x y = 0 → x = y) → out = [1, 2, 2, 3, 5, 8, 8, 9]) :=
  ⟨natCmp_strictWeak, by decide, by decide, by simp [natCmp],
    pqsort_sorted_fixed natCmp_strictWeak (by decide) [1, 2, 2, 3, 5, 8, 8, 9] (by decide)
      (by simp [natCmp])⟩

/-- C7: for every comparator, range, buffer and element count, `pqsort` returns;
`_pqsort` returns the same memory for every nesting bound above the size of its
window, because the two windows it goes on with hold at most `n - 1` of the `n`
elements of the current one. -/
theorem pqsort_terminates [Inhabited α] (cmp : α → α → Int) {es : Nat} (hes : 0 < es)
    (a : List α) (n lo hi : Nat) :
    (∃ out, pqsort cmp a n es lo hi = some out) ∧
    ∀ (m : Nat → α) (start cnt : Nat) (lrange rrange : Int),
      (∃ m', ∀ fuel, cnt < fuel → _pqsort cmp es fuel m start cnt lrange rrange = some m') ∧
      (7 ≤ cnt →
        (partition cmp m start cnt).pb - (partition cmp m start cnt).pa ≤ cnt - 1 ∧
        (partition cmp m start cnt).pd - (partition cmp m start cnt).pc ≤ cnt - 1) := by
  constructor
  · obtain ⟨m', hm'⟩ := _pqsort_total cmp hes (fun i => a.getD i default) 0 n
      ((lo * es : Nat) : Int) ((((hi + 1) * es : Nat) : Int) - 1)
    refine ⟨(List.range a.length).map m', ?_⟩
    unfold pqsort
    rw [hm' (n + 1) (Nat.lt_succ_self n)]
    rfl
  · intro m start cnt lrange rrange
    exact ⟨_pqsort_total cmp hes m start cnt lrange rrange,
      fun h => partition_sizes cmp m start cnt (by omega)⟩

theorem pqsort_terminates_witness :
    0 < 4 ∧
    ((∃ out, pqsort (fun _ _ => (-1 : Int)) [3, 1, 4, 1, 5, 9, 2, 6] 8 4 6 1 = some out) ∧
    ∀ (m : Nat → Nat) (start cnt : Nat) (lrange rrange : Int),
      (∃ m', ∀ fuel, cnt < fuel →
        _pqsort (fun _ _ => (-1 : Int)) 4 fuel m start cnt lrange rrange = some m') ∧
      (7 ≤ cnt →
        (partition (fun _ _ => (-1 : Int)) m start cnt).pb
          - (partition (fun _ _ => (-1 : Int)) m start cnt).pa ≤ cnt - 1 ∧
        (partition (fun _ _ => (-1 : Int)) m start cnt).pd
          - (partition (fun _ _ => (-1 : Int)) m start cnt).pc ≤ cnt - 1)) :=
  ⟨by decide, pqsort_terminates (fun _ _ => (-1 : Int)) (by decide) [3, 1, 4, 1, 5, 9, 2, 6] 8 6 1⟩

/-- C8: `pqsort` checks nothing: called on `[2,1]` with the range `lo = 1`,
`hi = 0`, which has `lo > hi`, it returns normally with the buffer reordered to
`[1,2]`. -/
theorem pqsort_unchecked_range :
    (1 : Nat) > 0 ∧ pqsort natCmp [2, 1] 2 4 1 0 = some [1, 2] ∧ ([1, 2] : List Nat) ≠ [2, 1] :=
  ⟨by decide, by decide, by decide⟩

/-- The pivot, which the scan leaves at the front of the window, is in the middle
zone after the two block moves. -/
theorem gather_pivot (cmp : α → α → Int) (a n : Nat) (m0 : Nat → α) (s : PState α)
    (hs : PartInv cmp a n m0 s) (hx : s.pb = s.pc + 1) :
    ∃ k, a + (s.pb - s.pa) ≤ k ∧ k + (s.pd - s.pc) < a + n ∧ gather s a n k = s.m a := by
  have hpa := hs.h_pa
  have hab := hs.h_ab
  have hcd := hs.h_cd
  have hdn := hs.h_dn
  have hr1 : min (s.pa - a) (s.pb - s.pa) ≤ s.pa - a := Nat.min_le_left _ _
  have hr2 : min (s.pa - a) (s.pb - s.pa) ≤ s.pb - s.pa := Nat.min_le_right _ _
  have hr3 : min (s.pa - a) (s.pb - s.pa) = s.pa - a ∨
      min (s.pa - a) (s.pb - s.pa) = s.pb - s.pa := by
    rcases Nat.le_total (s.pa - a) (s.pb - s.pa) with h | h
    · left; exact Nat.min_eq_left h
    · right; exact Nat.min_eq_right h
  have hq1 : min (s.pd - s.pc) (a + n - s.pd - 1) ≤ s.pd - s.pc := Nat.min_le_left _ _
  have hq2 : min (s.pd - s.pc) (a + n - s.pd - 1) ≤ a + n - s.pd - 1 := Nat.min_le_right _ _
  have hg : ∀ k, k < s.pb → gather s a n k
      = vecswap s.m a (s.pb - min (s.pa - a) (s.pb - s.pa)) (min (s.pa - a) (s.pb - s.pa)) k := by
    intro k hk
    unfold gather
    show vecswap _ _ _ _ k = _
    rw [vecswap_apply _ _ _ _ (by omega), if_neg (by omega), if_neg (by omega)]
  generalize min (s.pa - a) (s.pb - s.pa) = r at hr1 hr2 hr3 hg
  by_cases hr0 : r = 0
  · refine ⟨a, by omega, by omega, ?_⟩
    rw [hg a (by omega), vecswap_apply _ _ _ _ (by omega), if_neg (by omega), if_neg (by omega)]
  · refine ⟨s.pb - r, by omega, by omega, ?_⟩
    rw [hg _ (by omega), vecswap_apply _ _ _ _ (by omega), if_neg (by omega), if_pos (by omega)]
    congr 1
    omega

/-- C20: for a strict weak ordering and a window of `n ≥ 7` elements, with `L` and
`G` the sizes `pb - pa` and `pd - pc` at the end of the scan, after the two block
moves the window is a rearrangement of the window before, an index of the window
holds an element below the pivot exactly when it is in `[0, L)`, one equal to it
exactly when it is in `[L, n - G)`, one above it exactly when it is in
`[n - G, n)`, and the middle zone is not empty and holds the pivot. -/
theorem partition_three_way {cmp : α → α → Int} (hc : IsStrictWeak cmp) (m : Nat → α)
    (a n : Nat) (hn : 7 ≤ n) :
    WindowPerm a (a + n) m (gather (partition cmp m a n) a n) ∧
    (partition cmp m a n).m a = m (choosePivot cmp m a n) ∧
    (∀ k, a ≤ k → k < a + n →
      (cmp (gather (partition cmp m a n) a n k) (m (choosePivot cmp m a n)) < 0 ↔
        k < a + ((partition cmp m a n).pb - (partition cmp m a n).pa)) ∧
      (cmp (gather (partition cmp m a n) a n k) (m (choosePivot cmp m a n)) = 0 ↔
        a + ((partition cmp m a n).pb - (partition cmp m a n).pa) ≤ k ∧
        k + ((partition cmp m a n).pd - (partition cmp m a n).pc) < a + n) ∧
      (0 < cmp (gather (partition cmp m a n) a n k) (m (choosePivot cmp m a n)) ↔
        a + n ≤ k + ((partition cmp m a n).pd - (partition cmp m a n).pc))) ∧
    ((partition cmp m a n).pb - (partition cmp m a n).pa)
      + ((partition cmp m a n).pd - (partition cmp m a n).pc) < n ∧
    ∃ k, a + ((partition cmp m a n).pb - (partition cmp m a n).pa) ≤ k ∧
      k + ((partition cmp m a n).pd - (partition cmp m a n).pc) < a + n ∧
      gather (partition cmp m a n) a n k = m (choosePivot cmp m a n) := by
  have hn1 : 1 ≤ n := by omega
  obtain ⟨hs, hx⟩ := partition_spec cmp m a n hn1
  have hpiv : (partition cmp m a n).m a = m (choosePivot cmp m a n) := by
    rw [hs.perm.outside (Or.inl (Nat.lt_succ_self a)), swap_left]
  obtain ⟨z1, z2, z3⟩ := gather_zones cmp a n _ _ hs hx (hc.cmp_self _)
  obtain ⟨kp, kp1, kp2, kp3⟩ := gather_pivot cmp a n _ _ hs hx
  have hperm := (partition_windowPerm cmp m a n hn1).trans (gather_windowPerm cmp a n _ _ hs hx)
  have hpa := hs.h_pa
  have hab := hs.h_ab
  have hcd := hs.h_cd
  have hdn := hs.h_dn
  rw [hpiv] at z1 z2 z3 kp3
  refine ⟨hperm, hpiv, ?_, by omega, ⟨kp, kp1, kp2, kp3⟩⟩
  intro k hk1 hk2
  by_cases c1 : k < a + ((partition cmp m a n).pb - (partition cmp m a n).pa)
  · have := z1 k hk1 c1
    exact ⟨⟨fun _ => c1, fun _ => this⟩, ⟨fun h => by omega, fun h => by omega⟩,
      ⟨fun h => by omega, fun h => by omega⟩⟩
  · by_cases c2 : k + ((partition cmp m a n).pd - (partition cmp m a n).pc) < a + n
    · have := z2 k (by omega) c2
      exact ⟨⟨fun h => by omega, fun h => by omega⟩, ⟨fun _ => ⟨by omega, c2⟩, fun _ => this⟩,
        ⟨fun h => by omega, fun h => by omega⟩⟩
    · have := z3 k (by omega) hk2
      exact ⟨⟨fun h => by omega, fun h => by omega⟩, ⟨fun h => by omega, fun h => by omega⟩,
        ⟨fun _ => by omega, fun _ => this⟩⟩

theorem partition_three_way_witness :
    IsStrictWeak natCmp ∧ 7 ≤ 8 ∧
    (WindowPerm 0 (0 + 8) eightDigits
      (gather (partition natCmp eightDigits 0 8) 0 8) ∧
    (partition natCmp eightDigits 0 8).m 0
      = eightDigits
          (choosePivot natCmp eightDigits 0 8) ∧
    (∀ k, 0 ≤ k → k < 0 + 8 →
      (natCmp (gather (partition natCmp eightDigits 0 8) 0 8 k)
          (eightDigits
            (choosePivot natCmp eightDigits 0 8)) < 0 ↔
        k < 0 + ((partition natCmp eightDigits 0 8).pb
          - (partition natCmp eightDigits 0 8).pa)) ∧
      (natCmp (gather (partition natCmp eightDigits 0 8) 0 8 k)
          (eightDigits
            (choosePivot natCmp eightDigits 0 8)) = 0 ↔
        0 + ((partition natCmp eightDigits 0 8).pb
          - (partition natCmp eightDigits 0 8).pa) ≤ k ∧
        k + ((partition natCmp eightDigits 0 8).pd
          - (partition natCmp eightDigits 0 8).pc) < 0 + 8) ∧
      (0 < natCmp
          (gather (partition natCmp eightDigits 0 8) 0 8 k)
          (eightDigits
            (choosePivot natCmp eightDigits 0 8)) ↔
        0 + 8 ≤ k + ((partition natCmp eightDigits 0 8).pd
          - (partition natCmp eightDigits 0 8).pc))) ∧
    ((partition natCmp eightDigits 0 8).pb
        - (partition natCmp eightDigits 0 8).pa)
      + ((partition natCmp eightDigits 0 8).pd
        - (partition natCmp eightDigits 0 8).pc) < 8 ∧
    ∃ k, 0 + ((partition natCmp eightDigits 0 8).pb
        - (partition natCmp eightDigits 0 8).pa) ≤ k ∧
      k + ((partition natCmp eightDigits 0 8).pd
        - (partition natCmp eightDigits 0 8).pc) < 0 + 8 ∧
      gather (partition natCmp eightDigits 0 8) 0 8 k
        = eightDigits
            (choosePivot natCmp eightDigits 0 8)) ∧
    (List.range 8).map
        (gather (partition natCmp eightDigits 0 8) 0 8)
      = [2, 1, 4, 1, 3, 5, 9, 6] :=
  ⟨natCmp_strictWeak, by decide,
    partition_three_way natCmp_strictWeak eightDigits 0 8
      (by decide),
    by decide⟩

/-! ### The pivot -/

theorem med3Counted_fst (cmp : α → α → Int) (m : Nat → α) (a b c : Nat) :
    (med3Counted cmp m a b c).1 = med3 cmp m a b c := by
  unfold med3Counted med3
  split_ifs <;> rfl

theorem med3Counted_snd (cmp : α → α → Int) (m : Nat → α) (a b c : Nat) :
    2 ≤ (med3Counted cmp m a b c).2 ∧ (med3Counted cmp m a b c).2 ≤ 3 := by
  unfold med3Counted
  split_ifs <;> simp

/-- The pivot, once swapped to the front, stays there during the scan. -/
theorem partition_front (cmp : α → α → Int) (m : Nat → α) (a n : Nat) (hn : 1 ≤ n) :
    (partition cmp m a n).m a = m (choosePivot cmp m a n) := by
  have h := (partition_spec cmp m a n hn).1.perm
  rw [h.outside (Or.inl (Nat.lt_succ_self a)), swap_apply, if_pos rfl]

/-- C23: for a strict weak ordering, `med3` returns one of its three arguments, and
the element found there is a median of the three: of the two other elements one is
not greater and the other is not smaller; `med3` calls `cmp` two or three times. -/
theorem med3_median {cmp : α → α → Int} (hc : IsStrictWeak cmp) (m : Nat → α) (a b c : Nat) :
    (med3Counted cmp m a b c).1 = med3 cmp m a b c ∧
    (med3Counted cmp m a b c).2 ≤ 3 ∧
    ((med3 cmp m a b c = a ∧
        ((cmp (m b) (m a) ≤ 0 ∧ 0 ≤ cmp (m c) (m a)) ∨
         (cmp (m c) (m a) ≤ 0 ∧ 0 ≤ cmp (m b) (m a)))) ∨
     (med3 cmp m a b c = b ∧
        ((cmp (m a) (m b) ≤ 0 ∧ 0 ≤ cmp (m c) (m b)) ∨
         (cmp (m c) (m b) ≤ 0 ∧ 0 ≤ cmp (m a) (m b)))) ∨
     (med3 cmp m a b c = c ∧
        ((cmp (m a) (m c) ≤ 0 ∧ 0 ≤ cmp (m b) (m c)) ∨
         (cmp (m b) (m c) ≤ 0 ∧ 0 ≤ cmp (m a) (m c))))) := by
  refine ⟨med3Counted_fst cmp m a b c, (med3Counted_snd cmp m a b c).2, ?_⟩
  have hab := hc.antisymm (m a) (m b)
  have hba := hc.antisymm (m b) (m a)
  have hbc := hc.antisymm (m b) (m c)
  have hcb := hc.antisymm (m c) (m b)
  have hac := hc.antisymm (m a) (m c)
  have hca := hc.antisymm (m c) (m a)
  unfold med3
  by_cases h1 : cmp (m a) (m b) < 0
  · rw [if_pos h1]
    by_cases h2 : cmp (m b) (m c) < 0
    · rw [if_pos h2]
      exact Or.inr (Or.inl ⟨rfl, Or.inl ⟨by omega, by omega⟩⟩)
    · rw [if_neg h2]
      by_cases h3 : cmp (m a) (m c) < 0
      · rw [if_pos h3]
        exact Or.inr (Or.inr ⟨rfl, Or.inl ⟨by omega, by omega⟩⟩)
      · rw [if_neg h3]
        exact Or.inl ⟨rfl, Or.inr ⟨by omega, by omega⟩⟩
  · rw [if_neg h1]
    by_cases h2 : cmp (m b) (m c) > 0
    · rw [if_pos h2]
      exact Or.inr (Or.inl ⟨rfl, Or.inr ⟨by omega, by omega⟩⟩)
    · rw [if_neg h2]
      by_cases h3 : cmp (m a) (m c) < 0
      · rw [if_pos h3]
        exact Or.inl ⟨rfl, Or.inl ⟨by omega, by omega⟩⟩
      · rw [if_neg h3]
        exact Or.inr (Or.inr ⟨rfl, Or.inr ⟨by omega, by omega⟩⟩)

/-- An instance of C23 on the elements 3, 1, 4: the median is the 3 at the first
position, found with three comparisons. -/
theorem med3_median_witness :
    IsStrictWeak natCmp ∧
    ((med3Counted natCmp eightDigits 0 1 2).1 = med3 natCmp eightDigits 0 1 2 ∧
    (med3Counted natCmp eightDigits 0 1 2).2 ≤ 3 ∧
    ((med3 natCmp eightDigits 0 1 2 = 0 ∧
        ((natCmp (eightDigits 1) (eightDigits 0) ≤ 0 ∧ 0 ≤ natCmp (eightDigits 2) (eightDigits 0)) ∨
         (natCmp (eightDigits 2) (eightDigits 0) ≤ 0 ∧
           0 ≤ natCmp (eightDigits 1) (eightDigits 0)))) ∨
     (med3 natCmp eightDigits 0 1 2 = 1 ∧
        ((natCmp (eightDigits 0) (eightDigits 1) ≤ 0 ∧ 0 ≤ natCmp (eightDigits 2) (eightDigits 1)) ∨
         (natCmp (eightDigits 2) (eightDigits 1) ≤ 0 ∧
           0 ≤ natCmp (eightDigits 0) (eightDigits 1)))) ∨
     (med3 natCmp eightDigits 0 1 2 = 2 ∧
        ((natCmp (eightDigits 0) (eightDigits 2) ≤ 0 ∧ 0 ≤ natCmp (eightDigits 1) (eightDigits 2)) ∨
         (natCmp (eightDigits 1) (eightDigits 2) ≤ 0 ∧
           0 ≤ natCmp (eightDigits 0) (eightDigits 2)))))) ∧
    med3Counted natCmp eightDigits 0 1 2 = (0, 3) :=
  ⟨natCmp_strictWeak, med3_median natCmp_strictWeak eightDigits 0 1 2, by decide⟩

/-- C21 (counterexample): in the window `[1, 0, 0, 5, 0, 0, 3]` of seven elements the
element swapped to the front is the middle one, 5, while `med3` of the first, the
middle and the last element is the 3 at the end. -/
theorem pivot_of_seven_is_middle :
    (7 ≤ 7 ∧ 7 ≤ 40) ∧ IsStrictWeak natCmp ∧
    choosePivot natCmp sevenMixed 0 7 = 3 ∧
    (partition natCmp sevenMixed 0 7).m 0 = 5 ∧
    swap sevenMixed 0
      (choosePivot natCmp sevenMixed 0 7) 0 = 5 ∧
    med3 natCmp sevenMixed 0 (0 + 7 / 2) (0 + (7 - 1)) = 6 ∧
    sevenMixed
      (med3 natCmp sevenMixed 0 (0 + 7 / 2) (0 + (7 - 1))) = 3 :=
  ⟨by decide, natCmp_strictWeak, by decide, by decide, by decide, by decide, by decide⟩

/-- C21 (amended): for a window of `n` elements with `7 < n ≤ 40` the pivot is
`med3` of the first, the middle (index `n / 2`) and the last element; for `n = 7` it
is the middle element.  The pivot is swapped to the front and is still there when
the scan ends. -/
theorem pivot_small_window (cmp : α → α → Int) (m : Nat → α) (a n : Nat)
    (hn7 : 7 ≤ n) (hn40 : n ≤ 40) :
    choosePivot cmp m a n
      = (if n = 7 then a + n / 2 else med3 cmp m a (a + n / 2) (a + (n - 1))) ∧
    swap m a (choosePivot cmp m a n) a = m (choosePivot cmp m a n) ∧
    (partition cmp m a n).m a = m (choosePivot cmp m a n) := by
  refine ⟨?_, ?_, partition_front cmp m a n (by omega)⟩
  · unfold choosePivot
    dsimp only
    by_cases h7 : n = 7
    · rw [if_pos h7, if_neg (by omega)]
    · rw [if_neg h7, if_pos (by omega), if_neg (by omega)]
  · rw [swap_apply, if_pos rfl]

/-- An instance of the amended C21: the eight elements 3, 1, 4, 1, 5, 9, 2, 6 have
the pivot `med3` of 3, 5 and 6, the 5 at index 4. -/
theorem pivot_small_window_witness :
    7 ≤ 8 ∧ 8 ≤ 40 ∧
    (choosePivot natCmp eightDigits 0 8
      = (if 8 = 7 then 0 + 8 / 2 else med3 natCmp eightDigits 0 (0 + 8 / 2) (0 + (8 - 1))) ∧
    swap eightDigits 0 (choosePivot natCmp eightDigits 0 8) 0
      = eightDigits (choosePivot natCmp eightDigits 0 8) ∧
    (partition natCmp eightDigits 0 8).m 0 = eightDigits (choosePivot natCmp eightDigits 0 8)) ∧
    choosePivot natCmp eightDigits 0 8 = 4 ∧ (partition natCmp eightDigits 0 8).m 0 = 5 :=
  ⟨by decide, by decide, pivot_small_window natCmp eightDigits 0 8 (by decide) (by decide),
    by decide, by decide⟩

/-- C22: for a window of `n > 40` elements, with `d = n / 8` and the middle index
`n / 2`, the pivot is `med3` of the three `med3` of the elements at the indices
`0, d, 2d`, at `n/2 - d, n/2, n/2 + d` and at `n-1-2d, n-1-d, n-1` of the window;
the nine indices are in the window, and the pivot is swapped to the front. -/
theorem pivot_ninther (cmp : α → α → Int) (m : Nat → α) (a n : Nat) (hn : 40 < n) :
    choosePivot cmp m a n
      = med3 cmp m (med3 cmp m a (a + n / 8) (a + 2 * (n / 8)))
          (med3 cmp m (a + (n / 2 - n / 8)) (a + n / 2) (a + (n / 2 + n / 8)))
          (med3 cmp m (a + (n - 1 - 2 * (n / 8))) (a + (n - 1 - n / 8)) (a + (n - 1))) ∧
    (2 * (n / 8) ≤ n - 1 ∧ n / 8 ≤ n / 2 ∧ n / 2 + n / 8 ≤ n - 1 ∧ 2 * (n / 8) ≤ n - 1) ∧
    swap m a (choosePivot cmp m a n) a = m (choosePivot cmp m a n) ∧
    (partition cmp m a n).m a = m (choosePivot cmp m a n) := by
  refine ⟨?_, by omega, ?_, partition_front cmp m a n (by omega)⟩
  · unfold choosePivot
    dsimp only
    rw [if_pos (by omega), if_pos hn]
    have e1 : a + n / 2 - n / 8 = a + (n / 2 - n / 8) := by omega
    have e2 : a + n / 2 + n / 8 = a + (n / 2 + n / 8) := by omega
    have e3 : a + (n - 1) - 2 * (n / 8) = a + (n - 1 - 2 * (n / 8)) := by omega
    have e4 : a + (n - 1) - n / 8 = a + (n - 1 - n / 8) := by omega
    rw [e1, e2, e3, e4]
  · rw [swap_apply, if_pos rfl]

/-- An instance of C22: the 41 elements `7 i mod 41`, whose pivot is the 29 at
index 10. -/
theorem pivot_ninther_witness :
    40 < 41 ∧
    (choosePivot natCmp (fun i => 7 * i % 41) 0 41
      = med3 natCmp (fun i => 7 * i % 41)
          (med3 natCmp (fun i => 7 * i % 41) 0 (0 + 41 / 8) (0 + 2 * (41 / 8)))
          (med3 natCmp (fun i => 7 * i % 41) (0 + (41 / 2 - 41 / 8)) (0 + 41 / 2)
            (0 + (41 / 2 + 41 / 8)))
          (med3 natCmp (fun i => 7 * i % 41) (0 + (41 - 1 - 2 * (41 / 8)))
            (0 + (41 - 1 - 41 / 8)) (0 + (41 - 1))) ∧
    (2 * (41 / 8) ≤ 41 - 1 ∧ 41 / 8 ≤ 41 / 2 ∧ 41 / 2 + 41 / 8 ≤ 41 - 1 ∧
      2 * (41 / 8) ≤ 41 - 1) ∧
    swap (fun i => 7 * i % 41) 0 (choosePivot natCmp (fun i => 7 * i % 41) 0 41) 0
      = (fun i => 7 * i % 41) (choosePivot natCmp (fun i => 7 * i % 41) 0 41) ∧
    (partition natCmp (fun i => 7 * i % 41) 0 41).m 0
      = (fun i => 7 * i % 41) (choosePivot natCmp (fun i => 7 * i % 41) 0 41)) ∧
    choosePivot natCmp (fun i => 7 * i % 41) 0 41 = 10 :=
  ⟨by decide, pivot_ninther natCmp (fun i => 7 * i % 41) 0 41 (by decide), by decide⟩

/-- C26: for a positive element size, a window of `c ≥ 1` elements starting at
element `s` and an element range `lo ≤ hi`, no byte offset lies both in
`[s * es, (s + c) * es - 1]` and in `[lo * es, (hi + 1) * es - 1]` exactly when no
index lies both in `[s, s + c - 1]` and in `[lo, hi]`, and exactly then the test
of `_pqsort` on these byte offsets says that the window is to be skipped. -/
theorem overlap_bytes_iff_indices {es : Nat} (hes : 0 < es) (s c lo hi : Nat) (hc : 1 ≤ c)
    (hlh : lo ≤ hi) :
    ((¬ ∃ x : Int, ((s * es : Nat) : Int) ≤ x ∧ x ≤ (((s + c) * es : Nat) : Int) - 1 ∧
        ((lo * es : Nat) : Int) ≤ x ∧ x ≤ (((hi + 1) * es : Nat) : Int) - 1) ↔
      ¬ ∃ i : Nat, s ≤ i ∧ i ≤ s + c - 1 ∧ lo ≤ i ∧ i ≤ hi) ∧
    (overlaps ((lo * es : Nat) : Int) ((((hi + 1) * es : Nat) : Int) - 1)
        ((s * es : Nat) : Int) (((s * es + c * es : Nat) : Int) - 1) = false ↔
      ¬ ∃ i : Nat, s ≤ i ∧ i ≤ s + c - 1 ∧ lo ≤ i ∧ i ≤ hi) := by
  have hidx : (∃ i : Nat, s ≤ i ∧ i ≤ s + c - 1 ∧ lo ≤ i ∧ i ≤ hi) ↔ s ≤ hi ∧ lo < s + c := by
    constructor
    · rintro ⟨i, h1, h2, h3, h4⟩
      omega
    · rintro ⟨h1, h2⟩
      exact ⟨max s lo, by omega, by omega, by omega, by omega⟩
  have h1 : lo * es < (s + c) * es ↔ lo < s + c := Nat.mul_lt_mul_right hes
  have h2 : s * es < (hi + 1) * es ↔ s < hi + 1 := Nat.mul_lt_mul_right hes
  have h3 : s * es < (s + c) * es := (Nat.mul_lt_mul_right hes).2 (by omega)
  have h4 : lo * es < (hi + 1) * es := (Nat.mul_lt_mul_right hes).2 (by omega)
  have hbyte : (∃ x : Int, ((s * es : Nat) : Int) ≤ x ∧ x ≤ (((s + c) * es : Nat) : Int) - 1 ∧
      ((lo * es : Nat) : Int) ≤ x ∧ x ≤ (((hi + 1) * es : Nat) : Int) - 1) ↔
      s ≤ hi ∧ lo < s + c := by
    constructor
    · rintro ⟨x, g1, g2, g3, g4⟩
      have g5 : s * es < (hi + 1) * es := by omega
      have g6 : lo * es < (s + c) * es := by omega
      exact ⟨by have := h2.1 g5; omega, h1.1 g6⟩
    · rintro ⟨g1, g2⟩
      have g5 : s * es < (hi + 1) * es := h2.2 (by omega)
      have g6 : lo * es < (s + c) * es := h1.2 g2
      exact ⟨max ((s * es : Nat) : Int) ((lo * es : Nat) : Int), by omega, by omega, by omega,
        by omega⟩
  refine ⟨by rw [hbyte, hidx], ?_⟩
  rw [hidx, ← overlaps_iff hes hlh s c]
  simp

/-- An instance of C26: elements of 4 bytes, the window of the elements 5 to 7 and the
range of the elements 2 to 4. -/
theorem overlap_bytes_iff_indices_witness :
    0 < 4 ∧ 1 ≤ 3 ∧ 2 ≤ 4 ∧
    (((¬ ∃ x : Int, ((5 * 4 : Nat) : Int) ≤ x ∧ x ≤ (((5 + 3) * 4 : Nat) : Int) - 1 ∧
        ((2 * 4 : Nat) : Int) ≤ x ∧ x ≤ (((4 + 1) * 4 : Nat) : Int) - 1) ↔
      ¬ ∃ i : Nat, 5 ≤ i ∧ i ≤ 5 + 3 - 1 ∧ 2 ≤ i ∧ i ≤ 4) ∧
    (overlaps ((2 * 4 : Nat) : Int) ((((4 + 1) * 4 : Nat) : Int) - 1)
        ((5 * 4 : Nat) : Int) (((5 * 4 + 3 * 4 : Nat) : Int) - 1) = false ↔
      ¬ ∃ i : Nat, 5 ≤ i ∧ i ≤ 5 + 3 - 1 ∧ 2 ≤ i ∧ i ≤ 4)) ∧
    overlaps ((2 * 4 : Nat) : Int) ((((4 + 1) * 4 : Nat) : Int) - 1)
        ((5 * 4 : Nat) : Int) (((5 * 4 + 3 * 4 : Nat) : Int) - 1) = false ∧
    overlaps ((2 * 4 : Nat) : Int) ((((4 + 1) * 4 : Nat) : Int) - 1)
        ((4 * 4 : Nat) : Int) (((4 * 4 + 3 * 4 : Nat) : Int) - 1) = true :=
  ⟨by decide, by decide, by decide, overlap_bytes_iff_indices (by decide) 5 3 2 4 (by decide)
    (by decide), by decide, by decide⟩

/-- C25: `_pqsort` on the window of `n` elements of `es > 0` bytes at `a` returns,
and its result, like the result of each of its stages (the insertion sort, the swap
of the pivot to the front, the scan, the two block moves), holds outside the window
what the buffer held there before. -/
theorem pqsort_window_frame (cmp : α → α → Int) (es : Nat) (_hes : 0 < es) (m : Nat → α)
    (a n : Nat) (lrange rrange : Int) (fuel : Nat) (hf : n < fuel) :
    (∃ m', _pqsort cmp es fuel m a n lrange rrange = some m' ∧
      ∀ k, k < a ∨ a + n ≤ k → m' k = m k) ∧
    (∀ k, k < a ∨ a + n ≤ k → insertionSort cmp a n m k = m k) ∧
    (1 ≤ n → ∀ k, k < a ∨ a + n ≤ k →
      swap m a (choosePivot cmp m a n) k = m k ∧ (partition cmp m a n).m k = m k ∧
      gather (partition cmp m a n) a n k = m k ∧
      insertionSort cmp a n (partition cmp m a n).m k = m k) := by
  refine ⟨?_, ?_, ?_⟩
  · obtain ⟨m', e, hp⟩ := _pqsort_some cmp es fuel m a n lrange rrange hf
    exact ⟨m', e, fun k hk => hp.outside hk⟩
  · intro k hk
    exact (insertionSort_windowPerm cmp a n m).outside hk
  · intro hn k hk
    have hp := choosePivot_bounds cmp m a n hn
    obtain ⟨hs, hx⟩ := partition_spec cmp m a n hn
    have h1 : WindowPerm a (a + n) m (swap m a (choosePivot cmp m a n)) :=
      WindowPerm.swap a (a + n) m ⟨Nat.le_refl a, by omega⟩ hp
    have h2 := partition_windowPerm cmp m a n hn
    have h3 := h2.trans (gather_windowPerm cmp a n _ _ hs hx)
    have h4 := h2.trans (insertionSort_windowPerm cmp a n (partition cmp m a n).m)
    exact ⟨h1.outside hk, h2.outside hk, h3.outside hk, h4.outside hk⟩

/-- An instance of C25: the window of the elements 2 to 9 of twelve. -/
theorem pqsort_window_frame_witness :
    0 < 4 ∧ 8 < 9 ∧
    ((∃ m', _pqsort natCmp 4 9 (fun i => 7 * i % 12) 2 8 0 47 = some m' ∧
      ∀ k, k < 2 ∨ 2 + 8 ≤ k → m' k = (fun i => 7 * i % 12) k) ∧
    (∀ k, k < 2 ∨ 2 + 8 ≤ k →
      insertionSort natCmp 2 8 (fun i => 7 * i % 12) k = (fun i => 7 * i % 12) k) ∧
    (1 ≤ 8 → ∀ k, k < 2 ∨ 2 + 8 ≤ k →
      swap (fun i => 7 * i % 12) 2 (choosePivot natCmp (fun i => 7 * i % 12) 2 8) k
        = (fun i => 7 * i % 12) k ∧
      (partition natCmp (fun i => 7 * i % 12) 2 8).m k = (fun i => 7 * i % 12) k ∧
      gather (partition natCmp (fun i => 7 * i % 12) 2 8) 2 8 k = (fun i => 7 * i % 12) k ∧
      insertionSort natCmp 2 8 (partition natCmp (fun i => 7 * i % 12) 2 8).m k
        = (fun i => 7 * i % 12) k)) ∧
    (_pqsort natCmp 4 9 (fun i => 7 * i % 12) 2 8 0 47).map (fun m' => (List.range 12).map m')
      = some [0, 7, 1, 2, 3, 4, 6, 8, 9, 11, 10, 5] :=
  ⟨by decide, by decide,
    pqsort_window_frame natCmp 4 (by decide) (fun i => 7 * i % 12) 2 8 0 47 9 (by decide),
    by decide⟩

/-- C29: for a window of `n ≥ 7` elements and any comparator, the scan ends with `pb`
one element after `pc`; the first block move exchanges the `r` elements at `a` with
the `r` elements before `pb`, `r = min(pa - a, pb - pa)`, inside `[a, pb)` and
without overlap, and the second exchanges the `r'` elements at `pb` with the last
`r'` of the window, `r' = min(pd - pc, pn - pd - 1)`, inside `[pb, pn)` and without
overlap. -/
theorem gather_blocks (cmp : α → α → Int) (m : Nat → α) (a n : Nat) (hn : 7 ≤ n) :
    (partition cmp m a n).pb = (partition cmp m a n).pc + 1 ∧
    (a + 1 ≤ (partition cmp m a n).pa ∧ (partition cmp m a n).pa ≤ (partition cmp m a n).pb ∧
      (partition cmp m a n).pc ≤ (partition cmp m a n).pd ∧
      (partition cmp m a n).pd + 1 ≤ a + n) ∧
    gather (partition cmp m a n) a n
      = vecswap
          (vecswap (partition cmp m a n).m a
            ((partition cmp m a n).pb
              - min ((partition cmp m a n).pa - a)
                  ((partition cmp m a n).pb - (partition cmp m a n).pa))
            (min ((partition cmp m a n).pa - a)
              ((partition cmp m a n).pb - (partition cmp m a n).pa)))
          (partition cmp m a n).pb
          (a + n - min ((partition cmp m a n).pd - (partition cmp m a n).pc)
            (a + n - (partition cmp m a n).pd - 1))
          (min ((partition cmp m a n).pd - (partition cmp m a n).pc)
            (a + n - (partition cmp m a n).pd - 1)) ∧
    (a + min ((partition cmp m a n).pa - a)
          ((partition cmp m a n).pb - (partition cmp m a n).pa)
        ≤ (partition cmp m a n).pb
          - min ((partition cmp m a n).pa - a)
              ((partition cmp m a n).pb - (partition cmp m a n).pa) ∧
      min ((partition cmp m a n).pa - a) ((partition cmp m a n).pb - (partition cmp m a n).pa)
        ≤ (partition cmp m a n).pb ∧
      2 * min ((partition cmp m a n).pa - a)
          ((partition cmp m a n).pb - (partition cmp m a n).pa)
        ≤ (partition cmp m a n).pb - a ∧
      (partition cmp m a n).pb ≤ a + n) ∧
    ((partition cmp m a n).pb
        + min ((partition cmp m a n).pd - (partition cmp m a n).pc)
            (a + n - (partition cmp m a n).pd - 1)
        ≤ a + n - min ((partition cmp m a n).pd - (partition cmp m a n).pc)
            (a + n - (partition cmp m a n).pd - 1) ∧
      min ((partition cmp m a n).pd - (partition cmp m a n).pc)
          (a + n - (partition cmp m a n).pd - 1) ≤ a + n ∧
      2 * min ((partition cmp m a n).pd - (partition cmp m a n).pc)
          (a + n - (partition cmp m a n).pd - 1)
        ≤ a + n - (partition cmp m a n).pb ∧
      a ≤ (partition cmp m a n).pb) := by
  obtain ⟨hs, hx⟩ := partition_spec cmp m a n (by omega)
  generalize partition cmp m a n = s at hs hx ⊢
  have hpa := hs.h_pa
  have hab := hs.h_ab
  have hcd := hs.h_cd
  have hdn := hs.h_dn
  have hr1 : min (s.pa - a) (s.pb - s.pa) ≤ s.pa - a := Nat.min_le_left _ _
  have hr2 : min (s.pa - a) (s.pb - s.pa) ≤ s.pb - s.pa := Nat.min_le_right _ _
  have hq1 : min (s.pd - s.pc) (a + n - s.pd - 1) ≤ s.pd - s.pc := Nat.min_le_left _ _
  have hq2 : min (s.pd - s.pc) (a + n - s.pd - 1) ≤ a + n - s.pd - 1 := Nat.min_le_right _ _
  refine ⟨hx, ⟨hpa, hab, hcd, hdn⟩, rfl, ⟨?_, ?_, ?_, ?_⟩, ⟨?_, ?_, ?_, ?_⟩⟩ <;> omega

/-- An instance of C29: the eight elements 3, 1, 4, 1, 5, 9, 2, 6, where the scan ends
with `pa = 1`, `pb = 6`, `pc = 5`, `pd = 7`. -/
theorem gather_blocks_witness :
    7 ≤ 8 ∧
    ((partition natCmp eightDigits 0 8).pb = (partition natCmp eightDigits 0 8).pc + 1 ∧
    (0 + 1 ≤ (partition natCmp eightDigits 0 8).pa ∧
      (partition natCmp eightDigits 0 8).pa ≤ (partition natCmp eightDigits 0 8).pb ∧
      (partition natCmp eightDigits 0 8).pc ≤ (partition natCmp eightDigits 0 8).pd ∧
      (partition natCmp eightDigits 0 8).pd + 1 ≤ 0 + 8) ∧
    gather (partition natCmp eightDigits 0 8) 0 8
      = vecswap
          (vecswap (partition natCmp eightDigits 0 8).m 0
            ((partition natCmp eightDigits 0 8).pb
              - min ((partition natCmp eightDigits 0 8).pa - 0)
                  ((partition natCmp eightDigits 0 8).pb - (partition natCmp eightDigits 0 8).pa))
            (min ((partition natCmp eightDigits 0 8).pa - 0)
              ((partition natCmp eightDigits 0 8).pb - (partition natCmp eightDigits 0 8).pa)))
          (partition natCmp eightDigits 0 8).pb
          (0 + 8 - min ((partition natCmp eightDigits 0 8).pd - (partition natCmp eightDigits 0 8).pc)
            (0 + 8 - (partition natCmp eightDigits 0 8).pd - 1))
          (min ((partition natCmp eightDigits 0 8).pd - (partition natCmp eightDigits 0 8).pc)
            (0 + 8 - (partition natCmp eightDigits 0 8).pd - 1)) ∧
    (0 + min ((partition natCmp eightDigits 0 8).pa - 0)
          ((partition natCmp eightDigits 0 8).pb - (partition natCmp eightDigits 0 8).pa)
        ≤ (partition natCmp eightDigits 0 8).pb
          - min ((partition natCmp eightDigits 0 8).pa - 0)
              ((partition natCmp eightDigits 0 8).pb - (partition natCmp eightDigits 0 8).pa) ∧
      min ((partition natCmp eightDigits 0 8).pa - 0)
          ((partition natCmp eightDigits 0 8).pb - (partition natCmp eightDigits 0 8).pa)
        ≤ (partition natCmp eightDigits 0 8).pb ∧
      2 * min ((partition natCmp eightDigits 0 8).pa - 0)
          ((partition natCmp eightDigits 0 8).pb - (partition natCmp eightDigits 0 8).pa)
        ≤ (partition natCmp eightDigits 0 8).pb - 0 ∧
      (partition natCmp eightDigits 0 8).pb ≤ 0 + 8) ∧
    ((partition natCmp eightDigits 0 8).pb
        + min ((partition natCmp eightDigits 0 8).pd - (partition natCmp eightDigits 0 8).pc)
            (0 + 8 - (partition natCmp eightDigits 0 8).pd - 1)
        ≤ 0 + 8 - min ((partition natCmp eightDigits 0 8).pd - (partition natCmp eightDigits 0 8).pc)
            (0 + 8 - (partition natCmp eightDigits 0 8).pd - 1) ∧
      min ((partition natCmp eightDigits 0 8).pd - (partition natCmp eightDigits 0 8).pc)
          (0 + 8 - (partition natCmp eightDigits 0 8).pd - 1) ≤ 0 + 8 ∧
      2 * min ((partition natCmp eightDigits 0 8).pd - (partition natCmp eightDigits 0 8).pc)
          (0 + 8 - (partition natCmp eightDigits 0 8).pd - 1)
        ≤ 0 + 8 - (partition natCmp eightDigits 0 8).pb ∧
      0 ≤ (partition natCmp eightDigits 0 8).pb)) ∧
    ((partition natCmp eightDigits 0 8).pa, (partition natCmp eightDigits 0 8).pb,
      (partition natCmp eightDigits 0 8).pc, (partition natCmp eightDigits 0 8).pd) = (1, 6, 5, 7) :=
  ⟨by decide, gather_blocks natCmp eightDigits 0 8 (by decide), by decide⟩

/-! ### The insertion sort branches -/

theorem _pqsort_small (cmp : α → α → Int) (es fuel : Nat) (m : Nat → α) (a n : Nat)
    (lrange rrange : Int) (h : n < 7 ∨ (partition cmp m a n).swap_cnt = 0) :
    _pqsort cmp es (fuel + 1) m a n lrange rrange
      = some (if n < 7 then insertionSort cmp a n m
              else insertionSort cmp a n (partition cmp m a n).m) := by
  rw [_pqsort]
  by_cases hn : n < 7
  · rw [if_pos hn, if_pos hn]
  · rw [if_neg hn, if_neg hn]
    dsimp only
    rw [if_pos (h.resolve_left hn)]

theorem insertionSort_le {cmp : α → α → Int} (hc : IsStrictWeak cmp) (a n : Nat) (m : Nat → α)
    (i j : Nat) (hi : a ≤ i) (hij : i ≤ j) (hj : j < a + n) :
    cmp (insertionSort cmp a n m i) (insertionSort cmp a n m j) ≤ 0 := by
  have h := (insertionSort_sorted hc a n m).le_add hc (j - i) i hi (by omega)
  rwa [Nat.add_sub_cancel' hij] at h

/-- C27: when the window has fewer than seven elements, or the scan made no swap,
`_pqsort` with an element size `es > 0` returns without a nested call (a nesting
bound of one suffices) the window sorted by insertion, whatever the range is; so
`pqsort` sorts an array of fewer than seven elements completely for every range. -/
theorem small_window_sorted [Inhabited α] {cmp : α → α → Int} (hc : IsStrictWeak cmp)
    (es : Nat) (_hes : 0 < es) (m : Nat → α) (a n : Nat) (lrange rrange : Int) (fuel : Nat)
    (h : n < 7 ∨ (partition cmp m a n).swap_cnt = 0) :
    (∃ m', _pqsort cmp es (fuel + 1) m a n lrange rrange = some m' ∧
      _pqsort cmp es 1 m a n lrange rrange = some m' ∧
      (m' = insertionSort cmp a n m ∨ m' = insertionSort cmp a n (partition cmp m a n).m) ∧
      WindowPerm a (a + n) m m' ∧
      ∀ i j, a ≤ i → i ≤ j → j < a + n → cmp (m' i) (m' j) ≤ 0) ∧
    (∀ (l : List α) (lo hi : Nat), l.length < 7 →
      ∃ out, pqsort cmp l l.length es lo hi = some out ∧ SortedBy cmp out ∧ out.Perm l) := by
  constructor
  · refine ⟨_, _pqsort_small cmp es fuel m a n lrange rrange h,
      _pqsort_small cmp es 0 m a n lrange rrange h, ?_, ?_, ?_⟩
    · by_cases hn : n < 7
      · rw [if_pos hn]; exact Or.inl rfl
      · rw [if_neg hn]; exact Or.inr rfl
    · by_cases hn : n < 7
      · rw [if_pos hn]; exact insertionSort_windowPerm cmp a n m
      · rw [if_neg hn]
        exact (partition_windowPerm cmp m a n (by omega)).trans
          (insertionSort_windowPerm cmp a n _)
    · intro i j hi hij hj
      by_cases hn : n < 7
      · rw [if_pos hn]; exact insertionSort_le hc a n m i j hi hij hj
      · rw [if_neg hn]; exact insertionSort_le hc a n _ i j hi hij hj
  · intro l lo hi hl
    obtain ⟨out, e, hp, hlen⟩ := pqsort_returns cmp l l.length es lo hi (Nat.le_refl _)
    refine ⟨out, e, ?_, hp⟩
    have e2 : pqsort cmp l l.length es lo hi
        = some ((List.range l.length).map
            (insertionSort cmp 0 l.length (fun i => l.getD i default))) := by
      unfold pqsort
      rw [_pqsort_small cmp es l.length _ 0 l.length _ _ (Or.inl hl), if_pos hl]
      rfl
    rw [e2] at e
    cases e
    apply sortedBy_of_inPlace
    intro i hi1 j hj hij
    simp only [List.length_map, List.length_range] at hi1 hj
    simp only [List.getElem_map, List.getElem_range]
    exact insertionSort_le hc 0 l.length _ i j (Nat.zero_le i) hij (by omega)

/-- An instance of C27: the window of the five elements 3, 1, 4, 1, 5, sorted although
the range holds the last index only. -/
theorem small_window_sorted_witness :
    IsStrictWeak natCmp ∧ 0 < 4 ∧ (5 < 7 ∨ (partition natCmp eightDigits 0 5).swap_cnt = 0) ∧
    ((∃ m', _pqsort natCmp 4 (9 + 1) eightDigits 0 5 16 19 = some m' ∧
      _pqsort natCmp 4 1 eightDigits 0 5 16 19 = some m' ∧
      (m' = insertionSort natCmp 0 5 eightDigits ∨
        m' = insertionSort natCmp 0 5 (partition natCmp eightDigits 0 5).m) ∧
      WindowPerm 0 (0 + 5) eightDigits m' ∧
      ∀ i j, 0 ≤ i → i ≤ j → j < 0 + 5 → natCmp (m' i) (m' j) ≤ 0) ∧
    (∀ (l : List Nat) (lo hi : Nat), l.length < 7 →
      ∃ out, pqsort natCmp l l.length 4 lo hi = some out ∧ SortedBy natCmp out ∧ out.Perm l)) ∧
    pqsort natCmp [3, 1, 4, 1, 5] 5 4 4 4 = some [1, 1, 3, 4, 5] ∧
    (partition natCmp eightOrdered 0 8).swap_cnt = 0 ∧
    pqsort natCmp [0, 1, 2, 4, 5, 6, 7, 8] 8 4 7 7 = some [0, 1, 2, 4, 5, 6, 7, 8] :=
  ⟨natCmp_strictWeak, by decide, Or.inl (by decide),
    small_window_sorted natCmp_strictWeak 4 (by decide) eightDigits 0 5 16 19 9
      (Or.inl (by decide)),
    by decide, by decide, by decide⟩

/-! ### The range test before each nested window -/

/-- C24: on a window of at least seven elements that the scan rearranged, with a
positive element size and an element range `lo ≤ hi`, `_pqsort` calls itself on the
less-than zone exactly when that zone has more than one element and holds an index
of `[lo, hi]`, then goes on with the greater-than zone exactly under the same
condition on that zone; a zone that is not entered, in particular one that holds
no index of the range, has on return the contents the two block moves left there. -/
theorem range_pruner_gates (cmp : α → α → Int) {es : Nat} (hes : 0 < es) {lo hi : Nat}
    (hlh : lo ≤ hi) (fuel : Nat) (m : Nat → α) (a n : Nat) (hn7 : 7 ≤ n)
    (hsc : (partition cmp m a n).swap_cnt ≠ 0) (hf : n ≤ fuel) :
    ∃ m1 m',
      (if 1 < (partition cmp m a n).pb - (partition cmp m a n).pa ∧ a ≤ hi ∧
            lo < a + ((partition cmp m a n).pb - (partition cmp m a n).pa) then
          _pqsort cmp es fuel (gather (partition cmp m a n) a n) a
            ((partition cmp m a n).pb - (partition cmp m a n).pa)
            ((lo * es : Nat) : Int) ((((hi + 1) * es : Nat) : Int) - 1)
        else some (gather (partition cmp m a n) a n)) = some m1 ∧
      (if 1 < (partition cmp m a n).pd - (partition cmp m a n).pc ∧
            a + n - ((partition cmp m a n).pd - (partition cmp m a n).pc) ≤ hi ∧
            lo < a + n then
          _pqsort cmp es fuel m1 (a + n - ((partition cmp m a n).pd - (partition cmp m a n).pc))
            ((partition cmp m a n).pd - (partition cmp m a n).pc)
            ((lo * es : Nat) : Int) ((((hi + 1) * es : Nat) : Int) - 1)
        else some m1) = some m' ∧
      _pqsort cmp es (fuel + 1) m a n ((lo * es : Nat) : Int) ((((hi + 1) * es : Nat) : Int) - 1)
        = some m' ∧
      (¬ (1 < (partition cmp m a n).pb - (partition cmp m a n).pa ∧ a ≤ hi ∧
            lo < a + ((partition cmp m a n).pb - (partition cmp m a n).pa)) →
        ∀ k, a ≤ k → k < a + ((partition cmp m a n).pb - (partition cmp m a n).pa) →
          m' k = gather (partition cmp m a n) a n k) ∧
      (¬ (1 < (partition cmp m a n).pd - (partition cmp m a n).pc ∧
            a + n - ((partition cmp m a n).pd - (partition cmp m a n).pc) ≤ hi ∧
            lo < a + n) →
        ∀ k, a + n - ((partition cmp m a n).pd - (partition cmp m a n).pc) ≤ k → k < a + n →
          m' k = gather (partition cmp m a n) a n k) := by
  have hstep := _pqsort_step cmp hes fuel m a n ((lo * es : Nat) : Int)
    ((((hi + 1) * es : Nat) : Int) - 1) (by omega) hsc
  obtain ⟨hs, hx⟩ := partition_spec cmp m a n (by omega)
  have hpa := hs.h_pa
  have hab := hs.h_ab
  have hcd := hs.h_cd
  have hdn := hs.h_dn
  generalize partition cmp m a n = s at hstep hx hpa hab hcd hdn ⊢
  generalize gather s a n = g at hstep ⊢
  have hL : s.pb - s.pa < fuel := by omega
  have hR : s.pd - s.pc < fuel := by omega
  have hRn : a + n - (s.pd - s.pc) + (s.pd - s.pc) = a + n := by omega
  simp only [overlaps_iff hes hlh, hRn] at hstep
  -- the less-than zone
  obtain ⟨m1, e1, hp1⟩ : ∃ m1,
      (if 1 < s.pb - s.pa ∧ a ≤ hi ∧ lo < a + (s.pb - s.pa) then
          _pqsort cmp es fuel g a (s.pb - s.pa)
            ((lo * es : Nat) : Int) ((((hi + 1) * es : Nat) : Int) - 1)
        else some g) = some m1 ∧
      WindowPerm a (a + (s.pb - s.pa)) g m1 ∧
      (¬ (1 < s.pb - s.pa ∧ a ≤ hi ∧ lo < a + (s.pb - s.pa)) → m1 = g) := by
    by_cases c : 1 < s.pb - s.pa ∧ a ≤ hi ∧ lo < a + (s.pb - s.pa)
    · obtain ⟨m1, e, hp⟩ := _pqsort_some cmp es fuel g a (s.pb - s.pa)
        ((lo * es : Nat) : Int) ((((hi + 1) * es : Nat) : Int) - 1) hL
      exact ⟨m1, by rw [if_pos c]; exact e, hp, fun h => absurd c h⟩
    · exact ⟨g, by rw [if_neg c], WindowPerm.refl _ _ _, fun _ => rfl⟩
  obtain ⟨hp1, hsame1⟩ := hp1
  -- the greater-than zone
  obtain ⟨m', e2, hp2⟩ : ∃ m',
      (if 1 < s.pd - s.pc ∧ a + n - (s.pd - s.pc) ≤ hi ∧ lo < a + n then
          _pqsort cmp es fuel m1 (a + n - (s.pd - s.pc)) (s.pd - s.pc)
            ((lo * es : Nat) : Int) ((((hi + 1) * es : Nat) : Int) - 1)
        else some m1) = some m' ∧
      WindowPerm (a + n - (s.pd - s.pc)) (a + n) m1 m' ∧
      (¬ (1 < s.pd - s.pc ∧ a + n - (s.pd - s.pc) ≤ hi ∧ lo < a + n) → m' = m1) := by
    by_cases c : 1 < s.pd - s.pc ∧ a + n - (s.pd - s.pc) ≤ hi ∧ lo < a + n
    · obtain ⟨m', e, hp⟩ := _pqsort_some cmp es fuel m1 (a + n - (s.pd - s.pc)) (s.pd - s.pc)
        ((lo * es : Nat) : Int) ((((hi + 1) * es : Nat) : Int) - 1) hR
      rw [hRn] at hp
      exact ⟨m', by rw [if_pos c]; exact e, hp, fun h => absurd c h⟩
    · exact ⟨m1, by rw [if_neg c], WindowPerm.refl _ _ _, fun _ => rfl⟩
  obtain ⟨hp2, hsame2⟩ := hp2
  refine ⟨m1, m', e1, e2, ?_, ?_, ?_⟩
  · rw [hstep, e1, Option.some_bind, e2]
  · intro hno k hk1 hk2
    rw [hp2.outside (Or.inl (by omega)), hsame1 hno]
  · intro hno k hk1 hk2
    rw [hsame2 hno, hp1.outside (Or.inr (by omega))]

/-- An instance of C24: the eight elements 3, 1, 4, 1, 5, 9, 2, 6 with the range of the
first index only: the less-than zone of five elements is sorted, the greater-than
zone of two elements keeps the order 9, 6 the block moves left. -/
theorem range_pruner_gates_witness :
    0 < 4 ∧ (0 : Nat) ≤ 0 ∧ 7 ≤ 8 ∧ (partition natCmp eightDigits 0 8).swap_cnt ≠ 0 ∧ 8 ≤ 8 ∧
    (∃ m1 eightDigits',
      (if 1 < (partition natCmp eightDigits 0 8).pb - (partition natCmp eightDigits 0 8).pa ∧ 0 ≤ 0 ∧
            0 < 0 + ((partition natCmp eightDigits 0 8).pb - (partition natCmp eightDigits 0 8).pa) then
          _pqsort natCmp 4 8 (gather (partition natCmp eightDigits 0 8) 0 8) 0
            ((partition natCmp eightDigits 0 8).pb - (partition natCmp eightDigits 0 8).pa)
            ((0 * 4 : Nat) : Int) ((((0 + 1) * 4 : Nat) : Int) - 1)
        else some (gather (partition natCmp eightDigits 0 8) 0 8)) = some m1 ∧
      (if 1 < (partition natCmp eightDigits 0 8).pd - (partition natCmp eightDigits 0 8).pc ∧
            0 + 8 - ((partition natCmp eightDigits 0 8).pd - (partition natCmp eightDigits 0 8).pc) ≤ 0 ∧
            0 < 0 + 8 then
          _pqsort natCmp 4 8 m1 (0 + 8 - ((partition natCmp eightDigits 0 8).pd - (partition natCmp eightDigits 0 8).pc))
            ((partition natCmp eightDigits 0 8).pd - (partition natCmp eightDigits 0 8).pc)
            ((0 * 4 : Nat) : Int) ((((0 + 1) * 4 : Nat) : Int) - 1)
        else some m1) = some eightDigits' ∧
      _pqsort natCmp 4 (8 + 1) eightDigits 0 8 ((0 * 4 : Nat) : Int) ((((0 + 1) * 4 : Nat) : Int) - 1)
        = some eightDigits' ∧
      (¬ (1 < (partition natCmp eightDigits 0 8).pb - (partition natCmp eightDigits 0 8).pa ∧ 0 ≤ 0 ∧
            0 < 0 + ((partition natCmp eightDigits 0 8).pb - (partition natCmp eightDigits 0 8).pa)) →
        ∀ k, 0 ≤ k → k < 0 + ((partition natCmp eightDigits 0 8).pb - (partition natCmp eightDigits 0 8).pa) →
          eightDigits' k = gather (partition natCmp eightDigits 0 8) 0 8 k) ∧
      (¬ (1 < (partition natCmp eightDigits 0 8).pd - (partition natCmp eightDigits 0 8).pc ∧
            0 + 8 - ((partition natCmp eightDigits 0 8).pd - (partition natCmp eightDigits 0 8).pc) ≤ 0 ∧
            0 < 0 + 8) →
        ∀ k, 0 + 8 - ((partition natCmp eightDigits 0 8).pd - (partition natCmp eightDigits 0 8).pc) ≤ k → k < 0 + 8 →
          eightDigits' k = gather (partition natCmp eightDigits 0 8) 0 8 k)) ∧
    (_pqsort natCmp 4 (8 + 1) eightDigits 0 8 ((0 * 4 : Nat) : Int)
        ((((0 + 1) * 4 : Nat) : Int) - 1)).map (fun m' => (List.range 8).map m')
      = some [1, 1, 2, 3, 4, 5, 9, 6] :=
  ⟨by decide, by decide, by decide, by decide, by decide,
    range_pruner_gates natCmp (by decide) (by decide) 8 eightDigits 0 8 (by decide) (by decide)
      (by decide),
    by decide⟩

/-! ### The scan when nothing is swapped -/

theorem partInv_init (cmp : α → α → Int) (m1 : Nat → α) (a n : Nat) (hn : 1 ≤ n) :
    PartInv cmp a n m1
      { m := m1, pa := a + 1, pb := a + 1, pc := a + (n - 1), pd := a + (n - 1), swap_cnt := 0 } := by
  refine ⟨by dsimp only; omega, by dsimp only; omega, by dsimp only; omega,
    by dsimp only; omega, by dsimp only; omega, WindowPerm.refl _ _ _, ?_, ?_, ?_, ?_⟩
  · intro k h1 h2; simp only at h2; omega
  · intro k h1 h2; simp only at h1 h2; omega
  · intro k h1 h2; simp only at h1 h2; omega
  · intro k h1 h2; simp only at h1; omega

/-- As long as `swap_cnt` is 0 the first inner loop has moved nothing. -/
theorem scanUp_unswapped (cmp : α → α → Int) (a : Nat) (m1 : Nat → α) (pa0 pd0 : Nat) :
    ∀ (fuel : Nat) (s : PState α), (s.swap_cnt = 0 → s.m = m1 ∧ s.pa = pa0 ∧ s.pd = pd0) →
      (scanUp cmp a fuel s).swap_cnt = 0 →
      (scanUp cmp a fuel s).m = m1 ∧ (scanUp cmp a fuel s).pa = pa0 ∧
        (scanUp cmp a fuel s).pd = pd0 := by
  intro fuel
  induction fuel with
  | zero => intro s h; exact h
  | succ fuel ih =>
    intro s h
    rw [scanUp]
    split
    · split
      · exact ih _ (fun h0 => absurd h0 Nat.one_ne_zero)
      · exact ih _ h
    · exact h

theorem scanDown_unswapped (cmp : α → α → Int) (a : Nat) (m1 : Nat → α) (pa0 pd0 : Nat) :
    ∀ (fuel : Nat) (s : PState α), (s.swap_cnt = 0 → s.m = m1 ∧ s.pa = pa0 ∧ s.pd = pd0) →
      (scanDown cmp a fuel s).swap_cnt = 0 →
      (scanDown cmp a fuel s).m = m1 ∧ (scanDown cmp a fuel s).pa = pa0 ∧
        (scanDown cmp a fuel s).pd = pd0 := by
  intro fuel
  induction fuel with
  | zero => intro s h; exact h
  | succ fuel ih =>
    intro s h
    rw [scanDown]
    split
    · split
      · exact ih _ (fun h0 => absurd h0 Nat.one_ne_zero)
      · exact ih _ h
    · exact h

theorem partitionLoop_unswapped (cmp : α → α → Int) (a : Nat) (m1 : Nat → α) (pa0 pd0 : Nat) :
    ∀ (fuel : Nat) (s : PState α), (s.swap_cnt = 0 → s.m = m1 ∧ s.pa = pa0 ∧ s.pd = pd0) →
      (partitionLoop cmp a fuel s).swap_cnt = 0 →
      (partitionLoop cmp a fuel s).m = m1 ∧ (partitionLoop cmp a fuel s).pa = pa0 ∧
        (partitionLoop cmp a fuel s).pd = pd0 := by
  intro fuel
  induction fuel with
  | zero => intro s h; exact h
  | succ fuel ih =>
    intro s h
    rw [partitionLoop]
    split
    · exact scanDown_unswapped cmp a m1 pa0 pd0 _ _ (scanUp_unswapped cmp a m1 pa0 pd0 _ _ h)
    · exact ih _ (fun h0 => absurd h0 Nat.one_ne_zero)

/-- Where no element between the cursors compares equal to the pivot, the first inner
loop moves `pb` only. -/
theorem scanUp_noequal (cmp : α → α → Int) (a : Nat) :
    ∀ (fuel : Nat) (s : PState α),
      (∀ k, s.pb ≤ k → k ≤ s.pc → cmp (s.m k) (s.m a) ≠ 0) →
      (scanUp cmp a fuel s).m = s.m ∧ (scanUp cmp a fuel s).swap_cnt = s.swap_cnt := by
  intro fuel
  induction fuel with
  | zero => intro s _; exact ⟨rfl, rfl⟩
  | succ fuel ih =>
    intro s h
    rw [scanUp]
    split
    · rename_i hc
      split
      · rename_i he
        exact absurd he (h s.pb (Nat.le_refl _) hc.1)
      · exact ih { s with pb := s.pb + 1 } (fun k h1 h2 => h k (by simp only at h1; omega) h2)
    · exact ⟨rfl, rfl⟩

theorem scanDown_noequal (cmp : α → α → Int) (a : Nat) :
    ∀ (fuel : Nat) (s : PState α),
      (∀ k, s.pb ≤ k → k ≤ s.pc → cmp (s.m k) (s.m a) ≠ 0) →
      (scanDown cmp a fuel s).m = s.m ∧ (scanDown cmp a fuel s).swap_cnt = s.swap_cnt := by
  intro fuel
  induction fuel with
  | zero => intro s _; exact ⟨rfl, rfl⟩
  | succ fuel ih =>
    intro s h
    rw [scanDown]
    split
    · rename_i hc
      split
      · rename_i he
        exact absurd he (h s.pc hc.1 (Nat.le_refl _))
      · exact ih { s with pc := s.pc - 1 } (fun k h1 h2 => h k h1 (by simp only at h2; omega))
    · exact ⟨rfl, rfl⟩

/-- Where no element of the window compares equal to the pivot and the smaller ones
stand before the greater ones, the first pass of the partition loop ends the loop
and `swap_cnt` is still 0. -/
theorem partitionLoop_ordered (cmp : α → α → Int) (a n : Nat) (m1 : Nat → α) (f : Nat)
    (s0 : PState α) (hinit : PartInv cmp a n m1 s0) (hs0m : s0.m = m1)
    (hs0c : s0.swap_cnt = 0)
    (hne : ∀ k, a < k → k < a + n → cmp (m1 k) (m1 a) ≠ 0)
    (hord : ∀ i j, a < i → i < a + n → a < j → j < a + n →
      cmp (m1 i) (m1 a) < 0 → 0 < cmp (m1 j) (m1 a) → i < j) :
    (partitionLoop cmp a (f + 1) s0).swap_cnt = 0 := by
  have g1 := hinit.h_pa
  have g2 := hinit.h_ab
  have g3 := hinit.h_cd
  have g4 := hinit.h_dn
  rw [partitionLoop]
  obtain ⟨hi1, hpc1, _, hup⟩ := scanUp_spec cmp a n m1 (s0.pc + 1 - s0.pb) s0 hinit (by omega)
  have hb1 := scanUp_pb_le cmp a (s0.pc + 1 - s0.pb) s0
  obtain ⟨hm1, hc1⟩ := scanUp_noequal cmp a (s0.pc + 1 - s0.pb) s0
    (fun k h1 h2 => by rw [hs0m]; exact hne k (by omega) (by omega))
  generalize scanUp cmp a (s0.pc + 1 - s0.pb) s0 = s1 at hi1 hpc1 hb1 hm1 hc1 hup ⊢
  obtain ⟨hi2, hpb2, _, hdown⟩ :=
    scanDown_spec cmp a n m1 (s1.pc + 1 - s1.pb) s1 hi1 (by omega) hup
  have hc2 := scanDown_pc_le cmp a (s1.pc + 1 - s1.pb) s1
  obtain ⟨hm2, hsc2⟩ := scanDown_noequal cmp a (s1.pc + 1 - s1.pb) s1
    (fun k h1 h2 => by rw [hm1, hs0m]; exact hne k (by omega) (by omega))
  generalize scanDown cmp a (s1.pc + 1 - s1.pb) s1 = s2 at hi2 hpb2 hc2 hm2 hsc2 hdown ⊢
  have hcross : s2.pb > s2.pc := by
    by_contra hle
    obtain ⟨h1, h2⟩ := hdown (by omega)
    rw [hm2, hm1, hs0m] at h1 h2
    have := hord s2.pc s2.pb (by omega) (by omega) (by omega) (by omega) h2 h1
    omega
  rw [if_pos hcross, hsc2, hc1, hs0c]

/-- C28: for a window of `n ≥ 7` elements, `swap_cnt` is 0 when the scan ends exactly
when, in the window with the pivot swapped to the front, no other element compares
equal to the pivot and every element that compares less than the pivot stands
before every element that compares greater; the scan has then moved nothing. -/
theorem zero_swaps_iff (cmp : α → α → Int) (m : Nat → α) (a n : Nat) (hn : 7 ≤ n) :
    ((partition cmp m a n).swap_cnt = 0 ↔
      (∀ k, a < k → k < a + n →
        cmp (swap m a (choosePivot cmp m a n) k) (swap m a (choosePivot cmp m a n) a) ≠ 0) ∧
      (∀ i j, a < i → i < a + n → a < j → j < a + n →
        cmp (swap m a (choosePivot cmp m a n) i) (swap m a (choosePivot cmp m a n) a) < 0 →
        0 < cmp (swap m a (choosePivot cmp m a n) j) (swap m a (choosePivot cmp m a n) a) →
        i < j)) ∧
    ((partition cmp m a n).swap_cnt = 0 →
      (partition cmp m a n).m = swap m a (choosePivot cmp m a n)) := by
  generalize hm1 : swap m a (choosePivot cmp m a n) = m1
  have hinit := partInv_init cmp m1 a n (by omega)
  have hpart : partition cmp m a n = partitionLoop cmp a n
      { m := m1, pa := a + 1, pb := a + 1, pc := a + (n - 1), pd := a + (n - 1),
        swap_cnt := 0 } := by
    unfold partition
    rw [hm1]
  have hkeep : (partition cmp m a n).swap_cnt = 0 →
      (partition cmp m a n).m = m1 ∧ (partition cmp m a n).pa = a + 1 ∧
        (partition cmp m a n).pd = a + (n - 1) := by
    rw [hpart]
    exact partitionLoop_unswapped cmp a m1 (a + 1) (a + (n - 1)) n _ (fun _ => ⟨rfl, rfl, rfl⟩)
  refine ⟨⟨?_, ?_⟩, fun h => (hkeep h).1⟩
  · intro h0
    obtain ⟨hs, hx⟩ := partition_spec cmp m a n (by omega)
    obtain ⟨e1, e2, e3⟩ := hkeep h0
    have hlt := hs.lt
    have hgt := hs.gt
    rw [e1] at hlt hgt
    rw [e2] at hlt
    rw [e3] at hgt
    have hcases : ∀ k, a < k → k < a + n →
        (k < (partition cmp m a n).pb ∧ cmp (m1 k) (m1 a) < 0) ∨
        ((partition cmp m a n).pb ≤ k ∧ 0 < cmp (m1 k) (m1 a)) := by
      intro k h1 h2
      by_cases hk : k < (partition cmp m a n).pb
      · exact Or.inl ⟨hk, hlt k (by omega) hk⟩
      · exact Or.inr ⟨by omega, hgt k (by omega) (by omega)⟩
    constructor
    · intro k h1 h2
      rcases hcases k h1 h2 with ⟨_, h⟩ | ⟨_, h⟩ <;> omega
    · intro i j hi1 hi2 hj1 hj2 hil hjg
      rcases hcases i hi1 hi2 with ⟨h1, _⟩ | ⟨_, h1⟩
      · rcases hcases j hj1 hj2 with ⟨_, h2⟩ | ⟨h2, _⟩
        · omega
        · omega
      · omega
  · rintro ⟨hne, hord⟩
    obtain ⟨f, rfl⟩ : ∃ f, n = f + 1 := ⟨n - 1, by omega⟩
    rw [hpart]
    exact partitionLoop_ordered cmp a (f + 1) m1 f _ hinit rfl rfl hne hord

/-- An instance of C28: in the eight elements 0, 1, 2, 4, 5, 6, 7, 8 the pivot is the 5;
swapped to the front it leaves 1, 2, 4, 0 before 6, 7, 8, and the scan ends with
`swap_cnt` 0; on 3, 1, 4, 1, 5, 9, 2, 6 it ends with `swap_cnt` 1. -/
theorem zero_swaps_iff_witness :
    7 ≤ 8 ∧
    (((partition natCmp eightOrdered 0 8).swap_cnt = 0 ↔
      (∀ k, 0 < k → k < 0 + 8 →
        natCmp (swap eightOrdered 0 (choosePivot natCmp eightOrdered 0 8) k)
          (swap eightOrdered 0 (choosePivot natCmp eightOrdered 0 8) 0) ≠ 0) ∧
      (∀ i j, 0 < i → i < 0 + 8 → 0 < j → j < 0 + 8 →
        natCmp (swap eightOrdered 0 (choosePivot natCmp eightOrdered 0 8) i)
          (swap eightOrdered 0 (choosePivot natCmp eightOrdered 0 8) 0) < 0 →
        0 < natCmp (swap eightOrdered 0 (choosePivot natCmp eightOrdered 0 8) j)
          (swap eightOrdered 0 (choosePivot natCmp eightOrdered 0 8) 0) →
        i < j)) ∧
    ((partition natCmp eightOrdered 0 8).swap_cnt = 0 →
      (partition natCmp eightOrdered 0 8).m
        = swap eightOrdered 0 (choosePivot natCmp eightOrdered 0 8))) ∧
    (partition natCmp eightOrdered 0 8).swap_cnt = 0 ∧
    (List.range 8).map (partition natCmp eightOrdered 0 8).m = [5, 1, 2, 4, 0, 6, 7, 8] ∧
    (partition natCmp eightDigits 0 8).swap_cnt = 1 :=
  ⟨by decide, zero_swaps_iff natCmp eightOrdered 0 8 (by decide), by decide, by decide,
    by decide⟩

/-! ### The nesting of recursive calls -/

/-- One pass of `_pqsortDepth`, in the form of `_pqsort_step`. -/
theorem _pqsortDepth_step (cmp : α → α → Int) {es : Nat} (hes : 0 < es) (fuel : Nat)
    (m : Nat → α) (a n : Nat) (lrange rrange : Int) (hn7 : ¬ n < 7)
    (hsc : ¬ (partition cmp m a n).swap_cnt = 0) :
    _pqsortDepth cmp es (fuel + 1) m a n lrange rrange =
      (if 1 < (partition cmp m a n).pb - (partition cmp m a n).pa ∧
          overlaps lrange rrange ((a * es : Nat) : Int)
            (((a * es + ((partition cmp m a n).pb - (partition cmp m a n).pa) * es : Nat) : Int) - 1)
            = true then
          (_pqsortDepth cmp es fuel (gather (partition cmp m a n) a n) a
            ((partition cmp m a n).pb - (partition cmp m a n).pa) lrange rrange).map
            (fun p => (p.1, p.2 + 1))
        else some (gather (partition cmp m a n) a n, 0)).bind
      (fun p1 =>
        if 1 < (partition cmp m a n).pd - (partition cmp m a n).pc ∧
          overlaps lrange rrange
            (((a + n - ((partition cmp m a n).pd - (partition cmp m a n).pc)) * es : Nat) : Int)
            ((((a + n - ((partition cmp m a n).pd - (partition cmp m a n).pc)) * es +
              ((partition cmp m a n).pd - (partition cmp m a n).pc) * es : Nat) : Int) - 1) = true then
          (_pqsortDepth cmp es fuel p1.1
            (a + n - ((partition cmp m a n).pd - (partition cmp m a n).pc))
            ((partition cmp m a n).pd - (partition cmp m a n).pc) lrange rrange).map
            (fun p => (p.1, max p1.2 p.2))
        else some p1) := by
  rw [_pqsortDepth, if_neg hn7]
  generalize partition cmp m a n = s at hsc ⊢
  dsimp only
  rw [if_neg hsc]
  have e1 : ∀ c : Nat, c * es > es ↔ 1 < c := by
    intro c
    constructor
    · intro h
      by_contra hc
      have : c * es ≤ 1 * es := Nat.mul_le_mul_right es (by omega)
      omega
    · intro h
      have : 2 * es ≤ c * es := Nat.mul_le_mul_right es (by omega)
      omega
  simp only [e1, ← Nat.sub_mul, Nat.mul_div_cancel _ hes]
  by_cases h1 : 1 < s.pb - s.pa
  · by_cases h2 : overlaps lrange rrange ((a * es : Nat) : Int)
        (((a * es + (s.pb - s.pa) * es : Nat) : Int) - 1) = true
    · simp only [h1, h2, if_true, and_self]
      cases _pqsortDepth cmp es fuel (gather s a n) a (s.pb - s.pa) lrange rrange with
      | none => rfl
      | some p =>
        simp only [Option.map_some', Option.some_bind]
        split_ifs <;> first | rfl | (exfalso; tauto)
    · simp only [h1, h2, if_true, and_false, if_false, Option.some_bind]
      split_ifs <;> first | rfl | (exfalso; tauto)
  · simp only [h1, if_false, false_and, Option.some_bind]
    split_ifs <;> first | rfl | (exfalso; tauto)

/-- The buffer `_pqsortDepth` returns is the one `_pqsort` returns. -/
theorem _pqsortDepth_fst (cmp : α → α → Int) {es : Nat} (hes : 0 < es) :
    ∀ (fuel : Nat) (m : Nat → α) (a n : Nat) (lrange rrange : Int),
      (_pqsortDepth cmp es fuel m a n lrange rrange).map Prod.fst
        = _pqsort cmp es fuel m a n lrange rrange := by
  intro fuel
  induction fuel with
  | zero => intro m a n _ _; rfl
  | succ fuel ih =>
    intro m a n lrange rrange
    by_cases hn7 : n < 7
    · rw [_pqsortDepth, _pqsort, if_pos hn7, if_pos hn7]
      rfl
    by_cases hsc : (partition cmp m a n).swap_cnt = 0
    · rw [_pqsortDepth, _pqsort, if_neg hn7, if_neg hn7]
      dsimp only
      rw [if_pos hsc, if_pos hsc]
      rfl
    rw [_pqsortDepth_step cmp hes fuel m a n _ _ hn7 hsc,
      _pqsort_step cmp hes fuel m a n _ _ hn7 hsc]
    generalize partition cmp m a n = s
    generalize gather s a n = g
    have hright : ∀ (p1 : (Nat → α) × Nat),
        ((if 1 < s.pd - s.pc ∧ overlaps lrange rrange
              (((a + n - (s.pd - s.pc)) * es : Nat) : Int)
              ((((a + n - (s.pd - s.pc)) * es + (s.pd - s.pc) * es : Nat) : Int) - 1) = true then
            (_pqsortDepth cmp es fuel p1.1 (a + n - (s.pd - s.pc)) (s.pd - s.pc) lrange rrange).map
              (fun p => (p.1, max p1.2 p.2))
          else some p1).map Prod.fst)
        = (if 1 < s.pd - s.pc ∧ overlaps lrange rrange
              (((a + n - (s.pd - s.pc)) * es : Nat) : Int)
              ((((a + n - (s.pd - s.pc)) * es + (s.pd - s.pc) * es : Nat) : Int) - 1) = true then
            _pqsort cmp es fuel p1.1 (a + n - (s.pd - s.pc)) (s.pd - s.pc) lrange rrange
          else some p1.1) := by
      intro p1
      split
      · rw [← ih, Option.map_map]
        rfl
      · rfl
    split
    · rw [← ih]
      cases _pqsortDepth cmp es fuel g a (s.pb - s.pa) lrange rrange with
      | none => rfl
      | some p =>
        simp only [Option.map_some', Option.some_bind]
        exact hright _
    · simp only [Option.some_bind]
      exact hright _

/-- With a positive element size `_pqsortDepth` returns once the bound exceeds the
window size, and the nesting it reports is at most `n - 6`. -/
theorem _pqsortDepth_le (cmp : α → α → Int) {es : Nat} (hes : 0 < es) :
    ∀ (fuel : Nat) (m : Nat → α) (a n : Nat) (lrange rrange : Int), n < fuel →
      ∃ m' d, _pqsortDepth cmp es fuel m a n lrange rrange = some (m', d) ∧ d ≤ n - 6 := by
  intro fuel
  induction fuel with
  | zero => intro m a n _ _ h; omega
  | succ fuel ih =>
    intro m a n lrange rrange hf
    by_cases hn7 : n < 7
    · exact ⟨insertionSort cmp a n m, 0, by rw [_pqsortDepth, if_pos hn7], Nat.zero_le _⟩
    by_cases hsc : (partition cmp m a n).swap_cnt = 0
    · refine ⟨insertionSort cmp a n (partition cmp m a n).m, 0, ?_, Nat.zero_le _⟩
      rw [_pqsortDepth, if_neg hn7]
      dsimp only
      rw [if_pos hsc]
    rw [_pqsortDepth_step cmp hes fuel m a n _ _ hn7 hsc]
    have hsz := partition_sizes cmp m a n (by omega)
    generalize partition cmp m a n = s at hsz
    generalize gather s a n = g
    obtain ⟨p1, e1, hd1⟩ : ∃ p1 : (Nat → α) × Nat,
        (if 1 < s.pb - s.pa ∧ overlaps lrange rrange ((a * es : Nat) : Int)
            (((a * es + (s.pb - s.pa) * es : Nat) : Int) - 1) = true then
          (_pqsortDepth cmp es fuel g a (s.pb - s.pa) lrange rrange).map
            (fun p => (p.1, p.2 + 1))
        else some (g, 0)) = some p1 ∧ p1.2 ≤ n - 6 := by
      split
      · obtain ⟨m1, d1, e, hd⟩ := ih g a (s.pb - s.pa) lrange rrange (by omega)
        exact ⟨(m1, d1 + 1), by rw [e]; rfl, by simp only; omega⟩
      · exact ⟨(g, 0), rfl, Nat.zero_le _⟩
    rw [e1, Option.some_bind]
    split
    · obtain ⟨m2, d2, e, hd⟩ := ih p1.1 (a + n - (s.pd - s.pc)) (s.pd - s.pc) lrange rrange
        (by omega)
      exact ⟨m2, max p1.2 d2, by rw [e]; rfl, by
        have : d2 ≤ n - 6 := by omega
        exact max_le hd1 this⟩
    · exact ⟨p1.1, p1.2, rfl, hd1⟩

/-! ### A window whose less-than zone is all but four elements -/

/-- The first inner loop passes a run of elements smaller than the pivot. -/
theorem scanUp_run (cmp : α → α → Int) (a : Nat) :
    ∀ (fuel : Nat) (s : PState α) (q : Nat), s.pb ≤ q → q ≤ s.pc + 1 → q - s.pb ≤ fuel →
      (∀ k, s.pb ≤ k → k < q → cmp (s.m k) (s.m a) < 0) →
      (q ≤ s.pc → 0 < cmp (s.m q) (s.m a)) →
      scanUp cmp a fuel s = { s with pb := q } := by
  intro fuel
  induction fuel with
  | zero =>
    intro s q h1 _ h3 _ _
    have : q = s.pb := by omega
    subst this
    rfl
  | succ fuel ih =>
    intro s q h1 h2 h3 hrun hstop
    rw [scanUp]
    by_cases hq : s.pb = q
    · subst hq
      have hc : ¬ (s.pb ≤ s.pc ∧ cmp (s.m s.pb) (s.m a) ≤ 0) := by
        rintro ⟨c1, c2⟩
        have := hstop c1
        omega
      rw [if_neg hc]
    · have hlt := hrun s.pb (Nat.le_refl _) (by omega)
      rw [if_pos ⟨by omega, by omega⟩, if_neg (by omega)]
      rw [ih { s with pb := s.pb + 1 } q (by simp only; omega) h2 (by simp only; omega)
        (fun k g1 g2 => hrun k (by simp only at g1; omega) g2) hstop]

/-- The second inner loop passes a run of elements greater than the pivot. -/
theorem scanDown_run (cmp : α → α → Int) (a : Nat) :
    ∀ (fuel : Nat) (s : PState α) (q : Nat), q ≤ s.pc → s.pb ≤ q + 1 → s.pc - q ≤ fuel →
      (∀ k, q < k → k ≤ s.pc → 0 < cmp (s.m k) (s.m a)) →
      (s.pb ≤ q → cmp (s.m q) (s.m a) < 0) →
      scanDown cmp a fuel s = { s with pc := q } := by
  intro fuel
  induction fuel with
  | zero =>
    intro s q h1 _ h3 _ _
    have : q = s.pc := by omega
    subst this
    rfl
  | succ fuel ih =>
    intro s q h1 h2 h3 hrun hstop
    rw [scanDown]
    by_cases hq : s.pc = q
    · subst hq
      have hc : ¬ (s.pb ≤ s.pc ∧ cmp (s.m s.pc) (s.m a) ≥ 0) := by
        rintro ⟨c1, c2⟩
        have := hstop c1
        omega
      rw [if_neg hc]
    · have hgt := hrun s.pc (by omega) (Nat.le_refl _)
      rw [if_pos ⟨by omega, by omega⟩, if_neg (by omega)]
      rw [ih { s with pc := s.pc - 1 } q (by simp only; omega) h2 (by simp only; omega)
        (fun k g1 g2 => hrun k g1 (by simp only at g2; omega)) hstop]

theorem natCmp_neg {x y : Nat} : natCmp x y < 0 ↔ x < y := by
  unfold natCmp
  omega

theorem natCmp_pos {x y : Nat} : 0 < natCmp x y ↔ y < x := by
  unfold natCmp
  omega

theorem med3_nat_between (m : Nat → Nat) (a b c : Nat)
    (h : (m c < m a ∧ m a < m b) ∨ (m b < m a ∧ m a < m c)) : med3 natCmp m a b c = a := by
  unfold med3 natCmp
  split_ifs <;> first | rfl | omega

theorem med3_nat_upper (m : Nat → Nat) (a b c : Nat) (h1 : m a < m b) (h2 : m a < m c) :
    med3 natCmp m a b c = b ∨ med3 natCmp m a b c = c := by
  unfold med3 natCmp
  split_ifs <;> first | exact Or.inl rfl | exact Or.inr rfl | omega

/-- A pass of the partition loop that ends with an exchange: the first inner loop
stops at `q1` on an element greater than the pivot, the second at `q2` on a smaller
one, and `q1` is before `q2`. -/
theorem partitionLoop_exchange (cmp : α → α → Int) (a fuel : Nat) (s : PState α) (q1 q2 : Nat)
    (h1 : s.pb ≤ q1) (h2 : q1 < q2) (h3 : q2 ≤ s.pc)
    (hup : ∀ k, s.pb ≤ k → k < q1 → cmp (s.m k) (s.m a) < 0)
    (hq1 : 0 < cmp (s.m q1) (s.m a))
    (hdown : ∀ k, q2 < k → k ≤ s.pc → 0 < cmp (s.m k) (s.m a))
    (hq2 : cmp (s.m q2) (s.m a) < 0) :
    partitionLoop cmp a (fuel + 1) s
      = partitionLoop cmp a fuel
          { m := swap s.m q1 q2, pa := s.pa, pb := q1 + 1, pc := q2 - 1, pd := s.pd,
            swap_cnt := 1 } := by
  rw [partitionLoop]
  rw [scanUp_run cmp a (s.pc + 1 - s.pb) s q1 h1 (by omega) (by omega) hup (fun _ => hq1)]
  dsimp only
  rw [scanDown_run cmp a (s.pc + 1 - q1) { s with pb := q1 } q2 h3 (by simp only; omega)
    (by simp only; omega) hdown (fun _ => hq2)]
  dsimp only
  rw [if_neg (by omega)]

/-- A pass of the partition loop that ends the loop: every element from `pb` to `pc`
is smaller than the pivot. -/
theorem partitionLoop_exit (cmp : α → α → Int) (a fuel : Nat) (s : PState α)
    (h1 : s.pb ≤ s.pc + 1)
    (hup : ∀ k, s.pb ≤ k → k ≤ s.pc → cmp (s.m k) (s.m a) < 0) :
    partitionLoop cmp a (fuel + 1) s = { s with pb := s.pc + 1 } := by
  rw [partitionLoop]
  rw [scanUp_run cmp a (s.pc + 1 - s.pb) s (s.pc + 1) h1 (Nat.le_refl _) (Nat.le_refl _)
    (fun k g1 g2 => hup k g1 (by omega)) (fun h => absurd h (by omega))]
  dsimp only
  rw [scanDown_run cmp a (s.pc + 1 - (s.pc + 1)) { s with pb := s.pc + 1 } s.pc (Nat.le_refl _)
    (by simp only; omega) (by simp only; omega) (fun k g1 g2 => by simp only at g2; omega)
    (fun h => absurd h (by simp only; omega))]
  rw [if_pos (by simp only; omega)]

/-- The pivot of a window laid out with the value `V` at the front, greater values at
the indices `N / 8`, `N - 1 - N / 8` and `N - 1` and smaller values elsewhere is
the element at the front. -/
theorem deep_pivot (m : Nat → Nat) (N V : Nat) (hN : 40 < N) (h0 : m 0 = V)
    (hM1 : V < m (N / 8)) (hM2 : V < m (N - 1 - N / 8)) (hM3 : V < m (N - 1))
    (hlt : ∀ i, 0 < i → i < N → i ≠ N / 8 → i ≠ N - 1 - N / 8 → i ≠ N - 1 → m i < V) :
    choosePivot natCmp m 0 N = 0 := by
  unfold choosePivot
  dsimp only
  rw [if_pos (by omega), if_pos hN]
  simp only [Nat.zero_add]
  have g1 : med3 natCmp m 0 (N / 8) (2 * (N / 8)) = 0 := by
    apply med3_nat_between
    left
    rw [h0]
    exact ⟨hlt _ (by omega) (by omega) (by omega) (by omega) (by omega), hM1⟩
  have g2 : m (med3 natCmp m (N / 2 - N / 8) (N / 2) (N / 2 + N / 8)) < V := by
    rcases med3_mem natCmp m (N / 2 - N / 8) (N / 2) (N / 2 + N / 8) with h | h | h <;>
      rw [h] <;> exact hlt _ (by omega) (by omega) (by omega) (by omega) (by omega)
  have g3 : V < m (med3 natCmp m (N - 1 - 2 * (N / 8)) (N - 1 - N / 8) (N - 1)) := by
    have hs : m (N - 1 - 2 * (N / 8)) < V :=
      hlt _ (by omega) (by omega) (by omega) (by omega) (by omega)
    rcases med3_nat_upper m (N - 1 - 2 * (N / 8)) (N - 1 - N / 8) (N - 1) (by omega) (by omega)
      with h | h <;> rw [h] <;> assumption
  rw [g1]
  apply med3_nat_between
  right
  rw [h0]
  exact ⟨g2, g3⟩

/-- The scan of such a window makes two exchanges and leaves `N - 4` elements in the
less-than zone. -/
theorem deep_partition (m : Nat → Nat) (N V : Nat) (hN : 40 < N) (h0 : m 0 = V)
    (hM1 : V < m (N / 8)) (hM2 : V < m (N - 1 - N / 8)) (hM3 : V < m (N - 1))
    (hlt : ∀ i, 0 < i → i < N → i ≠ N / 8 → i ≠ N - 1 - N / 8 → i ≠ N - 1 → m i < V) :
    partition natCmp m 0 N
      = { m := swap (swap m (N / 8) (N - 2)) (N - 1 - N / 8) (N - 3), pa := 1, pb := N - 3,
          pc := N - 4, pd := N - 1, swap_cnt := 1 } := by
  unfold partition
  rw [deep_pivot m N V hN h0 hM1 hM2 hM3 hlt, swap_self]
  obtain ⟨f, rfl⟩ : ∃ f, N = f + 3 := ⟨N - 3, by omega⟩
  simp only [Nat.zero_add]
  -- first pass: exchange of the elements at `N / 8` and `N - 2`
  rw [partitionLoop_exchange natCmp 0 (f + 2) _ ((f + 3) / 8) (f + 3 - 2)
    (by simp only; omega) (by omega) (by simp only; omega)
    (fun k g1 g2 => by
      simp only at g1 g2 ⊢
      rw [natCmp_neg, h0]
      exact hlt k (by omega) (by omega) (by omega) (by omega) (by omega))
    (by simp only; rw [natCmp_pos, h0]; exact hM1)
    (fun k g1 g2 => by
      simp only at g1 g2 ⊢
      have : k = f + 3 - 1 := by omega
      rw [natCmp_pos, h0, this]
      exact hM3)
    (by
      simp only
      rw [natCmp_neg, h0]
      exact hlt _ (by omega) (by omega) (by omega) (by omega) (by omega))]
  simp only
  have hs1 : ∀ k, k ≠ (f + 3) / 8 → k ≠ f + 3 - 2 → swap m ((f + 3) / 8) (f + 3 - 2) k = m k :=
    fun k g1 g2 => swap_of_ne m g1 g2
  -- second pass: exchange of the elements at `N - 1 - N / 8` and `N - 3`
  rw [partitionLoop_exchange natCmp 0 (f + 1) _ (f + 3 - 1 - (f + 3) / 8) (f + 3 - 3)
    (by simp only; omega) (by omega) (by simp only; omega)
    (fun k g1 g2 => by
      simp only at g1 g2 ⊢
      rw [natCmp_neg, hs1 k (by omega) (by omega), hs1 0 (by omega) (by omega), h0]
      exact hlt k (by omega) (by omega) (by omega) (by omega) (by omega))
    (by
      simp only
      rw [natCmp_pos, hs1 (f + 3 - 1 - (f + 3) / 8) (by omega) (by omega),
        hs1 0 (by omega) (by omega), h0]
      exact hM2)
    (fun k g1 g2 => by
      simp only at g1 g2 ⊢
      omega)
    (by
      simp only
      rw [natCmp_neg, hs1 (f + 3 - 3) (by omega) (by omega), hs1 0 (by omega) (by omega), h0]
      exact hlt _ (by omega) (by omega) (by omega) (by omega) (by omega))]
  simp only
  have hs2 : ∀ k, k ≠ (f + 3) / 8 → k ≠ f + 3 - 2 → k ≠ f + 3 - 1 - (f + 3) / 8 → k ≠ f + 3 - 3 →
      swap (swap m ((f + 3) / 8) (f + 3 - 2)) (f + 3 - 1 - (f + 3) / 8) (f + 3 - 3) k = m k :=
    fun k g1 g2 g3 g4 => by rw [swap_of_ne _ g3 g4, hs1 k g1 g2]
  -- third pass: the cursors cross
  rw [partitionLoop_exit natCmp 0 f _ (by simp only; omega)
    (fun k g1 g2 => by
      simp only at g1 g2 ⊢
      rw [natCmp_neg, hs2 k (by omega) (by omega) (by omega) (by omega),
        hs2 0 (by omega) (by omega) (by omega) (by omega), h0]
      exact hlt k (by omega) (by omega) (by omega) (by omega) (by omega))]
  simp only [PState.mk.injEq, true_and, and_true]
  omega

/-- The block moves after that scan put the pivot behind the less-than zone. -/
theorem deep_gather (m : Nat → Nat) (N V : Nat) (hN : 40 < N) (h0 : m 0 = V)
    (hM1 : V < m (N / 8)) (hM2 : V < m (N - 1 - N / 8)) (hM3 : V < m (N - 1))
    (hlt : ∀ i, 0 < i → i < N → i ≠ N / 8 → i ≠ N - 1 - N / 8 → i ≠ N - 1 → m i < V) :
    gather (partition natCmp m 0 N) 0 N
      = swap (swap (swap m (N / 8) (N - 2)) (N - 1 - N / 8) (N - 3)) 0 (N - 4) := by
  rw [deep_partition m N V hN h0 hM1 hM2 hM3 hlt]
  unfold gather
  simp only [Nat.zero_add, Nat.sub_zero]
  have e1 : min 1 (N - 3 - 1) = 1 := Nat.min_eq_left (by omega)
  have e2 : min (N - 1 - (N - 4)) (N - (N - 1) - 1) = 0 := by
    have : N - (N - 1) - 1 = 0 := by omega
    rw [this, Nat.min_zero]
  have e3 : N - 3 - 1 = N - 4 := by omega
  rw [e1, e2, e3]
  rfl

/-- The pass of `_pqsort` over a window built by `deepStep` from contents `C`: the
less-than zone is `C`, in `N - 4` elements, and the greater-than zone has three. -/
theorem deepStep_pass (C : Nat → Nat) (N V : Nat) (hN : 40 < N) (hC : ∀ i, C i < V)
    (m : Nat → Nat) (hm : ∀ k, k < N → m k = deepStep C N V k) :
    partition natCmp m 0 N
      = { m := swap (swap m (N / 8) (N - 2)) (N - 1 - N / 8) (N - 3), pa := 1, pb := N - 3,
          pc := N - 4, pd := N - 1, swap_cnt := 1 } ∧
    ∀ k, k < N - 4 → gather (partition natCmp m 0 N) 0 N k = C k := by
  have h0 : m 0 = V := by
    rw [hm 0 (by omega)]
    simp [deepStep]
  have hM : ∀ i, i < N → 0 < i → (i = N / 8 ∨ i = N - 1 - N / 8 ∨ i = N - 1) → m i = V + 1 := by
    intro i hi hi0 hsp
    rw [hm i hi]
    unfold deepStep
    rw [if_neg (by omega), if_pos hsp]
  have hM1 : V < m (N / 8) := by
    rw [hM _ (by omega) (by omega) (Or.inl rfl)]; omega
  have hM2 : V < m (N - 1 - N / 8) := by
    rw [hM _ (by omega) (by omega) (Or.inr (Or.inl rfl))]; omega
  have hM3 : V < m (N - 1) := by
    rw [hM _ (by omega) (by omega) (Or.inr (Or.inr rfl))]; omega
  have hval : ∀ i, 0 < i → i < N → i ≠ N / 8 → i ≠ N - 1 - N / 8 → i ≠ N - 1 →
      m i = (if i = N - 4 then C 0 else if i = N - 2 then C (N / 8)
        else if i = N - 3 then C (N - 1 - N / 8) else C i) := by
    intro i g1 g2 g3 g4 g5
    rw [hm i g2]
    unfold deepStep
    rw [if_neg (by omega), if_neg (by omega)]
  have hlt : ∀ i, 0 < i → i < N → i ≠ N / 8 → i ≠ N - 1 - N / 8 → i ≠ N - 1 → m i < V := by
    intro i g1 g2 g3 g4 g5
    rw [hval i g1 g2 g3 g4 g5]
    split_ifs <;> exact hC _
  refine ⟨deep_partition m N V hN h0 hM1 hM2 hM3 hlt, ?_⟩
  intro k hk
  rw [deep_gather m N V hN h0 hM1 hM2 hM3 hlt]
  by_cases k0 : k = 0
  · subst k0
    rw [swap_left, swap_of_ne _ (by omega) (by omega), swap_of_ne _ (by omega) (by omega),
      hval _ (by omega) (by omega) (by omega) (by omega) (by omega), if_pos rfl]
  rw [swap_of_ne _ k0 (by omega)]
  by_cases k1 : k = N / 8
  · subst k1
    rw [swap_of_ne _ (by omega) (by omega), swap_left,
      hval _ (by omega) (by omega) (by omega) (by omega) (by omega), if_neg (by omega),
      if_pos rfl]
  by_cases k2 : k = N - 1 - N / 8
  · subst k2
    rw [swap_left, swap_of_ne _ (by omega) (by omega),
      hval _ (by omega) (by omega) (by omega) (by omega) (by omega), if_neg (by omega),
      if_neg (by omega), if_pos rfl]
  rw [swap_of_ne _ k2 (by omega), swap_of_ne _ k1 (by omega),
    hval _ (by omega) (by omega) (by omega) (by omega) (by omega), if_neg (by omega),
    if_neg (by omega), if_neg (by omega)]

/-- With the range of the first index only, the pass over a window built by `deepStep`
is followed by a recursive call on the `N - 4` elements of the less-than zone and by
nothing else. -/
theorem deepStep_depth {es : Nat} (hes : 0 < es) (C : Nat → Nat) (N V : Nat) (hN : 40 < N)
    (hC : ∀ i, C i < V) (m : Nat → Nat) (hm : ∀ k, k < N → m k = deepStep C N V k)
    (fuel : Nat) :
    _pqsortDepth natCmp es (fuel + 1) m 0 N ((0 * es : Nat) : Int)
        ((((0 + 1) * es : Nat) : Int) - 1)
      = (_pqsortDepth natCmp es fuel (gather (partition natCmp m 0 N) 0 N) 0 (N - 4)
          ((0 * es : Nat) : Int) ((((0 + 1) * es : Nat) : Int) - 1)).map
          (fun p => (p.1, p.2 + 1)) := by
  obtain ⟨hp, _⟩ := deepStep_pass C N V hN hC m hm
  have hsc : ¬ (partition natCmp m 0 N).swap_cnt = 0 := by rw [hp]; simp
  rw [_pqsortDepth_step natCmp hes fuel m 0 N _ _ (by omega) hsc]
  simp only [overlaps_iff hes (Nat.le_refl 0)]
  have e1 : (partition natCmp m 0 N).pb - (partition natCmp m 0 N).pa = N - 4 := by
    rw [hp]; simp only; omega
  have e2 : (partition natCmp m 0 N).pd - (partition natCmp m 0 N).pc = 3 := by
    rw [hp]; simp only; omega
  rw [e1, e2, if_pos ⟨by omega, Nat.le_refl 0, by omega⟩]
  cases _pqsortDepth natCmp es fuel (gather (partition natCmp m 0 N) 0 N) 0 (N - 4)
      ((0 * es : Nat) : Int) ((((0 + 1) * es : Nat) : Int) - 1) with
  | none => rfl
  | some p =>
    simp only [Option.map_some', Option.some_bind]
    rw [if_neg (by omega)]

theorem deepBuffer_le : ∀ (j i : Nat), deepBuffer j i ≤ 2 * j := by
  intro j
  induction j with
  | zero => intro i; simp [deepBuffer]
  | succ j ih =>
    intro i
    simp only [deepBuffer, deepStep]
    split_ifs
    · omega
    · omega
    · have := ih 0; omega
    · have := ih ((41 + 4 * j) / 8); omega
    · have := ih (41 + 4 * j - 1 - (41 + 4 * j) / 8); omega
    · have := ih i; omega

/-- On a buffer that holds `deepBuffer j` in its first `37 + 4 j` elements, `_pqsort`
with the range of the first index nests at least `j` recursive calls. -/
theorem deepBuffer_depth {es : Nat} (hes : 0 < es) :
    ∀ (j : Nat) (m : Nat → Nat), (∀ k, k < 37 + 4 * j → m k = deepBuffer j k) →
      ∀ fuel, 37 + 4 * j < fuel →
      ∃ m' d, _pqsortDepth natCmp es fuel m 0 (37 + 4 * j) ((0 * es : Nat) : Int)
        ((((0 + 1) * es : Nat) : Int) - 1) = some (m', d) ∧ j ≤ d ∧ d ≤ 31 + 4 * j := by
  intro j
  induction j with
  | zero =>
    intro m _ fuel hf
    obtain ⟨m', d, e, hd⟩ := _pqsortDepth_le natCmp hes fuel m 0 (37 + 4 * 0) ((0 * es : Nat) : Int)
      ((((0 + 1) * es : Nat) : Int) - 1) hf
    exact ⟨m', d, e, Nat.zero_le d, by omega⟩
  | succ j ih =>
    intro m hm fuel hf
    obtain ⟨f, rfl⟩ : ∃ f, fuel = f + 1 := ⟨fuel - 1, by omega⟩
    have hN : 37 + 4 * (j + 1) = 41 + 4 * j := by omega
    rw [hN] at hm hf ⊢
    have hC : ∀ i, deepBuffer j i < 2 * j + 1 := fun i => Nat.lt_succ_of_le (deepBuffer_le j i)
    have hm' : ∀ k, k < 41 + 4 * j → m k = deepStep (deepBuffer j) (41 + 4 * j) (2 * j + 1) k :=
      hm
    obtain ⟨_, hg⟩ := deepStep_pass (deepBuffer j) (41 + 4 * j) (2 * j + 1) (by omega) hC m hm'
    have hsub : 41 + 4 * j - 4 = 37 + 4 * j := by omega
    rw [deepStep_depth hes (deepBuffer j) (41 + 4 * j) (2 * j + 1) (by omega) hC m hm' f, hsub]
    obtain ⟨m', d, e, hd1, hd2⟩ := ih (gather (partition natCmp m 0 (41 + 4 * j)) 0 (41 + 4 * j))
      (fun k hk => hg k (by omega)) f (by omega)
    exact ⟨m', d + 1, by rw [e]; rfl, by omega, by omega⟩

theorem deepArray_length (j : Nat) : (deepArray j).length = 37 + 4 * j := by
  simp [deepArray]

theorem deepArray_getD (j k : Nat) (hk : k < 37 + 4 * j) :
    (deepArray j).getD k default = deepBuffer j k := by
  unfold deepArray
  rw [List.getD_eq_getElem?_getD, List.getElem?_map, List.getElem?_range hk]
  rfl

/-- The array `deepArray j` of `37 + 4 j` elements makes `pqsort`, asked for the first
index only, nest at least `j` recursive calls. -/
theorem deepArray_depth {es : Nat} (hes : 0 < es) (j : Nat) :
    ∃ d, pqsortDepth natCmp (deepArray j) (37 + 4 * j) es 0 0 = some d ∧ j ≤ d ∧
      d ≤ 31 + 4 * j := by
  obtain ⟨m', d, e, hd⟩ := deepBuffer_depth hes j (fun i => (deepArray j).getD i default)
    (fun k hk => deepArray_getD j k hk) (37 + 4 * j + 1) (Nat.lt_succ_self _)
  refine ⟨d, ?_, hd⟩
  unfold pqsortDepth
  rw [e]
  rfl

/-- A linear bound is eventually above any multiple of the logarithm. -/
theorem linear_beats_log (c : Nat) :
    c * (Nat.log 2 (37 + 4 * 2 ^ (2 * c + 4)) + 1) < 2 ^ (2 * c + 4) := by
  have h1 : c + 1 ≤ 2 ^ c := Nat.lt_two_pow c
  have h2 : 2 ^ (2 * c + 4) = 16 * (2 ^ c * 2 ^ c) := by
    rw [pow_add, two_mul, pow_add]
    ring
  have h3 : (c + 1) * (c + 1) ≤ 2 ^ c * 2 ^ c := Nat.mul_le_mul h1 h1
  have h4 : 37 + 4 * 2 ^ (2 * c + 4) < 2 ^ (2 * c + 4 + 3) := by
    rw [pow_add 2 (2 * c + 4) 3, h2]
    have : 1 ≤ 2 ^ c * 2 ^ c := by nlinarith
    omega
  have h5 : Nat.log 2 (37 + 4 * 2 ^ (2 * c + 4)) < 2 * c + 4 + 3 :=
    Nat.log_lt_of_lt_pow (by omega) h4
  have h6 : c * (Nat.log 2 (37 + 4 * 2 ^ (2 * c + 4)) + 1) ≤ c * (2 * c + 7) :=
    Nat.mul_le_mul_left c (by omega)
  have h7 : c * (2 * c + 7) < 16 * ((c + 1) * (c + 1)) := by nlinarith
  rw [h2]
  calc c * (Nat.log 2 (37 + 4 * (16 * (2 ^ c * 2 ^ c))) + 1)
      ≤ c * (2 * c + 7) := by rw [← h2]; exact h6
    _ < 16 * ((c + 1) * (c + 1)) := h7
    _ ≤ 16 * (2 ^ c * 2 ^ c) := Nat.mul_le_mul_left 16 h3

/-- C30 (counterexample): whatever the constant `c`, there is an array of at least two
natural numbers on which `pqsort`, with the usual order and the range of the first
index, nests more than `c (log2 n + 1)` recursive `_pqsort` calls, `log2` rounded
down: the array `deepArray j` of `n = 37 + 4 j` elements with `j = 2 ^ (2 c + 4)`,
whose less-than zone is at every level all of the window but four elements. -/
theorem depth_not_logarithmic :
    IsStrictWeak natCmp ∧
    ∀ c : Nat, ∃ j d : Nat, 2 ≤ (deepArray j).length ∧ (0 : Nat) ≤ 0 ∧
      0 < (deepArray j).length ∧
      pqsortDepth natCmp (deepArray j) (deepArray j).length 4 0 0 = some d ∧
      c * (Nat.log 2 (deepArray j).length + 1) < d := by
  refine ⟨natCmp_strictWeak, fun c => ?_⟩
  obtain ⟨d, e, hd, _⟩ := @deepArray_depth 4 (by decide) (2 ^ (2 * c + 4))
  refine ⟨2 ^ (2 * c + 4), d, ?_, Nat.le_refl 0, ?_, ?_, ?_⟩
  · rw [deepArray_length]; omega
  · rw [deepArray_length]; omega
  · rw [deepArray_length]; exact e
  · rw [deepArray_length]
    exact Nat.lt_of_lt_of_le (linear_beats_log c) hd

/-- C30 (amended): for a positive element size, every comparator and every range,
`pqsort` on `n` elements returns with at most `n - 6` nested recursive `_pqsort`
calls (none below seven elements); the bound is linear and not logarithmic, since
the less-than zone is the one recursed into whatever its size: on the array
`deepArray j` of `37 + 4 j` elements, with the usual order and the range of the
first index, at least `j` calls are nested.  The buffer computed along with the
nesting is the one `_pqsort` computes. -/
theorem depth_linear [Inhabited α] (cmp : α → α → Int) {es : Nat} (hes : 0 < es) (a : List α)
    (n lo hi : Nat) :
    (∃ d, pqsortDepth cmp a n es lo hi = some d ∧ d ≤ n - 6) ∧
    (∀ (fuel : Nat) (m : Nat → α) (s cnt : Nat) (lrange rrange : Int),
      (_pqsortDepth cmp es fuel m s cnt lrange rrange).map Prod.fst
        = _pqsort cmp es fuel m s cnt lrange rrange) ∧
    (∀ j, ∃ d, pqsortDepth natCmp (deepArray j) (37 + 4 * j) es 0 0 = some d ∧ j ≤ d ∧
      d ≤ 31 + 4 * j) := by
  refine ⟨?_, _pqsortDepth_fst cmp hes, deepArray_depth hes⟩
  obtain ⟨m', d, e, hd⟩ := _pqsortDepth_le cmp hes (n + 1) (fun i => a.getD i default) 0 n
    ((lo * es : Nat) : Int) ((((hi + 1) * es : Nat) : Int) - 1) (Nat.lt_succ_self n)
  refine ⟨d, ?_, hd⟩
  unfold pqsortDepth
  rw [e]
  rfl

/-- An instance of the amended C30: the eight elements 3, 1, 4, 1, 5, 9, 2, 6 are
sorted with one nested call. -/
theorem depth_linear_witness :
    0 < 4 ∧
    ((∃ d, pqsortDepth natCmp [3, 1, 4, 1, 5, 9, 2, 6] 8 4 0 7 = some d ∧ d ≤ 8 - 6) ∧
    (∀ (fuel : Nat) (m : Nat → Nat) (s cnt : Nat) (lrange rrange : Int),
      (_pqsortDepth natCmp 4 fuel m s cnt lrange rrange).map Prod.fst
        = _pqsort natCmp 4 fuel m s cnt lrange rrange) ∧
    (∀ j, ∃ d, pqsortDepth natCmp (deepArray j) (37 + 4 * j) 4 0 0 = some d ∧ j ≤ d ∧
      d ≤ 31 + 4 * j)) ∧
    pqsortDepth natCmp [3, 1, 4, 1, 5, 9, 2, 6] 8 4 0 7 = some 1 :=
  ⟨by decide, depth_linear natCmp (by decide) [3, 1, 4, 1, 5, 9, 2, 6] 8 0 7, by decide⟩

/-! ### Equal elements may change places -/

/-- C32: stability is not guaranteed.  Nine pairs are compared by their first
component, a strict weak ordering, and `pqsort` is called with the valid range
`[3, 5]`: the pairs `(1, 1)` and `(1, 6)` compare equal and are different, `(1, 1)`
stands before `(1, 6)` in the array and after it in the result. -/
theorem pqsort_not_stable :
    IsStrictWeak keyCmp ∧ 3 ≤ 5 ∧
    5 < [(3, 0), (1, 1), (3, 2), (2, 3), (3, 4), (2, 5), (1, 6), (3, 7), (2, 8)].length ∧
    keyCmp (1, 1) (1, 6) = 0 ∧ ((1, 1) : Nat × Nat) ≠ (1, 6) ∧
    [(3, 0), (1, 1), (3, 2), (2, 3), (3, 4), (2, 5), (1, 6), (3, 7), (2, 8)][1]? = some (1, 1) ∧
    [(3, 0), (1, 1), (3, 2), (2, 3), (3, 4), (2, 5), (1, 6), (3, 7), (2, 8)][6]? = some (1, 6) ∧
    ∃ out, pqsort keyCmp [(3, 0), (1, 1), (3, 2), (2, 3), (3, 4), (2, 5), (1, 6), (3, 7), (2, 8)]
        9 4 3 5 = some out ∧
      out[0]? = some (1, 6) ∧ out[1]? = some (1, 1) :=
  ⟨keyCmp_strictWeak, by decide, by decide, by decide, by decide, by decide, by decide,
    [(1, 6), (1, 1), (2, 5), (2, 3), (2, 8), (3, 4), (3, 2), (3, 0), (3, 7)],
    by decide, by decide, by decide⟩

/-! ### The events of a call: comparisons and exchanges -/

theorem med3Log_mem (cmp : α → α → Int) (m : Nat → α) (x y z : Nat) (e : Event)
    (he : e ∈ med3Log cmp m x y z) :
    e = Event.compare x y ∨ e = Event.compare y z ∨ e = Event.compare x z := by
  unfold med3Log at he
  split_ifs at he <;> simp at he <;> tauto

/-- The pivot selection compares elements of the window only. -/
theorem choosePivotLog_all (P : Event → Prop) (cmp : α → α → Int) (m : Nat → α) (a n : Nat)
    (hcmp : ∀ i j, a ≤ i → i < a + n → a ≤ j → j < a + n → P (Event.compare i j)) :
    ∀ e ∈ choosePivotLog cmp m a n, P e := by
  have h3 : ∀ x y z, (a ≤ x ∧ x < a + n) → (a ≤ y ∧ y < a + n) → (a ≤ z ∧ z < a + n) →
      ∀ e ∈ med3Log cmp m x y z, P e := by
    intro x y z hx hy hz e he
    rcases med3Log_mem cmp m x y z e he with h | h | h <;> rw [h]
    · exact hcmp _ _ hx.1 hx.2 hy.1 hy.2
    · exact hcmp _ _ hy.1 hy.2 hz.1 hz.2
    · exact hcmp _ _ hx.1 hx.2 hz.1 hz.2
  intro e he
  unfold choosePivotLog at he
  dsimp only at he
  split_ifs at he with h1 h2
  · simp only [List.mem_append] at he
    have b1 : a ≤ a ∧ a < a + n := by omega
    have b2 : a ≤ a + n / 8 ∧ a + n / 8 < a + n := by omega
    have b3 : a ≤ a + 2 * (n / 8) ∧ a + 2 * (n / 8) < a + n := by omega
    have b4 : a ≤ a + n / 2 - n / 8 ∧ a + n / 2 - n / 8 < a + n := by omega
    have b5 : a ≤ a + n / 2 ∧ a + n / 2 < a + n := by omega
    have b6 : a ≤ a + n / 2 + n / 8 ∧ a + n / 2 + n / 8 < a + n := by omega
    have b7 : a ≤ a + (n - 1) - 2 * (n / 8) ∧ a + (n - 1) - 2 * (n / 8) < a + n := by omega
    have b8 : a ≤ a + (n - 1) - n / 8 ∧ a + (n - 1) - n / 8 < a + n := by omega
    have b9 : a ≤ a + (n - 1) ∧ a + (n - 1) < a + n := by omega
    rcases he with ((he | he) | he) | he
    · exact h3 _ _ _ b1 b2 b3 e he
    · exact h3 _ _ _ b4 b5 b6 e he
    · exact h3 _ _ _ b7 b8 b9 e he
    · exact h3 _ _ _ (med3_bounds cmp m b1 b2 b3) (med3_bounds cmp m b4 b5 b6)
        (med3_bounds cmp m b7 b8 b9) e he
  · exact h3 _ _ _ (by omega) (by omega) (by omega) e he
  · simp at he

/-- The inner loop of the insertion sort compares and exchanges neighbours between
`a` and `pl`. -/
theorem insertInnerLog_all (P : Event → Prop) (cmp : α → α → Int) (es st a n : Nat)
    (hcmp : ∀ i j, a ≤ i → i < a + n → a ≤ j → j < a + n → P (Event.compare i j))
    (hswap : ∀ i j, a ≤ i → i < a + n → a ≤ j → j < a + n → P (swapEvent es st i j)) :
    ∀ (pl : Nat) (m : Nat → α), pl < a + n → ∀ e ∈ insertInnerLog cmp es st a pl m, P e := by
  intro pl
  induction pl with
  | zero =>
    intro m _ e he
    simp [insertInnerLog] at he
  | succ pl ih =>
    intro m hpl e he
    rw [insertInnerLog] at he
    split_ifs at he with h1 h2
    · simp only [List.mem_cons] at he
      rcases he with he | he | he
      · rw [he]; exact hcmp _ _ (by omega) (by omega) (by omega) (by omega)
      · rw [he]; exact hswap _ _ (by omega) (by omega) (by omega) (by omega)
      · exact ih _ (by omega) e he
    · simp only [List.mem_cons, List.not_mem_nil, or_false] at he
      rw [he]; exact hcmp _ _ (by omega) (by omega) (by omega) (by omega)
    · simp at he

theorem insertOuterLog_all (P : Event → Prop) (cmp : α → α → Int) (es st a n : Nat)
    (hcmp : ∀ i j, a ≤ i → i < a + n → a ≤ j → j < a + n → P (Event.compare i j))
    (hswap : ∀ i j, a ≤ i → i < a + n → a ≤ j → j < a + n → P (swapEvent es st i j)) :
    ∀ (fuel pm : Nat) (m : Nat → α), ∀ e ∈ insertOuterLog cmp es st a n fuel pm m, P e := by
  intro fuel
  induction fuel with
  | zero =>
    intro pm m e he
    simp [insertOuterLog] at he
  | succ fuel ih =>
    intro pm m e he
    rw [insertOuterLog] at he
    split_ifs at he with h1
    · simp only [List.mem_append] at he
      rcases he with he | he
      · exact insertInnerLog_all P cmp es st a n hcmp hswap pm m h1 e he
      · exact ih _ _ e he
    · simp at he

/-- The insertion sort compares and exchanges elements of the window only. -/
theorem insertionSortLog_all (P : Event → Prop) (cmp : α → α → Int) (es st a n : Nat)
    (hcmp : ∀ i j, a ≤ i → i < a + n → a ≤ j → j < a + n → P (Event.compare i j))
    (hswap : ∀ i j, a ≤ i → i < a + n → a ≤ j → j < a + n → P (swapEvent es st i j))
    (m : Nat → α) : ∀ e ∈ insertionSortLog cmp es st a n m, P e :=
  insertOuterLog_all P cmp es st a n hcmp hswap n (a + 1) m

theorem scanUpLog_all (P : Event → Prop) (cmp : α → α → Int) (es st a n : Nat)
    (hcmp : ∀ i j, a ≤ i → i < a + n → a ≤ j → j < a + n → P (Event.compare i j))
    (hswap : ∀ i j, a ≤ i → i < a + n → a ≤ j → j < a + n → P (swapEvent es st i j)) :
    ∀ (fuel : Nat) (s : PState α), a + 1 ≤ s.pa → s.pa ≤ s.pb → s.pc ≤ s.pd → s.pd + 1 ≤ a + n →
      ∀ e ∈ scanUpLog cmp es st a fuel s, P e := by
  intro fuel
  induction fuel with
  | zero =>
    intro s _ _ _ _ e he
    simp [scanUpLog] at he
  | succ fuel ih =>
    intro s hpa hab hcd hdn e he
    rw [scanUpLog] at he
    split_ifs at he with h1 h2 h3
    · simp only [List.mem_cons] at he
      rcases he with he | he | he
      · rw [he]; exact hcmp _ _ (by omega) (by omega) (by omega) (by omega)
      · rw [he]; exact hswap _ _ (by omega) (by omega) (by omega) (by omega)
      · refine ih _ ?_ ?_ ?_ ?_ e he <;> simp only <;> omega
    · simp only [List.mem_cons] at he
      rcases he with he | he
      · rw [he]; exact hcmp _ _ (by omega) (by omega) (by omega) (by omega)
      · refine ih _ ?_ ?_ ?_ ?_ e he <;> simp only <;> omega
    · simp only [List.mem_cons, List.not_mem_nil, or_false] at he
      rw [he]; exact hcmp _ _ (by omega) (by omega) (by omega) (by omega)
    · simp at he

theorem scanDownLog_all (P : Event → Prop) (cmp : α → α → Int) (es st a n : Nat)
    (hcmp : ∀ i j, a ≤ i → i < a + n → a ≤ j → j < a + n → P (Event.compare i j))
    (hswap : ∀ i j, a ≤ i → i < a + n → a ≤ j → j < a + n → P (swapEvent es st i j)) :
    ∀ (fuel : Nat) (s : PState α), a + 1 ≤ s.pa → s.pa ≤ s.pb → s.pc ≤ s.pd → s.pd + 1 ≤ a + n →
      ∀ e ∈ scanDownLog cmp es st a fuel s, P e := by
  intro fuel
  induction fuel with
  | zero =>
    intro s _ _ _ _ e he
    simp [scanDownLog] at he
  | succ fuel ih =>
    intro s hpa hab hcd hdn e he
    rw [scanDownLog] at he
    split_ifs at he with h1 h2 h3
    · simp only [List.mem_cons] at he
      rcases he with he | he | he
      · rw [he]; exact hcmp _ _ (by omega) (by omega) (by omega) (by omega)
      · rw [he]; exact hswap _ _ (by omega) (by omega) (by omega) (by omega)
      · refine ih _ ?_ ?_ ?_ ?_ e he <;> simp only <;> omega
    · simp only [List.mem_cons] at he
      rcases he with he | he
      · rw [he]; exact hcmp _ _ (by omega) (by omega) (by omega) (by omega)
      · refine ih _ ?_ ?_ ?_ ?_ e he <;> simp only <;> omega
    · simp only [List.mem_cons, List.not_mem_nil, or_false] at he
      rw [he]; exact hcmp _ _ (by omega) (by omega) (by omega) (by omega)
    · simp at he

/-- The exchange at the end of a pass of the partition loop keeps the invariant, and
the two cursors it exchanges are different. -/
theorem exchange_partInv (cmp : α → α → Int) (a n : Nat) (m0 : Nat → α) (s2 : PState α)
    (i2 : PartInv cmp a n m0 s2) (hle : s2.pb ≤ s2.pc)
    (xb : 0 < cmp (s2.m s2.pb) (s2.m a)) (xc : cmp (s2.m s2.pc) (s2.m a) < 0) :
    s2.pb < s2.pc ∧
    PartInv cmp a n m0
      { s2 with m := swap s2.m s2.pb s2.pc, swap_cnt := 1, pb := s2.pb + 1, pc := s2.pc - 1 } := by
  have hne : s2.pb ≠ s2.pc := by
    intro e; rw [e] at xb; omega
  have hpa := i2.h_pa
  have hab := i2.h_ab
  have hcd := i2.h_cd
  have hdn := i2.h_dn
  have hpiv : swap s2.m s2.pb s2.pc a = s2.m a := swap_of_ne _ (by omega) (by omega)
  refine ⟨by omega, hpa, by simp; omega, by simp; omega, by simp; omega, hdn, ?_, ?_, ?_, ?_, ?_⟩
  · exact i2.perm.trans (WindowPerm.swap _ _ _ ⟨by omega, by omega⟩ ⟨by omega, by omega⟩)
  · intro k h1 h2
    simp only at h2 ⊢
    rw [hpiv, swap_of_ne _ (by omega) (by omega)]
    exact i2.eqL k h1 h2
  · intro k h1 h2
    simp only at h1 h2 ⊢
    rw [hpiv]
    by_cases e : k = s2.pb
    · subst e; rw [swap_left]; exact xc
    · rw [swap_of_ne _ e (by omega)]; exact i2.lt k h1 (by omega)
  · intro k h1 h2
    simp only at h1 h2 ⊢
    rw [hpiv]
    by_cases e : k = s2.pc
    · subst e; rw [swap_right]; exact xb
    · rw [swap_of_ne _ (by omega) e]; exact i2.gt k (by omega) h2
  · intro k h1 h2
    simp only at h1 h2 ⊢
    rw [hpiv, swap_of_ne _ (by omega) (by omega)]
    exact i2.eqR k h1 h2

/-- The partition loop compares and exchanges elements of the window only. -/
theorem partitionLoopLog_all (P : Event → Prop) (cmp : α → α → Int) (es st a n : Nat)
    (m0 : Nat → α)
    (hcmp : ∀ i j, a ≤ i → i < a + n → a ≤ j → j < a + n → P (Event.compare i j))
    (hswap : ∀ i j, a ≤ i → i < a + n → a ≤ j → j < a + n → P (swapEvent es st i j)) :
    ∀ (fuel : Nat) (s : PState α), PartInv cmp a n m0 s →
      ∀ e ∈ partitionLoopLog cmp es st a fuel s, P e := by
  intro fuel
  induction fuel with
  | zero =>
    intro s _ e he
    simp [partitionLoopLog] at he
  | succ fuel ih =>
    intro s hs e he
    rw [partitionLoopLog] at he
    obtain ⟨i1, c1, d1, x1⟩ := scanUp_spec cmp a n m0 (s.pc + 1 - s.pb) s hs (by omega)
    have hl1 := scanUpLog_all P cmp es st a n hcmp hswap (s.pc + 1 - s.pb) s hs.h_pa hs.h_ab
      hs.h_cd hs.h_dn
    generalize scanUp cmp a (s.pc + 1 - s.pb) s = s1 at i1 c1 d1 x1 he
    obtain ⟨i2, b2, a2, x2⟩ := scanDown_spec cmp a n m0 (s1.pc + 1 - s1.pb) s1 i1 (by omega) x1
    have hl2 := scanDownLog_all P cmp es st a n hcmp hswap (s1.pc + 1 - s1.pb) s1 i1.h_pa
      i1.h_ab i1.h_cd i1.h_dn
    generalize scanDown cmp a (s1.pc + 1 - s1.pb) s1 = s2 at i2 b2 a2 x2 he
    simp only [List.mem_append] at he
    rcases he with he | he | he
    · exact hl1 e he
    · exact hl2 e he
    · split_ifs at he with hgt
      · simp at he
      · have hpa := i2.h_pa
        have hab := i2.h_ab
        have hcd := i2.h_cd
        have hdn := i2.h_dn
        obtain ⟨xb, xc⟩ := x2 (by omega)
        simp only [List.mem_cons] at he
        rcases he with he | he
        · rw [he]; exact hswap _ _ (by omega) (by omega) (by omega) (by omega)
        · exact ih _ (exchange_partInv cmp a n m0 s2 i2 (by omega) xb xc).2 e he

/-- The partition phase compares and exchanges elements of the window only. -/
theorem partitionLog_all (P : Event → Prop) (cmp : α → α → Int) (es st a n : Nat) (hn : 1 ≤ n)
    (m : Nat → α)
    (hcmp : ∀ i j, a ≤ i → i < a + n → a ≤ j → j < a + n → P (Event.compare i j))
    (hswap : ∀ i j, a ≤ i → i < a + n → a ≤ j → j < a + n → P (swapEvent es st i j)) :
    ∀ e ∈ partitionLog cmp es st m a n, P e := by
  intro e he
  unfold partitionLog at he
  simp only [List.mem_append, List.mem_cons] at he
  have hp := choosePivot_bounds cmp m a n hn
  rcases he with he | he | he
  · exact choosePivotLog_all P cmp m a n hcmp e he
  · rw [he]; exact hswap _ _ (by omega) (by omega) hp.1 hp.2
  · exact partitionLoopLog_all P cmp es st a n (swap m a (choosePivot cmp m a n)) hcmp hswap n _
      (partInv_init cmp (swap m a (choosePivot cmp m a n)) a n hn) e he

/-- The two block moves exchange blocks of the window, of at least one element. -/
theorem gatherLog_all (P : Event → Prop) (es st a n : Nat) (s : PState α)
    (hpa : a + 1 ≤ s.pa) (hab : s.pa ≤ s.pb) (hx : s.pb = s.pc + 1) (hcd : s.pc ≤ s.pd)
    (hdn : s.pd + 1 ≤ a + n)
    (hvec : ∀ i j r, 0 < r * es → a ≤ i → i + r ≤ a + n → a ≤ j → j + r ≤ a + n →
      P (Event.swapfunc i j (r * es) st)) :
    ∀ e ∈ gatherLog es st s a n, P e := by
  intro e he
  unfold gatherLog vecswapEvents at he
  dsimp only at he
  have hr1 : min (s.pa - a) (s.pb - s.pa) ≤ s.pa - a := Nat.min_le_left _ _
  have hr2 : min (s.pa - a) (s.pb - s.pa) ≤ s.pb - s.pa := Nat.min_le_right _ _
  have hq1 : min (s.pd - s.pc) (a + n - s.pd - 1) ≤ s.pd - s.pc := Nat.min_le_left _ _
  have hq2 : min (s.pd - s.pc) (a + n - s.pd - 1) ≤ a + n - s.pd - 1 := Nat.min_le_right _ _
  generalize min (s.pa - a) (s.pb - s.pa) = r at hr1 hr2 he
  generalize min (s.pd - s.pc) (a + n - s.pd - 1) = q at hq1 hq2 he
  simp only [List.mem_append] at he
  rcases he with he | he
  · split_ifs at he with h
    · simp only [List.mem_singleton] at he
      rw [he]
      exact hvec _ _ _ h (by omega) (by omega) (by omega) (by omega)
    · simp at he
  · split_ifs at he with h
    · simp only [List.mem_singleton] at he
      rw [he]
      exact hvec _ _ _ h (by omega) (by omega) (by omega) (by omega)
    · simp at he

/-! ### The events of `_pqsort` -/

/-- One pass of `_pqsortTrace`, in the form of `_pqsort_step`. -/
theorem _pqsortTrace_step (cmp : α → α → Int) (W base : Nat) {es : Nat} (hes : 0 < es)
    (fuel : Nat) (m : Nat → α) (a n : Nat) (lrange rrange : Int) (hn7 : ¬ n < 7)
    (hsc : ¬ (partition cmp m a n).swap_cnt = 0) :
    _pqsortTrace cmp W base es (fuel + 1) m a n lrange rrange =
      (if 1 < (partition cmp m a n).pb - (partition cmp m a n).pa ∧
          overlaps lrange rrange ((a * es : Nat) : Int)
            (((a * es + ((partition cmp m a n).pb - (partition cmp m a n).pa) * es : Nat) : Int) - 1)
            = true then
          (_pqsortTrace cmp W base es fuel (gather (partition cmp m a n) a n) a
            ((partition cmp m a n).pb - (partition cmp m a n).pa) lrange rrange).map
            (fun p => (p.1, (partitionLog cmp es (swapInit W (base + a * es) es) m a n ++
              gatherLog es (swapInit W (base + a * es) es) (partition cmp m a n) a n) ++ p.2))
        else some (gather (partition cmp m a n) a n,
          partitionLog cmp es (swapInit W (base + a * es) es) m a n ++
            gatherLog es (swapInit W (base + a * es) es) (partition cmp m a n) a n)).bind
      (fun p1 =>
        if 1 < (partition cmp m a n).pd - (partition cmp m a n).pc ∧
          overlaps lrange rrange
            (((a + n - ((partition cmp m a n).pd - (partition cmp m a n).pc)) * es : Nat) : Int)
            ((((a + n - ((partition cmp m a n).pd - (partition cmp m a n).pc)) * es +
              ((partition cmp m a n).pd - (partition cmp m a n).pc) * es : Nat) : Int) - 1) = true then
          (_pqsortTrace cmp W base es fuel p1.1
            (a + n - ((partition cmp m a n).pd - (partition cmp m a n).pc))
            ((partition cmp m a n).pd - (partition cmp m a n).pc) lrange rrange).map
            (fun p => (p.1, p1.2 ++ p.2))
        else some p1) := by
  rw [_pqsortTrace]
  dsimp only
  rw [if_neg hn7]
  generalize partitionLog cmp es (swapInit W (base + a * es) es) m a n = plog
  generalize partition cmp m a n = s at hsc ⊢
  rw [if_neg hsc]
  have e1 : ∀ c : Nat, c * es > es ↔ 1 < c := by
    intro c
    constructor
    · intro h
      by_contra hc
      have : c * es ≤ 1 * es := Nat.mul_le_mul_right es (by omega)
      omega
    · intro h
      have : 2 * es ≤ c * es := Nat.mul_le_mul_right es (by omega)
      omega
  simp only [e1, ← Nat.sub_mul, Nat.mul_div_cancel _ hes]
  by_cases h1 : 1 < s.pb - s.pa
  · by_cases h2 : overlaps lrange rrange ((a * es : Nat) : Int)
        (((a * es + (s.pb - s.pa) * es : Nat) : Int) - 1) = true
    · simp only [h1, h2, if_true, and_self]
      cases _pqsortTrace cmp W base es fuel (gather s a n) a (s.pb - s.pa) lrange rrange with
      | none => rfl
      | some p =>
        simp only [Option.map_some', Option.some_bind]
        split_ifs <;> first | rfl | (exfalso; tauto)
    · simp only [h1, h2, if_true, and_false, if_false, Option.some_bind]
      split_ifs <;> first | rfl | (exfalso; tauto)
  · simp only [h1, if_false, false_and, Option.some_bind]
    split_ifs <;> first | rfl | (exfalso; tauto)

/-- The buffer `_pqsortTrace` returns is the one `_pqsort` returns. -/
theorem _pqsortTrace_fst (cmp : α → α → Int) (W base : Nat) {es : Nat} (hes : 0 < es) :
    ∀ (fuel : Nat) (m : Nat → α) (a n : Nat) (lrange rrange : Int),
      (_pqsortTrace cmp W base es fuel m a n lrange rrange).map Prod.fst
        = _pqsort cmp es fuel m a n lrange rrange := by
  intro fuel
  induction fuel with
  | zero => intro m a n _ _; rfl
  | succ fuel ih =>
    intro m a n lrange rrange
    by_cases hn7 : n < 7
    · rw [_pqsortTrace, _pqsort, if_pos hn7]
      dsimp only
      rw [if_pos hn7]
      rfl
    by_cases hsc : (partition cmp m a n).swap_cnt = 0
    · rw [_pqsortTrace, _pqsort, if_neg hn7]
      dsimp only
      rw [if_neg hn7, if_pos hsc, if_pos hsc]
      rfl
    rw [_pqsortTrace_step cmp W base hes fuel m a n _ _ hn7 hsc,
      _pqsort_step cmp hes fuel m a n _ _ hn7 hsc]
    generalize partitionLog cmp es (swapInit W (base + a * es) es) m a n ++
      gatherLog es (swapInit W (base + a * es) es) (partition cmp m a n) a n = glog
    generalize partition cmp m a n = s
    generalize gather s a n = g
    have hright : ∀ (p1 : (Nat → α) × List Event),
        ((if 1 < s.pd - s.pc ∧ overlaps lrange rrange
              (((a + n - (s.pd - s.pc)) * es : Nat) : Int)
              ((((a + n - (s.pd - s.pc)) * es + (s.pd - s.pc) * es : Nat) : Int) - 1) = true then
            (_pqsortTrace cmp W base es fuel p1.1 (a + n - (s.pd - s.pc)) (s.pd - s.pc)
              lrange rrange).map (fun p => (p.1, p1.2 ++ p.2))
          else some p1).map Prod.fst)
        = (if 1 < s.pd - s.pc ∧ overlaps lrange rrange
              (((a + n - (s.pd - s.pc)) * es : Nat) : Int)
              ((((a + n - (s.pd - s.pc)) * es + (s.pd - s.pc) * es : Nat) : Int) - 1) = true then
            _pqsort cmp es fuel p1.1 (a + n - (s.pd - s.pc)) (s.pd - s.pc) lrange rrange
          else some p1.1) := by
      intro p1
      split
      · rw [← ih, Option.map_map]
        rfl
      · rfl
    split
    · rw [← ih]
      cases _pqsortTrace cmp W base es fuel g a (s.pb - s.pa) lrange rrange with
      | none => rfl
      | some p =>
        simp only [Option.map_some', Option.some_bind]
        exact hright _
    · simp only [Option.some_bind]
      exact hright _

/-- With a positive element size `_pqsortTrace` returns once the bound exceeds the
window size, with the buffer `_pqsort` returns. -/
theorem _pqsortTrace_some (cmp : α → α → Int) (W base : Nat) {es : Nat} (hes : 0 < es)
    (fuel : Nat) (m : Nat → α) (a n : Nat) (lrange rrange : Int) (hf : n < fuel) :
    ∃ m' log, _pqsortTrace cmp W base es fuel m a n lrange rrange = some (m', log) ∧
      _pqsort cmp es fuel m a n lrange rrange = some m' := by
  obtain ⟨m', hm, _⟩ := _pqsort_some cmp es fuel m a n lrange rrange hf
  have h := _pqsortTrace_fst cmp W base hes fuel m a n lrange rrange
  rw [hm] at h
  cases ht : _pqsortTrace cmp W base es fuel m a n lrange rrange with
  | none => rw [ht] at h; simp at h
  | some p =>
    rw [ht] at h
    simp only [Option.map_some', Option.some.injEq] at h
    exact ⟨m', p.2, by rw [← h], hm⟩

theorem swapInit_le {W addr es : Nat} (h : swapInit W addr es ≤ 1) : W ∣ es := by
  unfold swapInit at h
  split_ifs at h with c1 c2
  · omega
  · exact Nat.dvd_of_mod_eq_zero (by
      by_contra hc
      exact c1 (Or.inr hc))
  · exact Nat.dvd_of_mod_eq_zero (by
      by_contra hc
      exact c1 (Or.inr hc))

theorem good_compare (W es a n i j : Nat) (h1 : a ≤ i) (h2 : i < a + n) (h3 : a ≤ j)
    (h4 : j < a + n) :
    (Event.compare i j).InWindow es a n ∧ (Event.compare i j).CountOk W es :=
  ⟨⟨h1, h2, h3, h4⟩, trivial⟩

theorem good_swapEvent (W addr : Nat) {es : Nat} (hes : 0 < es) (a n i j : Nat) (h1 : a ≤ i)
    (h2 : i < a + n) (h3 : a ≤ j) (h4 : j < a + n) :
    (swapEvent es (swapInit W addr es) i j).InWindow es a n ∧
      (swapEvent es (swapInit W addr es) i j).CountOk W es := by
  unfold swapEvent
  split
  · exact ⟨⟨h1, h2, h3, h4⟩, trivial⟩
  · have b1 : (i + 1) * es ≤ (a + n) * es := Nat.mul_le_mul_right es (by omega)
    have b2 : (j + 1) * es ≤ (a + n) * es := Nat.mul_le_mul_right es (by omega)
    rw [Nat.add_mul, Nat.one_mul] at b1 b2
    exact ⟨⟨h1, b1, h3, b2⟩, hes, dvd_refl es, fun h => swapInit_le h⟩

theorem good_vecswap (W addr : Nat) (es a n i j r : Nat) (hr : 0 < r * es) (h1 : a ≤ i)
    (h2 : i + r ≤ a + n) (h3 : a ≤ j) (h4 : j + r ≤ a + n) :
    (Event.swapfunc i j (r * es) (swapInit W addr es)).InWindow es a n ∧
      (Event.swapfunc i j (r * es) (swapInit W addr es)).CountOk W es := by
  have b1 : (i + r) * es ≤ (a + n) * es := Nat.mul_le_mul_right es h2
  have b2 : (j + r) * es ≤ (a + n) * es := Nat.mul_le_mul_right es h4
  rw [Nat.add_mul] at b1 b2
  exact ⟨⟨h1, b1, h3, b2⟩, hr, dvd_mul_left es r,
    fun h => dvd_mul_of_dvd_right (swapInit_le h) r⟩

/-- An event inside a window is inside every window around it. -/
theorem Event.InWindow.widen {es a n a' n' : Nat} {e : Event} (h : e.InWindow es a' n')
    (h1 : a ≤ a') (h2 : a' + n' ≤ a + n) : e.InWindow es a n := by
  have b : (a' + n') * es ≤ (a + n) * es := Nat.mul_le_mul_right es h2
  cases e with
  | compare i j =>
    obtain ⟨c1, c2, c3, c4⟩ := h
    exact ⟨by omega, by omega, by omega, by omega⟩
  | swapLong i j =>
    obtain ⟨c1, c2, c3, c4⟩ := h
    exact ⟨by omega, by omega, by omega, by omega⟩
  | swapfunc i j bytes st =>
    obtain ⟨c1, c2, c3, c4⟩ := h
    exact ⟨by omega, by omega, by omega, by omega⟩

/-- Every event of a call of `_pqsort` with a positive element size stays inside the
window of the call, and every `swapfunc` call gets a byte count that suits its
loop. -/
theorem _pqsortTrace_events (cmp : α → α → Int) (W base : Nat) {es : Nat} (hes : 0 < es) :
    ∀ (fuel : Nat) (m : Nat → α) (a n : Nat) (lrange rrange : Int)
      (res : (Nat → α) × List Event),
      _pqsortTrace cmp W base es fuel m a n lrange rrange = some res →
      ∀ e ∈ res.2, e.InWindow es a n ∧ e.CountOk W es := by
  intro fuel
  induction fuel with
  | zero =>
    intro m a n lrange rrange res h
    simp [_pqsortTrace] at h
  | succ fuel ih =>
    intro m a n lrange rrange res h
    have hcmp : ∀ i j, a ≤ i → i < a + n → a ≤ j → j < a + n →
        (Event.compare i j).InWindow es a n ∧ (Event.compare i j).CountOk W es :=
      fun i j => good_compare W es a n i j
    have hswap : ∀ i j, a ≤ i → i < a + n → a ≤ j → j < a + n →
        (swapEvent es (swapInit W (base + a * es) es) i j).InWindow es a n ∧
          (swapEvent es (swapInit W (base + a * es) es) i j).CountOk W es :=
      fun i j => good_swapEvent W (base + a * es) hes a n i j
    have hvec : ∀ i j r, 0 < r * es → a ≤ i → i + r ≤ a + n → a ≤ j → j + r ≤ a + n →
        (Event.swapfunc i j (r * es) (swapInit W (base + a * es) es)).InWindow es a n ∧
          (Event.swapfunc i j (r * es) (swapInit W (base + a * es) es)).CountOk W es :=
      fun i j r => good_vecswap W (base + a * es) es a n i j r
    by_cases hn7 : n < 7
    · rw [_pqsortTrace] at h
      dsimp only at h
      rw [if_pos hn7, Option.some.injEq] at h
      subst h
      exact insertionSortLog_all (fun e => e.InWindow es a n ∧ e.CountOk W es) cmp es _ a n hcmp
          hswap m
    have hpl := partitionLog_all (fun e => e.InWindow es a n ∧ e.CountOk W es) cmp es
      (swapInit W (base + a * es) es) a n (by omega) m hcmp hswap
    by_cases hsc : (partition cmp m a n).swap_cnt = 0
    · rw [_pqsortTrace] at h
      dsimp only at h
      rw [if_neg hn7, if_pos hsc, Option.some.injEq] at h
      subst h
      intro e he
      rcases List.mem_append.1 he with he | he
      · exact hpl e he
      · exact insertionSortLog_all (fun e => e.InWindow es a n ∧ e.CountOk W es) cmp es _ a n hcmp
          hswap _ e he
    rw [_pqsortTrace_step cmp W base hes fuel m a n _ _ hn7 hsc] at h
    obtain ⟨hs, hx⟩ := partition_spec cmp m a n (by omega)
    have hgl := gatherLog_all (fun e => e.InWindow es a n ∧ e.CountOk W es) es
      (swapInit W (base + a * es) es) a n (partition cmp m a n) hs.h_pa hs.h_ab hx hs.h_cd
      hs.h_dn hvec
    have hpa := hs.h_pa
    have hab := hs.h_ab
    have hcd := hs.h_cd
    have hdn := hs.h_dn
    generalize partitionLog cmp es (swapInit W (base + a * es) es) m a n = plog at h hpl
    generalize gatherLog es (swapInit W (base + a * es) es) (partition cmp m a n) a n = glog
      at h hgl
    generalize gather (partition cmp m a n) a n = g at h
    generalize partition cmp m a n = s at h hpa hab hcd hdn hx
    have hright : ∀ (p1 : (Nat → α) × List Event),
        (∀ e ∈ p1.2, e.InWindow es a n ∧ e.CountOk W es) →
        (if 1 < s.pd - s.pc ∧ overlaps lrange rrange
              (((a + n - (s.pd - s.pc)) * es : Nat) : Int)
              ((((a + n - (s.pd - s.pc)) * es + (s.pd - s.pc) * es : Nat) : Int) - 1) = true then
            (_pqsortTrace cmp W base es fuel p1.1 (a + n - (s.pd - s.pc)) (s.pd - s.pc)
              lrange rrange).map (fun p => (p.1, p1.2 ++ p.2))
          else some p1) = some res →
        ∀ e ∈ res.2, e.InWindow es a n ∧ e.CountOk W es := by
      intro p1 hp1 hr
      split at hr
      · cases ht : _pqsortTrace cmp W base es fuel p1.1 (a + n - (s.pd - s.pc)) (s.pd - s.pc)
            lrange rrange with
        | none => rw [ht] at hr; simp at hr
        | some p =>
          rw [ht, Option.map_some', Option.some.injEq] at hr
          subst hr
          intro e he
          rcases List.mem_append.1 he with he | he
          · exact hp1 e he
          · obtain ⟨w1, w2⟩ := ih _ _ _ _ _ _ ht e he
            exact ⟨w1.widen (by omega) (by omega), w2⟩
      · rw [Option.some.injEq] at hr
        subst hr
        exact hp1
    split at h
    · cases ht : _pqsortTrace cmp W base es fuel g a (s.pb - s.pa) lrange rrange with
      | none => rw [ht] at h; simp at h
      | some p =>
        rw [ht, Option.map_some', Option.some_bind] at h
        refine hright _ ?_ h
        intro e he
        rcases List.mem_append.1 he with he | he
        · rcases List.mem_append.1 he with he | he
          · exact hpl e he
          · exact hgl e he
        · obtain ⟨w1, w2⟩ := ih _ _ _ _ _ _ ht e he
          exact ⟨w1.widen (by omega) (by omega), w2⟩
    · rw [Option.some_bind] at h
      refine hright _ ?_ h
      intro e he
      rcases List.mem_append.1 he with he | he
      · exact hpl e he
      · exact hgl e he

/-! ### Every access is inside the window -/

theorem insertionSort_tiny (cmp : α → α → Int) (a n : Nat) (m : Nat → α) (hn : n ≤ 1) :
    insertionSort cmp a n m = m := by
  rcases Nat.le_one_iff_eq_zero_or_eq_one.1 hn with h | h <;> subst h
  · rfl
  · simp [insertionSort, insertOuter]

theorem insertionSortLog_tiny (cmp : α → α → Int) (es st a n : Nat) (m : Nat → α) (hn : n ≤ 1) :
    insertionSortLog cmp es st a n m = [] := by
  rcases Nat.le_one_iff_eq_zero_or_eq_one.1 hn with h | h <;> subst h
  · rfl
  · simp [insertionSortLog, insertOuterLog]

/-- C33: for every comparator, every element size `es > 0`, every window of `n ≥ 0`
elements and every byte range (whatever `lrange` and `rrange` are), `_pqsort`
returns, and every comparison and every exchange it makes, in the insertion sort,
the pivot selection, the scan with the cursors `pa`, `pb`, `pc`, `pd` and the block
moves, is on elements of the window; for `n ≤ 1` the buffer is returned unchanged
and there is no event at all.  The same holds for `pqsort` with any `lo` and
`hi`. -/
theorem accesses_in_window [Inhabited α] (cmp : α → α → Int) (W base : Nat) {es : Nat}
    (hes : 0 < es) (m : Nat → α) (a n : Nat) (lrange rrange : Int) :
    (∃ m' log, _pqsortTrace cmp W base es (n + 1) m a n lrange rrange = some (m', log) ∧
      _pqsort cmp es (n + 1) m a n lrange rrange = some m' ∧
      (∀ e ∈ log, e.InWindow es a n) ∧ (n ≤ 1 → m' = m ∧ log = [])) ∧
    (∀ (fuel : Nat) (res : (Nat → α) × List Event),
      _pqsortTrace cmp W base es fuel m a n lrange rrange = some res →
      ∀ e ∈ res.2, e.InWindow es a n) ∧
    (∀ (arr : List α) (lo hi : Nat), ∃ log, pqsortTrace cmp W base arr n es lo hi = some log ∧
      ∀ e ∈ log, e.InWindow es 0 n) := by
  refine ⟨?_, ?_, ?_⟩
  · obtain ⟨m', log, ht, hm⟩ :=
      _pqsortTrace_some cmp W base hes (n + 1) m a n lrange rrange (Nat.lt_succ_self n)
    refine ⟨m', log, ht, hm, fun e he => (_pqsortTrace_events cmp W base hes _ _ _ _ _ _ _ ht e he).1,
      ?_⟩
    intro hn
    rw [_pqsortTrace] at ht
    dsimp only at ht
    rw [if_pos (by omega), Option.some.injEq, Prod.mk.injEq] at ht
    exact ⟨by rw [← ht.1, insertionSort_tiny cmp a n m hn],
      by rw [← ht.2, insertionSortLog_tiny cmp es _ a n m hn]⟩
  · intro fuel res ht e he
    exact (_pqsortTrace_events cmp W base hes _ _ _ _ _ _ _ ht e he).1
  · intro arr lo hi
    obtain ⟨m', log, ht, _⟩ :=
      _pqsortTrace_some cmp W base hes (n + 1) (fun i => arr.getD i default) 0 n
        ((lo * es : Nat) : Int) ((((hi + 1) * es : Nat) : Int) - 1) (Nat.lt_succ_self n)
    refine ⟨log, ?_, fun e he => (_pqsortTrace_events cmp W base hes _ _ _ _ _ _ _ ht e he).1⟩
    unfold pqsortTrace
    rw [ht]
    rfl

/-- An instance of C33: the eight elements 3, 1, 4, 1, 5, 9, 2, 6 of four bytes, with
a byte range whose left end is beyond its right end. -/
theorem accesses_in_window_witness :
    0 < 4 ∧
    ((∃ m' log, _pqsortTrace natCmp 8 0 4 (8 + 1) eightDigits 0 8 20 3 = some (m', log) ∧
      _pqsort natCmp 4 (8 + 1) eightDigits 0 8 20 3 = some m' ∧
      (∀ e ∈ log, e.InWindow 4 0 8) ∧ (8 ≤ 1 → m' = eightDigits ∧ log = [])) ∧
    (∀ (fuel : Nat) (res : (Nat → Nat) × List Event),
      _pqsortTrace natCmp 8 0 4 fuel eightDigits 0 8 20 3 = some res →
      ∀ e ∈ res.2, e.InWindow 4 0 8) ∧
    (∀ (arr : List Nat) (lo hi : Nat), ∃ log, pqsortTrace natCmp 8 0 arr 8 4 lo hi = some log ∧
      ∀ e ∈ log, e.InWindow 4 0 8)) :=
  ⟨by decide, accesses_in_window natCmp 8 0 (by decide) eightDigits 0 8 20 3⟩

/-! ### The byte counts handed to `swapfunc` -/

/-- Entered with a counter between 1 and `2 ^ w - 1`, the loop of `swapcode` runs as
many times as the counter says. -/
theorem swapcodeLoop_exact (w : Nat) : ∀ (i fuel : Nat), 1 ≤ i → i < 2 ^ w → i ≤ fuel →
    swapcodeLoop w fuel i = some i := by
  intro i
  induction i with
  | zero => intro fuel h; omega
  | succ i ih =>
    intro fuel _ h2 h3
    obtain ⟨f, rfl⟩ : ∃ f, fuel = f + 1 := ⟨fuel - 1, by omega⟩
    have e : (i + 1 + 2 ^ w - 1) % 2 ^ w = i := by
      have : i + 1 + 2 ^ w - 1 = i + 2 ^ w := by omega
      rw [this, Nat.add_mod_right, Nat.mod_eq_of_lt (by omega)]
    rw [swapcodeLoop, e]
    by_cases hi : i > 0
    · rw [if_pos hi, ih f hi (by omega) (by omega)]
      rfl
    · rw [if_neg hi]
      have : i = 0 := by omega
      rw [this]

/-- Entered with the counter 0, the loop of `swapcode` runs `2 ^ w` times: the first
`--i` wraps. -/
theorem swapcodeLoop_zero (w : Nat) (hw : 1 ≤ w) : swapcodeLoop w (2 ^ w) 0 = some (2 ^ w) := by
  have h2 : 2 ≤ 2 ^ w := by
    calc 2 = 2 ^ 1 := rfl
      _ ≤ 2 ^ w := Nat.pow_le_pow_right (by decide) hw
  obtain ⟨f, hf⟩ : ∃ f, 2 ^ w = f + 1 := ⟨2 ^ w - 1, by omega⟩
  have e : (0 + 2 ^ w - 1) % 2 ^ w = f := by
    rw [Nat.zero_add, Nat.mod_eq_of_lt (by omega)]
    omega
  rw [hf]
  rw [swapcodeLoop]
  rw [← hf, e, if_pos (by omega), swapcodeLoop_exact w f f (by omega) (by omega) (Nat.le_refl f),
    Option.map_some', hf]

theorem swapInit_zero {W : Nat} (hW : 0 < W) (addr : Nat) : swapInit W addr 0 ≠ 0 := by
  unfold swapInit
  split_ifs <;> omega

/-- C36: with `es > 0`, every call of `swapfunc` that `_pqsort` makes passes a byte
count of at least 1 that is a multiple of the unit exchanged (`sizeof(long)` when
`swaptype <= 1`, one byte otherwise), so the loop of `swapcode` runs `n / unit ≥ 1`
times, without its counter wrapping; with `es = 0` and a window of at least seven
elements the first exchange of `_pqsort`, `swap(a, pm)` after the comparisons of the
pivot selection, is a call of `swapfunc` with the count 0, for which the loop runs
`2 ^ w` times. -/
theorem swapfunc_counts (cmp : α → α → Int) (W base es : Nat) (m : Nat → α) (a n : Nat)
    (lrange rrange : Int) :
    (0 < es →
      ∃ m' log, _pqsortTrace cmp W base es (n + 1) m a n lrange rrange = some (m', log) ∧
        ∀ i j bytes st, Event.swapfunc i j bytes st ∈ log →
          1 ≤ bytes ∧ (if st ≤ 1 then W else 1) ∣ bytes ∧
          1 ≤ bytes / (if st ≤ 1 then W else 1) ∧
          ∀ w fuel, bytes / (if st ≤ 1 then W else 1) < 2 ^ w →
            bytes / (if st ≤ 1 then W else 1) ≤ fuel →
            swapfunc w W bytes st fuel = some (bytes / (if st ≤ 1 then W else 1))) ∧
    (0 < W → 7 ≤ n →
      ∃ m' rest, _pqsortTrace cmp W base 0 (n + 1) m a n lrange rrange
          = some (m', choosePivotLog cmp m a n ++
              Event.swapfunc a (choosePivot cmp m a n) 0 (swapInit W (base + a * 0) 0) :: rest) ∧
        swapInit W (base + a * 0) 0 ≠ 0 ∧
        ∀ w, 1 ≤ w → swapfunc w W 0 (swapInit W (base + a * 0) 0) (2 ^ w) = some (2 ^ w)) := by
  refine ⟨?_, ?_⟩
  · intro hes
    obtain ⟨m', log, ht, _⟩ :=
      _pqsortTrace_some cmp W base hes (n + 1) m a n lrange rrange (Nat.lt_succ_self n)
    refine ⟨m', log, ht, ?_⟩
    intro i j bytes st he
    obtain ⟨h1, _, h3⟩ := (_pqsortTrace_events cmp W base hes _ _ _ _ _ _ _ ht _ he).2
    have hd : (if st ≤ 1 then W else 1) ∣ bytes := by
      split
      · rename_i hst; exact h3 hst
      · exact one_dvd bytes
    have hq : 1 ≤ bytes / (if st ≤ 1 then W else 1) := by
      obtain ⟨k, hk⟩ := hd
      have hu : 0 < (if st ≤ 1 then W else 1) := by
        rcases Nat.eq_zero_or_pos (if st ≤ 1 then W else 1) with h0 | h0
        · rw [h0, Nat.zero_mul] at hk; omega
        · exact h0
      exact Nat.div_pos (Nat.le_of_dvd (by omega) ⟨k, hk⟩) hu
    refine ⟨h1, hd, hq, ?_⟩
    intro w fuel hw hf
    have hrun := swapcodeLoop_exact w _ fuel hq hw hf
    unfold swapfunc swapcode
    split
    · rename_i hst
      rw [if_pos hst] at hrun
      exact hrun
    · rename_i hst
      rw [if_neg hst] at hrun
      exact hrun
  · intro hW hn
    have hst := swapInit_zero hW (base + a * 0)
    have hpl : partitionLog cmp 0 (swapInit W (base + a * 0) 0) m a n
        = choosePivotLog cmp m a n ++
          Event.swapfunc a (choosePivot cmp m a n) 0 (swapInit W (base + a * 0) 0) ::
            partitionLoopLog cmp 0 (swapInit W (base + a * 0) 0) a n
              { m := swap m a (choosePivot cmp m a n), pa := a + 1, pb := a + 1,
                pc := a + (n - 1), pd := a + (n - 1), swap_cnt := 0 } := by
      unfold partitionLog
      rw [swapEvent, if_neg hst]
    have key : ∃ m' rest, _pqsortTrace cmp W base 0 (n + 1) m a n lrange rrange
        = some (m', partitionLog cmp 0 (swapInit W (base + a * 0) 0) m a n ++ rest) := by
      rw [_pqsortTrace]
      dsimp only
      rw [if_neg (by omega)]
      by_cases hsc : (partition cmp m a n).swap_cnt = 0
      · rw [if_pos hsc]
        exact ⟨_, _, rfl⟩
      · rw [if_neg hsc]
        simp only [Nat.mul_zero, gt_iff_lt, Nat.lt_irrefl, if_false]
        exact ⟨_, _, rfl⟩
    obtain ⟨m', rest, hk⟩ := key
    refine ⟨m', _, by rw [hk, hpl, List.append_assoc, List.cons_append], hst, ?_⟩
    intro w hw
    unfold swapfunc swapcode
    rw [Nat.zero_div, Nat.zero_div]
    split <;> exact swapcodeLoop_zero w hw

/-- An instance of C36: the eight elements 3, 1, 4, 1, 5, 9, 2, 6 with `sizeof(long)`
8, once as elements of 16 bytes and once with the element size 0. -/
theorem swapfunc_counts_witness :
    0 < 16 ∧ 0 < 8 ∧ 7 ≤ 8 ∧
    (∃ m' log, _pqsortTrace natCmp 8 0 16 (8 + 1) eightDigits 0 8 0 127 = some (m', log) ∧
      ∀ i j bytes st, Event.swapfunc i j bytes st ∈ log →
        1 ≤ bytes ∧ (if st ≤ 1 then 8 else 1) ∣ bytes ∧
        1 ≤ bytes / (if st ≤ 1 then 8 else 1) ∧
        ∀ w fuel, bytes / (if st ≤ 1 then 8 else 1) < 2 ^ w →
          bytes / (if st ≤ 1 then 8 else 1) ≤ fuel →
          swapfunc w 8 bytes st fuel = some (bytes / (if st ≤ 1 then 8 else 1))) ∧
    (∃ m' rest, _pqsortTrace natCmp 8 0 0 (8 + 1) eightDigits 0 8 0 127
        = some (m', choosePivotLog natCmp eightDigits 0 8 ++
            Event.swapfunc 0 (choosePivot natCmp eightDigits 0 8) 0 (swapInit 8 (0 + 0 * 0) 0)
              :: rest) ∧
      swapInit 8 (0 + 0 * 0) 0 ≠ 0 ∧
      ∀ w, 1 ≤ w → swapfunc w 8 0 (swapInit 8 (0 + 0 * 0) 0) (2 ^ w) = some (2 ^ w)) :=
  ⟨by decide, by decide, by decide,
    (swapfunc_counts natCmp 8 0 16 eightDigits 0 8 0 127).1 (by decide),
    (swapfunc_counts natCmp 8 0 16 eightDigits 0 8 0 127).2 (by decide) (by decide)⟩

/-! ### A window of equal elements -/

theorem compares_append (l1 l2 : List Event) :
    compares (l1 ++ l2) = compares l1 + compares l2 := by
  simp [compares, List.countP_append]

theorem compares_nil : compares [] = 0 := rfl

theorem compares_compare (i j : Nat) (l : List Event) :
    compares (Event.compare i j :: l) = compares l + 1 := by
  simp [compares, Event.isCompare]

theorem compares_swapEvent (es st i j : Nat) (l : List Event) :
    compares (swapEvent es st i j :: l) = compares l := by
  unfold swapEvent
  split <;> simp [compares, Event.isCompare]

/-- A call of `med3` makes at most three comparisons. -/
theorem med3Log_compares (cmp : α → α → Int) (m : Nat → α) (x y z : Nat) :
    compares (med3Log cmp m x y z) ≤ 3 := by
  unfold med3Log
  split_ifs <;> simp [compares, Event.isCompare]

/-- The pivot selection makes at most twelve comparisons. -/
theorem choosePivotLog_compares (cmp : α → α → Int) (m : Nat → α) (a n : Nat) :
    compares (choosePivotLog cmp m a n) ≤ 12 := by
  unfold choosePivotLog
  dsimp only
  split_ifs
  · rw [compares_append, compares_append, compares_append]
    have h1 := med3Log_compares cmp m a (a + n / 8) (a + 2 * (n / 8))
    have h2 := med3Log_compares cmp m (a + n / 2 - n / 8) (a + n / 2) (a + n / 2 + n / 8)
    have h3 := med3Log_compares cmp m (a + (n - 1) - 2 * (n / 8)) (a + (n - 1) - n / 8)
      (a + (n - 1))
    have h4 := med3Log_compares cmp m (med3 cmp m a (a + n / 8) (a + 2 * (n / 8)))
      (med3 cmp m (a + n / 2 - n / 8) (a + n / 2) (a + n / 2 + n / 8))
      (med3 cmp m (a + (n - 1) - 2 * (n / 8)) (a + (n - 1) - n / 8) (a + (n - 1)))
    omega
  · have h1 := med3Log_compares cmp m a (a + n / 2) (a + (n - 1))
    omega
  · rw [compares_nil]
    omega

/-- On a window of equal elements the insertion sort moves nothing and compares each
element but the first with its predecessor, once. -/
theorem insertOuter_equal (cmp : α → α → Int) (es st a n : Nat) (m : Nat → α)
    (heq : ∀ i j, a ≤ i → i < a + n → a ≤ j → j < a + n → cmp (m i) (m j) = 0) :
    ∀ (fuel pm : Nat), a < pm →
      insertOuter cmp a n fuel pm m = m ∧
      compares (insertOuterLog cmp es st a n fuel pm m) = min fuel (a + n - pm) := by
  intro fuel
  induction fuel with
  | zero =>
    intro pm _
    exact ⟨rfl, by rw [insertOuterLog, compares_nil, Nat.zero_min]⟩
  | succ fuel ih =>
    intro pm hpm
    rw [insertOuter, insertOuterLog]
    by_cases h : pm < a + n
    · obtain ⟨pl, rfl⟩ : ∃ pl, pm = pl + 1 := ⟨pm - 1, by omega⟩
      have hz : cmp (m pl) (m (pl + 1)) = 0 := heq _ _ (by omega) (by omega) (by omega) (by omega)
      have e1 : insertInner cmp a (pl + 1) m = m := by
        rw [insertInner, if_neg (by omega)]
      have e2 : insertInnerLog cmp es st a (pl + 1) m = [Event.compare pl (pl + 1)] := by
        rw [insertInnerLog, if_pos (by omega), if_neg (by omega)]
      obtain ⟨i1, i2⟩ := ih (pl + 1 + 1) (by omega)
      rw [if_pos h, if_pos h, e1, e2, i1, compares_append, i2, compares_compare, compares_nil]
      exact ⟨rfl, by omega⟩
    · rw [if_neg h, if_neg h, compares_nil]
      exact ⟨rfl, by omega⟩

/-- On a window of equal elements the first inner loop of the partition runs to the
end of the window, with one comparison for each element it passes. -/
theorem scanUp_equal (cmp : α → α → Int) (es st a n : Nat) (m : Nat → α)
    (heq : ∀ i j, a ≤ i → i < a + n → a ≤ j → j < a + n → cmp (m i) (m j) = 0) :
    ∀ (fuel : Nat) (s : PState α), s.m = m → s.pa = s.pb → a + 1 ≤ s.pb → s.pb ≤ s.pc + 1 →
      s.pc + 1 ≤ a + n → s.pc + 1 - s.pb ≤ fuel →
      (scanUp cmp a fuel s).m = m ∧ (scanUp cmp a fuel s).pa = s.pc + 1 ∧
      (scanUp cmp a fuel s).pb = s.pc + 1 ∧ (scanUp cmp a fuel s).pc = s.pc ∧
      (scanUp cmp a fuel s).pd = s.pd ∧
      (scanUp cmp a fuel s).swap_cnt = (if s.pb ≤ s.pc then 1 else s.swap_cnt) ∧
      compares (scanUpLog cmp es st a fuel s) = s.pc + 1 - s.pb := by
  intro fuel
  induction fuel with
  | zero =>
    intro s hm hab h1 h2 h3 hf
    rw [scanUp, scanUpLog, compares_nil, if_neg (by omega)]
    exact ⟨hm, by omega, by omega, rfl, rfl, rfl, by omega⟩
  | succ fuel ih =>
    intro s hm hab h1 h2 h3 hf
    rw [scanUp, scanUpLog]
    by_cases h : s.pb ≤ s.pc
    · have hz : cmp (s.m s.pb) (s.m a) = 0 := by
        rw [hm]
        exact heq _ _ (by omega) (by omega) (by omega) (by omega)
      have hsw : swap s.m s.pa s.pb = m := by rw [hab, swap_self, hm]
      obtain ⟨i1, i2, i3, i4, i5, i6, i7⟩ := ih
        { s with swap_cnt := 1, m := swap s.m s.pa s.pb, pa := s.pa + 1, pb := s.pb + 1 }
        hsw (by simp only; omega) (by simp only; omega) (by simp only; omega)
        (by simp only; omega) (by simp only; omega)
      simp only at i2 i3 i4 i5 i6 i7
      have hle : cmp (s.m s.pb) (s.m a) ≤ 0 := by omega
      rw [if_pos ⟨h, hle⟩, if_pos hz, if_pos h, if_pos h, if_pos hle, if_pos hz,
        compares_compare, compares_swapEvent, i7]
      refine ⟨i1, i2, i3, i4, i5, ?_, by omega⟩
      rw [i6]
      split <;> rfl
    · rw [if_neg (fun c => h c.1), if_neg h, if_neg h, compares_nil]
      exact ⟨hm, by omega, by omega, rfl, rfl, rfl, by omega⟩

/-- On a window of at least two equal elements the partition phase ends after one
pass, with every element in the left pivot-equal zone: no element is found smaller or
greater than the pivot, and the comparisons are those of the pivot selection and one
for each element but the pivot. -/
theorem partition_equal (cmp : α → α → Int) (es st a n : Nat) (hn : 2 ≤ n) (m : Nat → α)
    (heq : ∀ i j, a ≤ i → i < a + n → a ≤ j → j < a + n → cmp (m i) (m j) = 0) :
    (partition cmp m a n).pa = a + n ∧ (partition cmp m a n).pb = a + n ∧
    (partition cmp m a n).pc = a + (n - 1) ∧ (partition cmp m a n).pd = a + (n - 1) ∧
    (partition cmp m a n).swap_cnt = 1 ∧
    compares (partitionLog cmp es st m a n) = compares (choosePivotLog cmp m a n) + (n - 1) := by
  have hp := choosePivot_bounds cmp m a n (by omega)
  have heq1 : ∀ i j, a ≤ i → i < a + n → a ≤ j → j < a + n →
      cmp (swap m a (choosePivot cmp m a n) i) (swap m a (choosePivot cmp m a n) j) = 0 := by
    intro i j h1 h2 h3 h4
    have hw : ∀ k, a ≤ k → k < a + n → ∃ k', a ≤ k' ∧ k' < a + n ∧
        swap m a (choosePivot cmp m a n) k = m k' := by
      intro k k1 k2
      rw [swap_apply]
      split_ifs
      · exact ⟨_, hp.1, hp.2, rfl⟩
      · exact ⟨a, Nat.le_refl a, by omega, rfl⟩
      · exact ⟨k, k1, k2, rfl⟩
    obtain ⟨i', a1, a2, a3⟩ := hw i h1 h2
    obtain ⟨j', b1, b2, b3⟩ := hw j h3 h4
    rw [a3, b3]
    exact heq _ _ a1 a2 b1 b2
  obtain ⟨i1, i2, i3, i4, i5, i6, i7⟩ := scanUp_equal cmp es st a n
    (swap m a (choosePivot cmp m a n)) heq1 (a + (n - 1) + 1 - (a + 1))
    { m := swap m a (choosePivot cmp m a n), pa := a + 1, pb := a + 1, pc := a + (n - 1),
      pd := a + (n - 1), swap_cnt := 0 }
    rfl rfl (by simp only; omega) (by simp only; omega) (by simp only; omega)
    (by simp only; omega)
  simp only at i2 i3 i4 i5 i6 i7
  obtain ⟨k, rfl⟩ : ∃ k, n = k + 1 := ⟨n - 1, by omega⟩
  have hd : ∀ s : PState α, s.pb = s.pc + 1 → scanDown cmp a (s.pc + 1 - s.pb) s = s ∧
      scanDownLog cmp es st a (s.pc + 1 - s.pb) s = [] := by
    intro s hs
    have : s.pc + 1 - s.pb = 0 := by omega
    rw [this]
    exact ⟨rfl, rfl⟩
  have e1 : partition cmp m a (k + 1)
      = scanUp cmp a (a + (k + 1 - 1) + 1 - (a + 1))
          { m := swap m a (choosePivot cmp m a (k + 1)), pa := a + 1, pb := a + 1,
            pc := a + (k + 1 - 1), pd := a + (k + 1 - 1), swap_cnt := 0 } := by
    rw [partition, partitionLoop]
    dsimp only
    rw [(hd _ (by rw [i3, i4])).1, if_pos (by rw [i3, i4]; omega)]
  have e2 : partitionLog cmp es st m a (k + 1)
      = choosePivotLog cmp m a (k + 1) ++
        (swapEvent es st a (choosePivot cmp m a (k + 1)) ::
          (scanUpLog cmp es st a (a + (k + 1 - 1) + 1 - (a + 1))
            { m := swap m a (choosePivot cmp m a (k + 1)), pa := a + 1, pb := a + 1,
              pc := a + (k + 1 - 1), pd := a + (k + 1 - 1), swap_cnt := 0 } ++ ([] ++ []))) := by
    rw [partitionLog, partitionLoopLog]
    dsimp only
    rw [(hd _ (by rw [i3, i4])).2, (hd _ (by rw [i3, i4])).1, if_pos (by rw [i3, i4]; omega)]
  rw [e1, e2, compares_append, compares_swapEvent, compares_append, i7]
  refine ⟨by omega, by omega, i4, i5, ?_, ?_⟩
  · rw [i6, if_pos (by omega)]
  · simp only [List.append_nil, compares_nil]
    omega

theorem gatherLog_equal (es st a n : Nat) (s : PState α) (h1 : s.pa = s.pb) (h2 : s.pc = s.pd) :
    gatherLog es st s a n = [] := by
  unfold gatherLog vecswapEvents
  dsimp only
  rw [h1, h2, Nat.sub_self, Nat.sub_self, Nat.min_zero, Nat.zero_min, Nat.zero_mul]
  simp

/-- On a window of equal elements `_pqsort` returns without a nested call, after at
most `n + 11` comparisons. -/
theorem _pqsortTrace_equal (cmp : α → α → Int) (W base es : Nat) (fuel : Nat)
    (m : Nat → α) (a n : Nat) (lrange rrange : Int)
    (heq : ∀ i j, a ≤ i → i < a + n → a ≤ j → j < a + n → cmp (m i) (m j) = 0) :
    ∃ m' log, _pqsortTrace cmp W base es (fuel + 1) m a n lrange rrange = some (m', log) ∧
      compares log ≤ n + 11 := by
  by_cases hn7 : n < 7
  · refine ⟨_, _, by rw [_pqsortTrace]; dsimp only; rw [if_pos hn7], ?_⟩
    rw [insertionSortLog, (insertOuter_equal cmp es _ a n m heq n (a + 1) (by omega)).2]
    omega
  · obtain ⟨p1, p2, p3, p4, p5, p6⟩ :=
      partition_equal cmp es (swapInit W (base + a * es) es) a n (by omega) m heq
    have hg := gatherLog_equal es (swapInit W (base + a * es) es) a n (partition cmp m a n)
      (by rw [p1, p2]) (by rw [p3, p4])
    have hc := choosePivotLog_compares cmp m a n
    refine ⟨gather (partition cmp m a n) a n,
      partitionLog cmp es (swapInit W (base + a * es) es) m a n ++
        gatherLog es (swapInit W (base + a * es) es) (partition cmp m a n) a n, ?_, ?_⟩
    · rw [_pqsortTrace]
      dsimp only
      rw [if_neg hn7, if_neg (by omega), p1, p2, p3, p4]
      simp only [Nat.sub_self, Nat.zero_mul, gt_iff_lt, Nat.not_lt_zero, if_false]
    · rw [compares_append, hg, compares_nil, p6]
      omega

/-- C31: an array of `n` elements of `es > 0` bytes that all compare equal costs at
most `n + 11` comparator calls, for every `n` and every range `lo`, `hi`: `_pqsort` returns without
a recursive call and without a second pass through its loop, and for `n ≥ 7` the
partition pass ends with the less-than zone `[pa, pb)` and the greater-than zone
`(pc, pd]` both empty. -/
theorem equal_elements_linear [Inhabited α] (cmp : α → α → Int) (W base : Nat) {es : Nat}
    (_hes : 0 < es) (arr : List α) (n lo hi : Nat) (hn : n ≤ arr.length)
    (heq : ∀ x ∈ arr, ∀ y ∈ arr, cmp x y = 0) :
    (∃ log, pqsortTrace cmp W base arr n es lo hi = some log ∧ compares log ≤ n + 11) ∧
    (∃ m' log, _pqsortTrace cmp W base es 1 (fun i => arr.getD i default) 0 n
        ((lo * es : Nat) : Int) ((((hi + 1) * es : Nat) : Int) - 1) = some (m', log) ∧
      compares log ≤ n + 11) ∧
    (7 ≤ n →
      (partition cmp (fun i => arr.getD i default) 0 n).pb
        = (partition cmp (fun i => arr.getD i default) 0 n).pa ∧
      (partition cmp (fun i => arr.getD i default) 0 n).pd
        = (partition cmp (fun i => arr.getD i default) 0 n).pc ∧
      (partition cmp (fun i => arr.getD i default) 0 n).pc
        < (partition cmp (fun i => arr.getD i default) 0 n).pb) := by
  have hm : ∀ i j, 0 ≤ i → i < 0 + n → 0 ≤ j → j < 0 + n →
      cmp ((fun i => arr.getD i default) i) ((fun i => arr.getD i default) j) = 0 := by
    intro i j _ h2 _ h4
    simp only
    rw [List.getD_eq_getElem _ _ (by omega), List.getD_eq_getElem _ _ (by omega)]
    exact heq _ (List.getElem_mem _) _ (List.getElem_mem _)
  refine ⟨?_, ?_, ?_⟩
  · obtain ⟨m', log, h1, h2⟩ := _pqsortTrace_equal cmp W base es n (fun i => arr.getD i default)
      0 n ((lo * es : Nat) : Int) ((((hi + 1) * es : Nat) : Int) - 1) hm
    refine ⟨log, ?_, h2⟩
    unfold pqsortTrace
    rw [h1]
    rfl
  · exact _pqsortTrace_equal cmp W base es 0 (fun i => arr.getD i default)
      0 n ((lo * es : Nat) : Int) ((((hi + 1) * es : Nat) : Int) - 1) hm
  · intro h7
    obtain ⟨p1, p2, p3, p4, _, _⟩ := partition_equal cmp es 0 0 n (by omega) _ hm
    rw [p1, p2, p3, p4]
    exact ⟨rfl, rfl, by omega⟩

/-- An instance of C31: eight elements 3, with the range `[2, 5]`. -/
theorem equal_elements_linear_witness :
    0 < 4 ∧ 8 ≤ [3, 3, 3, 3, 3, 3, 3, 3].length ∧
    (∀ x ∈ [3, 3, 3, 3, 3, 3, 3, 3], ∀ y ∈ [3, 3, 3, 3, 3, 3, 3, 3], natCmp x y = 0) ∧
    ((∃ log, pqsortTrace natCmp 8 0 [3, 3, 3, 3, 3, 3, 3, 3] 8 4 2 5 = some log ∧
      compares log ≤ 8 + 11) ∧
    (∃ m' log, _pqsortTrace natCmp 8 0 4 1 (fun i => [3, 3, 3, 3, 3, 3, 3, 3].getD i default) 0 8
        ((2 * 4 : Nat) : Int) ((((5 + 1) * 4 : Nat) : Int) - 1) = some (m', log) ∧
      compares log ≤ 8 + 11) ∧
    (7 ≤ 8 →
      (partition natCmp (fun i => [3, 3, 3, 3, 3, 3, 3, 3].getD i default) 0 8).pb
        = (partition natCmp (fun i => [3, 3, 3, 3, 3, 3, 3, 3].getD i default) 0 8).pa ∧
      (partition natCmp (fun i => [3, 3, 3, 3, 3, 3, 3, 3].getD i default) 0 8).pd
        = (partition natCmp (fun i => [3, 3, 3, 3, 3, 3, 3, 3].getD i default) 0 8).pc ∧
      (partition natCmp (fun i => [3, 3, 3, 3, 3, 3, 3, 3].getD i default) 0 8).pc
        < (partition natCmp (fun i => [3, 3, 3, 3, 3, 3, 3, 3].getD i default) 0 8).pb)) :=
  ⟨by decide, by decide, by decide,
    equal_elements_linear natCmp 8 0 (by decide) [3, 3, 3, 3, 3, 3, 3, 3] 8 2 5 (by decide)
      (by decide)⟩

end Pqsort

/-! Properties of the sds functions. -/

namespace Sds

variable {β : Type}

/-! ### `sdssplitlen` -/

theorem countSep_skip [DecidableEq β] (sep : List β) : ∀ (l : List β) (skip : Nat),
    countSep sep skip l = countSep sep 0 (l.drop skip) := by
  intro l
  induction l with
  | nil => intro skip; simp [countSep]
  | cons c rest ih =>
    intro skip
    cases skip with
    | zero => rfl
    | succ k =>
      rw [countSep, ih k]
      rfl

theorem countSep_short [DecidableEq β] (sep : List β) : ∀ (l : List β), l.length < sep.length →
    countSep sep 0 l = 0 := by
  intro l
  induction l with
  | nil => intro _; rfl
  | cons c rest ih =>
    intro h
    rw [countSep]
    have hne : ¬ (c :: rest).take sep.length = sep := by
      intro e
      have := congrArg List.length e
      rw [List.length_take] at this
      omega
    rw [if_neg hne]
    exact ih (by simp only [List.length_cons] at h; omega)

/-- One step of the reference scan at a position where at least one byte is left. -/
theorem countSep_drop [DecidableEq β] (sep : List β) (hsep : 1 ≤ sep.length) (s : List β) (j : Nat)
    (hj : j < s.length) :
    countSep sep 0 (s.drop j) =
      if (s.drop j).take sep.length = sep then 1 + countSep sep 0 (s.drop (j + sep.length))
      else countSep sep 0 (s.drop (j + 1)) := by
  have hd : s.drop j = s[j] :: s.drop (j + 1) := List.drop_eq_getElem_cons hj
  rw [hd, countSep, countSep_skip, List.drop_drop,
    show j + 1 + (sep.length - 1) = j + sep.length by omega]

theorem joinWith_append (sep : List β) : ∀ (ts : List (List β)) (t : List β),
    joinWith sep (ts ++ [t]) = (ts.map (fun x => x ++ sep)).flatten ++ t := by
  intro ts
  induction ts with
  | nil => intro t; simp [joinWith]
  | cons x xs ih =>
    intro t
    cases xs with
    | nil => simp [joinWith]
    | cons y ys =>
      have := ih t
      rw [List.cons_append] at this
      rw [List.cons_append, List.cons_append, joinWith, this]
      simp

/-- The test of the loop body, on a string that holds `seplen` more bytes: the
separator stands at index `j`. -/
theorem match_iff [DecidableEq β] (s sep : List β) (seplen : Int) (hsep : seplen = sep.length)
    (h1 : 1 ≤ sep.length) (j : Nat) (hj : j + sep.length ≤ s.length) :
    ((seplen = 1 ∧ (s.drop j).head? = sep.head?) ∨
        memcmpEq (s.drop j) sep seplen.toNat = true) ↔
      (s.drop j).take sep.length = sep := by
  have ht : seplen.toNat = sep.length := by omega
  unfold memcmpEq
  rw [ht, List.take_length, decide_eq_true_eq]
  constructor
  · rintro (⟨e1, e2⟩ | e)
    · have hl : sep.length = 1 := by omega
      have hd : s.drop j = s[j] :: s.drop (j + 1) := List.drop_eq_getElem_cons (by omega)
      rw [hd] at e2 ⊢
      obtain ⟨x, rfl⟩ := List.length_eq_one.1 hl
      simp only [List.head?_cons, Option.some.injEq] at e2
      simp [e2]
    · exact e
  · intro e
    exact Or.inr e

/-- Cutting the bytes from `start` on at the separator found at `j`. -/
theorem drop_split (s sep : List β) (start j : Nat) (hsj : start ≤ j)
    (hm : (s.drop j).take sep.length = sep) :
    sdsnewlen (s.drop start) (j - start) ++ sep ++ s.drop (j + sep.length) = s.drop start := by
  unfold sdsnewlen
  have e1 : s.drop j = (s.drop start).drop (j - start) := by
    rw [List.drop_drop]; congr 1; omega
  have e2 : s.drop (j + sep.length) = (s.drop j).drop sep.length := by
    rw [List.drop_drop]
  have key : sep ++ (s.drop j).drop sep.length = s.drop j := by
    have := List.take_append_drop sep.length (s.drop j)
    rwa [hm] at this
  rw [List.append_assoc, e2, key, e1, List.take_append_drop]

/-- The loop of `sdssplitlen`, entered at `j` with enough iterations left: it adds
one token per occurrence the reference scan finds from `j` on, and the tokens,
each followed by the separator, followed by the bytes from `start` on, stay the
same byte string. -/
theorem splitLoop_spec [DecidableEq β] (s sep : List β) (len seplen : Int)
    (hlen : len = s.length) (hsep : seplen = sep.length) (h1 : 1 ≤ sep.length) :
    ∀ (fuel : Nat) (st : SplitState β) (j : Nat), st.start ≤ j → s.length ≤ j + fuel →
      (splitLoop s len sep seplen fuel st j).elements
        = st.elements + countSep sep 0 (s.drop j) ∧
      (splitLoop s len sep seplen fuel st j).tokens.length
        = st.tokens.length + countSep sep 0 (s.drop j) ∧
      ((splitLoop s len sep seplen fuel st j).tokens.map (fun t => t ++ sep)).flatten
          ++ s.drop (splitLoop s len sep seplen fuel st j).start
        = (st.tokens.map (fun t => t ++ sep)).flatten ++ s.drop st.start := by
  intro fuel
  induction fuel with
  | zero =>
    intro st j _ hf
    have : s.drop j = [] := List.drop_eq_nil_of_le (by omega)
    simp [splitLoop, this, countSep]
  | succ fuel ih =>
    intro st j hsj hf
    have ht : seplen.toNat = sep.length := by omega
    rw [splitLoop]
    by_cases c1 : (j : Int) < len - (seplen - 1)
    · rw [if_pos c1]
      have hj : j + sep.length ≤ s.length := by omega
      have hcount := countSep_drop sep h1 s j (by omega)
      by_cases c2 : (s.drop j).take sep.length = sep
      · rw [if_pos ((match_iff s sep seplen hsep h1 j hj).2 c2)]
        rw [if_pos c2] at hcount
        obtain ⟨r1, r2, r3⟩ := ih
          { tokens := st.tokens ++ [sdsnewlen (s.drop st.start) (j - st.start)],
            elements := st.elements + 1, start := j + seplen.toNat }
          (j + seplen.toNat - 1 + 1) (by dsimp only; omega) (by omega)
        have hj' : j + seplen.toNat - 1 + 1 = j + sep.length := by omega
        rw [hj'] at r1 r2 r3
        rw [hj']
        refine ⟨by rw [r1, hcount]; dsimp only; omega,
          by rw [r2, hcount]; simp only [List.length_append, List.length_singleton]; omega, ?_⟩
        rw [r3]
        dsimp only
        rw [ht, List.map_append, List.flatten_append, List.append_assoc]
        congr 1
        simp only [List.map_cons, List.map_nil, List.flatten_cons, List.flatten_nil,
          List.append_nil]
        exact drop_split s sep st.start j hsj c2
      · rw [if_neg (fun h => c2 ((match_iff s sep seplen hsep h1 j hj).1 h))]
        rw [if_neg c2] at hcount
        rw [hcount]
        exact ih st (j + 1) (by omega) (by omega)
    · rw [if_neg c1]
      have : countSep sep 0 (s.drop j) = 0 :=
        countSep_short sep _ (by rw [List.length_drop]; omega)
      rw [this]
      exact ⟨rfl, rfl, rfl⟩

/-- Both of `sdssplitlen`'s results on a string of `len ≥ 0` bytes and a separator
of `seplen ≥ 1` bytes. -/
theorem sdssplitlen_spec [DecidableEq β] (s sep : List β) (len seplen : Int)
    (hlen : len = s.length) (hsep : seplen = sep.length) (h1 : 1 ≤ sep.length) :
    ∃ tokens count, sdssplitlen s len sep seplen = some (tokens, count) ∧
      joinWith sep tokens = s ∧ count = countSep sep 0 s + 1 ∧ tokens.length = count := by
  obtain ⟨r1, r2, r3⟩ := splitLoop_spec s sep len seplen hlen hsep h1 len.toNat
    { tokens := [], elements := 0, start := 0 } 0 (Nat.le_refl 0) (by omega)
  have hg : ¬ (seplen < 1 ∨ len < 0) := by omega
  refine ⟨_, _, by unfold sdssplitlen; rw [if_neg hg], ?_, ?_, ?_⟩
  · rw [joinWith_append]
    have hl : len.toNat = s.length := by omega
    have : sdsnewlen (s.drop (splitLoop s len sep seplen len.toNat
        { tokens := [], elements := 0, start := 0 } 0).start)
        (len.toNat - (splitLoop s len sep seplen len.toNat
          { tokens := [], elements := 0, start := 0 } 0).start)
        = s.drop (splitLoop s len sep seplen len.toNat
          { tokens := [], elements := 0, start := 0 } 0).start := by
      unfold sdsnewlen
      apply List.take_of_length_le
      rw [List.length_drop, hl]
    rw [this, r3]
    simp
  · rw [r1]; simp
  · rw [List.length_append, r2, r1]; simp

/-- C9: on a string of zero length (`len == 0`) and a separator of one byte,
`sdssplitlen` does not return `NULL`: it returns an array of one empty token with
`*count` set to 1, where its documentation announces `NULL`; for a separator of
zero length (`seplen == 0`) it does return `NULL`. -/
theorem sdssplitlen_zero_length_not_null :
    sdssplitlen ([] : List Char) 0 ['_'] 1 = some ([[]], 1) ∧
    ∀ (s sep : List Char) (len : Int), sdssplitlen s len sep 0 = none :=
  ⟨by decide, fun s sep len => by simp [sdssplitlen]⟩

/-- C10: for a string of `len ≥ 1` bytes and a separator of `seplen ≥ 1` bytes,
`sdssplitlen` returns tokens that, joined in order with the separator between
consecutive tokens, give the string back, and a count, equal to the number of
tokens, that is one more than the number of occurrences of the separator found
by the left-to-right scan that resumes after each occurrence. -/
theorem sdssplitlen_roundtrip [DecidableEq β] (s sep : List β) (_hs : 1 ≤ s.length)
    (hsep : 1 ≤ sep.length) :
    ∃ tokens count, sdssplitlen s (s.length : Int) sep (sep.length : Int) = some (tokens, count) ∧
      joinWith sep tokens = s ∧ count = countSep sep 0 s + 1 ∧ tokens.length = count :=
  sdssplitlen_spec s sep s.length sep.length rfl rfl hsep

/-- The instance of C10 given in the documentation of `sdssplitlen`: `"foo_-_bar"`
split on `"_-_"` gives the two tokens `"foo"` and `"bar"`. -/
theorem sdssplitlen_roundtrip_witness :
    1 ≤ "foo_-_bar".toList.length ∧ 1 ≤ "_-_".toList.length ∧
    (∃ tokens count, sdssplitlen "foo_-_bar".toList ("foo_-_bar".toList.length : Int)
        "_-_".toList ("_-_".toList.length : Int) = some (tokens, count) ∧
      joinWith "_-_".toList tokens = "foo_-_bar".toList ∧
      count = countSep "_-_".toList 0 "foo_-_bar".toList + 1 ∧ tokens.length = count) ∧
    sdssplitlen "foo_-_bar".toList 9 "_-_".toList 3 = some (["foo".toList, "bar".toList], 2) :=
  ⟨by decide, by decide,
    sdssplitlen_roundtrip "foo_-_bar".toList "_-_".toList (by decide) (by decide), by decide⟩

/-! ### `sdsrange` -/

theorem memmove_length (buf : List Nat) (src n : Nat) (h : src + n ≤ buf.length) :
    (memmove buf 0 src n).length = buf.length := by
  unfold memmove
  simp only [List.take_zero, List.nil_append, List.length_append, List.length_take,
    List.length_drop, Nat.zero_add]
  omega

theorem memmove_take (buf : List Nat) (src n : Nat) (h : src + n ≤ buf.length) :
    (memmove buf 0 src n).take n = (buf.drop src).take n := by
  unfold memmove
  simp only [List.take_zero, List.nil_append]
  rw [List.take_append_of_le_length (by simp only [List.length_take, List.length_drop]; omega)]
  rw [List.take_take, Nat.min_self]

/-- The part of the content kept by a move of `n` bytes from offset `st`. -/
theorem content_drop_take (sh : Sdshdr) (st n : Nat) (h : st + n ≤ sh.len.toNat) :
    (sh.content.drop st).take n = (sh.buf.drop st).take n := by
  unfold Sdshdr.content
  rw [List.drop_take, List.take_take, Nat.min_eq_left (by omega)]

theorem take_set_same (l : List Nat) (n a : Nat) : (l.set n a).take n = l.take n := by
  apply List.ext_getElem?
  intro i
  rw [List.getElem?_take, List.getElem?_take]
  split
  · rw [List.getElem?_set_ne (by omega)]
  · rfl

/-- Writing the terminator after `newlen` bytes that equal the bytes of the source
string from `start` on gives a well-formed string with these bytes as content. -/
theorem terminate_spec (sh : Sdshdr) (hw : sh.WellFormed) (start newlen : Nat)
    (h2 : start + newlen ≤ sh.len.toNat) (b : List Nat) (hbl : b.length = sh.buf.length)
    (hbt : b.take newlen = (sh.buf.drop start).take newlen) :
    (({ len := newlen, free := sh.free + (sh.len - newlen), buf := b.set newlen 0 }
        : Sdshdr).content = (sh.content.drop start).take newlen) ∧
    ({ len := newlen, free := sh.free + (sh.len - newlen), buf := b.set newlen 0 }
        : Sdshdr).WellFormed := by
  obtain ⟨w1, w2, w3, w4⟩ := hw
  constructor
  · unfold Sdshdr.content
    dsimp only
    rw [Int.toNat_ofNat, take_set_same, hbt, List.drop_take, List.take_take,
      Nat.min_eq_left (by omega)]
  · refine ⟨by dsimp only; omega, by dsimp only; omega, ?_, ?_⟩
    · dsimp only
      rw [List.length_set]
      omega
    · dsimp only
      rw [Int.toNat_ofNat, List.getElem?_set_self (by omega)]

/-- The tail of `sdsrange` keeps the `newlen` bytes from offset `start`, keeps
`len + free`, and leaves a well-formed string. -/
theorem sdsrangeMove_spec (sh : Sdshdr) (hw : sh.WellFormed) (start newlen : Int)
    (h0 : 0 ≤ start) (h1 : 0 ≤ newlen) (h2 : start + newlen ≤ sh.len) :
    (sdsrangeMove sh start newlen).content = (sh.content.drop start.toNat).take newlen.toNat ∧
    (sdsrangeMove sh start newlen).len + (sdsrangeMove sh start newlen).free = sh.len + sh.free ∧
    (sdsrangeMove sh start newlen).WellFormed := by
  have hw' := hw
  obtain ⟨w1, w2, w3, w4⟩ := hw
  have hb : start.toNat + newlen.toNat ≤ sh.buf.length := by omega
  have hn : ((newlen.toNat : Nat) : Int) = newlen := Int.toNat_of_nonneg h1
  have key := terminate_spec sh hw' start.toNat newlen.toNat (by omega)
    (if start ≠ 0 then memmove sh.buf 0 start.toNat newlen.toNat else sh.buf)
    (by split
        · exact memmove_length _ _ _ hb
        · rfl)
    (by split
        · exact memmove_take _ _ _ hb
        · rename_i h
          have : start = 0 := by simpa using h
          rw [this]; simp)
  rw [hn] at key
  refine ⟨key.1, ?_, key.2⟩
  unfold sdsrangeMove
  dsimp only
  omega

theorem shiftIndex_bounds (len i : Int) (h1 : -len < i) (h2 : i < len) :
    0 ≤ shiftIndex len i ∧ shiftIndex len i < len := by
  unfold shiftIndex
  split <;> omega

theorem shift_clamp (len i : Int) (h1 : -len < i) :
    (if i < 0 then (if len + i < 0 then 0 else len + i) else i) = shiftIndex len i := by
  unfold shiftIndex
  split
  · rw [if_neg (by omega)]
  · rfl

/-- A length below `2 ^ 31` is its own conversion to `int`. -/
theorem toSigned_of_lt (x : Int) (h0 : 0 ≤ x) (h1 : x < 2147483648) : toSigned x = x := by
  unfold toSigned
  omega

/-- What `sdsrange` computes when both indices lie within the string and the length
is below `2 ^ 31`. -/
theorem sdsrange_eq (sh : Sdshdr) (start end_ : Int) (hL : 0 < sh.len)
    (hlen : sh.len < 2147483648)
    (h1 : -sh.len < start) (h2 : start < sh.len) (h3 : -sh.len < end_) (h4 : end_ < sh.len) :
    sdsrange sh start end_ =
      if shiftIndex sh.len start > shiftIndex sh.len end_ then sdsrangeMove sh 0 0
      else sdsrangeMove sh (shiftIndex sh.len start)
        (shiftIndex sh.len end_ - shiftIndex sh.len start + 1) := by
  have b1 := shiftIndex_bounds sh.len start h1 h2
  have b2 := shiftIndex_bounds sh.len end_ h3 h4
  unfold sdsrange
  dsimp only
  rw [toSigned_of_lt sh.len (by omega) hlen]
  rw [if_neg (by omega), shift_clamp sh.len start h1, shift_clamp sh.len end_ h3]
  generalize shiftIndex sh.len start = s at b1 ⊢
  generalize shiftIndex sh.len end_ = e at b2 ⊢
  by_cases c : s > e
  · simp only [c, if_true, ne_eq, not_true_eq_false, if_false]
  · have n1 : ¬ s ≥ sh.len := by omega
    have n2 : ¬ e ≥ sh.len := by omega
    have n3 : e - s + 1 ≠ 0 := by omega
    simp only [c, if_false, n1, n2, n3, ne_eq, not_false_eq_true, if_true]

/-- For a well-formed sds string of length `0 < L < 2 ^ 31` and indices with
`-L < start < L` and `-L < end < L`, `sdsrange` leaves the substring from `start'`
to `end'` inclusive, where a negative index `i` is shifted to `L + i`, and the
empty string when `start' > end'`; `len + free` is unchanged and the string stays
well formed. -/
theorem sdsrange_substring (sh : Sdshdr) (hw : sh.WellFormed) (start end_ : Int)
    (hL : 0 < sh.len) (hlen : sh.len < 2147483648) (h1 : -sh.len < start) (h2 : start < sh.len)
    (h3 : -sh.len < end_) (h4 : end_ < sh.len) :
    (sdsrange sh start end_).content =
      substring sh.content (shiftIndex sh.len start).toNat (shiftIndex sh.len end_).toNat ∧
    (shiftIndex sh.len start > shiftIndex sh.len end_ → (sdsrange sh start end_).content = []) ∧
    (sdsrange sh start end_).len + (sdsrange sh start end_).free = sh.len + sh.free ∧
    (sdsrange sh start end_).WellFormed := by
  have b1 := shiftIndex_bounds sh.len start h1 h2
  have b2 := shiftIndex_bounds sh.len end_ h3 h4
  rw [sdsrange_eq sh start end_ hL hlen h1 h2 h3 h4]
  generalize shiftIndex sh.len start = s at b1 ⊢
  generalize shiftIndex sh.len end_ = e at b2 ⊢
  by_cases c : s > e
  · rw [if_pos c]
    obtain ⟨q1, q2, q3⟩ := sdsrangeMove_spec sh hw 0 0 (Int.le_refl 0) (Int.le_refl 0) (by omega)
    have hempty : (sdsrangeMove sh 0 0).content = [] := by rw [q1]; simp
    refine ⟨?_, fun _ => hempty, q2, q3⟩
    rw [hempty]
    unfold substring
    rw [if_pos (by omega)]
  · rw [if_neg c]
    obtain ⟨q1, q2, q3⟩ := sdsrangeMove_spec sh hw s (e - s + 1) b1.1 (by omega) (by omega)
    refine ⟨?_, fun h => absurd h c, q2, q3⟩
    rw [q1]
    unfold substring
    rw [if_neg (by omega)]
    congr 1
    omega

/-- The examples of the doc comment of `sdsrange`: on the ten bytes `"0123456789"`,
`sdsrange(s,1,5)` keeps `"12345"`, `sdsrange(s,-5,-1)` keeps `"56789"` and
`sdsrange(s,-1,5)` gives the empty string. -/
theorem sdsrange_substring_witness :
    tenDigits.WellFormed ∧
    0 < tenDigits.len ∧
    tenDigits.len < 2147483648 ∧
    -tenDigits.len < -5 ∧
    (-5 : Int) < tenDigits.len ∧
    -tenDigits.len < -1 ∧
    (-1 : Int) < tenDigits.len ∧
    ((sdsrange tenDigits (-5) (-1)).content =
        substring tenDigits.content
          (shiftIndex tenDigits.len (-5)).toNat
          (shiftIndex tenDigits.len (-1)).toNat ∧
      (shiftIndex tenDigits.len (-5)
          > shiftIndex tenDigits.len (-1) →
        (sdsrange tenDigits (-5) (-1)).content
          = []) ∧
      (sdsrange tenDigits (-5) (-1)).len
          + (sdsrange tenDigits (-5) (-1)).free
        = tenDigits.len
          + tenDigits.free ∧
      (sdsrange tenDigits (-5) (-1)).WellFormed) ∧
    (sdsrange tenDigits 1 5).content
      = [49, 50, 51, 52, 53] ∧
    (sdsrange tenDigits (-5) (-1)).content
      = [53, 54, 55, 56, 57] ∧
    (sdsrange tenDigits (-1) 5).content = [] :=
  ⟨by decide, by decide, by decide, by decide, by decide, by decide, by decide,
    sdsrange_substring tenDigits (by decide) (-5) (-1) (by decide) (by decide) (by decide)
      (by decide) (by decide) (by decide),
    by decide, by decide, by decide⟩

/-! ### `sdscatlen` -/

theorem reallocBuf_length (junk : Nat → Nat) (buf : List Nat) (size : Nat) :
    (reallocBuf junk buf size).length = size := by
  simp [reallocBuf]

theorem reallocBuf_take (junk : Nat → Nat) (buf : List Nat) (size k : Nat)
    (h1 : k ≤ size) (h2 : k ≤ buf.length) :
    (reallocBuf junk buf size).take k = buf.take k := by
  apply List.ext_getElem?
  intro i
  rw [List.getElem?_take, List.getElem?_take]
  split
  · rename_i hi
    unfold reallocBuf
    rw [List.getElem?_map, List.getElem?_range (by omega), Option.map_some',
      List.getD_eq_getElem _ _ (by omega), List.getElem?_eq_getElem (by omega)]
  · rfl

/-- Appending `t` after the first `curlen` bytes of a large enough array and
writing the terminator. -/
theorem memcpy_spec (b : List Nat) (curlen : Nat) (t : List Nat)
    (hb : curlen + t.length + 1 ≤ b.length) :
    ((memcpy b curlen t t.length).set (curlen + t.length) 0).take (curlen + t.length)
      = b.take curlen ++ t ∧
    ((memcpy b curlen t t.length).set (curlen + t.length) 0).length = b.length ∧
    ((memcpy b curlen t t.length).set (curlen + t.length) 0)[curlen + t.length]? = some 0 := by
  have hl : (memcpy b curlen t t.length).length = b.length := by
    unfold memcpy
    simp only [List.length_append, List.length_take, List.length_drop, Nat.min_self]
    omega
  refine ⟨?_, by rw [List.length_set, hl], by rw [List.getElem?_set_self (by omega)]⟩
  rw [take_set_same]
  unfold memcpy
  rw [List.take_length, ← List.append_assoc]
  rw [List.take_append_of_le_length (by
    simp only [List.length_append, List.length_take]; omega)]
  rw [List.take_of_length_le (by simp only [List.length_append, List.length_take]; omega)]

/-- After `sdsMakeRoomFor` the string has the same length and first `len` bytes,
room for `addlen` more bytes, and an array of `len + free + 1` bytes; it is the
same string when there was room, and has capacity `2 * (len + addlen)` otherwise. -/
theorem sdsMakeRoomFor_spec (junk : Nat → Nat) (sh : Sdshdr) (hw : sh.WellFormed)
    (addlen : Int) (ha : 0 ≤ addlen) :
    (sdsMakeRoomFor junk sh addlen).len = sh.len ∧
    addlen ≤ (sdsMakeRoomFor junk sh addlen).free ∧
    ((sdsMakeRoomFor junk sh addlen).buf.length : Int)
      = sh.len + (sdsMakeRoomFor junk sh addlen).free + 1 ∧
    (sdsMakeRoomFor junk sh addlen).buf.take sh.len.toNat = sh.buf.take sh.len.toNat ∧
    (addlen ≤ sh.free → sdsMakeRoomFor junk sh addlen = sh) ∧
    (sh.free < addlen →
      (sdsMakeRoomFor junk sh addlen).len + (sdsMakeRoomFor junk sh addlen).free
        = 2 * (sh.len + addlen)) := by
  obtain ⟨w1, w2, w3, w4⟩ := hw
  unfold sdsMakeRoomFor
  dsimp only
  by_cases c : sh.free ≥ addlen
  · rw [if_pos c]
    exact ⟨rfl, c, w3, rfl, fun _ => rfl, fun h => by omega⟩
  · rw [if_neg c]
    dsimp only
    refine ⟨rfl, by omega, ?_, ?_, fun h => by omega, fun _ => by omega⟩
    · rw [reallocBuf_length]
      omega
    · exact reallocBuf_take junk sh.buf _ _ (by omega) (by omega)

/-- C17: for a well-formed sds string (`free ≥ 0`) and a block `t` of `len` bytes,
`sdscatlen` returns a string of length `sdslen(s) + len` whose bytes are the old
bytes followed by the bytes of `t`, with a NUL byte at index length and
`free ≥ 0`; when the old `free` was at least `len` the header is not reallocated
and `len + free` is unchanged, otherwise `len + free` is `2 * (old length + len)`. -/
theorem sdscatlen_spec (junk : Nat → Nat) (sh : Sdshdr) (hw : sh.WellFormed) (t : List Nat)
    (len : Int) (hlen : len = t.length) :
    (sdscatlen junk sh t len).len = sh.len + len ∧
    (sdscatlen junk sh t len).content = sh.content ++ t ∧
    (sdscatlen junk sh t len).buf[(sdscatlen junk sh t len).len.toNat]? = some 0 ∧
    0 ≤ (sdscatlen junk sh t len).free ∧
    (len ≤ sh.free → sdsMakeRoomFor junk sh len = sh ∧
      (sdscatlen junk sh t len).len + (sdscatlen junk sh t len).free = sh.len + sh.free) ∧
    (sh.free < len →
      (sdscatlen junk sh t len).len + (sdscatlen junk sh t len).free = 2 * (sh.len + len)) ∧
    (sdscatlen junk sh t len).WellFormed := by
  obtain ⟨m1, m2, m3, m4, m5, m6⟩ := sdsMakeRoomFor_spec junk sh hw len (by omega)
  obtain ⟨w1, w2, w3, w4⟩ := hw
  have e1 : len.toNat = t.length := by omega
  have e2 : (sh.len + len).toNat = sh.len.toNat + t.length := by omega
  obtain ⟨c1, c2, c3⟩ := memcpy_spec (sdsMakeRoomFor junk sh len).buf sh.len.toNat t (by omega)
  have hcontent : (sdscatlen junk sh t len).content = sh.content ++ t := by
    unfold sdscatlen Sdshdr.content
    dsimp only
    rw [e1, e2, c1, m4]
  have hnul : (sdscatlen junk sh t len).buf[(sdscatlen junk sh t len).len.toNat]? = some 0 := by
    unfold sdscatlen
    dsimp only
    rw [e1, e2, c3]
  have hbl : ((sdscatlen junk sh t len).buf.length : Int)
      = (sdsMakeRoomFor junk sh len).buf.length := by
    unfold sdscatlen
    dsimp only
    rw [e1, e2, c2]
  have hl : (sdscatlen junk sh t len).len = sh.len + len := rfl
  have hf : (sdscatlen junk sh t len).free = (sdsMakeRoomFor junk sh len).free - len := rfl
  refine ⟨hl, hcontent, hnul, by omega, ?_, ?_, ?_⟩
  · intro h
    refine ⟨m5 h, ?_⟩
    rw [hl, hf, m5 h]
    omega
  · intro h
    have := m6 h
    omega
  · exact ⟨by omega, by omega, by omega, hnul⟩

theorem sdscatlen_spec_witness :
    (sdsnewlenHdr [1, 2, 3] 3).WellFormed ∧ (2 : Int) = ([4, 5] : List Nat).length ∧
    ((sdscatlen (fun _ => 7) (sdsnewlenHdr [1, 2, 3] 3) [4, 5] 2).len
        = (sdsnewlenHdr [1, 2, 3] 3).len + 2 ∧
    (sdscatlen (fun _ => 7) (sdsnewlenHdr [1, 2, 3] 3) [4, 5] 2).content
        = (sdsnewlenHdr [1, 2, 3] 3).content ++ [4, 5] ∧
    (sdscatlen (fun _ => 7) (sdsnewlenHdr [1, 2, 3] 3) [4, 5] 2).buf[
        (sdscatlen (fun _ => 7) (sdsnewlenHdr [1, 2, 3] 3) [4, 5] 2).len.toNat]? = some 0 ∧
    0 ≤ (sdscatlen (fun _ => 7) (sdsnewlenHdr [1, 2, 3] 3) [4, 5] 2).free ∧
    (2 ≤ (sdsnewlenHdr [1, 2, 3] 3).free →
      sdsMakeRoomFor (fun _ => 7) (sdsnewlenHdr [1, 2, 3] 3) 2 = sdsnewlenHdr [1, 2, 3] 3 ∧
      (sdscatlen (fun _ => 7) (sdsnewlenHdr [1, 2, 3] 3) [4, 5] 2).len
          + (sdscatlen (fun _ => 7) (sdsnewlenHdr [1, 2, 3] 3) [4, 5] 2).free
        = (sdsnewlenHdr [1, 2, 3] 3).len + (sdsnewlenHdr [1, 2, 3] 3).free) ∧
    ((sdsnewlenHdr [1, 2, 3] 3).free < 2 →
      (sdscatlen (fun _ => 7) (sdsnewlenHdr [1, 2, 3] 3) [4, 5] 2).len
          + (sdscatlen (fun _ => 7) (sdsnewlenHdr [1, 2, 3] 3) [4, 5] 2).free
        = 2 * ((sdsnewlenHdr [1, 2, 3] 3).len + 2)) ∧
    (sdscatlen (fun _ => 7) (sdsnewlenHdr [1, 2, 3] 3) [4, 5] 2).WellFormed) ∧
    sdscatlen (fun _ => 7) (sdsnewlenHdr [1, 2, 3] 3) [4, 5] 2
      = { len := 5, free := 5, buf := [1, 2, 3, 4, 5, 0, 7, 7, 7, 7, 7] } :=
  ⟨by decide, by decide,
    sdscatlen_spec (fun _ => 7) (sdsnewlenHdr [1, 2, 3] 3) (by decide) [4, 5] 2 (by decide),
    by decide⟩

/-! ### `sdstrim` -/

/-- The first loop of `sdstrim` stops after the longest run of matching bytes. -/
theorem trimFront_spec (cset buf : List Nat) (L : Nat) (hL : L ≤ buf.length) :
    ∀ (fuel i : Nat), i ≤ L → L ≤ i + fuel →
      trimFront cset buf ((L : Int) - 1) fuel (i : Int)
        = ((i + (((buf.take L).drop i).takeWhile (strchr cset)).length : Nat) : Int) := by
  intro fuel
  induction fuel with
  | zero =>
    intro i h1 h2
    have : (buf.take L).drop i = [] := List.drop_eq_nil_of_le (by simp; omega)
    simp [trimFront, this]
  | succ fuel ih =>
    intro i h1 h2
    rw [trimFront]
    by_cases c : i < L
    · have hd : (buf.take L).drop i = buf[i] :: (buf.take L).drop (i + 1) := by
        rw [List.drop_eq_getElem_cons (by simp; omega)]
        simp
      have hg : buf.getD (i : Int).toNat 0 = buf[i] := by
        rw [Int.toNat_ofNat, List.getD_eq_getElem _ _ (by omega)]
      rw [hg, hd]
      by_cases hp : strchr cset buf[i] = true
      · rw [if_pos ⟨by omega, hp⟩, List.takeWhile_cons_of_pos hp]
        have := ih (i + 1) (by omega) (by omega)
        rw [Nat.cast_add i 1, Nat.cast_one] at this
        rw [this]
        simp only [List.length_cons]
        omega
      · rw [if_neg (fun h => hp h.2), List.takeWhile_cons_of_neg hp]
        simp
    · have : (buf.take L).drop i = [] := List.drop_eq_nil_of_le (by simp; omega)
      rw [if_neg (fun h => by omega), this]
      simp

/-- The second loop of `sdstrim`, entered at index `j - 1`, stops at the last
byte of the first `j` that does not match, and never goes below index 0. -/
theorem trimBack_spec (cset buf : List Nat) :
    ∀ (fuel j : Nat), j ≤ buf.length → j ≤ fuel →
      trimBack cset buf 0 fuel ((j : Int) - 1)
        = ((max (min 1 j) ((buf.take j).rdropWhile (strchr cset)).length : Nat) : Int) - 1 := by
  intro fuel
  induction fuel with
  | zero =>
    intro j h1 h2
    have : j = 0 := by omega
    subst this
    simp [trimBack]
  | succ fuel ih =>
    intro j h1 h2
    rw [trimBack]
    rcases Nat.eq_zero_or_pos j with hj | hj
    · subst hj
      simp
    · obtain ⟨k, rfl⟩ : ∃ k, j = k + 1 := ⟨j - 1, by omega⟩
      have ht : buf.take (k + 1) = buf.take k ++ [buf[k]] := by
        rw [List.take_succ, List.getElem?_eq_getElem (by omega)]
        rfl
      have hg : buf.getD (((k + 1 : Nat) : Int) - 1).toNat 0 = buf[k] := by
        rw [show (((k + 1 : Nat) : Int) - 1).toNat = k by omega,
          List.getD_eq_getElem _ _ (by omega)]
      have hlen : ((buf.take k).rdropWhile (strchr cset)).length ≤ k := by
        have := (List.rdropWhile_prefix (strchr cset) (l := buf.take k)).length_le
        rw [List.length_take] at this
        omega
      rw [hg, ht]
      by_cases hp : strchr cset buf[k] = true
      · rw [List.rdropWhile_concat_pos _ _ _ hp]
        by_cases hk : 0 < k
        · rw [if_pos ⟨by omega, hp⟩]
          have := ih k (by omega) (by omega)
          have e : (((k + 1 : Nat) : Int) - 1 - 1) = ((k : Int) - 1) := by omega
          rw [e, this]
          congr 2
          omega
        · rw [if_neg (fun h => by omega)]
          omega
      · rw [if_neg (fun h => hp h.2), List.rdropWhile_concat_neg _ _ _ hp]
        simp only [List.length_append, List.length_take, List.length_singleton]
        omega

/-- Trimming at the back what is left after dropping `k` elements at the front. -/
theorem rdropWhile_drop (p : Nat → Bool) (k : Nat) : ∀ l : List Nat,
    (l.drop k).rdropWhile p = (l.drop k).take ((l.rdropWhile p).length - k) := by
  intro l
  induction l using List.reverseRecOn with
  | nil => simp
  | append_singleton xs c ih =>
    have hlen : (xs.rdropWhile p).length ≤ xs.length :=
      (List.rdropWhile_prefix p (l := xs)).length_le
    by_cases hk : k ≤ xs.length
    · rw [List.drop_append_of_le_length hk]
      by_cases hp : p c = true
      · rw [List.rdropWhile_concat_pos _ _ _ hp, List.rdropWhile_concat_pos _ _ _ hp, ih,
          List.take_append_of_le_length (by rw [List.length_drop]; omega)]
      · rw [List.rdropWhile_concat_neg _ _ _ hp, List.rdropWhile_concat_neg _ _ _ hp]
        rw [List.take_of_length_le (by simp; omega)]
    · have : (xs ++ [c]).drop k = [] := List.drop_eq_nil_of_le (by simp; omega)
      rw [this]
      simp

theorem drop_takeWhile_length (p : Nat → Bool) (l : List Nat) :
    l.drop (l.takeWhile p).length = l.dropWhile p := by
  conv_lhs => arg 2; rw [← List.takeWhile_append_dropWhile p l]
  rw [List.drop_left]

/-- Either every element matches, or the leading run of matching elements ends
before the last element that does not match. -/
theorem trim_lengths (p : Nat → Bool) (l : List Nat) :
    ((l.takeWhile p).length = l.length ∧ (l.rdropWhile p).length = 0) ∨
    (l.takeWhile p).length < (l.rdropWhile p).length := by
  by_cases h : ∀ x ∈ l, p x = true
  · left
    rw [List.takeWhile_eq_self_iff.2 h, List.rdropWhile_eq_nil_iff.2 h]
    exact ⟨rfl, rfl⟩
  · right
    by_contra hcon
    have hC := rdropWhile_drop p (l.takeWhile p).length l
    rw [drop_takeWhile_length, Nat.sub_eq_zero_of_le (by omega), List.take_zero,
      List.rdropWhile_eq_nil_iff] at hC
    have hne : l.dropWhile p ≠ [] := fun e => h (List.dropWhile_eq_nil_iff.1 e)
    have hpos : 0 < (l.dropWhile p).length := List.length_pos.2 hne
    have := List.dropWhile_get_zero_not p l hpos
    exact this (hC _ (List.get_mem _ _ _))

/-- What `sdstrim` leaves: the content without its longest prefix and its longest
suffix of bytes that `strchr` finds in `cset`; `len + free` is unchanged and the
string stays well formed. -/
theorem sdstrim_spec (sh : Sdshdr) (hw : sh.WellFormed) (cset : List Nat) :
    (sdstrim sh cset).content = trimBoth (strchr cset) sh.content ∧
    (sdstrim sh cset).len + (sdstrim sh cset).free = sh.len + sh.free ∧
    (sdstrim sh cset).WellFormed := by
  have hw' := hw
  obtain ⟨w1, w2, w3, w4⟩ := hw
  have hL : sh.len.toNat ≤ sh.buf.length := by omega
  have hLi : ((sh.len.toNat : Nat) : Int) = sh.len := Int.toNat_of_nonneg w1
  have hsp := trimFront_spec cset sh.buf sh.len.toNat hL sh.len.toNat 0 (Nat.zero_le _)
    (by omega)
  have hep := trimBack_spec cset sh.buf sh.len.toNat sh.len.toNat hL (Nat.le_refl _)
  rw [hLi] at hsp hep
  simp only [List.drop_zero, Nat.zero_add, Nat.cast_zero] at hsp
  have hform : sdstrim sh cset = sdsrangeMove sh
      (trimFront cset sh.buf (sh.len - 1) sh.len.toNat 0)
      (if trimFront cset sh.buf (sh.len - 1) sh.len.toNat 0
          > trimBack cset sh.buf 0 sh.len.toNat (sh.len - 1) then 0
        else trimBack cset sh.buf 0 sh.len.toNat (sh.len - 1)
          - trimFront cset sh.buf (sh.len - 1) sh.len.toNat 0 + 1) := rfl
  rw [hform, hsp, hep]
  have hcl : sh.content.length = sh.len.toNat := by
    unfold Sdshdr.content
    rw [List.length_take]
    omega
  have hk : (sh.content.takeWhile (strchr cset)).length ≤ sh.content.length :=
    (List.takeWhile_prefix (strchr cset)).length_le
  have hr : (sh.content.rdropWhile (strchr cset)).length ≤ sh.content.length :=
    (List.rdropWhile_prefix (strchr cset) _).length_le
  have hdisj := trim_lengths (strchr cset) sh.content
  have hC := rdropWhile_drop (strchr cset) (sh.content.takeWhile (strchr cset)).length sh.content
  rw [drop_takeWhile_length] at hC
  change ((List.take sh.len.toNat sh.buf).takeWhile (strchr cset)).length
    ≤ (List.take sh.len.toNat sh.buf).length at hk
  change ((List.take sh.len.toNat sh.buf).rdropWhile (strchr cset)).length
    ≤ (List.take sh.len.toNat sh.buf).length at hr
  change (((List.take sh.len.toNat sh.buf).takeWhile (strchr cset)).length
      = (List.take sh.len.toNat sh.buf).length ∧
      ((List.take sh.len.toNat sh.buf).rdropWhile (strchr cset)).length = 0) ∨
    ((List.take sh.len.toNat sh.buf).takeWhile (strchr cset)).length
      < ((List.take sh.len.toNat sh.buf).rdropWhile (strchr cset)).length at hdisj
  change (List.take sh.len.toNat sh.buf).length = sh.len.toNat at hcl
  generalize hkk : ((List.take sh.len.toNat sh.buf).takeWhile (strchr cset)).length = k
    at hk hdisj ⊢
  generalize hrr : ((List.take sh.len.toNat sh.buf).rdropWhile (strchr cset)).length = r
    at hr hdisj ⊢
  have hkk' : (sh.content.takeWhile (strchr cset)).length = k := hkk
  have hrr' : (sh.content.rdropWhile (strchr cset)).length = r := hrr
  rw [hkk', hrr'] at hC
  have hnew : (if (k : Int) > ((max (min 1 sh.len.toNat) r : Nat) : Int) - 1 then (0 : Int)
      else ((max (min 1 sh.len.toNat) r : Nat) : Int) - 1 - (k : Int) + 1) = ((r - k : Nat) : Int) := by
    split <;> omega
  rw [hnew]
  obtain ⟨q1, q2, q3⟩ := sdsrangeMove_spec sh hw' (k : Int) ((r - k : Nat) : Int) (by omega)
    (by omega) (by omega)
  refine ⟨?_, q2, q3⟩
  rw [q1, Int.toNat_ofNat, Int.toNat_ofNat]
  change _ = List.rdropWhile (strchr cset) (List.dropWhile (strchr cset) sh.content)
  rw [hC, ← drop_takeWhile_length, hkk']

theorem dropWhile_agree (p q : Nat → Bool) : ∀ l : List Nat, (∀ x ∈ l, p x = q x) →
    l.dropWhile p = l.dropWhile q := by
  intro l
  induction l with
  | nil => intro _; rfl
  | cons a as ih =>
    intro h
    have ha : p a = q a := h a (List.mem_cons_self _ _)
    rw [List.dropWhile_cons, List.dropWhile_cons, ha, ih (fun x hx => h x (List.mem_cons_of_mem _ hx))]

theorem trimBoth_agree (p q : Nat → Bool) (l : List Nat) (h : ∀ x ∈ l, p x = q x) :
    trimBoth p l = trimBoth q l := by
  unfold trimBoth
  rw [dropWhile_agree p q l h]
  rw [dropWhile_agree p q (l.dropWhile q).reverse (fun x hx =>
    h x ((List.dropWhile_suffix q).subset (List.mem_reverse.1 hx)))]

theorem trimBoth_all (p : Nat → Bool) (l : List Nat) (h : ∀ x ∈ l, p x = true) :
    trimBoth p l = [] := by
  unfold trimBoth
  rw [List.dropWhile_eq_nil_iff.2 h]
  rfl

/-- C18 fails for the two-byte string with a NUL byte followed by `'a'` and the
character set `"x"`: `strchr(cset, 0)` finds the terminator of `cset`, so `sdstrim`
removes the NUL byte and the string becomes `"a"`, although the NUL byte is not a
character of `"x"`; the trimming of the claim, which is that of the doc comment of
`sdstrim`, leaves the string as it is. -/
theorem sdstrim_trims_nul :
    (sdsnewlenHdr [0, 97] 2).WellFormed ∧
    (sdstrim (sdsnewlenHdr [0, 97] 2) [120]).content = [97] ∧
    trimBoth (fun c => decide (c ∈ [120])) (sdsnewlenHdr [0, 97] 2).content = [0, 97] ∧
    (sdstrim (sdsnewlenHdr [0, 97] 2) [120]).content
      ≠ trimBoth (fun c => decide (c ∈ [120])) (sdsnewlenHdr [0, 97] 2).content :=
  ⟨by decide, by decide, by decide, by decide⟩

/-- What `sdstrim` computes for a well-formed sds string and a character set `cset`:
the string without its longest prefix and its longest suffix made only of bytes for
which `strchr(cset, c)` is not `NULL`, the characters of `cset` and the NUL byte.  On
a string that holds no NUL byte this is the trimming of the doc comment, by the
characters of `cset` alone; `len + free` is unchanged. -/
theorem sdstrim_trims (sh : Sdshdr) (hw : sh.WellFormed) (cset : List Nat) :
    (sdstrim sh cset).content
      = trimBoth (fun c => decide (c ∈ cset) || decide (c = 0)) sh.content ∧
    ((∀ c ∈ sh.content, c ∈ cset ∨ c = 0) → (sdstrim sh cset).content = []) ∧
    ((∀ c ∈ sh.content, c ≠ 0) →
      (sdstrim sh cset).content = trimBoth (fun c => decide (c ∈ cset)) sh.content) ∧
    (sdstrim sh cset).len + (sdstrim sh cset).free = sh.len + sh.free ∧
    (sdstrim sh cset).WellFormed := by
  obtain ⟨q1, q2, q3⟩ := sdstrim_spec sh hw cset
  have q1' : (sdstrim sh cset).content
      = trimBoth (fun c => decide (c ∈ cset) || decide (c = 0)) sh.content := q1
  refine ⟨q1', ?_, ?_, q2, q3⟩
  · intro h
    rw [q1']
    apply trimBoth_all
    intro x hx
    rcases h x hx with h1 | h1 <;> simp [h1]
  · intro h
    rw [q1']
    apply trimBoth_agree
    intro x hx
    simp [h x hx]

/-- The string `"xxhixyx"` trimmed with the character set `"xy"` is `"hi"`. -/
theorem sdstrim_trims_witness :
    (sdsnewlenHdr [120, 120, 104, 105, 120, 121, 120] 7).WellFormed ∧
    ((sdstrim (sdsnewlenHdr [120, 120, 104, 105, 120, 121, 120] 7) [120, 121]).content
      = trimBoth (fun c => decide (c ∈ [120, 121]) || decide (c = 0))
          (sdsnewlenHdr [120, 120, 104, 105, 120, 121, 120] 7).content ∧
    ((∀ c ∈ (sdsnewlenHdr [120, 120, 104, 105, 120, 121, 120] 7).content,
        c ∈ [120, 121] ∨ c = 0) →
      (sdstrim (sdsnewlenHdr [120, 120, 104, 105, 120, 121, 120] 7) [120, 121]).content = []) ∧
    ((∀ c ∈ (sdsnewlenHdr [120, 120, 104, 105, 120, 121, 120] 7).content, c ≠ 0) →
      (sdstrim (sdsnewlenHdr [120, 120, 104, 105, 120, 121, 120] 7) [120, 121]).content
        = trimBoth (fun c => decide (c ∈ [120, 121]))
            (sdsnewlenHdr [120, 120, 104, 105, 120, 121, 120] 7).content) ∧
    (sdstrim (sdsnewlenHdr [120, 120, 104, 105, 120, 121, 120] 7) [120, 121]).len
        + (sdstrim (sdsnewlenHdr [120, 120, 104, 105, 120, 121, 120] 7) [120, 121]).free
      = (sdsnewlenHdr [120, 120, 104, 105, 120, 121, 120] 7).len
        + (sdsnewlenHdr [120, 120, 104, 105, 120, 121, 120] 7).free ∧
    (sdstrim (sdsnewlenHdr [120, 120, 104, 105, 120, 121, 120] 7) [120, 121]).WellFormed) ∧
    (sdstrim (sdsnewlenHdr [120, 120, 104, 105, 120, 121, 120] 7) [120, 121]).content
      = [104, 105] :=
  ⟨by decide,
    sdstrim_trims (sdsnewlenHdr [120, 120, 104, 105, 120, 121, 120] 7) (by decide) [120, 121],
    by decide⟩

/-! ### `sdscpylen` -/

/-- Where `sdscpylen` asks `sdsMakeRoomFor` for room that the free bytes already
cover, nothing is reallocated: the array is shorter than the `len + 1` bytes written
and the `free` field comes out negative. -/
theorem sdscpylen_no_room (junk : Nat → Nat) (sh : Sdshdr) (hw : sh.WellFormed) (t : List Nat)
    (len : Int) (h1 : sh.free + sh.len < len) (h2 : len ≤ 2 * sh.free + sh.len) :
    sdsMakeRoomFor junk sh (len - (sh.free + sh.len)) = sh ∧
    (sh.buf.length : Int) < len + 1 ∧
    (sdscpylen junk sh t len).free = sh.free + sh.len - len ∧
    (sdscpylen junk sh t len).free < 0 := by
  obtain ⟨w1, w2, w3, w4⟩ := hw
  have hroom : sdsMakeRoomFor junk sh (len - (sh.free + sh.len)) = sh := by
    unfold sdsMakeRoomFor
    dsimp only
    rw [if_pos (by omega)]
  have hfree : (sdscpylen junk sh t len).free = sh.free + sh.len - len := by
    unfold sdscpylen
    dsimp only
    rw [if_pos h1, if_pos h1, hroom]
  exact ⟨hroom, by omega, hfree, by omega⟩

/-- Where the string has room for `len` bytes, or `sdsMakeRoomFor` reallocates,
`sdscpylen` leaves a well-formed string of the `len` bytes of `t`. -/
theorem sdscpylen_spec (junk : Nat → Nat) (sh : Sdshdr) (hw : sh.WellFormed) (t : List Nat)
    (len : Int) (hlen : len = t.length)
    (h : len ≤ sh.free + sh.len ∨ 2 * sh.free + sh.len < len) :
    (sdscpylen junk sh t len).len = len ∧ (sdscpylen junk sh t len).content = t ∧
    (sdscpylen junk sh t len).WellFormed := by
  have hl : (sdscpylen junk sh t len).len = len := rfl
  have key : ∀ sh1 : Sdshdr, (sh1.buf.length : Int) = sh1.len + sh1.free + 1 →
      len ≤ sh1.free + sh1.len →
      ((memcpy sh1.buf 0 t len.toNat).set len.toNat 0).take len.toNat = t ∧
      (((memcpy sh1.buf 0 t len.toNat).set len.toNat 0).length : Int)
        = len + (sh1.free + sh1.len - len) + 1 ∧
      ((memcpy sh1.buf 0 t len.toNat).set len.toNat 0)[len.toNat]? = some 0 := by
    intro sh1 hb hr
    have e1 : len.toNat = t.length := by omega
    obtain ⟨c1, c2, c3⟩ := memcpy_spec sh1.buf 0 t (by omega)
    simp only [Nat.zero_add, List.take_zero, List.nil_append] at c1 c2 c3
    rw [e1]
    exact ⟨c1, by rw [c2]; omega, c3⟩
  by_cases c : sh.free + sh.len < len
  · have h2 : 2 * sh.free + sh.len < len := by omega
    obtain ⟨w1, w2, w3, w4⟩ := hw
    obtain ⟨m1, m2, m3, m4, m5, m6⟩ :=
      sdsMakeRoomFor_spec junk sh ⟨w1, w2, w3, w4⟩ (len - (sh.free + sh.len)) (by omega)
    have m7 := m6 (by omega)
    obtain ⟨k1, k2, k3⟩ := key (sdsMakeRoomFor junk sh (len - (sh.free + sh.len)))
      (by rw [m3, m1]) (by omega)
    have hc : (sdscpylen junk sh t len).content = t := by
      unfold sdscpylen Sdshdr.content
      dsimp only
      rw [if_pos c]
      exact k1
    refine ⟨hl, hc, ?_⟩
    unfold sdscpylen Sdshdr.WellFormed
    dsimp only
    rw [if_pos c, if_pos c]
    exact ⟨by omega, by omega, k2, k3⟩
  · obtain ⟨w1, w2, w3, w4⟩ := hw
    obtain ⟨k1, k2, k3⟩ := key sh w3 (by omega)
    have hc : (sdscpylen junk sh t len).content = t := by
      unfold sdscpylen Sdshdr.content
      dsimp only
      rw [if_neg c]
      exact k1
    refine ⟨hl, hc, ?_⟩
    unfold sdscpylen Sdshdr.WellFormed
    dsimp only
    rw [if_neg c, if_neg c]
    exact ⟨by omega, by omega, k2, k3⟩

/-- C34 fails for the well-formed empty string with five free bytes and a block of
eight bytes: `sdscpylen` asks `sdsMakeRoomFor` for `8 - 5 = 3` more bytes, which the
five free bytes cover, so the array of six bytes is not reallocated, nine bytes are
written to it, and the string is left with `free = -3`. -/
theorem sdscpylen_overflows :
    Sdshdr.WellFormed { len := 0, free := 5, buf := [0, 101, 108, 108, 111, 0] } ∧
    ([1, 2, 3, 4, 5, 6, 7, 8] : List Nat).length = 8 ∧
    sdsMakeRoomFor (fun _ => 0) { len := 0, free := 5, buf := [0, 101, 108, 108, 111, 0] }
        (8 - (5 + 0))
      = { len := 0, free := 5, buf := [0, 101, 108, 108, 111, 0] } ∧
    ([0, 101, 108, 108, 111, 0] : List Nat).length < 8 + 1 ∧
    (sdscpylen (fun _ => 0) { len := 0, free := 5, buf := [0, 101, 108, 108, 111, 0] }
      [1, 2, 3, 4, 5, 6, 7, 8] 8).free = -3 ∧
    ¬ (sdscpylen (fun _ => 0) { len := 0, free := 5, buf := [0, 101, 108, 108, 111, 0] }
      [1, 2, 3, 4, 5, 6, 7, 8] 8).WellFormed := by
  refine ⟨by decide, by decide, by decide, by decide, by decide, by decide⟩

/-! ### `sdsrange` on a string of `2 ^ 31` bytes -/

/-- Where the conversion `(signed)len` is not positive, both clamps of `sdsrange`
fire for indices `0 ≤ start ≤ end`: what is kept is the last byte. -/
theorem sdsrange_wrapped (sh : Sdshdr) (start end_ : Int) (hL : 0 < sh.len)
    (hs : toSigned sh.len ≤ 0) (h0 : 0 ≤ start) (h1 : start ≤ end_) :
    sdsrange sh start end_ = sdsrangeMove sh (sh.len - 1) 1 := by
  have c0 : ¬ sh.len = 0 := by omega
  have c1 : ¬ start < 0 := by omega
  have c2 : ¬ end_ < 0 := by omega
  have c3 : ¬ start > end_ := by omega
  have c4 : end_ - start + 1 ≠ 0 := by omega
  have c5 : start ≥ toSigned sh.len := by omega
  have c6 : end_ ≥ toSigned sh.len := by omega
  have c7 : ¬ sh.len - 1 > sh.len - 1 := by omega
  have c8 : sh.len - 1 - (sh.len - 1) + 1 = 1 := by omega
  unfold sdsrange
  dsimp only
  rw [if_neg c0, if_neg c1, if_neg c2, if_neg c3, if_pos c4, if_pos c5, if_pos c6, if_neg c7, c8]

theorem longString_toNat (n : Nat) : (longString n).len.toNat = n + 1 := by
  unfold longString
  dsimp only
  omega

theorem longString_wellFormed (n : Nat) : (longString n).WellFormed := by
  refine ⟨?_, ?_, ?_, ?_⟩
  · unfold longString; dsimp only; omega
  · exact Int.le_refl 0
  · unfold longString
    simp only [List.length_append, List.length_replicate, List.length_cons, List.length_nil]
    omega
  · rw [longString_toNat]
    unfold longString
    dsimp only
    rw [List.getElem?_append_right (by simp), List.length_replicate]
    simp

theorem longString_content (n : Nat) : (longString n).content = List.replicate n 97 ++ [98] := by
  unfold Sdshdr.content
  rw [longString_toNat]
  unfold longString
  dsimp only
  rw [List.take_append_eq_append_take, List.length_replicate, List.take_replicate]
  simp

/-- On the string of `n` bytes `a` and a last byte `b`, with `n + 1` a length whose
conversion to `int` is not positive, `sdsrange(s, 1, 5)` keeps the last byte, where
the bytes 1 to 5 are five bytes `a`. -/
theorem longString_range (n : Nat) (hn : 6 ≤ n) (hs : toSigned ((n : Int) + 1) ≤ 0) :
    substring (longString n).content 1 5 = [97, 97, 97, 97, 97] ∧
    (sdsrange (longString n) 1 5).content = [98] ∧ (sdsrange (longString n) 1 5).len = 1 := by
  have hw := longString_wellFormed n
  have hlen : (longString n).len = (n : Int) + 1 := rfl
  have hr := sdsrange_wrapped (longString n) 1 5 (by rw [hlen]; omega) (by rw [hlen]; exact hs)
    (by decide) (by decide)
  obtain ⟨q1, _, _⟩ := sdsrangeMove_spec (longString n) hw ((longString n).len - 1) 1
    (by rw [hlen]; omega) (by decide) (by omega)
  have e1 : ((longString n).len - 1).toNat = n := by rw [hlen]; omega
  refine ⟨?_, ?_, ?_⟩
  · rw [longString_content]
    obtain ⟨k, rfl⟩ : ∃ k, n = k + 6 := ⟨n - 6, by omega⟩
    simp [substring, List.replicate_succ]
  · rw [hr, q1, e1, longString_content]
    simp
  · rw [hr]
    rfl

/-- C11 fails for a string of `2 ^ 31` bytes (`2 ^ 31 - 1` bytes `a` and a last byte
`b`) and the indices 1 and 5 of the doc comment, which lie within the string: the
conversion `(signed)len` is `-2 ^ 31`, so `start >= (signed)len` and
`end >= (signed)len` hold, both indices are set to `len - 1`, and `sdsrange` keeps
the last byte `b` alone where the substring from 1 to 5 is five bytes `a`. -/
theorem sdsrange_keeps_last_byte :
    (longString 2147483647).WellFormed ∧
    (longString 2147483647).len = 2147483648 ∧
    -(longString 2147483647).len < 1 ∧ (1 : Int) < (longString 2147483647).len ∧
    -(longString 2147483647).len < 5 ∧ (5 : Int) < (longString 2147483647).len ∧
    shiftIndex (longString 2147483647).len 1 = 1 ∧
    shiftIndex (longString 2147483647).len 5 = 5 ∧
    toSigned (longString 2147483647).len = -2147483648 ∧
    substring (longString 2147483647).content 1 5 = [97, 97, 97, 97, 97] ∧
    (sdsrange (longString 2147483647) 1 5).content = [98] ∧
    (sdsrange (longString 2147483647) 1 5).len = 1 :=
  ⟨longString_wellFormed 2147483647, by decide, by decide, by decide, by decide, by decide,
    by decide, by decide, by decide,
    longString_range 2147483647 (by decide) (by decide)⟩

end Sds

/-! Properties of the allocator wrappers. -/

namespace Zmalloc

/-- The accounting invariant: no two live blocks share an address and the counter
is the sum over the live blocks. -/
theorem sum_filter (W : Nat) : ∀ (bs : List (Nat × Nat)) (p : Nat),
    (bs.map Prod.fst).Nodup → p ∈ bs.map Prod.fst →
    ((bs.filter (fun b => b.1 ≠ p)).map (fun b => b.2 + W)).sum + ((bs.lookup p).getD 0 + W)
      = (bs.map (fun b => b.2 + W)).sum := by
  intro bs
  induction bs with
  | nil => intro p _ h; simp at h
  | cons b bs ih =>
    intro p hn hp
    obtain ⟨a, sz⟩ := b
    rw [List.map_cons, List.nodup_cons] at hn
    by_cases e : a = p
    · subst e
      have hf : bs.filter (fun b => b.1 ≠ a) = bs := by
        rw [List.filter_eq_self]
        intro x hx
        have : x.1 ≠ a := fun h => hn.1 (by rw [← h]; exact List.mem_map.2 ⟨x, hx, rfl⟩)
        simpa using this
      simp only [List.filter_cons, ne_eq, not_true_eq_false, decide_False, Bool.false_eq_true,
        if_false, List.lookup_cons, beq_self_eq_true, Option.getD_some, List.map_cons,
        List.sum_cons]
      rw [hf]
      omega
    · have hp' : p ∈ bs.map Prod.fst := by
        rw [List.map_cons, List.mem_cons] at hp
        rcases hp with h | h
        · exact absurd h.symm e
        · exact h
      have hb : (p == a) = false := by simpa using fun h => e h.symm
      have := ih p hn.2 hp'
      simp only [ne_eq] at this
      simp only [List.filter_cons, ne_eq, e, not_false_eq_true, decide_True, if_true,
        List.lookup_cons, hb, List.map_cons, List.sum_cons]
      omega

theorem filter_keys (bs : List (Nat × Nat)) (p : Nat) (h : (bs.map Prod.fst).Nodup) :
    ((bs.filter (fun b => b.1 ≠ p)).map Prod.fst).Nodup ∧
    ∀ q, q ∈ (bs.filter (fun b => b.1 ≠ p)).map Prod.fst ↔ (q ∈ bs.map Prod.fst ∧ q ≠ p) := by
  constructor
  · exact List.Nodup.sublist ((List.filter_sublist bs).map Prod.fst) h
  · intro q
    simp only [List.mem_map, List.mem_filter, ne_eq, decide_not, Bool.not_eq_true',
      decide_eq_false_iff_not, Prod.exists, exists_and_right, exists_eq_right]

theorem sizeRange_pos (W : Nat) : 0 < sizeRange W := Nat.two_pow_pos (8 * W)

/-- Subtracting in `size_t` what was added before. -/
theorem sub_mod_eq (R S k u : Nat) (hR : 0 < R) (hu : u = (S + k) % R) :
    (u + R - k % R) % R = S % R := by
  have hk : k % R ≤ u + R :=
    Nat.le_trans (Nat.le_of_lt (Nat.mod_lt k hR)) (Nat.le_add_left R u)
  rw [← ZMod.natCast_eq_natCast_iff', Nat.cast_sub hk, Nat.cast_add, hu, ZMod.natCast_mod,
    ZMod.natCast_mod, ZMod.natCast_self, Nat.cast_add]
  ring

/-- The two updates of `zrealloc`, in `size_t`. -/
theorem realloc_mod_eq (R S old W size u : Nat) (hR : 0 < R)
    (hu : u = (S + (old + W)) % R) :
    ((u + R - old % R) % R + size) % R = (size + W + S) % R := by
  have hk : old % R ≤ u + R :=
    Nat.le_trans (Nat.le_of_lt (Nat.mod_lt old hR)) (Nat.le_add_left R u)
  rw [Nat.mod_add_mod, ← ZMod.natCast_eq_natCast_iff', Nat.cast_add, Nat.cast_sub hk,
    Nat.cast_add, hu, ZMod.natCast_mod, ZMod.natCast_mod, ZMod.natCast_self]
  push_cast
  ring

/-- One allowed call keeps the accounting invariant: the counter is the sum over the
live blocks, reduced to a `size_t`. -/
theorem step_invariant (W : Nat) (st : State) (c : Call) (hc : c.Allowed W st)
    (hn : (st.blocks.map Prod.fst).Nodup)
    (hu : st.used_memory = outstanding W st % sizeRange W) :
    ((step W st c).blocks.map Prod.fst).Nodup ∧
    (step W st c).used_memory = outstanding W (step W st c) % sizeRange W := by
  have hR := sizeRange_pos W
  cases c with
  | malloc size res =>
    cases res with
    | none => exact ⟨hn, hu⟩
    | some q =>
      have hq : ¬ Live st q := hc.2 q rfl
      refine ⟨?_, ?_⟩
      · simp only [step, zmalloc, List.map_cons, List.nodup_cons]
        exact ⟨hq, hn⟩
      · simp only [step, zmalloc, outstanding, List.map_cons, List.sum_cons]
        unfold outstanding at hu
        rw [hu, ← Nat.add_mod, Nat.add_comm]
  | realloc ptr size res =>
    cases ptr with
    | none =>
      cases res with
      | none => exact ⟨hn, hu⟩
      | some q =>
        have hq : ¬ Live st q := by
          rcases hc.2.2 q rfl with h | h
          · cases h
          · exact h
        refine ⟨?_, ?_⟩
        · simp only [step, zrealloc, zmalloc, List.map_cons, List.nodup_cons]
          exact ⟨hq, hn⟩
        · simp only [step, zrealloc, zmalloc, outstanding, List.map_cons, List.sum_cons]
          unfold outstanding at hu
          rw [hu, ← Nat.add_mod, Nat.add_comm]
    | some p =>
      cases res with
      | none => exact ⟨hn, hu⟩
      | some q =>
        have hp : Live st p := hc.2.1 p rfl
        obtain ⟨f1, f2⟩ := filter_keys st.blocks p hn
        have hs := sum_filter W st.blocks p hn hp
        refine ⟨?_, ?_⟩
        · simp only [step, zrealloc, List.map_cons, List.nodup_cons]
          refine ⟨?_, f1⟩
          rw [f2]
          rintro ⟨h1, h2⟩
          rcases hc.2.2 q rfl with h | h
          · exact h2 (Option.some.inj h).symm
          · exact h h1
        · simp only [step, zrealloc, outstanding, header, List.map_cons, List.sum_cons]
          unfold outstanding at hu
          exact realloc_mod_eq _ _ _ W size _ hR (by rw [hu, hs])
  | free ptr =>
    cases ptr with
    | none => exact ⟨hn, hu⟩
    | some p =>
      have hp : Live st p := hc p rfl
      obtain ⟨f1, f2⟩ := filter_keys st.blocks p hn
      have hs := sum_filter W st.blocks p hn hp
      refine ⟨f1, ?_⟩
      simp only [step, zfree, outstanding, header]
      unfold outstanding at hu
      exact sub_mod_eq _ _ _ _ hR (by rw [hu, hs])

theorem run_invariant (W : Nat) : ∀ (cs : List Call) (st : State), AllowedRun W st cs →
    (st.blocks.map Prod.fst).Nodup → st.used_memory = outstanding W st % sizeRange W →
    ((run W st cs).blocks.map Prod.fst).Nodup ∧
    (run W st cs).used_memory = outstanding W (run W st cs) % sizeRange W := by
  intro cs
  induction cs with
  | nil => intro st _ hn hu; exact ⟨hn, hu⟩
  | cons c cs ih =>
    intro st ha hn hu
    obtain ⟨h1, h2⟩ := step_invariant W st c ha.1 hn hu
    exact ih _ ha.2 h1 h2

/-- The negation of C19 at a concrete input, with `sizeof(size_t) = 8`: the call
`zmalloc(SIZE_MAX)` asks `malloc` for `SIZE_MAX + 8`, which in `size_t` is 7 bytes;
when `malloc` answers a block the call succeeds and `zmalloc_used_memory()` is 7,
while the one live block has the requested size `2 ^ 64 - 1`, for which the sum of
the claim is `2 ^ 64 + 7`. -/
theorem used_memory_wraps :
    AllowedRun 8 initial [Call.malloc 18446744073709551615 (some 16)] ∧
    request 8 18446744073709551615 = 7 ∧
    (zmalloc 8 initial 18446744073709551615 (some 16)).2 = some 16 ∧
    zmalloc_used_memory (run 8 initial [Call.malloc 18446744073709551615 (some 16)]) = 7 ∧
    outstanding 8 (run 8 initial [Call.malloc 18446744073709551615 (some 16)])
      = 18446744073709551623 ∧
    zmalloc_used_memory (run 8 initial [Call.malloc 18446744073709551615 (some 16)])
      ≠ outstanding 8 (run 8 initial [Call.malloc 18446744073709551615 (some 16)]) :=
  ⟨by simp [AllowedRun, Call.Allowed, Live, initial, sizeRange], by decide, by decide, by decide,
    by decide, by decide⟩

/-- C19, amended: after every sequence of allowed `zmalloc`, `zrealloc` and `zfree`
calls from the initial state, `zmalloc_used_memory()` is the sum over the live blocks
of the requested size plus `sizeof(size_t)` whenever that sum is in the range of
`size_t`; it is back to 0, its starting value, when no block is live; and
`zrealloc(NULL, size)` is `zmalloc(size)`. -/
theorem used_memory_tracks (W : Nat) (cs : List Call) (ha : AllowedRun W initial cs) :
    (outstanding W (run W initial cs) < sizeRange W →
      zmalloc_used_memory (run W initial cs) = outstanding W (run W initial cs)) ∧
    ((run W initial cs).blocks = [] →
      zmalloc_used_memory (run W initial cs) = zmalloc_used_memory initial) ∧
    ∀ (st : State) (size : Nat) (res : Option Nat),
      zrealloc W st none size res = zmalloc W st size res := by
  obtain ⟨_, h2⟩ := run_invariant W cs initial ha (by simp [initial])
    (by simp [initial, outstanding])
  refine ⟨?_, ?_, fun st size res => rfl⟩
  · intro hlt
    unfold zmalloc_used_memory
    rw [h2, Nat.mod_eq_of_lt hlt]
  · intro he
    unfold zmalloc_used_memory
    rw [h2]
    unfold outstanding
    rw [he]
    rfl

/-- An instance of C19, amended, with `sizeof(size_t) = 8`: blocks of 10 and 5 bytes
are allocated, the first is resized to 30 bytes and the second freed; the counter
is 38. -/
theorem used_memory_tracks_witness :
    AllowedRun 8 initial
      [Call.malloc 10 (some 100), Call.realloc none 5 (some 200),
        Call.realloc (some 100) 30 (some 300), Call.free (some 200)] ∧
    ((outstanding 8 (run 8 initial
        [Call.malloc 10 (some 100), Call.realloc none 5 (some 200),
          Call.realloc (some 100) 30 (some 300), Call.free (some 200)]) < sizeRange 8 →
      zmalloc_used_memory (run 8 initial
        [Call.malloc 10 (some 100), Call.realloc none 5 (some 200),
          Call.realloc (some 100) 30 (some 300), Call.free (some 200)])
      = outstanding 8 (run 8 initial
        [Call.malloc 10 (some 100), Call.realloc none 5 (some 200),
          Call.realloc (some 100) 30 (some 300), Call.free (some 200)])) ∧
    ((run 8 initial
        [Call.malloc 10 (some 100), Call.realloc none 5 (some 200),
          Call.realloc (some 100) 30 (some 300), Call.free (some 200)]).blocks = [] →
      zmalloc_used_memory (run 8 initial
        [Call.malloc 10 (some 100), Call.realloc none 5 (some 200),
          Call.realloc (some 100) 30 (some 300), Call.free (some 200)])
        = zmalloc_used_memory initial) ∧
    ∀ (st : State) (size : Nat) (res : Option Nat),
      zrealloc 8 st none size res = zmalloc 8 st size res) ∧
    outstanding 8 (run 8 initial
        [Call.malloc 10 (some 100), Call.realloc none 5 (some 200),
          Call.realloc (some 100) 30 (some 300), Call.free (some 200)]) < sizeRange 8 ∧
    zmalloc_used_memory (run 8 initial
        [Call.malloc 10 (some 100), Call.realloc none 5 (some 200),
          Call.realloc (some 100) 30 (some 300), Call.free (some 200)]) = 38 :=
  ⟨by simp [AllowedRun, Call.Allowed, Live, step, zmalloc, zrealloc, zfree, initial, sizeRange],
    used_memory_tracks 8 _
      (by simp [AllowedRun, Call.Allowed, Live, step, zmalloc, zrealloc, zfree, initial,
        sizeRange]),
    by decide, by decide⟩

end Zmalloc

/-! Properties of the list functions. -/

namespace Adlist

variable {V : Type}

/-! ### Well-formed lists -/

theorem getElem?_inj {nodes : List Nat} (hn : nodes.Nodup) {i j x : Nat}
    (hi : nodes[i]? = some x) (hj : nodes[j]? = some x) : i = j := by
  obtain ⟨hi1, hi2⟩ := List.getElem?_eq_some.1 hi
  obtain ⟨hj1, hj2⟩ := List.getElem?_eq_some.1 hj
  exact (hn.getElem_inj_iff).1 (hi2.trans hj2.symm)

theorem WellFormed.node_at {h : Heap V} {l : list V} {nodes : List Nat}
    (hw : WellFormed h l nodes) {i x : Nat} (hx : nodes[i]? = some x) :
    ∃ n, h.node x = some n ∧ n.prev = (if i = 0 then none else nodes[i - 1]?) ∧
      n.next = nodes[i + 1]? := hw.links i x hx

theorem WellFormed.head_eq {h : Heap V} {l : list V} {nodes : List Nat}
    (hw : WellFormed h l nodes) : l.head = nodes[0]? := by
  rw [hw.head, List.head?_eq_getElem?]

theorem WellFormed.tail_eq {h : Heap V} {l : list V} {nodes : List Nat}
    (hw : WellFormed h l nodes) : l.tail = nodes[nodes.length - 1]? := by
  rw [hw.tail, List.getLast?_eq_getElem?]

theorem three_wellFormed : WellFormed threeHeap threeList [1, 2, 3] where
  nodup := by decide
  len := rfl
  head := rfl
  tail := rfl
  links := by
    intro i x hx
    match i with
    | 0 =>
      simp only [List.getElem?_cons_zero, Option.some.injEq] at hx
      subst hx
      exact ⟨_, rfl, rfl, rfl⟩
    | 1 =>
      simp only [List.getElem?_cons_succ, List.getElem?_cons_zero, Option.some.injEq] at hx
      subst hx
      exact ⟨_, rfl, rfl, rfl⟩
    | 2 =>
      simp only [List.getElem?_cons_succ, List.getElem?_cons_zero, Option.some.injEq] at hx
      subst hx
      exact ⟨_, rfl, rfl, rfl⟩
    | k + 3 => simp at hx

/-! ### `listIndex` -/

theorem walk_none (h : Heap V) (field : listNode V → Option Nat) (k : Nat) :
    walk h field k none = none := by
  cases k <;> rfl

theorem walk_next {h : Heap V} {l : list V} {nodes : List Nat} (hw : WellFormed h l nodes) :
    ∀ (k i : Nat), walk h (fun n => n.next) k nodes[i]? = nodes[i + k]? := by
  intro k
  induction k with
  | zero => intro i; rfl
  | succ k ih =>
    intro i
    cases hx : nodes[i]? with
    | none =>
      rw [walk_none]
      have hi : nodes.length ≤ i := List.getElem?_eq_none_iff.1 hx
      exact (List.getElem?_eq_none_iff.2 (by omega)).symm
    | some x =>
      obtain ⟨n, hn, _, hnext⟩ := hw.node_at hx
      rw [walk, hn, Option.some_bind, hnext, ih (i + 1)]
      congr 1
      omega

theorem walk_prev {h : Heap V} {l : list V} {nodes : List Nat} (hw : WellFormed h l nodes) :
    ∀ (k i : Nat), i < nodes.length →
      walk h (fun n => n.prev) k nodes[i]? = if k ≤ i then nodes[i - k]? else none := by
  intro k
  induction k with
  | zero => intro i _; simp [walk]
  | succ k ih =>
    intro i hi
    have hx : nodes[i]? = some nodes[i] := List.getElem?_eq_getElem hi
    obtain ⟨n, hn, hprev, _⟩ := hw.node_at hx
    rw [hx, walk, hn, Option.some_bind, hprev]
    by_cases h0 : i = 0
    · rw [if_pos h0, walk_none, if_neg (by omega)]
    · rw [if_neg h0, ih (i - 1) (by omega)]
      by_cases hk : k ≤ i - 1
      · rw [if_pos hk, if_pos (by omega)]
        congr 1
        omega
      · rw [if_neg hk, if_neg (by omega)]

/-- C12: for a well-formed list of `L` nodes and an `int` index other than
`INT_MIN`, `listIndex` returns the node at position `index` from the head when
`0 ≤ index < L`, the node at position `L + index` when `-L ≤ index < 0`, and
`NULL` for every other index. -/
theorem listIndex_spec {h : Heap V} {l : list V} {nodes : List Nat} (hw : WellFormed h l nodes)
    (index : Int) (_hmin : -2147483648 < index) (_hmax : index ≤ 2147483647) :
    listIndex h l index = indexSpec nodes index ∧
    (0 ≤ index → index < nodes.length → listIndex h l index = nodes[index.toNat]?) ∧
    (-(nodes.length : Int) ≤ index → index < 0 →
      listIndex h l index = nodes[((nodes.length : Int) + index).toNat]?) ∧
    ((index < -(nodes.length : Int) ∨ (nodes.length : Int) ≤ index) →
      listIndex h l index = none) := by
  have key : listIndex h l index = indexSpec nodes index := by
    unfold listIndex indexSpec
    by_cases hneg : index < 0
    · rw [if_pos hneg, if_neg (by omega), hw.tail_eq]
      rcases Nat.eq_zero_or_pos nodes.length with h0 | hpos
      · have : nodes[nodes.length - 1]? = none := List.getElem?_eq_none_iff.2 (by omega)
        rw [this, walk_none, if_neg (by omega)]
      · rw [walk_prev hw _ _ (by omega)]
        by_cases hr : -(nodes.length : Int) ≤ index
        · rw [if_pos (by omega), if_pos ⟨hr, hneg⟩]
          congr 1
          omega
        · rw [if_neg (by omega), if_neg (fun hh => hr hh.1)]
    · rw [if_neg hneg, hw.head_eq, walk_next hw, Nat.zero_add]
      by_cases hr : index < nodes.length
      · rw [if_pos ⟨by omega, hr⟩]
      · rw [if_neg (fun hh => hr hh.2), if_neg (by omega)]
        exact List.getElem?_eq_none_iff.2 (by omega)
  refine ⟨key, ?_, ?_, ?_⟩
  · intro h1 h2
    rw [key, indexSpec, if_pos ⟨h1, h2⟩]
  · intro h1 h2
    rw [key, indexSpec, if_neg (by omega), if_pos ⟨h1, h2⟩]
  · intro h1
    rw [key, indexSpec, if_neg (by omega), if_neg (by omega)]

/-- An instance of C12: in the list of the nodes 1, 2, 3, index -1 is the last
node, index 0 the first, and the indices 3 and -4 give `NULL`. -/
theorem listIndex_spec_witness :
    WellFormed threeHeap threeList [1, 2, 3] ∧ (-2147483648 : Int) < -1 ∧
    (-1 : Int) ≤ 2147483647 ∧
    (listIndex threeHeap threeList (-1) = indexSpec [1, 2, 3] (-1) ∧
    ((0 : Int) ≤ -1 → (-1 : Int) < ([1, 2, 3] : List Nat).length →
      listIndex threeHeap threeList (-1) = ([1, 2, 3] : List Nat)[(-1 : Int).toNat]?) ∧
    (-(([1, 2, 3] : List Nat).length : Int) ≤ -1 → (-1 : Int) < 0 →
      listIndex threeHeap threeList (-1)
        = ([1, 2, 3] : List Nat)[((([1, 2, 3] : List Nat).length : Int) + -1).toNat]?) ∧
    (((-1 : Int) < -(([1, 2, 3] : List Nat).length : Int) ∨
        (([1, 2, 3] : List Nat).length : Int) ≤ -1) →
      listIndex threeHeap threeList (-1) = none)) ∧
    listIndex threeHeap threeList (-1) = some 3 ∧ listIndex threeHeap threeList 0 = some 1 ∧
    listIndex threeHeap threeList 3 = none ∧ listIndex threeHeap threeList (-4) = none :=
  ⟨three_wellFormed, by decide, by decide,
    listIndex_spec three_wellFormed (-1) (by decide) (by decide),
    by decide, by decide, by decide, by decide⟩

/-! ### Heap updates -/

theorem setPrev_node (h : Heap V) (x : Nat) (v : Option Nat) (k : Nat) :
    (setPrev h x v).node k
      = if k = x then (h.node x).map (fun n => { n with prev := v }) else h.node k := rfl

theorem setNext_node (h : Heap V) (x : Nat) (v : Option Nat) (k : Nat) :
    (setNext h x v).node k
      = if k = x then (h.node x).map (fun n => { n with next := v }) else h.node k := rfl

theorem newNode_node (h : Heap V) (x : Nat) (n : listNode V) (k : Nat) :
    (newNode h x n).node k = if k = x then some n else h.node k := rfl

theorem freeNode_node (h : Heap V) (x : Nat) (k : Nat) :
    (freeNode h x).node k = if k = x then none else h.node k := rfl

theorem callFree_node (h : Heap V) (l : list V) (v : V) : (callFree h l v).node = h.node := by
  unfold callFree
  split <;> rfl

theorem WellFormed.of_getElem {h : Heap V} {l : list V} {nodes : List Nat}
    (hnd : nodes.Nodup) (hlen : l.len = nodes.length) (hhead : l.head = nodes[0]?)
    (htail : l.tail = nodes[nodes.length - 1]?)
    (hlinks : ∀ i x, nodes[i]? = some x → ∃ n, h.node x = some n ∧
      n.prev = (if i = 0 then none else nodes[i - 1]?) ∧ n.next = nodes[i + 1]?) :
    WellFormed h l nodes where
  nodup := hnd
  len := hlen
  head := by rw [hhead, List.head?_eq_getElem?]
  tail := by rw [htail, List.getLast?_eq_getElem?]
  links := hlinks

theorem WellFormed.lt_length {nodes : List Nat} {i x : Nat} (hx : nodes[i]? = some x) :
    i < nodes.length := (List.getElem?_eq_some.1 hx).1

/-! ### `listDelNode` -/

/-- What `listDelNode` leaves in the heap at each address, for the node at position `k`
of a well-formed list. -/
theorem listDelNode_node {h : Heap V} {l : list V} {nodes : List Nat}
    (hw : WellFormed h l nodes) {k x : Nat} (hx : nodes[k]? = some x) (y : Nat) :
    (listDelNode h l x).1.node y =
      if y = x then none
      else if nodes[k + 1]? = some y then
        (h.node y).map (fun m => { m with prev := if k = 0 then none else nodes[k - 1]? })
      else if k ≠ 0 ∧ nodes[k - 1]? = some y then
        (h.node y).map (fun m => { m with next := nodes[k + 1]? })
      else h.node y := by
  obtain ⟨⟨np, nn, nv⟩, hn, hprev, hnext⟩ := hw.node_at hx
  simp only at hprev hnext
  have hk := WellFormed.lt_length hx
  by_cases hyx : y = x
  · rw [if_pos hyx]
    simp only [listDelNode, hn, freeNode_node, if_pos hyx]
  · rw [if_neg hyx]
    rcases Nat.eq_zero_or_pos k with h0 | hpos
    · subst h0
      rw [if_pos rfl] at hprev
      subst hprev
      simp only [if_true, ne_eq, not_true_eq_false, false_and, if_false]
      cases nn with
      | none =>
        rw [← hnext]
        simp only [listDelNode, hn, freeNode_node, if_neg hyx, callFree_node, reduceCtorEq,
          if_false]
      | some q =>
        rw [← hnext]
        simp only [listDelNode, hn, freeNode_node, if_neg hyx, callFree_node, setPrev_node,
          Option.some.injEq]
        by_cases hyq : y = q
        · subst hyq; simp
        · rw [if_neg hyq, if_neg (fun e => hyq e.symm)]
    · have hk0 : k ≠ 0 := by omega
      have hp : nodes[k - 1]? = some nodes[k - 1] := List.getElem?_eq_getElem (by omega)
      rw [if_neg hk0, hp] at hprev
      subst hprev
      simp only [if_neg hk0, hp, ne_eq, hk0, not_false_eq_true, true_and, Option.some.injEq]
      cases nn with
      | none =>
        rw [← hnext]
        simp only [listDelNode, hn, freeNode_node, if_neg hyx, callFree_node, setNext_node,
          reduceCtorEq, if_false]
        by_cases hyp : y = nodes[k - 1]
        · rw [if_pos hyp, if_pos hyp.symm, hyp]
        · rw [if_neg hyp, if_neg (fun e => hyp e.symm)]
      | some q =>
        have hpq : nodes[k - 1] ≠ q := by
          intro e
          have := getElem?_inj hw.nodup hp (e ▸ hnext.symm)
          omega
        rw [← hnext]
        simp only [listDelNode, hn, freeNode_node, if_neg hyx, callFree_node, setPrev_node,
          setNext_node, Option.some.injEq]
        by_cases hyq : y = q
        · subst hyq
          simp [Ne.symm hpq]
        · have hqy : ¬ q = y := fun e => hyq e.symm
          by_cases hyp : y = nodes[k - 1]
          · subst hyp
            simp [hyq, hqy]
          · have hpy : ¬ nodes[k - 1] = y := fun e => hyp e.symm
            simp [hyq, hqy, hyp, hpy]

/-- The header fields after `listDelNode`. -/
theorem listDelNode_list {h : Heap V} {l : list V} {nodes : List Nat}
    (hw : WellFormed h l nodes) {k x : Nat} (hx : nodes[k]? = some x) :
    (listDelNode h l x).2 =
      { l with head := if k = 0 then nodes[1]? else l.head,
               tail := if k + 1 = nodes.length then (if k = 0 then none else nodes[k - 1]?)
                       else l.tail,
               len := l.len - 1 } := by
  obtain ⟨n, hn, hprev, hnext⟩ := hw.node_at hx
  obtain ⟨np, nn, nv⟩ := n
  simp only at hprev hnext
  subst hprev hnext
  have hk := WellFormed.lt_length hx
  unfold listDelNode
  rw [hn]
  rcases Nat.eq_zero_or_pos k with h0 | hpos
  · subst h0
    simp only [if_true]
    cases hq : nodes[0 + 1]? with
    | none =>
      have : nodes.length ≤ 1 := List.getElem?_eq_none_iff.1 hq
      have e : 0 + 1 = nodes.length := by omega
      simp [e, hq]
    | some q =>
      have := WellFormed.lt_length hq
      have e : ¬ (0 + 1 = nodes.length) := by omega
      simp [e, hq]
  · have hk0 : k ≠ 0 := by omega
    have hp : nodes[k - 1]? = some nodes[k - 1] := List.getElem?_eq_getElem (by omega)
    simp only [if_neg hk0, hp]
    cases hq : nodes[k + 1]? with
    | none =>
      have : nodes.length ≤ k + 1 := List.getElem?_eq_none_iff.1 hq
      have e : k + 1 = nodes.length := by omega
      simp [e]
    | some q =>
      have := WellFormed.lt_length hq
      have e : ¬ (k + 1 = nodes.length) := by omega
      simp [e]

/-- Deleting the node at position `k` of a well-formed list leaves the well-formed
list of the other nodes, in their order. -/
theorem listDelNode_wellFormed {h : Heap V} {l : list V} {nodes : List Nat}
    (hw : WellFormed h l nodes) {k x : Nat} (hx : nodes[k]? = some x) :
    WellFormed (listDelNode h l x).1 (listDelNode h l x).2 (nodes.eraseIdx k) := by
  have hk := WellFormed.lt_length hx
  have hlen : (nodes.eraseIdx k).length = nodes.length - 1 := by
    rw [List.length_eraseIdx, if_pos hk]
  apply WellFormed.of_getElem
  · exact hw.nodup.sublist (List.eraseIdx_sublist _ _)
  · rw [listDelNode_list hw hx, hlen]
    simp only [hw.len]
  · rw [listDelNode_list hw hx, List.getElem?_eraseIdx]
    simp only
    by_cases h0 : k = 0
    · rw [if_pos h0, if_neg (by omega)]
    · rw [if_neg h0, if_pos (by omega), hw.head_eq]
  · rw [listDelNode_list hw hx, List.getElem?_eraseIdx, hlen]
    simp only
    by_cases hl : k + 1 = nodes.length
    · rw [if_pos hl]
      by_cases h0 : k = 0
      · rw [if_pos h0, if_neg (by omega)]
        exact (List.getElem?_eq_none_iff.2 (by omega)).symm
      · rw [if_neg h0, if_pos (by omega)]
        congr 1
        omega
    · rw [if_neg hl, if_neg (by omega), hw.tail_eq]
      congr 1
      omega
  · intro i y hy
    rw [List.getElem?_eraseIdx] at hy
    rw [listDelNode_node hw hx]
    simp only [List.getElem?_eraseIdx]
    by_cases hik : i < k
    · rw [if_pos hik] at hy
      obtain ⟨m, hm, hmp, hmn⟩ := hw.node_at hy
      have hyx : y ≠ x := fun e => by
        have := getElem?_inj hw.nodup hy (e ▸ hx)
        omega
      have hyq : ¬ nodes[k + 1]? = some y := fun e => by
        have := getElem?_inj hw.nodup hy e
        omega
      rw [if_neg hyx, if_neg hyq, hm]
      by_cases hi : i + 1 = k
      · have hyp : k ≠ 0 ∧ nodes[k - 1]? = some y := by
          refine ⟨by omega, ?_⟩
          rw [← hy]
          congr 1
          omega
        rw [if_pos hyp]
        refine ⟨_, rfl, ?_, ?_⟩
        · simp only
          rw [hmp]
          by_cases hi0 : i = 0
          · rw [if_pos hi0, if_pos hi0]
          · rw [if_neg hi0, if_neg hi0, if_pos (by omega)]
        · simp only
          rw [if_neg (by omega)]
          congr 1
          omega
      · have hyp : ¬ (k ≠ 0 ∧ nodes[k - 1]? = some y) := fun e => by
          have := getElem?_inj hw.nodup hy e.2
          omega
        rw [if_neg hyp]
        refine ⟨_, rfl, ?_, ?_⟩
        · rw [hmp]
          by_cases hi0 : i = 0
          · rw [if_pos hi0, if_pos hi0]
          · rw [if_neg hi0, if_neg hi0, if_pos (by omega)]
        · rw [hmn, if_pos (by omega)]
    · rw [if_neg hik] at hy
      obtain ⟨m, hm, hmp, hmn⟩ := hw.node_at hy
      have hyx : y ≠ x := fun e => by
        have := getElem?_inj hw.nodup hy (e ▸ hx)
        omega
      rw [if_neg hyx, hm]
      rw [if_neg (by omega)] at hmp
      by_cases hi : i = k
      · have hyq : nodes[k + 1]? = some y := by rw [← hy, hi]
        rw [if_pos hyq]
        refine ⟨_, rfl, ?_, ?_⟩
        · simp only
          by_cases h0 : k = 0
          · rw [if_pos h0, if_pos (by omega)]
          · rw [if_neg h0, if_neg (by omega), if_pos (by omega), hi]
        · simp only
          rw [hmn, if_neg (by omega)]
      · have hyq : ¬ nodes[k + 1]? = some y := fun e => by
          have := getElem?_inj hw.nodup hy e
          omega
        have hyp : ¬ (k ≠ 0 ∧ nodes[k - 1]? = some y) := fun e => by
          have := getElem?_inj hw.nodup hy e.2
          omega
        rw [if_neg hyq, if_neg hyp]
        refine ⟨_, rfl, ?_, ?_⟩
        · rw [hmp, if_neg (by omega), if_neg (by omega)]
          congr 1
          omega
        · rw [hmn, if_neg (by omega)]

/-- The node `listDelNode` removes is handed to `free` when the list has a `free`
method; no other value is. -/
theorem listDelNode_freed {h : Heap V} {l : list V} {x : Nat} {n : listNode V}
    (hn : h.node x = some n) :
    (listDelNode h l x).1.freed = if l.free.isSome then h.freed ++ [n.value] else h.freed := by
  unfold listDelNode
  rw [hn]
  simp only [freeNode, callFree]
  cases n.prev <;> cases n.next <;> simp only [setPrev, setNext] <;> split <;> rfl

theorem listDelNode_methods (h : Heap V) (l : list V) (x : Nat) :
    (listDelNode h l x).2.dup = l.dup ∧ (listDelNode h l x).2.free = l.free ∧
    (listDelNode h l x).2.matchFn = l.matchFn := by
  unfold listDelNode
  cases h.node x with
  | none => exact ⟨rfl, rfl, rfl⟩
  | some n =>
    simp only
    cases n.prev <;> cases n.next <;> exact ⟨rfl, rfl, rfl⟩

/-! ### Deleting while iterating -/

theorem listDelNode_keeps_none {h : Heap V} {l : list V} {nodes : List Nat}
    (hw : WellFormed h l nodes) {k x : Nat} (hx : nodes[k]? = some x) {y : Nat}
    (hy : y = x ∨ h.node y = none) : (listDelNode h l x).1.node y = none := by
  rw [listDelNode_node hw hx]
  by_cases hyx : y = x
  · rw [if_pos hyx]
  · have hn : h.node y = none := hy.resolve_left hyx
    rw [if_neg hyx, hn]
    split
    · rfl
    · split <;> rfl

theorem listNext_none (h : Heap V) {iter : listIter} (hnext : iter.next = none) :
    listNext h iter = (none, iter) := by
  simp only [listNext, hnext]

theorem listNext_head {h : Heap V} {iter : listIter} {a : Nat} {n : listNode V}
    (hnext : iter.next = some a) (hdir : iter.direction = AL_START_HEAD)
    (hn : h.node a = some n) :
    listNext h iter = (some a, { iter with next := n.next }) := by
  simp only [listNext, hnext, if_pos hdir, hn, Option.some_bind]

theorem listNext_tail {h : Heap V} {iter : listIter} {a : Nat} {n : listNode V}
    (hnext : iter.next = some a) (hdir : iter.direction ≠ AL_START_HEAD)
    (hn : h.node a = some n) :
    listNext h iter = (some a, { iter with next := n.prev }) := by
  simp only [listNext, hnext, if_neg hdir, hn, Option.some_bind]

theorem drain_head {nodes : List Nat} :
    ∀ {h : Heap V} {l : list V}, WellFormed h l nodes → ∀ (iter : listIter),
      iter.next = nodes[0]? → iter.direction = AL_START_HEAD →
      ∀ (fuel : Nat), nodes.length < fuel → ∀ (acc : List Nat),
      ∃ h' l', drain h l fuel iter acc = some (acc ++ nodes, h', l') ∧ WellFormed h' l' [] ∧
        ∀ y, (y ∈ nodes ∨ h.node y = none) → h'.node y = none := by
  induction nodes with
  | nil =>
    intro h l hw iter hnext _ fuel hf acc
    obtain ⟨f, rfl⟩ : ∃ f, fuel = f + 1 := ⟨fuel - 1, by simp at hf; omega⟩
    refine ⟨h, l, ?_, hw, ?_⟩
    · simp only [List.getElem?_nil] at hnext
      simp only [drain, listNext_none h hnext, List.append_nil]
    · intro y hy
      rcases hy with hy | hy
      · simp at hy
      · exact hy
  | cons a rest ih =>
    intro h l hw iter hnext hdir fuel hf acc
    obtain ⟨f, rfl⟩ : ∃ f, fuel = f + 1 := ⟨fuel - 1, by simp at hf; omega⟩
    have ha : (a :: rest)[0]? = some a := List.getElem?_cons_zero
    obtain ⟨n, hn, _, hnn⟩ := hw.node_at ha
    have hw' := listDelNode_wellFormed hw ha
    rw [List.eraseIdx_zero, List.tail_cons] at hw'
    rw [ha] at hnext
    have hnn' : n.next = rest[0]? := by rw [hnn]; simp
    obtain ⟨h', l', hd, hwf, hnone⟩ :=
      ih hw' { iter with next := n.next } hnn' hdir f (by simp at hf; omega) (acc ++ [a])
    refine ⟨h', l', ?_, hwf, ?_⟩
    · simp only [drain, listNext_head hnext hdir hn]
      rw [hd]
      simp
    · intro y hy
      apply hnone
      by_cases hya : y = a
      · exact Or.inr (listDelNode_keeps_none hw ha (Or.inl hya))
      · rcases hy with hy | hy
        · exact Or.inl ((List.mem_cons.1 hy).resolve_left hya)
        · exact Or.inr (listDelNode_keeps_none hw ha (Or.inr hy))

theorem reverse_eraseIdx_last (nodes : List Nat) (n : Nat) (z : Nat) (hlen : nodes.length = n + 1)
    (hz : nodes[n]? = some z) : nodes.reverse = z :: (nodes.eraseIdx n).reverse := by
  have hne : nodes ≠ [] := by
    intro e
    rw [e] at hlen
    simp at hlen
  have h1 : nodes.dropLast = nodes.eraseIdx n := List.dropLast_eq_eraseIdx hlen.symm
  have h2 : nodes.getLast? = some z := by
    rw [List.getLast?_eq_getElem?, hlen, Nat.add_sub_cancel, hz]
  have h3 : nodes = nodes.dropLast ++ [z] := by
    have := List.dropLast_append_getLast? z h2
    exact this.symm
  rw [← h1]
  conv_lhs => rw [h3]
  simp

theorem drain_tail : ∀ (n : Nat) {nodes : List Nat}, nodes.length = n →
    ∀ {h : Heap V} {l : list V}, WellFormed h l nodes → ∀ (iter : listIter),
      iter.next = nodes[nodes.length - 1]? → iter.direction ≠ AL_START_HEAD →
      ∀ (fuel : Nat), nodes.length < fuel → ∀ (acc : List Nat),
      ∃ h' l', drain h l fuel iter acc = some (acc ++ nodes.reverse, h', l') ∧
        WellFormed h' l' [] ∧ ∀ y, (y ∈ nodes ∨ h.node y = none) → h'.node y = none := by
  intro n
  induction n with
  | zero =>
    intro nodes hlen h l hw iter hnext _ fuel hf acc
    have hnil : nodes = [] := List.length_eq_zero.1 hlen
    subst hnil
    obtain ⟨f, rfl⟩ : ∃ f, fuel = f + 1 := ⟨fuel - 1, by simp at hf; omega⟩
    refine ⟨h, l, ?_, hw, ?_⟩
    · simp only [List.getElem?_nil] at hnext
      simp only [drain, listNext_none h hnext, List.reverse_nil, List.append_nil]
    · intro y hy
      rcases hy with hy | hy
      · simp at hy
      · exact hy
  | succ n ih =>
    intro nodes hlen h l hw iter hnext hdir fuel hf acc
    obtain ⟨f, rfl⟩ : ∃ f, fuel = f + 1 := ⟨fuel - 1, by omega⟩
    have hz : nodes[n]? = some nodes[n] := List.getElem?_eq_getElem (by omega)
    obtain ⟨m, hm, hmp, _⟩ := hw.node_at hz
    have hw' := listDelNode_wellFormed hw hz
    have hlen' : (nodes.eraseIdx n).length = n := by
      rw [List.length_eraseIdx, if_pos (by omega), hlen]
      rfl
    rw [hlen, Nat.add_sub_cancel, hz] at hnext
    have hmp' : m.prev = (nodes.eraseIdx n)[(nodes.eraseIdx n).length - 1]? := by
      rw [hmp, hlen', List.getElem?_eraseIdx]
      by_cases h0 : n = 0
      · rw [if_pos h0, if_neg (by omega)]
        exact (List.getElem?_eq_none_iff.2 (by omega)).symm
      · rw [if_neg h0, if_pos (by omega)]
    obtain ⟨h', l', hd, hwf, hnone⟩ :=
      ih hlen' hw' { iter with next := m.prev } hmp' hdir f (by omega) (acc ++ [nodes[n]])
    refine ⟨h', l', ?_, hwf, ?_⟩
    · simp only [drain, listNext_tail hnext hdir hm]
      rw [hd, reverse_eraseIdx_last nodes n nodes[n] hlen hz]
      simp
    · intro y hy
      apply hnone
      by_cases hya : y = nodes[n]
      · exact Or.inr (listDelNode_keeps_none hw hz (Or.inl hya))
      · rcases hy with hy | hy
        · left
          obtain ⟨i, hi, rfl⟩ := List.mem_iff_getElem.1 hy
          have hin : i ≠ n := fun e => hya (by subst e; rfl)
          apply List.mem_iff_getElem?.2
          refine ⟨i, ?_⟩
          rw [List.getElem?_eraseIdx, if_pos (by omega)]
          exact List.getElem?_eq_getElem hi
        · exact Or.inr (listDelNode_keeps_none hw hz (Or.inr hy))

/-- C13: in a well-formed list, calling `listNext` and deleting each node it returns
with `listDelNode` before the next call returns every node of the list once, in list
order from the head and in reverse order from the tail, then `NULL`; the list is then
empty (`len` is 0, `head` and `tail` are `NULL`) and every node has been freed. -/
theorem drain_deletes_all {h : Heap V} {l : list V} {nodes : List Nat}
    (hw : WellFormed h l nodes) (direction : Int) (fuel : Nat) (hf : nodes.length < fuel) :
    ∃ iter h' l', listGetIterator l direction true = some iter ∧
      drain h l fuel iter []
        = some (if direction = AL_START_HEAD then nodes else nodes.reverse, h', l') ∧
      l'.len = 0 ∧ l'.head = none ∧ l'.tail = none ∧ ∀ x ∈ nodes, h'.node x = none := by
  by_cases hd : direction = AL_START_HEAD
  · obtain ⟨h', l', hdr, hwf, hnone⟩ :=
      drain_head hw { next := l.head, direction := direction } hw.head_eq hd fuel hf []
    refine ⟨{ next := l.head, direction := direction }, h', l', ?_, ?_, hwf.len, hwf.head,
      hwf.tail, fun x hx => hnone x (Or.inl hx)⟩
    · simp only [listGetIterator, if_true, if_pos hd]
    · rw [hdr, if_pos hd, List.nil_append]
  · obtain ⟨h', l', hdr, hwf, hnone⟩ :=
      drain_tail nodes.length rfl hw { next := l.tail, direction := direction } hw.tail_eq hd
        fuel hf []
    refine ⟨{ next := l.tail, direction := direction }, h', l', ?_, ?_, hwf.len, hwf.head,
      hwf.tail, fun x hx => hnone x (Or.inl hx)⟩
    · simp only [listGetIterator, if_true, if_neg hd]
    · rw [hdr, if_neg hd, List.nil_append]

/-- An instance of C13: draining the list of the nodes 1, 2, 3 from the tail returns
3, 2, 1 and from the head 1, 2, 3. -/
theorem drain_deletes_all_witness :
    WellFormed threeHeap threeList [1, 2, 3] ∧ ([1, 2, 3] : List Nat).length < 4 ∧
    (∃ iter h' l', listGetIterator threeList AL_START_TAIL true = some iter ∧
      drain threeHeap threeList 4 iter []
        = some (if AL_START_TAIL = AL_START_HEAD then [1, 2, 3] else [1, 2, 3].reverse, h', l') ∧
      l'.len = 0 ∧ l'.head = none ∧ l'.tail = none ∧
      ∀ x ∈ ([1, 2, 3] : List Nat), h'.node x = none) ∧
    (drain threeHeap threeList 4 { next := some 3, direction := AL_START_TAIL } []).map
      (fun r => (r.1, r.2.2.len)) = some ([3, 2, 1], 0) ∧
    (drain threeHeap threeList 4 { next := some 1, direction := AL_START_HEAD } []).map
      (fun r => (r.1, r.2.2.len)) = some ([1, 2, 3], 0) :=
  ⟨three_wellFormed, by decide, drain_deletes_all three_wellFormed AL_START_TAIL 4 (by decide),
    by decide, by decide⟩

/-! ### `listAddNodeHead` and `listAddNodeTail` -/

theorem WellFormed.len_eq_zero {h : Heap V} {l : list V} {nodes : List Nat}
    (hw : WellFormed h l nodes) : l.len = 0 ↔ nodes = [] := by
  rw [hw.len, List.length_eq_zero]

/-- What `listAddNodeHead` leaves in the heap at each address. -/
theorem listAddNodeHead_node {h : Heap V} {l : list V} {nodes : List Nat}
    (hw : WellFormed h l nodes) (value : V) {p : Nat} (hp : p ∉ nodes) (y : Nat) :
    (listAddNodeHead h l value (some p)).1.node y =
      if y = p then some { prev := none, next := nodes[0]?, value := value }
      else if nodes[0]? = some y then (h.node y).map (fun m => { m with prev := some p })
      else h.node y := by
  unfold listAddNodeHead
  cases nodes with
  | nil =>
    have h0 : l.len = 0 := hw.len_eq_zero.2 rfl
    simp only [if_pos h0, newNode_node, List.getElem?_nil, reduceCtorEq, if_false]
  | cons a rest =>
    have h0 : ¬ l.len = 0 := fun e => by simpa using hw.len_eq_zero.1 e
    have hh : l.head = some a := by rw [hw.head_eq]; simp
    have hmem : a ∈ a :: rest := List.mem_cons_self _ _
    simp only [if_neg h0, hh, setPrev_node, newNode_node, List.getElem?_cons_zero,
      Option.some.injEq]
    have hpa : p ≠ a := fun e => hp (e ▸ hmem)
    by_cases hyp : y = p
    · subst hyp
      have : ¬ a = y := fun e => hpa e.symm
      simp [hpa, this]
    · by_cases hya : y = a
      · subst hya; simp [hyp]
      · have : ¬ a = y := fun e => hya e.symm
        simp [hya, this, hyp]

/-- The header fields after a successful `listAddNodeHead`. -/
theorem listAddNodeHead_list {h : Heap V} {l : list V} {nodes : List Nat}
    (hw : WellFormed h l nodes) (value : V) (p : Nat) :
    (listAddNodeHead h l value (some p)).2 =
      ({ l with head := some p, tail := if nodes = [] then some p else l.tail,
                len := l.len + 1 }, true) := by
  unfold listAddNodeHead
  by_cases h0 : l.len = 0
  · simp only [if_pos h0, if_pos (hw.len_eq_zero.1 h0)]
  · simp only [if_neg h0, if_neg (fun e => h0 (hw.len_eq_zero.2 e))]

/-- What `listAddNodeTail` leaves in the heap at each address. -/
theorem listAddNodeTail_node {h : Heap V} {l : list V} {nodes : List Nat}
    (hw : WellFormed h l nodes) (value : V) {p : Nat} (hp : p ∉ nodes) (y : Nat) :
    (listAddNodeTail h l value (some p)).1.node y =
      if y = p then some { prev := nodes[nodes.length - 1]?, next := none, value := value }
      else if nodes[nodes.length - 1]? = some y then
        (h.node y).map (fun m => { m with next := some p })
      else h.node y := by
  unfold listAddNodeTail
  by_cases h0 : l.len = 0
  · have hnil := hw.len_eq_zero.1 h0
    subst hnil
    simp only [if_pos h0, newNode_node, List.getElem?_nil, reduceCtorEq, if_false]
  · have hne : nodes ≠ [] := fun e => h0 (hw.len_eq_zero.2 e)
    have hpos : 0 < nodes.length := List.length_pos.2 hne
    have ht : l.tail = some nodes[nodes.length - 1] := by
      rw [hw.tail_eq]
      exact List.getElem?_eq_getElem (by omega)
    have ht' : nodes[nodes.length - 1]? = some nodes[nodes.length - 1] :=
      List.getElem?_eq_getElem (by omega)
    simp only [if_neg h0, ht, ht', setNext_node, newNode_node, Option.some.injEq]
    have hmem : nodes[nodes.length - 1] ∈ nodes := List.getElem_mem _
    generalize nodes[nodes.length - 1] = a at hmem ⊢
    have hpa : p ≠ a := fun e => hp (e ▸ hmem)
    by_cases hyp : y = p
    · subst hyp
      have : ¬ a = y := fun e => hpa e.symm
      simp [hpa, this]
    · by_cases hya : y = a
      · subst hya; simp [hyp]
      · have : ¬ a = y := fun e => hya e.symm
        simp [hya, this, hyp]

/-- The header fields after a successful `listAddNodeTail`. -/
theorem listAddNodeTail_list {h : Heap V} {l : list V} {nodes : List Nat}
    (hw : WellFormed h l nodes) (value : V) (p : Nat) :
    (listAddNodeTail h l value (some p)).2 =
      ({ l with head := if nodes = [] then some p else l.head, tail := some p,
                len := l.len + 1 }, true) := by
  unfold listAddNodeTail
  by_cases h0 : l.len = 0
  · simp only [if_pos h0, if_pos (hw.len_eq_zero.1 h0)]
  · simp only [if_neg h0, if_neg (fun e => h0 (hw.len_eq_zero.2 e))]

/-- A successful `listAddNodeHead` at a fresh address leaves the well-formed list of
the new node followed by the old nodes. -/
theorem listAddNodeHead_wellFormed {h : Heap V} {l : list V} {nodes : List Nat}
    (hw : WellFormed h l nodes) (value : V) {p : Nat} (hp : p ∉ nodes) :
    WellFormed (listAddNodeHead h l value (some p)).1 (listAddNodeHead h l value (some p)).2.1
      (p :: nodes) := by
  apply WellFormed.of_getElem
  · exact List.nodup_cons.2 ⟨hp, hw.nodup⟩
  · rw [listAddNodeHead_list hw]
    simp only [hw.len, List.length_cons]
  · rw [listAddNodeHead_list hw]
    simp only [List.getElem?_cons_zero]
  · rw [listAddNodeHead_list hw]
    simp only [List.length_cons, Nat.add_sub_cancel]
    by_cases hnil : nodes = []
    · subst hnil
      simp
    · have hpos : 0 < nodes.length := List.length_pos.2 hnil
      rw [if_neg hnil, hw.tail_eq, List.getElem?_cons, if_neg (by omega)]
  · intro i y hy
    rw [listAddNodeHead_node hw value hp]
    cases i with
    | zero =>
      simp only [List.getElem?_cons_zero, Option.some.injEq] at hy
      subst hy
      rw [if_pos rfl]
      exact ⟨_, rfl, rfl, by simp⟩
    | succ j =>
      rw [List.getElem?_cons_succ] at hy
      have hmem : y ∈ nodes := List.mem_iff_getElem?.2 ⟨j, hy⟩
      have hyp : y ≠ p := fun e => hp (e ▸ hmem)
      obtain ⟨m, hm, hmp, hmn⟩ := hw.node_at hy
      rw [if_neg hyp, hm]
      by_cases hj : j = 0
      · subst hj
        rw [if_pos hy]
        exact ⟨_, rfl, by simp, by simp [hmn]⟩
      · have hy0 : ¬ nodes[0]? = some y := fun e => hj (getElem?_inj hw.nodup hy e)
        rw [if_neg hy0]
        refine ⟨_, rfl, ?_, by simp [hmn]⟩
        rw [hmp, if_neg hj, if_neg (by omega), List.getElem?_cons, if_neg (by omega)]
        rfl

/-- A successful `listAddNodeTail` at a fresh address leaves the well-formed list of
the old nodes followed by the new node. -/
theorem listAddNodeTail_wellFormed {h : Heap V} {l : list V} {nodes : List Nat}
    (hw : WellFormed h l nodes) (value : V) {p : Nat} (hp : p ∉ nodes) :
    WellFormed (listAddNodeTail h l value (some p)).1 (listAddNodeTail h l value (some p)).2.1
      (nodes ++ [p]) := by
  apply WellFormed.of_getElem
  · rw [List.nodup_append]
    refine ⟨hw.nodup, List.nodup_singleton p, ?_⟩
    intro a ha hb
    rw [List.mem_singleton] at hb
    exact hp (hb ▸ ha)
  · rw [listAddNodeTail_list hw]
    simp only [hw.len, List.length_append, List.length_singleton]
  · rw [listAddNodeTail_list hw]
    simp only
    by_cases hnil : nodes = []
    · subst hnil
      simp
    · have hpos : 0 < nodes.length := List.length_pos.2 hnil
      rw [if_neg hnil, hw.head_eq, List.getElem?_append_left hpos]
  · rw [listAddNodeTail_list hw]
    simp
  · intro i y hy
    rw [listAddNodeTail_node hw value hp]
    rw [List.getElem?_append] at hy
    by_cases hi : i < nodes.length
    · rw [if_pos hi] at hy
      have hmem : y ∈ nodes := List.mem_iff_getElem?.2 ⟨i, hy⟩
      have hyp : y ≠ p := fun e => hp (e ▸ hmem)
      obtain ⟨m, hm, hmp, hmn⟩ := hw.node_at hy
      rw [if_neg hyp, hm]
      have hprev : (if i = 0 then none else nodes[i - 1]?)
          = if i = 0 then none else (nodes ++ [p])[i - 1]? := by
        by_cases h0 : i = 0
        · rw [if_pos h0, if_pos h0]
        · rw [if_neg h0, if_neg h0, List.getElem?_append_left (by omega)]
      by_cases hl : i + 1 = nodes.length
      · have hyl : nodes[nodes.length - 1]? = some y := by
          rw [← hy]
          congr 1
          omega
        rw [if_pos hyl]
        refine ⟨_, rfl, by rw [← hprev, ← hmp], ?_⟩
        simp only
        rw [List.getElem?_append_right (by omega), hl, Nat.sub_self]
        rfl
      · have hyl : ¬ nodes[nodes.length - 1]? = some y := fun e => by
          have := getElem?_inj hw.nodup hy e
          omega
        rw [if_neg hyl]
        refine ⟨_, rfl, by rw [← hprev, ← hmp], ?_⟩
        rw [hmn, List.getElem?_append_left (by omega)]
    · rw [if_neg hi] at hy
      have hil : i = nodes.length := by
        by_contra hne
        have : ([p] : List Nat)[i - nodes.length]? = none :=
          List.getElem?_eq_none_iff.2 (by simp; omega)
        rw [this] at hy
        cases hy
      subst hil
      simp only [Nat.sub_self, List.getElem?_cons_zero, Option.some.injEq] at hy
      subst hy
      rw [if_pos rfl]
      refine ⟨_, rfl, ?_, ?_⟩
      · simp only
        by_cases h0 : nodes.length = 0
        · rw [if_pos h0]
          exact List.getElem?_eq_none_iff.2 (by omega)
        · rw [if_neg h0, List.getElem?_append_left (by omega)]
      · simp only
        exact (List.getElem?_eq_none_iff.2 (by simp)).symm

/-- The values of the old nodes after `listAddNodeHead`. -/
theorem listAddNodeHead_values {h : Heap V} {l : list V} {nodes : List Nat}
    (hw : WellFormed h l nodes) (value : V) {p : Nat} (hp : p ∉ nodes) :
    valuesOf (listAddNodeHead h l value (some p)).1 (p :: nodes)
      = some value :: valuesOf h nodes := by
  unfold valuesOf
  rw [List.map_cons, listAddNodeHead_node hw value hp, if_pos rfl]
  congr 1
  apply List.map_congr_left
  intro y hy
  have hyp : y ≠ p := fun e => hp (e ▸ hy)
  rw [listAddNodeHead_node hw value hp, if_neg hyp]
  split
  · cases h.node y <;> rfl
  · rfl

/-- The values of the old nodes after `listAddNodeTail`. -/
theorem listAddNodeTail_values {h : Heap V} {l : list V} {nodes : List Nat}
    (hw : WellFormed h l nodes) (value : V) {p : Nat} (hp : p ∉ nodes) :
    valuesOf (listAddNodeTail h l value (some p)).1 (nodes ++ [p])
      = valuesOf h nodes ++ [some value] := by
  unfold valuesOf
  rw [List.map_append, List.map_singleton, listAddNodeTail_node hw value hp, if_pos rfl]
  congr 1
  apply List.map_congr_left
  intro y hy
  have hyp : y ≠ p := fun e => hp (e ▸ hy)
  rw [listAddNodeTail_node hw value hp, if_neg hyp]
  split
  · cases h.node y <;> rfl
  · rfl

theorem listAddNodeHead_freed (h : Heap V) (l : list V) (value : V) (res : Option Nat) :
    (listAddNodeHead h l value res).1.freed = h.freed := by
  unfold listAddNodeHead
  cases res with
  | none => rfl
  | some p =>
    simp only
    split
    · rfl
    · cases l.head <;> rfl

/-- C14: on a well-formed list and a freshly allocated node, `listAddNodeHead` returns
the list with the new node, holding `value`, before the old nodes, and
`listAddNodeTail` returns it with the new node after them; the old nodes keep their
order and their values, `len` grows by one and the methods are unchanged.  When the
allocation fails both return `NULL` and neither the heap nor the header changes. -/
theorem listAddNode_spec {h : Heap V} {l : list V} {nodes : List Nat}
    (hw : WellFormed h l nodes) (value : V) (p : Nat) (hp : p ∉ nodes) :
    ((listAddNodeHead h l value (some p)).2.2 = true ∧
      WellFormed (listAddNodeHead h l value (some p)).1
        (listAddNodeHead h l value (some p)).2.1 (p :: nodes) ∧
      valuesOf (listAddNodeHead h l value (some p)).1 (p :: nodes)
        = some value :: valuesOf h nodes ∧
      (listAddNodeHead h l value (some p)).2.1
        = { l with head := some p, tail := if nodes = [] then some p else l.tail,
                   len := l.len + 1 }) ∧
    ((listAddNodeTail h l value (some p)).2.2 = true ∧
      WellFormed (listAddNodeTail h l value (some p)).1
        (listAddNodeTail h l value (some p)).2.1 (nodes ++ [p]) ∧
      valuesOf (listAddNodeTail h l value (some p)).1 (nodes ++ [p])
        = valuesOf h nodes ++ [some value] ∧
      (listAddNodeTail h l value (some p)).2.1
        = { l with head := if nodes = [] then some p else l.head, tail := some p,
                   len := l.len + 1 }) ∧
    listAddNodeHead h l value none = (h, l, false) ∧
    listAddNodeTail h l value none = (h, l, false) := by
  refine ⟨⟨?_, listAddNodeHead_wellFormed hw value hp, listAddNodeHead_values hw value hp, ?_⟩,
    ⟨?_, listAddNodeTail_wellFormed hw value hp, listAddNodeTail_values hw value hp, ?_⟩,
    rfl, rfl⟩
  · rw [listAddNodeHead_list hw]
  · rw [listAddNodeHead_list hw]
  · rw [listAddNodeTail_list hw]
  · rw [listAddNodeTail_list hw]

/-- An instance of C14: adding the value 5 at the fresh address 7 to the list of the
values 10, 20, 30. -/
theorem listAddNode_spec_witness :
    WellFormed threeHeap threeList [1, 2, 3] ∧ 7 ∉ ([1, 2, 3] : List Nat) ∧
    (((listAddNodeHead threeHeap threeList 5 (some 7)).2.2 = true ∧
      WellFormed (listAddNodeHead threeHeap threeList 5 (some 7)).1
        (listAddNodeHead threeHeap threeList 5 (some 7)).2.1 (7 :: [1, 2, 3]) ∧
      valuesOf (listAddNodeHead threeHeap threeList 5 (some 7)).1 (7 :: [1, 2, 3])
        = some 5 :: valuesOf threeHeap [1, 2, 3] ∧
      (listAddNodeHead threeHeap threeList 5 (some 7)).2.1
        = { threeList with head := some 7,
                           tail := if ([1, 2, 3] : List Nat) = [] then some 7
                                   else threeList.tail,
                           len := threeList.len + 1 }) ∧
    ((listAddNodeTail threeHeap threeList 5 (some 7)).2.2 = true ∧
      WellFormed (listAddNodeTail threeHeap threeList 5 (some 7)).1
        (listAddNodeTail threeHeap threeList 5 (some 7)).2.1 ([1, 2, 3] ++ [7]) ∧
      valuesOf (listAddNodeTail threeHeap threeList 5 (some 7)).1 ([1, 2, 3] ++ [7])
        = valuesOf threeHeap [1, 2, 3] ++ [some 5] ∧
      (listAddNodeTail threeHeap threeList 5 (some 7)).2.1
        = { threeList with head := if ([1, 2, 3] : List Nat) = [] then some 7
                                   else threeList.head,
                           tail := some 7, len := threeList.len + 1 }) ∧
    listAddNodeHead threeHeap threeList 5 none = (threeHeap, threeList, false) ∧
    listAddNodeTail threeHeap threeList 5 none = (threeHeap, threeList, false)) ∧
    valuesOf (listAddNodeHead threeHeap threeList 5 (some 7)).1 [7, 1, 2, 3]
      = [some 5, some 10, some 20, some 30] ∧
    valuesOf (listAddNodeTail threeHeap threeList 5 (some 7)).1 [1, 2, 3, 7]
      = [some 10, some 20, some 30, some 5] ∧
    (listAddNodeTail threeHeap threeList 5 (some 7)).2.1.len = 4 :=
  ⟨three_wellFormed, by decide, listAddNode_spec three_wellFormed 5 7 (by decide),
    by decide, by decide, by decide⟩

/-! ### `listSearchKey` -/

theorem keyMatches_iff [DecidableEq V] {h : Heap V} {l : list V} {key : V} {x : Nat}
    {n : listNode V} (hn : h.node x = some n) :
    keyMatches l n.value key = true ↔ Matches h l key x := by
  unfold keyMatches Matches
  constructor
  · intro hk
    refine ⟨n, hn, ?_⟩
    cases hm : l.matchFn with
    | none => rw [hm] at hk; simpa using hk
    | some f => rw [hm] at hk; simpa using hk
  · rintro ⟨n', hn', hk⟩
    rw [hn] at hn'
    cases hn'
    cases hm : l.matchFn with
    | none => rw [hm] at hk; simpa using hk
    | some f => rw [hm] at hk; simpa using hk

/-- The loop of `listSearchKey` started at position `i` of a well-formed list stops at
the first matching node at or after `i`, and answers `NULL` when there is none. -/
theorem searchLoop_spec [DecidableEq V] {h : Heap V} {l : list V} {nodes : List Nat}
    (hw : WellFormed h l nodes) (key : V) :
    ∀ (m i : Nat), i + m = nodes.length → ∀ (iter : listIter), iter.next = nodes[i]? →
      iter.direction = AL_START_HEAD → ∀ (fuel : Nat), m < fuel →
      ∃ r, searchLoop h l key fuel iter = some r ∧
        (∀ x, r = some x → ∃ k, i ≤ k ∧ nodes[k]? = some x ∧ Matches h l key x ∧
          ∀ j y, i ≤ j → j < k → nodes[j]? = some y → ¬ Matches h l key y) ∧
        (r = none → ∀ j y, i ≤ j → nodes[j]? = some y → ¬ Matches h l key y) := by
  intro m
  induction m with
  | zero =>
    intro i hi iter hnext _ fuel hf
    obtain ⟨f, rfl⟩ : ∃ f, fuel = f + 1 := ⟨fuel - 1, by omega⟩
    have hnone : nodes[i]? = none := List.getElem?_eq_none_iff.2 (by omega)
    rw [hnone] at hnext
    refine ⟨none, ?_, ?_, ?_⟩
    · simp only [searchLoop, listNext_none h hnext]
    · intro x hx
      cases hx
    · intro _ j y hij hy
      have := WellFormed.lt_length hy
      omega
  | succ m ih =>
    intro i hi iter hnext hdir fuel hf
    obtain ⟨f, rfl⟩ : ∃ f, fuel = f + 1 := ⟨fuel - 1, by omega⟩
    have ha : nodes[i]? = some nodes[i] := List.getElem?_eq_getElem (by omega)
    obtain ⟨n, hn, _, hnn⟩ := hw.node_at ha
    rw [ha] at hnext
    by_cases hk : keyMatches l n.value key = true
    · refine ⟨some nodes[i], ?_, ?_, ?_⟩
      · simp only [searchLoop, listNext_head hnext hdir hn, hn, if_pos hk]
      · intro x hx
        cases hx
        exact ⟨i, le_refl i, ha, (keyMatches_iff hn).1 hk, fun j y h1 h2 => by omega⟩
      · intro hx
        cases hx
    · obtain ⟨r, hr, hsome, hnone⟩ :=
        ih (i + 1) (by omega) { iter with next := n.next } hnn hdir f (by omega)
      have hnot : ¬ Matches h l key nodes[i] := fun e => hk ((keyMatches_iff hn).2 e)
      have hstep : ∀ j y, i ≤ j → nodes[j]? = some y → ¬ (i + 1 ≤ j) → ¬ Matches h l key y := by
        intro j y hij hy hlt
        have hji : j = i := by omega
        subst hji
        rw [ha] at hy
        cases hy
        exact hnot
      refine ⟨r, ?_, ?_, ?_⟩
      · simp only [searchLoop, listNext_head hnext hdir hn, hn, if_neg hk]
        exact hr
      · intro x hx
        obtain ⟨k, hik, hkx, hmx, hfirst⟩ := hsome x hx
        refine ⟨k, by omega, hkx, hmx, ?_⟩
        intro j y hij hjk hy
        by_cases hlt : i + 1 ≤ j
        · exact hfirst j y hlt hjk hy
        · exact hstep j y hij hy hlt
      · intro hx j y hij hy
        by_cases hlt : i + 1 ≤ j
        · exact hnone hx j y hlt hy
        · exact hstep j y hij hy hlt

/-- C16: on a well-formed list, with the iterator allocated, `listSearchKey` returns;
a node it returns matches the key and no node before it, counting from the head,
does; it returns `NULL` exactly when no node of the list matches. -/
theorem listSearchKey_spec [DecidableEq V] {h : Heap V} {l : list V} {nodes : List Nat}
    (hw : WellFormed h l nodes) (key : V) :
    ∃ r, listSearchKey h l key true = some r ∧
      (∀ x, r = some x → ∃ k, nodes[k]? = some x ∧ Matches h l key x ∧
        ∀ j y : Nat, j < k → nodes[j]? = some y → ¬ Matches h l key y) ∧
      (r = none ↔ ∀ x ∈ nodes, ¬ Matches h l key x) := by
  obtain ⟨r, hr, hsome, hnone⟩ :=
    searchLoop_spec hw key nodes.length 0 (by omega) { next := l.head, direction := AL_START_HEAD }
      hw.head_eq rfl (l.len + 1) (by rw [hw.len]; omega)
  refine ⟨r, ?_, ?_, ?_, ?_⟩
  · simp only [listSearchKey, listGetIterator, if_true]
    exact hr
  · intro x hx
    obtain ⟨k, _, hkx, hmx, hfirst⟩ := hsome x hx
    exact ⟨k, hkx, hmx, fun j y hjk hy => hfirst j y (Nat.zero_le j) hjk hy⟩
  · intro hx x hmem
    obtain ⟨j, hj⟩ := List.mem_iff_getElem?.1 hmem
    exact hnone hx j x (Nat.zero_le j) hj
  · intro hall
    cases hrx : r with
    | none => rfl
    | some x =>
      obtain ⟨k, _, hkx, hmx, _⟩ := hsome x hrx
      exact absurd hmx (hall x (List.mem_iff_getElem?.2 ⟨k, hkx⟩))

/-- An instance of C16: in the list of the values 10, 20, 30 at the nodes 1, 2, 3 the
key 20 is found at node 2 and the key 99 nowhere; with a `match` method comparing
the last digits, the key 0 is found at the first node. -/
theorem listSearchKey_spec_witness :
    WellFormed threeHeap threeList [1, 2, 3] ∧
    (∃ r, listSearchKey threeHeap threeList 20 true = some r ∧
      (∀ x, r = some x → ∃ k, ([1, 2, 3] : List Nat)[k]? = some x ∧
        Matches threeHeap threeList 20 x ∧
        ∀ j y : Nat, j < k → ([1, 2, 3] : List Nat)[j]? = some y →
          ¬ Matches threeHeap threeList 20 y) ∧
      (r = none ↔ ∀ x ∈ ([1, 2, 3] : List Nat), ¬ Matches threeHeap threeList 20 x)) ∧
    listSearchKey threeHeap threeList 20 true = some (some 2) ∧
    listSearchKey threeHeap threeList 99 true = some none ∧
    listSearchKey threeHeap
      { threeList with matchFn := some (fun v k => if v % 10 = k % 10 then 1 else 0) } 0 true
      = some (some 1) :=
  ⟨three_wellFormed, listSearchKey_spec three_wellFormed 20, by decide, by decide, by decide⟩

/-! ### `listRelease` and `listDup` -/

theorem wellFormed_nil (h : Heap V) (l : list V) (hlen : l.len = 0) (hhead : l.head = none)
    (htail : l.tail = none) : WellFormed h l [] where
  nodup := List.nodup_nil
  len := hlen
  head := hhead
  tail := htail
  links := by
    intro i x hx
    simp at hx

/-- A remark on the failure path of `listDup`: without a `dup` method the copy shares
the value pointers of the original, so when the third allocation fails and the list
has a `free` method, releasing the partial copy hands the values 10 and 20, which the
original still stores, to that method. -/
theorem listDup_failure_frees_shared :
    (match listDup threeHeap { threeList with free := some (fun _ => ()) } true true
        (fun k => if k < 2 then some (k + 10) else none) with
      | .null h' => (h'.freed, valuesOf h' [1, 2, 3])
      | _ => ([], []))
      = ([10, 20], [some 10, some 20, some 30]) := by
  decide

/-! ### Well-formedness is an invariant -/

theorem chain_none (h : Heap V) (field : listNode V → Option Nat) (fuel : Nat) :
    chain h field fuel none = [] := by
  cases fuel <;> rfl

/-- From the node at position `i`, the `next` links lead through the rest of the
sequence. -/
theorem chain_next {h : Heap V} {l : list V} {nodes : List Nat} (hw : WellFormed h l nodes) :
    ∀ (fuel i : Nat), nodes.length ≤ i + fuel →
      chain h (fun n => n.next) fuel nodes[i]? = nodes.drop i := by
  intro fuel
  induction fuel with
  | zero =>
    intro i hi
    rw [List.drop_of_length_le (by omega)]
    rfl
  | succ fuel ih =>
    intro i hi
    cases hx : nodes[i]? with
    | none =>
      have hlen : nodes.length ≤ i := List.getElem?_eq_none_iff.1 hx
      rw [List.drop_of_length_le hlen]
      rfl
    | some x =>
      obtain ⟨n, hn, _, hnext⟩ := hw.node_at hx
      obtain ⟨hlt, hget⟩ := List.getElem?_eq_some.1 hx
      rw [chain, hn, Option.some_bind, hnext, ih (i + 1) (by omega), List.drop_eq_getElem_cons hlt,
        hget]

/-- From the node at position `i`, the `prev` links lead back through the sequence
before it. -/
theorem chain_prev {h : Heap V} {l : list V} {nodes : List Nat} (hw : WellFormed h l nodes) :
    ∀ (fuel i : Nat), i < nodes.length → i + 1 ≤ fuel →
      chain h (fun n => n.prev) fuel nodes[i]? = (nodes.take (i + 1)).reverse := by
  intro fuel
  induction fuel with
  | zero => intro i _ hf; omega
  | succ fuel ih =>
    intro i hi hf
    have hx : nodes[i]? = some nodes[i] := List.getElem?_eq_getElem hi
    obtain ⟨n, hn, hprev, _⟩ := hw.node_at hx
    rw [hx, chain, hn, Option.some_bind, hprev]
    by_cases h0 : i = 0
    · subst h0
      rw [if_pos rfl, chain_none]
      cases nodes with
      | nil => simp at hi
      | cons a rest => simp
    · rw [if_neg h0, ih (i - 1) (by omega) (by omega)]
      have e : i - 1 + 1 = i := by omega
      rw [e, List.take_succ, hx, List.reverse_append]
      rfl

theorem eraseIdx_eq_filter {nodes : List Nat} (hn : nodes.Nodup) {k x : Nat}
    (hx : nodes[k]? = some x) : nodes.eraseIdx k = nodes.filter (fun y => decide (y ≠ x)) := by
  obtain ⟨hlt, hget⟩ := List.getElem?_eq_some.1 hx
  rw [← hn.erase_getElem k hlt, hget, hn.erase_eq_filter]
  apply List.filter_congr
  intro y _
  by_cases e : y = x <;> simp [e]

/-- One allowed call keeps the list well-formed, with the nodes the call is to
leave. -/
theorem applyCall_wellFormed {h : Heap V} {l : list V} {nodes : List Nat}
    (hw : WellFormed h l nodes) (c : ListCall V) (hc : c.Allowed nodes) :
    WellFormed (applyCall (h, l) c).1 (applyCall (h, l) c).2 (nodesAfter nodes c) := by
  cases c with
  | addHead value p => exact listAddNodeHead_wellFormed hw value hc
  | addTail value p => exact listAddNodeTail_wellFormed hw value hc
  | del x =>
    obtain ⟨k, hk⟩ := List.getElem?_of_mem hc
    have := listDelNode_wellFormed hw hk
    rw [eraseIdx_eq_filter hw.nodup hk] at this
    exact this

theorem runCalls_wellFormed : ∀ (calls : List (ListCall V)) (h : Heap V) (l : list V)
    (nodes : List Nat), WellFormed h l nodes → AllowedCalls nodes calls →
    WellFormed (runCalls (h, l) calls).1 (runCalls (h, l) calls).2 (nodesAfterAll nodes calls) := by
  intro calls
  induction calls with
  | nil => intro h l nodes hw _; exact hw
  | cons c cs ih =>
    intro h l nodes hw ha
    exact ih _ _ _ (applyCall_wellFormed hw c ha.1) ha.2

/-- C35: in the list reached from `listCreate` by any sequence of successful
`listAddNodeHead`, `listAddNodeTail` and `listDelNode` calls, each insertion with a
fresh node and each deletion of a node of the list, `len` is the number of nodes
reached from `head` by `next` links, the nodes reached from `tail` by `prev` links
are the same nodes in reverse order, `head->prev` and `tail->next` are `NULL`, and
`head` and `tail` are `NULL` exactly when `len` is 0; the nodes are those the calls
are to leave, a deletion removing the given node and keeping the order of the
others, and one more `listDelNode` does the same. -/
theorem wellFormed_invariant (h0 : Heap V) (l0 : list V) (hl0 : listCreate true = some l0)
    (calls : List (ListCall V)) (ha : AllowedCalls [] calls) :
    WellFormed (runCalls (h0, l0) calls).1 (runCalls (h0, l0) calls).2 (nodesAfterAll [] calls) ∧
    (runCalls (h0, l0) calls).2.len = (nodesAfterAll [] calls).length ∧
    (∀ fuel, (nodesAfterAll [] calls).length ≤ fuel →
      chain (runCalls (h0, l0) calls).1 (fun n => n.next) fuel (runCalls (h0, l0) calls).2.head
        = nodesAfterAll [] calls) ∧
    (∀ fuel, (nodesAfterAll [] calls).length ≤ fuel →
      chain (runCalls (h0, l0) calls).1 (fun n => n.prev) fuel (runCalls (h0, l0) calls).2.tail
        = (nodesAfterAll [] calls).reverse) ∧
    (∀ x, (runCalls (h0, l0) calls).2.head = some x →
      ∃ n, (runCalls (h0, l0) calls).1.node x = some n ∧ n.prev = none) ∧
    (∀ x, (runCalls (h0, l0) calls).2.tail = some x →
      ∃ n, (runCalls (h0, l0) calls).1.node x = some n ∧ n.next = none) ∧
    (((runCalls (h0, l0) calls).2.head = none ∧ (runCalls (h0, l0) calls).2.tail = none) ↔
      (runCalls (h0, l0) calls).2.len = 0) ∧
    ((runCalls (h0, l0) calls).2.head = none ↔ (runCalls (h0, l0) calls).2.tail = none) ∧
    (∀ x, x ∈ nodesAfterAll [] calls →
      WellFormed (listDelNode (runCalls (h0, l0) calls).1 (runCalls (h0, l0) calls).2 x).1
        (listDelNode (runCalls (h0, l0) calls).1 (runCalls (h0, l0) calls).2 x).2
        ((nodesAfterAll [] calls).filter (fun y => decide (y ≠ x))) ∧
      (listDelNode (runCalls (h0, l0) calls).1 (runCalls (h0, l0) calls).2 x).1.node x = none) := by
  have hw0 : WellFormed h0 l0 [] := by
    simp only [listCreate, if_true, Option.some.injEq] at hl0
    subst hl0
    exact wellFormed_nil h0 _ rfl rfl rfl
  have hw := runCalls_wellFormed calls h0 l0 [] hw0 ha
  generalize (runCalls (h0, l0) calls).1 = h at hw ⊢
  generalize (runCalls (h0, l0) calls).2 = l at hw ⊢
  generalize nodesAfterAll [] calls = nodes at hw ⊢
  have hhead := hw.head_eq
  have htail := hw.tail_eq
  refine ⟨hw, hw.len, ?_, ?_, ?_, ?_, ?_, ?_, ?_⟩
  · intro fuel hf
    rw [hhead, chain_next hw fuel 0 (by omega), List.drop_zero]
  · intro fuel hf
    rcases Nat.eq_zero_or_pos nodes.length with hz | hpos
    · have : nodes = [] := List.length_eq_zero.1 hz
      subst this
      rw [htail]
      exact chain_none _ _ _
    · rw [htail, chain_prev hw fuel (nodes.length - 1) (by omega) (by omega)]
      have e : nodes.length - 1 + 1 = nodes.length := by omega
      rw [e, List.take_length]
  · intro x hx
    rw [hhead] at hx
    obtain ⟨n, hn, hprev, _⟩ := hw.node_at hx
    exact ⟨n, hn, by rw [hprev, if_pos rfl]⟩
  · intro x hx
    rw [htail] at hx
    obtain ⟨n, hn, _, hnext⟩ := hw.node_at hx
    refine ⟨n, hn, ?_⟩
    rw [hnext]
    have := WellFormed.lt_length hx
    exact List.getElem?_eq_none_iff.2 (by omega)
  · rw [hhead, htail, hw.len]
    constructor
    · rintro ⟨c1, _⟩
      have := List.getElem?_eq_none_iff.1 c1
      omega
    · intro hz
      exact ⟨List.getElem?_eq_none_iff.2 (by omega), List.getElem?_eq_none_iff.2 (by omega)⟩
  · rw [hhead, htail, List.getElem?_eq_none_iff, List.getElem?_eq_none_iff]
    omega
  · intro x hx
    obtain ⟨k, hk⟩ := List.getElem?_of_mem hx
    refine ⟨?_, ?_⟩
    · have := listDelNode_wellFormed hw hk
      rw [eraseIdx_eq_filter hw.nodup hk] at this
      exact this
    · rw [listDelNode_node hw hk x, if_pos rfl]

/-- An instance of C35: 10 put at the tail in node 1, 20 at the head in node 2, 30 at
the tail in node 3, node 1 deleted; the nodes left are 2 and 3. -/
theorem wellFormed_invariant_witness :
    listCreate true = some emptyList ∧ AllowedCalls [] fourCalls ∧
    (WellFormed fourState.1 fourState.2 (nodesAfterAll [] fourCalls) ∧
    fourState.2.len = (nodesAfterAll [] fourCalls).length ∧
    (∀ fuel, (nodesAfterAll [] fourCalls).length ≤ fuel →
      chain fourState.1 (fun n => n.next) fuel fourState.2.head = nodesAfterAll [] fourCalls) ∧
    (∀ fuel, (nodesAfterAll [] fourCalls).length ≤ fuel →
      chain fourState.1 (fun n => n.prev) fuel fourState.2.tail
        = (nodesAfterAll [] fourCalls).reverse) ∧
    (∀ x, fourState.2.head = some x → ∃ n, fourState.1.node x = some n ∧ n.prev = none) ∧
    (∀ x, fourState.2.tail = some x → ∃ n, fourState.1.node x = some n ∧ n.next = none) ∧
    ((fourState.2.head = none ∧ fourState.2.tail = none) ↔ fourState.2.len = 0) ∧
    (fourState.2.head = none ↔ fourState.2.tail = none) ∧
    (∀ x, x ∈ nodesAfterAll [] fourCalls →
      WellFormed (listDelNode fourState.1 fourState.2 x).1 (listDelNode fourState.1 fourState.2 x).2
        ((nodesAfterAll [] fourCalls).filter (fun y => decide (y ≠ x))) ∧
      (listDelNode fourState.1 fourState.2 x).1.node x = none)) ∧
    nodesAfterAll [] fourCalls = [2, 3] ∧
    fourState.2.head = some 2 ∧ fourState.2.tail = some 3 ∧ fourState.2.len = 2 :=
  ⟨rfl, by simp [fourCalls, AllowedCalls, ListCall.Allowed, nodesAfter],
    wellFormed_invariant emptyHeap emptyList rfl fourCalls
      (by simp [fourCalls, AllowedCalls, ListCall.Allowed, nodesAfter]),
    by decide, by decide, by decide, by decide⟩

end Adlist
